import Mathlib

/-!
# Flayer: allocation bookkeeping, quarantine and syscall taint policy

A shallow embedding of `fl_malloc_wrappers.c` and `fl_syswrap.c`, and of
`ptrace_inject` of the patcher `tools/mkf/mkf.c`.

Conventions of the embedding:

* client addresses (the C type `Addr`) are values of `Int` and `0` is `NULL`;
  sizes (`SizeT`) are natural numbers.  Address arithmetic is exact: word
  wrap-around is written out with an explicit modulus only where the source
  depends on the width of a word (`complain_about_silly_args` reads the sign
  bit of a word of `wordBits` bits, `FL_calloc` multiplies two words) or of
  a field: the size of a chunk is stored in the bit-field `szB` of `szB_bits`
  = 30 bits, so `create_FL_Chunk`, `FL_mempool_change` and the trimming branch
  of `FL_mempool_trim` keep the low 30 bits of the size they store;
* a `VgHashTable` is the list of its nodes, most recently added first:
  `VG_(HT_add_node)` pushes at the head of the chain, `VG_(HT_lookup)` and
  `VG_(HT_remove)` act on the first node whose key matches, and duplicate
  keys are not rejected.  `FL_mempool_trim_nodes` is `FL_(mempool_trim)` on
  the records of the table themselves (`HT_remove_node`), where the record
  that `VG_(HT_remove)` unlinks and the record the loop goes on with can
  differ;
* the freed queue `freed_list_start .. freed_list_end` is the list of its
  chunks, oldest first; `freed_list_volume` is kept as the separate counter
  it is in the source.  The counter is an exact integer in
  `add_to_freed_queue` and the functions built on it, and the 32-bit `Int` of
  the source, which wraps around, in `add_to_freed_queue32`,
  `die_and_free_mem32`, `FL_handle_free32` and `release_calls32`; the two
  agree as long as the volume of the queue stays below `2^31`
  (`add_to_freed_queue32_eq`).  `FreedQueue` holds the same queue with its two
  pointers and the `next` links of the records, and
  `add_to_freed_queue_records` is `add_to_freed_queue` on them;
* a failed `tl_assert` or a `VG_(tool_panic)` aborts the engine: the
  functions return `none`;
* the collaborators `VG_(cli_malloc)`, `VG_(cli_free)` and the error
  recorders are made explicit: the address handed out by `VG_(cli_malloc)` is
  an argument, the calls to `VG_(cli_free)` and the recorded errors are logged
  in the state.
-/

namespace Flayer

/-! ## Data model -/

/-- Thread identifier (`ThreadId`). -/
abbrev ThreadId := Nat

/-- Shadow state of one byte: defined (`Untainted`), undefined (`Tainted`) or
not addressable (`NoAccess`). -/
inductive ShadowByte where
  | Untainted
  | Tainted
  | NoAccess
  deriving DecidableEq, Repr

/-- Shadow state store: one `ShadowByte` per address. -/
abbrev Shadow := Int → ShadowByte

/-- Modelled from the spec: `set_range(addr, len, state)` of the shadow state
store (`fl_main.c` is not part of the sources): every byte of
`[addr, addr+len)` receives `state`, no other byte changes. -/
def set_range (sh : Shadow) (a : Int) (len : Nat) (st : ShadowByte) : Shadow :=
  fun x => if a ≤ x ∧ x < a + (len : Int) then st else sh x

/-- Modelled from the spec: `FL_(make_mem_noaccess)(a, len)`, declared in
`fl_include.h` and defined in the missing `fl_main.c`: `mark_no_access`. -/
def make_mem_noaccess (sh : Shadow) (a : Int) (len : Nat) : Shadow :=
  set_range sh a len ShadowByte.NoAccess

/-- Modelled from the spec: `FL_(make_mem_undefined)(a, len)`, declared in
`fl_include.h` and defined in the missing `fl_main.c`: `mark_undefined`,
the bytes become Tainted. -/
def make_mem_undefined (sh : Shadow) (a : Int) (len : Nat) : Shadow :=
  set_range sh a len ShadowByte.Tainted

/-- Modelled from the spec: `FL_(make_mem_defined)(a, len)`, declared in
`fl_include.h` and defined in the missing `fl_main.c`: `mark_defined`,
the bytes become Untainted. -/
def make_mem_defined (sh : Shadow) (a : Int) (len : Nat) : Shadow :=
  set_range sh a len ShadowByte.Untainted

/-- Modelled from the spec: `FL_(copy_address_range_state)(src, dst, len)`,
declared in `fl_include.h` and defined in the missing `fl_main.c`: byte
`dst+i` receives the state byte `src+i` had before the call, for `i < len`. -/
def copy_address_range_state (sh : Shadow) (src dst : Int) (len : Nat) : Shadow :=
  fun x => if dst ≤ x ∧ x < dst + (len : Int) then sh (src + (x - dst)) else sh x

/-- The allocation kinds of `fl_include.h`. -/
inductive FL_AllocKind where
  | FL_AllocMalloc
  | FL_AllocNew
  | FL_AllocNewVec
  | FL_AllocCustom
  deriving DecidableEq, Repr

/-- Shadow chunk `FL_Chunk`: base address, requested size and allocation
kind.  The `next` link is the position in the list that holds the chunk; the
execution context `where` is only printed in reports and is left out.  The
size is a natural number: the width of the bit-field `szB` (a word less two
bits) is not modelled, sizes are taken to fit it. -/
structure FL_Chunk where
  data : Int
  szB : Nat
  allockind : FL_AllocKind
  deriving DecidableEq, Repr

/-- Hash table of chunks, see the conventions above. -/
abbrev VgHashTable := List FL_Chunk

/-- Memory pool `FL_Mempool`. -/
structure FL_Mempool where
  pool : Int
  rzB : Nat
  is_zeroed : Bool
  chunks : VgHashTable
  deriving DecidableEq, Repr

/-- One recorded error: the calls `FL_(record_free_error)`,
`FL_(record_freemismatch_error)` and `FL_(record_illegal_mempool_error)`. -/
inductive FL_Error where
  | free_error (tid : ThreadId) (a : Int)
  | freemismatch_error (tid : ThreadId) (mc : FL_Chunk)
  | illegal_mempool_error (tid : ThreadId) (a : Int)
  deriving DecidableEq, Repr

/-- Command line options and platform constants read by the code. -/
structure Clo where
  /-- Number of bits of a machine word, `sizeof(UWord)*8`. -/
  wordBits : Nat
  /-- Quarantine budget `FL_(clo_freelist_vol)`. -/
  clo_freelist_vol : Int
  /-- Default alignment `VG_(clo_alignment)`. -/
  clo_alignment : Nat
  /-- Marker string `FL_(clo_taint_string)`, `none` for `NULL`; the bytes
  before the terminating NUL. -/
  clo_taint_string : Option (List Nat)
  /-- Path filter `FL_(clo_file_filter)`. -/
  clo_file_filter : List Nat
  clo_taint_file : Bool
  clo_taint_network : Bool
  clo_taint_stdin : Bool

/-- `FL_MALLOC_REDZONE_SZB`. -/
def FL_MALLOC_REDZONE_SZB : Nat := 16

/-- `MAXIMUM_FDS`. -/
def MAXIMUM_FDS : Int := 256

/-- The global state of the engine. -/
structure FL_State where
  /-- The registry `FL_(malloc_list)`. -/
  malloc_list : VgHashTable
  /-- The pools `FL_(mempool_list)`, most recently added first. -/
  mempool_list : List FL_Mempool
  /-- The freed queue, oldest chunk first. -/
  freed_list : List FL_Chunk
  /-- The counter `freed_list_volume`. -/
  freed_list_volume : Int
  /-- The shadow state store. -/
  shadow : Shadow
  /-- The table `tainted_fds[tid][fd]`. -/
  tainted_fds : ThreadId → Nat → Bool
  /-- Errors recorded so far, oldest first. -/
  errors : List FL_Error
  /-- Addresses passed to `VG_(cli_free)` so far, oldest first. -/
  cli_freed : List Int
  cmalloc_n_mallocs : Nat
  cmalloc_n_frees : Nat
  cmalloc_bs_mallocd : Nat

/-! ## Hash table primitives -/

/-- `VG_(HT_add_node)`: the node becomes the head of its chain. -/
def HT_add_node (table : VgHashTable) (mc : FL_Chunk) : VgHashTable :=
  mc :: table

/-- `VG_(HT_lookup)`: the first node with the key. -/
def HT_lookup : VgHashTable → Int → Option FL_Chunk
  | [], _ => none
  | mc :: rest, key => if mc.data = key then some mc else HT_lookup rest key

/-- `VG_(HT_remove)`: unlinks the first node with the key and returns it with
the remaining table. -/
def HT_remove : VgHashTable → Int → Option (FL_Chunk × VgHashTable)
  | [], _ => none
  | mc :: rest, key =>
    if mc.data = key then some (mc, rest)
    else
      match HT_remove rest key with
      | none => none
      | some (found, rest') => some (found, mc :: rest')

/-- `VG_(HT_lookup)` on `FL_(mempool_list)`. -/
def HT_lookup_pool : List FL_Mempool → Int → Option FL_Mempool
  | [], _ => none
  | mp :: rest, key => if mp.pool = key then some mp else HT_lookup_pool rest key

/-- Write-back of `mp->chunks` for the pool that `HT_lookup_pool` finds. -/
def set_pool_chunks : List FL_Mempool → Int → VgHashTable → List FL_Mempool
  | [], _, _ => []
  | mp :: rest, key, chunks =>
    if mp.pool = key then { mp with chunks := chunks } :: rest
    else mp :: set_pool_chunks rest key chunks

/-- `VG_(HT_remove)` on `FL_(mempool_list)`: unlinks the first pool with the
key and returns it with the remaining list. -/
def HT_remove_pool : List FL_Mempool → Int → Option (FL_Mempool × List FL_Mempool)
  | [], _ => none
  | mp :: rest, key =>
    if mp.pool = key then some (mp, rest)
    else
      match HT_remove_pool rest key with
      | none => none
      | some (found, rest1) => some (found, mp :: rest1)

/-- `VG_(HT_to_array)`: the nodes of the table, in the order of the chain. -/
def HT_to_array (table : VgHashTable) : List FL_Chunk :=
  table

/-! ## Error recorders -/

/-- `FL_(record_free_error)`: the error is recorded and control returns. -/
def record_free_error (s : FL_State) (tid : ThreadId) (a : Int) : FL_State :=
  { s with errors := s.errors ++ [FL_Error.free_error tid a] }

/-- `FL_(record_freemismatch_error)`. -/
def record_freemismatch_error (s : FL_State) (tid : ThreadId) (mc : FL_Chunk) : FL_State :=
  { s with errors := s.errors ++ [FL_Error.freemismatch_error tid mc] }

/-- `FL_(record_illegal_mempool_error)`. -/
def record_illegal_mempool_error (s : FL_State) (tid : ThreadId) (a : Int) : FL_State :=
  { s with errors := s.errors ++ [FL_Error.illegal_mempool_error tid a] }

/-- Number of kind-mismatch errors in an error log. -/
def mismatch_count : List FL_Error → Nat
  | [] => 0
  | FL_Error.freemismatch_error _ _ :: rest => mismatch_count rest + 1
  | _ :: rest => mismatch_count rest

/-- Number of free-of-unallocated errors in an error log. -/
def free_error_count : List FL_Error → Nat
  | [] => 0
  | FL_Error.free_error _ _ :: rest => free_error_count rest + 1
  | _ :: rest => free_error_count rest

/-! ## The freed queue -/

/-- Total size of the chunks of a queue. -/
def queue_volume : List FL_Chunk → Int
  | [] => 0
  | mc :: rest => (mc.szB : Int) + queue_volume rest

/-- The eviction loop of `add_to_freed_queue`, on the queue (oldest first) and
the volume counter, with the counter an exact integer
(`add_to_freed_queue_loop32` has it as the 32-bit `Int` of the source).  Returns the queue and volume at loop exit and the
addresses passed to `VG_(cli_free)`, in call order; `none` when one of the
assertions of the loop body fails. -/
def add_to_freed_queue_loop (budget : Int) :
    List FL_Chunk → Int → Option (List FL_Chunk × Int × List Int)
  | [], vol =>
    -- tl_assert(freed_list_start != NULL)
    if vol > budget then none else some ([], vol, [])
  | mc1 :: rest, vol =>
    if vol > budget then
      -- tl_assert(freed_list_volume >= 0)
      if vol - (mc1.szB : Int) < 0 then none
      else
        match add_to_freed_queue_loop budget rest (vol - (mc1.szB : Int)) with
        | none => none
        | some (q, v, released) => some (q, v, mc1.data :: released)
    else some (mc1 :: rest, vol, [])

/-- `add_to_freed_queue`: the chunk goes to the end of the queue, then the
oldest chunks are released until the volume is within the budget.  The
counter `freed_list_volume` is an exact integer here; `add_to_freed_queue32`
is the function with the counter of 32 bits. -/
def add_to_freed_queue (cfg : Clo) (s : FL_State) (mc : FL_Chunk) : Option FL_State :=
  let vol : Int :=
    match s.freed_list with
    | [] => (mc.szB : Int)
    | _ :: _ => s.freed_list_volume + (mc.szB : Int)
  match add_to_freed_queue_loop cfg.clo_freelist_vol (s.freed_list ++ [mc]) vol with
  | none => none
  | some (q, v, released) =>
    some { s with freed_list := q, freed_list_volume := v,
                  cli_freed := s.cli_freed ++ released }

/-- The value that the integer `x` has when it is stored in a variable of the
C type `Int`: 32 bits, two's complement. -/
def wrap_Int (x : Int) : Int :=
  (x + 2 ^ 31) % 2 ^ 32 - 2 ^ 31

/-- The eviction loop of `add_to_freed_queue` with the counter
`static Int freed_list_volume` of 32 bits: `freed_list_volume -= mc1->szB`
wraps around. -/
def add_to_freed_queue_loop32 (budget : Int) :
    List FL_Chunk → Int → Option (List FL_Chunk × Int × List Int)
  | [], vol =>
    -- tl_assert(freed_list_start != NULL)
    if vol > budget then none else some ([], vol, [])
  | mc1 :: rest, vol =>
    if vol > budget then
      -- freed_list_volume -= mc1->szB; tl_assert(freed_list_volume >= 0)
      if wrap_Int (vol - (mc1.szB : Int)) < 0 then none
      else
        match add_to_freed_queue_loop32 budget rest (wrap_Int (vol - (mc1.szB : Int))) with
        | none => none
        | some (q, v, released) => some (q, v, mc1.data :: released)
    else some (mc1 :: rest, vol, [])

/-- `add_to_freed_queue` with the counter `static Int freed_list_volume` of
32 bits: `freed_list_volume = mc->szB` and `freed_list_volume += mc->szB`
store the low 32 bits of the result as a signed number. -/
def add_to_freed_queue32 (cfg : Clo) (s : FL_State) (mc : FL_Chunk) : Option FL_State :=
  let vol : Int :=
    match s.freed_list with
    | [] => wrap_Int (mc.szB : Int)
    | _ :: _ => wrap_Int (s.freed_list_volume + (mc.szB : Int))
  match add_to_freed_queue_loop32 cfg.clo_freelist_vol (s.freed_list ++ [mc]) vol with
  | none => none
  | some (q, v, released) =>
    some { s with freed_list := q, freed_list_volume := v,
                  cli_freed := s.cli_freed ++ released }

/-- Outcome of a run of a loop that has no bound in the source. -/
inductive Run (α : Type) where
  | done (a : α)
  | assert_failed
  | out_of_fuel

/-- The freed queue as the source holds it: the two pointers
`freed_list_start` and `freed_list_end` (`none` is `NULL`), the counter, and
the chunk records they point to.  A record is named by its address in the
engine's heap; `next` is its field `next` and `chunk` its other fields. -/
structure FreedQueue where
  freed_list_start : Option Nat
  freed_list_end : Option Nat
  freed_list_volume : Int
  next : Nat → Option Nat
  chunk : Nat → FL_Chunk

/-- The loop of `add_to_freed_queue` on the records.  `released` collects the
addresses passed to `VG_(cli_free)`; `fuel` bounds the number of turns. -/
def freed_queue_loop (budget : Int) :
    Nat → FreedQueue → List Int → Run (FreedQueue × List Int)
  | 0, q, released =>
    if q.freed_list_volume > budget then Run.out_of_fuel else Run.done (q, released)
  | fuel + 1, q, released =>
    if q.freed_list_volume > budget then
      match q.freed_list_start with
      -- tl_assert(freed_list_start != NULL)
      | none => Run.assert_failed
      | some mc1 =>
        match q.freed_list_end with
        -- tl_assert(freed_list_end != NULL)
        | none => Run.assert_failed
        | some last =>
          let vol : Int := q.freed_list_volume - ((q.chunk mc1).szB : Int)
          -- tl_assert(freed_list_volume >= 0)
          if vol < 0 then Run.assert_failed
          else
            let q1 : FreedQueue :=
              if mc1 = last then
                { q with freed_list_start := none, freed_list_end := none,
                         freed_list_volume := vol }
              else { q with freed_list_start := q.next mc1, freed_list_volume := vol }
            -- mc1->next = NULL
            let q2 : FreedQueue :=
              { q1 with next := fun p => if p = mc1 then none else q1.next p }
            freed_queue_loop budget fuel q2 (released ++ [(q.chunk mc1).data])
    else Run.done (q, released)

/-- `add_to_freed_queue` on the records: `mc` is the address of the record
that is put on the queue. -/
def add_to_freed_queue_records (budget : Int) (fuel : Nat) (q : FreedQueue) (mc : Nat) :
    Run (FreedQueue × List Int) :=
  let linked : Option FreedQueue :=
    match q.freed_list_end with
    | none =>
      -- tl_assert(freed_list_start == NULL)
      if q.freed_list_start = none then
        some { q with freed_list_start := some mc, freed_list_end := some mc,
                      freed_list_volume := ((q.chunk mc).szB : Int) }
      else none
    | some last =>
      -- tl_assert(freed_list_end->next == NULL)
      if q.next last = none then
        some { q with next := fun p => if p = last then some mc else q.next p,
                      freed_list_end := some mc,
                      freed_list_volume := q.freed_list_volume + ((q.chunk mc).szB : Int) }
      else none
  match linked with
  | none => Run.assert_failed
  | some q1 =>
    -- mc->next = NULL
    freed_queue_loop budget fuel
      { q1 with next := fun p => if p = mc then none else q1.next p } []

/-- The records on the queue, from `freed_list_start` along the `next`
links: `l` lists their addresses, oldest first. -/
def queue_records (q : FreedQueue) (l : List Nat) : Prop :=
  l.Nodup ∧ q.freed_list_start = l.head? ∧ q.freed_list_end = l.getLast?
    ∧ List.Chain' (fun a b => q.next a = some b) l
    ∧ (∀ last, l.getLast? = some last → q.next last = none)
    ∧ q.freed_list_volume = queue_volume (l.map q.chunk)

/-! ## Allocation -/

/-- Width of the bit-field `szB` of `FL_Chunk`,
`SizeT szB : (sizeof(UWord)*8)-2`: 30 bits on x86-32, the platform whose
guest registers the syscall wrappers of the tool read. -/
def szB_bits : Nat := 30

/-- `create_FL_Chunk`.  The store `mc->szB = szB` keeps the low `szB_bits`
bits of the size.  Its check that the engine's own record is not
addressable by the client concerns the engine's heap, which is not client
memory and is not part of the state. -/
def create_FL_Chunk (_tid : ThreadId) (p : Int) (szB : Nat) (kind : FL_AllocKind) : FL_Chunk :=
  { data := p, szB := szB % 2 ^ szB_bits, allockind := kind }

/-- `complain_about_silly_args`: the size is negative when read as a signed
word. -/
def complain_about_silly_args (cfg : Clo) (sizeB : Nat) : Bool :=
  decide (2 ^ (cfg.wordBits - 1) ≤ sizeB % 2 ^ cfg.wordBits)

/-- `FL_(new_block)`.  `a_cli` is the address `VG_(cli_malloc)` returns when
it is called (`0` when it fails).  The result is the returned pointer, the
table after the call and the rest of the state; `none` when an assertion
fails.  The argument `rzB` is not used by the source. -/
def FL_new_block (a_cli : Int) (s : FL_State) (tid : ThreadId) (p : Int) (szB : Nat)
    (_alignB : Nat) (_rzB : Nat) (_is_zeroed : Bool) (kind : FL_AllocKind)
    (table : VgHashTable) : Option (Int × VgHashTable × FL_State) :=
  let s1 := { s with cmalloc_n_mallocs := s.cmalloc_n_mallocs + 1 }
  let finish (p : Int) : Option (Int × VgHashTable × FL_State) :=
    some (p, HT_add_node table (create_FL_Chunk tid p szB kind),
          { s1 with cmalloc_bs_mallocd := s1.cmalloc_bs_mallocd + szB,
                    shadow := make_mem_defined s1.shadow p szB })
  if p ≠ 0 then
    -- tl_assert(FL_AllocCustom == kind)
    if kind = FL_AllocKind.FL_AllocCustom then finish p else none
  else
    -- tl_assert(FL_AllocCustom != kind)
    if kind = FL_AllocKind.FL_AllocCustom then none
    else if a_cli = 0 then some (0, table, s1)
    else finish a_cli

/-- Store the table returned by `FL_new_block` back as the registry. -/
def into_malloc_list : Option (Int × VgHashTable × FL_State) → Option (Int × FL_State)
  | none => none
  | some (p, table, s) => some (p, { s with malloc_list := table })

/-- `FL_(malloc)`. -/
def FL_malloc (cfg : Clo) (a_cli : Int) (s : FL_State) (tid : ThreadId) (n : Nat) :
    Option (Int × FL_State) :=
  if complain_about_silly_args cfg n then some (0, s)
  else into_malloc_list (FL_new_block a_cli s tid 0 n cfg.clo_alignment FL_MALLOC_REDZONE_SZB
    false FL_AllocKind.FL_AllocMalloc s.malloc_list)

/-- `FL_(__builtin_new)`. -/
def FL___builtin_new (cfg : Clo) (a_cli : Int) (s : FL_State) (tid : ThreadId) (n : Nat) :
    Option (Int × FL_State) :=
  if complain_about_silly_args cfg n then some (0, s)
  else into_malloc_list (FL_new_block a_cli s tid 0 n cfg.clo_alignment FL_MALLOC_REDZONE_SZB
    false FL_AllocKind.FL_AllocNew s.malloc_list)

/-- `FL_(__builtin_vec_new)`. -/
def FL___builtin_vec_new (cfg : Clo) (a_cli : Int) (s : FL_State) (tid : ThreadId) (n : Nat) :
    Option (Int × FL_State) :=
  if complain_about_silly_args cfg n then some (0, s)
  else into_malloc_list (FL_new_block a_cli s tid 0 n cfg.clo_alignment FL_MALLOC_REDZONE_SZB
    false FL_AllocKind.FL_AllocNewVec s.malloc_list)

/-- `FL_(memalign)`. -/
def FL_memalign (cfg : Clo) (a_cli : Int) (s : FL_State) (tid : ThreadId) (alignB n : Nat) :
    Option (Int × FL_State) :=
  if complain_about_silly_args cfg n then some (0, s)
  else into_malloc_list (FL_new_block a_cli s tid 0 n alignB FL_MALLOC_REDZONE_SZB
    false FL_AllocKind.FL_AllocMalloc s.malloc_list)

/-! ## Release -/

/-- `die_and_free_mem`. -/
def die_and_free_mem (cfg : Clo) (s : FL_State) (_tid : ThreadId) (mc : FL_Chunk) (rzB : Nat) :
    Option FL_State :=
  let sh1 := make_mem_noaccess s.shadow (mc.data - (rzB : Int)) (mc.szB + 2 * rzB)
  let sh2 := make_mem_defined sh1 (mc.data - (rzB : Int)) (mc.szB + 2 * rzB)
  let s2 := { s with shadow := sh2 }
  if mc.allockind ≠ FL_AllocKind.FL_AllocCustom then add_to_freed_queue cfg s2 mc
  else some s2

/-- `FL_(handle_free)`. -/
def FL_handle_free (cfg : Clo) (s : FL_State) (tid : ThreadId) (p : Int) (rzB : Nat)
    (kind : FL_AllocKind) : Option FL_State :=
  let s1 := { s with cmalloc_n_frees := s.cmalloc_n_frees + 1 }
  match HT_remove s1.malloc_list p with
  | none => some (record_free_error s1 tid p)
  | some (mc, rest) =>
    let s2 := { s1 with malloc_list := rest }
    if kind ≠ mc.allockind then
      -- tl_assert(p == mc->data)
      if p = mc.data then die_and_free_mem cfg (record_freemismatch_error s2 tid mc) tid mc rzB
      else none
    else die_and_free_mem cfg s2 tid mc rzB

/-- `die_and_free_mem` with the counter of the freed queue of 32 bits. -/
def die_and_free_mem32 (cfg : Clo) (s : FL_State) (_tid : ThreadId) (mc : FL_Chunk)
    (rzB : Nat) : Option FL_State :=
  let sh1 := make_mem_noaccess s.shadow (mc.data - (rzB : Int)) (mc.szB + 2 * rzB)
  let sh2 := make_mem_defined sh1 (mc.data - (rzB : Int)) (mc.szB + 2 * rzB)
  let s2 := { s with shadow := sh2 }
  if mc.allockind ≠ FL_AllocKind.FL_AllocCustom then add_to_freed_queue32 cfg s2 mc
  else some s2

/-- `FL_(handle_free)` with the counter of the freed queue of 32 bits. -/
def FL_handle_free32 (cfg : Clo) (s : FL_State) (tid : ThreadId) (p : Int) (rzB : Nat)
    (kind : FL_AllocKind) : Option FL_State :=
  let s1 := { s with cmalloc_n_frees := s.cmalloc_n_frees + 1 }
  match HT_remove s1.malloc_list p with
  | none => some (record_free_error s1 tid p)
  | some (mc, rest) =>
    let s2 := { s1 with malloc_list := rest }
    if kind ≠ mc.allockind then
      -- tl_assert(p == mc->data)
      if p = mc.data then
        die_and_free_mem32 cfg (record_freemismatch_error s2 tid mc) tid mc rzB
      else none
    else die_and_free_mem32 cfg s2 tid mc rzB

/-- `FL_(free)`. -/
def FL_free (cfg : Clo) (s : FL_State) (tid : ThreadId) (p : Int) : Option FL_State :=
  FL_handle_free cfg s tid p FL_MALLOC_REDZONE_SZB FL_AllocKind.FL_AllocMalloc

/-- `FL_(__builtin_delete)`. -/
def FL___builtin_delete (cfg : Clo) (s : FL_State) (tid : ThreadId) (p : Int) : Option FL_State :=
  FL_handle_free cfg s tid p FL_MALLOC_REDZONE_SZB FL_AllocKind.FL_AllocNew

/-- `FL_(__builtin_vec_delete)`. -/
def FL___builtin_vec_delete (cfg : Clo) (s : FL_State) (tid : ThreadId) (p : Int) :
    Option FL_State :=
  FL_handle_free cfg s tid p FL_MALLOC_REDZONE_SZB FL_AllocKind.FL_AllocNewVec

/-- `complain_about_silly_args2`. -/
def complain_about_silly_args2 (cfg : Clo) (n sizeB : Nat) : Bool :=
  complain_about_silly_args cfg n || complain_about_silly_args cfg sizeB

/-- `FL_(calloc)`: the product `nmemb*size1` is a product of machine words. -/
def FL_calloc (cfg : Clo) (a_cli : Int) (s : FL_State) (tid : ThreadId) (nmemb size1 : Nat) :
    Option (Int × FL_State) :=
  if complain_about_silly_args2 cfg nmemb size1 then some (0, s)
  else into_malloc_list (FL_new_block a_cli s tid 0 ((nmemb * size1) % 2 ^ cfg.wordBits)
    cfg.clo_alignment FL_MALLOC_REDZONE_SZB true FL_AllocKind.FL_AllocMalloc s.malloc_list)

/-- `FL_(realloc)`.  `a_cli` is the address `VG_(cli_malloc)` returns if the
block has to grow (`0` when it fails). -/
def FL_realloc (cfg : Clo) (a_cli : Int) (s : FL_State) (tid : ThreadId) (p_old : Int)
    (new_szB : Nat) : Option (Int × FL_State) :=
  let s1 := { s with cmalloc_n_frees := s.cmalloc_n_frees + 1,
                     cmalloc_n_mallocs := s.cmalloc_n_mallocs + 1,
                     cmalloc_bs_mallocd := s.cmalloc_bs_mallocd + new_szB }
  if complain_about_silly_args cfg new_szB then some (0, s1)
  else
    match HT_remove s1.malloc_list p_old with
    | none => some (0, record_free_error s1 tid p_old)
    | some (mc, rest) =>
      let s2 := { s1 with malloc_list := rest }
      let checked : Option FL_State :=
        if FL_AllocKind.FL_AllocMalloc ≠ mc.allockind then
          -- tl_assert((Addr)p_old == mc->data)
          if p_old = mc.data then some (record_freemismatch_error s2 tid mc) else none
        else some s2
      match checked with
      | none => none
      | some s3 =>
        if mc.szB = new_szB then
          some (p_old, { s3 with malloc_list := HT_add_node s3.malloc_list mc })
        else if mc.szB > new_szB then
          let sh := make_mem_noaccess s3.shadow (mc.data + (new_szB : Int)) (mc.szB - new_szB)
          some (p_old, { s3 with shadow := sh,
                                 malloc_list := HT_add_node s3.malloc_list { mc with szB := new_szB } })
        else if a_cli ≠ 0 then
          let sh1 := make_mem_noaccess s3.shadow (a_cli - (FL_MALLOC_REDZONE_SZB : Int))
            FL_MALLOC_REDZONE_SZB
          let sh2 := copy_address_range_state sh1 p_old a_cli mc.szB
          let sh3 := make_mem_defined sh2 (a_cli + (mc.szB : Int)) (new_szB - mc.szB)
          let sh4 := make_mem_noaccess sh3 (a_cli + (new_szB : Int)) FL_MALLOC_REDZONE_SZB
          match die_and_free_mem cfg { s3 with shadow := sh4 } tid mc FL_MALLOC_REDZONE_SZB with
          | none => none
          | some s4 =>
            let mc_new := create_FL_Chunk tid a_cli new_szB FL_AllocKind.FL_AllocMalloc
            some (a_cli, { s4 with malloc_list := HT_add_node s4.malloc_list mc_new })
        else some (a_cli, { s3 with malloc_list := HT_add_node s3.malloc_list mc })

/-- The shadow store that the growing branch of `FL_(realloc)` has built when
it calls `die_and_free_mem`: the four marking calls of that branch, in the
order of the source. -/
def realloc_grow_shadow (sh : Shadow) (p_old a_new : Int) (old_szB new_szB : Nat) : Shadow :=
  make_mem_noaccess
    (make_mem_defined
      (copy_address_range_state
        (make_mem_noaccess sh (a_new - (FL_MALLOC_REDZONE_SZB : Int)) FL_MALLOC_REDZONE_SZB)
        p_old a_new old_szB)
      (a_new + (old_szB : Int)) (new_szB - old_szB))
    (a_new + (new_szB : Int)) FL_MALLOC_REDZONE_SZB

/-! ## Memory pools -/

/-- `FL_(mempool_alloc)`.  The calls of `check_mempool_sane` only print. -/
def FL_mempool_alloc (s : FL_State) (tid : ThreadId) (pool addr : Int) (szB : Nat) :
    Option FL_State :=
  match HT_lookup_pool s.mempool_list pool with
  | none => some (record_illegal_mempool_error s tid pool)
  | some mp =>
    match FL_new_block 0 s tid addr szB 0 mp.rzB mp.is_zeroed
        FL_AllocKind.FL_AllocCustom mp.chunks with
    | none => none
    | some (_, table, s1) =>
      some { s1 with mempool_list := set_pool_chunks s1.mempool_list pool table }

/-- `FL_(mempool_free)`; `tid` is `VG_(get_running_tid)()`.  The calls of
`check_mempool_sane` only print. -/
def FL_mempool_free (cfg : Clo) (s : FL_State) (tid : ThreadId) (pool addr : Int) :
    Option FL_State :=
  match HT_lookup_pool s.mempool_list pool with
  | none => some (record_illegal_mempool_error s tid pool)
  | some mp =>
    match HT_remove mp.chunks addr with
    | none => some (record_free_error s tid addr)
    | some (mc, rest) =>
      die_and_free_mem cfg { s with mempool_list := set_pool_chunks s.mempool_list pool rest }
        tid mc mp.rzB

/-- `FL_(create_mempool)`.  A pool with the identifier already in the list
makes the engine stop in `VG_(tool_panic)`.  The second check, that the
engine's own record is not addressable by the client, concerns the engine's
heap, which is not part of the state. -/
def FL_create_mempool (s : FL_State) (pool : Int) (rzB : Nat) ( is_zeroed : Bool) :
    Option FL_State :=
  match HT_lookup_pool s.mempool_list pool with
  | some _ => none
  | none =>
    some { s with mempool_list :=
      { pool := pool, rzB := rzB, is_zeroed := is_zeroed, chunks := [] } :: s.mempool_list }

/-- The loop of `FL_(destroy_mempool)` over the chunks of the pool. -/
def destroy_mempool_loop (rzB : Nat) : List FL_Chunk → Shadow → Shadow
  | [], sh => sh
  | mc :: rest, sh =>
    destroy_mempool_loop rzB rest
      (make_mem_noaccess sh (mc.data - (rzB : Int)) (mc.szB + 2 * rzB))

/-- `FL_(destroy_mempool)`; `tid` is `VG_(get_running_tid)()`. -/
def FL_destroy_mempool (s : FL_State) (tid : ThreadId) (pool : Int) : FL_State :=
  match HT_remove_pool s.mempool_list pool with
  | none => record_illegal_mempool_error s tid pool
  | some (mp, rest) =>
    { s with mempool_list := rest,
             shadow := destroy_mempool_loop mp.rzB mp.chunks s.shadow }

/-- `mp_compar`, the comparison handed to `VG_(ssort)`: it never answers 0. -/
def mp_compar (mc1 mc2 : FL_Chunk) : Int :=
  if mc1.data < mc2.data then -1 else 1

/-- The first loop of `check_mempool_sane`, over the sorted array: `true`
when the message "out of order wrt. its successor" is printed for some
index. -/
def out_of_order_loop : List FL_Chunk → Bool
  | a :: b :: rest => decide (a.data > b.data) || out_of_order_loop (b :: rest)
  | _ => false

/-- The second loop of `check_mempool_sane`, over the sorted array: `true`
when the message "overlaps with its successor" is printed for some index. -/
def overlap_loop : List FL_Chunk → Bool
  | a :: b :: rest =>
    decide (a.data + (a.szB : Int) > b.data) || overlap_loop (b :: rest)
  | _ => false

/-- `check_mempool_sane`: the value of `bad` at the end, that is whether the
pool is reported as bad and its chunks are dumped.  The function only reads
the pool and prints.  `ssort arr` is the array that
`VG_(ssort)(chunks, n_chunks, sizeof(VgHashNode*), mp_compar)` leaves: the
sorting routine is not part of the sources and is given by its result. -/
def check_mempool_sane (ssort : List FL_Chunk → List FL_Chunk) (mp : FL_Mempool) : Bool :=
  match HT_to_array mp.chunks with
  | [] => false
  | arr => out_of_order_loop (ssort arr) || overlap_loop (ssort arr)

/-- `EXTENT_CONTAINS(x)` of `FL_(mempool_trim)`:
`(addr <= (x)) && ((x) < addr + szB)`. -/
def EXTENT_CONTAINS (addr : Int) (szB : Nat) (x : Int) : Bool :=
  decide (addr ≤ x) && decide (x < addr + (szB : Int))

/-- The loop of `FL_(mempool_trim)` over the array `chunks`, on the state and
the chunk table of the pool; `szB` is the size of the extent.  The result is
the state and the table when the function returns (at the end of the loop or
at one of the two early `return`s); `none` when an assertion fails. -/
def mempool_trim_loop (cfg : Clo) (tid : ThreadId) (rzB : Nat) (addr : Int) (szB : Nat) :
    List FL_Chunk → FL_State → VgHashTable → Option (FL_State × VgHashTable)
  | [], s, table => some (s, table)
  | mc :: chunks, s, table =>
    let lo : Int := mc.data
    let hi : Int := if mc.szB = 0 then mc.data else mc.data + (mc.szB : Int) - 1
    if EXTENT_CONTAINS addr szB lo && EXTENT_CONTAINS addr szB hi then
      -- entirely within the trim extent: keep it
      mempool_trim_loop cfg tid rzB addr szB chunks s table
    else if !EXTENT_CONTAINS addr szB lo && !EXTENT_CONTAINS addr szB hi then
      -- entirely outside the trim extent: delete it
      match HT_remove table mc.data with
      | none => some (record_free_error s tid mc.data, table)
      | some (_, rest) =>
        match die_and_free_mem cfg s tid mc rzB with
        | none => none
        | some s1 => mempool_trim_loop cfg tid rzB addr szB chunks s1 rest
    else
      -- tl_assert(EXTENT_CONTAINS(lo) || EXTENT_CONTAINS(hi))
      if !(EXTENT_CONTAINS addr szB lo || EXTENT_CONTAINS addr szB hi) then none
      else
        match HT_remove table mc.data with
        | none => some (record_free_error s tid mc.data, table)
        | some (_, rest) =>
          let min : Int := if mc.data < addr then mc.data else addr
          let lo1 : Int := if mc.data < addr then addr else mc.data
          let max : Int :=
            if mc.data + (szB : Int) > addr + (szB : Int) then mc.data + (szB : Int)
            else addr + (szB : Int)
          let hi1 : Int :=
            if mc.data + (szB : Int) > addr + (szB : Int) then addr + (szB : Int)
            else mc.data + (szB : Int)
          -- tl_assert(min <= lo); tl_assert(lo < hi); tl_assert(hi <= max)
          if ¬ (min ≤ lo1) then none
          else if ¬ (lo1 < hi1) then none
          else if ¬ (hi1 ≤ max) then none
          else
            let sh1 : Shadow :=
              if min < lo1 ∧ EXTENT_CONTAINS addr szB min = false then
                make_mem_noaccess s.shadow min (lo1 - min).toNat
              else s.shadow
            let sh2 : Shadow :=
              if hi1 < max ∧ EXTENT_CONTAINS addr szB max = false then
                make_mem_noaccess sh1 hi1 (max - hi1).toNat
              else sh1
            -- mc->data = lo; mc->szB = (UInt) (hi - lo), a bit-field of szB_bits bits
            mempool_trim_loop cfg tid rzB addr szB chunks { s with shadow := sh2 }
              (HT_add_node rest
                { mc with data := lo1, szB := (hi1 - lo1).toNat % 2 ^ szB_bits })

/-- `FL_(mempool_trim)`; `tid` is `VG_(get_running_tid)()`.  The sums
`addr + szB` and `mc->data + szB` are exact (the extent does not wrap around
the end of the address space).  Where the source goes on with the array
element `mc` after `VG_(HT_remove)` by key, the table loses the first node
with that key; with distinct keys it is `mc`.  `FL_mempool_trim_nodes` is the
function on the records themselves, for tables in which keys coincide.  The
calls of `check_mempool_sane` only print. -/
def FL_mempool_trim (cfg : Clo) (s : FL_State) (tid : ThreadId) (pool addr : Int) (szB : Nat) :
    Option FL_State :=
  match HT_lookup_pool s.mempool_list pool with
  | none => some (record_illegal_mempool_error s tid pool)
  | some mp =>
    -- if (n_shadows == 0) return
    if (HT_to_array mp.chunks).length = 0 then some s
    else
      match mempool_trim_loop cfg tid mp.rzB addr szB (HT_to_array mp.chunks) s mp.chunks with
      | none => none
      | some (s1, table) =>
        some { s1 with mempool_list := set_pool_chunks s1.mempool_list pool table }

/-- `VG_(HT_remove)` on the records of a chunk table.  `table` lists the
records linked in the table, the most recently linked first, and `heap n`
holds the fields of the record `n`.  The first record whose field `data` is
the key is unlinked and returned. -/
def HT_remove_node (heap : Nat → FL_Chunk) : List Nat → Int → Option (Nat × List Nat)
  | [], _ => none
  | n :: rest, key =>
    if (heap n).data = key then some (n, rest)
    else
      match HT_remove_node heap rest key with
      | none => none
      | some (found, rest1) => some (found, n :: rest1)

/-- The loop of `FL_(mempool_trim)` on the records of the chunk table.  The
array `chunks` holds pointers to the records, `heap` their fields and `table`
the records linked in the table, the most recently linked first.  The loop
reads the fields of the record `mc` it is at; `VG_(HT_remove)` unlinks the
first record with the key `mc->data`, which need not be `mc`; the loop goes
on with `mc`: `die_and_free_mem` gets `mc`, and the trimmed bounds are
written into the record `mc` itself, which `VG_(HT_add_node)` links at the
head whether or not it is still linked.  A record given to `VG_(free)` keeps
its fields.  The result is the state, the fields and the table when the
function returns; `none` when an assertion fails. -/
def mempool_trim_nodes_loop (cfg : Clo) (tid : ThreadId) (rzB : Nat) (addr : Int) (szB : Nat) :
    List Nat → FL_State → (Nat → FL_Chunk) → List Nat →
      Option (FL_State × (Nat → FL_Chunk) × List Nat)
  | [], s, heap, table => some (s, heap, table)
  | n :: chunks, s, heap, table =>
    let mc : FL_Chunk := heap n
    let lo : Int := mc.data
    let hi : Int := if mc.szB = 0 then mc.data else mc.data + (mc.szB : Int) - 1
    if EXTENT_CONTAINS addr szB lo && EXTENT_CONTAINS addr szB hi then
      -- entirely within the trim extent: keep it
      mempool_trim_nodes_loop cfg tid rzB addr szB chunks s heap table
    else if !EXTENT_CONTAINS addr szB lo && !EXTENT_CONTAINS addr szB hi then
      -- entirely outside the trim extent: delete it
      match HT_remove_node heap table mc.data with
      | none => some (record_free_error s tid mc.data, heap, table)
      | some (_, rest) =>
        match die_and_free_mem cfg s tid mc rzB with
        | none => none
        | some s1 => mempool_trim_nodes_loop cfg tid rzB addr szB chunks s1 heap rest
    else
      -- tl_assert(EXTENT_CONTAINS(lo) || EXTENT_CONTAINS(hi))
      if !(EXTENT_CONTAINS addr szB lo || EXTENT_CONTAINS addr szB hi) then none
      else
        match HT_remove_node heap table mc.data with
        | none => some (record_free_error s tid mc.data, heap, table)
        | some (_, rest) =>
          let min : Int := if mc.data < addr then mc.data else addr
          let lo1 : Int := if mc.data < addr then addr else mc.data
          let max : Int :=
            if mc.data + (szB : Int) > addr + (szB : Int) then mc.data + (szB : Int)
            else addr + (szB : Int)
          let hi1 : Int :=
            if mc.data + (szB : Int) > addr + (szB : Int) then addr + (szB : Int)
            else mc.data + (szB : Int)
          -- tl_assert(min <= lo); tl_assert(lo < hi); tl_assert(hi <= max)
          if ¬ (min ≤ lo1) then none
          else if ¬ (lo1 < hi1) then none
          else if ¬ (hi1 ≤ max) then none
          else
            let sh1 : Shadow :=
              if min < lo1 ∧ EXTENT_CONTAINS addr szB min = false then
                make_mem_noaccess s.shadow min (lo1 - min).toNat
              else s.shadow
            let sh2 : Shadow :=
              if hi1 < max ∧ EXTENT_CONTAINS addr szB max = false then
                make_mem_noaccess sh1 hi1 (max - hi1).toNat
              else sh1
            -- mc->data = lo; mc->szB = (UInt) (hi - lo), a bit-field of szB_bits bits
            mempool_trim_nodes_loop cfg tid rzB addr szB chunks { s with shadow := sh2 }
              (fun p =>
                if p = n then { mc with data := lo1, szB := (hi1 - lo1).toNat % 2 ^ szB_bits }
                else heap p)
              (n :: rest)

/-- `FL_(mempool_trim)` on the records of the chunk table of the pool; `tid`
is `VG_(get_running_tid)()`.  The record of the `i`-th node of `mp->chunks`
is named `i`.  `order` gives the array that `VG_(HT_to_array)` returns for a
table: the routine is not part of the sources and is taken by its result, an
array of all the records of the table.  The table written back holds the
fields of the records that are linked at the end.  The sums `addr + szB` and
`mc->data + szB` are exact.  The calls of `check_mempool_sane` only print. -/
def FL_mempool_trim_nodes (order : List Nat → List Nat) (cfg : Clo) (s : FL_State)
    (tid : ThreadId) (pool addr : Int) (szB : Nat) : Option FL_State :=
  match HT_lookup_pool s.mempool_list pool with
  | none => some (record_illegal_mempool_error s tid pool)
  | some mp =>
    -- if (n_shadows == 0) return
    if mp.chunks.length = 0 then some s
    else
      let heap : Nat → FL_Chunk :=
        fun i => mp.chunks.getD i { data := 0, szB := 0, allockind := FL_AllocKind.FL_AllocCustom }
      let table : List Nat := List.range mp.chunks.length
      match mempool_trim_nodes_loop cfg tid mp.rzB addr szB (order table) s heap table with
      | none => none
      | some (s1, heap1, table1) =>
        some { s1 with mempool_list := set_pool_chunks s1.mempool_list pool (table1.map heap1) }

/-- `FL_(move_mempool)`; `tid` is `VG_(get_running_tid)()`. -/
def FL_move_mempool (s : FL_State) (tid : ThreadId) (poolA poolB : Int) : FL_State :=
  match HT_remove_pool s.mempool_list poolA with
  | none => record_illegal_mempool_error s tid poolA
  | some (mp, rest) => { s with mempool_list := { mp with pool := poolB } :: rest }

/-- `FL_(mempool_change)`; `tid` is `VG_(get_running_tid)()`.  The calls of
`check_mempool_sane` only print. -/
def FL_mempool_change (s : FL_State) (tid : ThreadId) (pool addrA addrB : Int) (szB : Nat) :
    FL_State :=
  match HT_lookup_pool s.mempool_list pool with
  | none => record_illegal_mempool_error s tid pool
  | some mp =>
    match HT_remove mp.chunks addrA with
    | none => record_free_error s tid addrA
    | some (mc, rest) =>
      -- mc->data = addrB; mc->szB = szB (a bit-field of szB_bits bits)
      let table := HT_add_node rest { mc with data := addrB, szB := szB % 2 ^ szB_bits }
      { s with mempool_list := set_pool_chunks s.mempool_list pool table }

/-- `FL_(mempool_exists)`. -/
def FL_mempool_exists (s : FL_State) (pool : Int) : Bool :=
  (HT_lookup_pool s.mempool_list pool).isSome

/-! ## Syscall taint policy -/

/-- The x86 guest registers read by `populate_guest_args`, as machine words. -/
structure GuestRegs where
  guest_EAX : Nat
  guest_ECX : Nat
  guest_EDX : Nat
  guest_EBX : Nat
  guest_ESI : Nat
  guest_EDI : Nat
  guest_EBP : Nat

/-- `populate_guest_args`: the array `guest_args[tid].args` after the call.
Slot 0 keeps the zero of `FL_(setup_guest_args)`. -/
def populate_guest_args (ts : GuestRegs) : Nat → Nat
  | 1 => ts.guest_ECX
  | 2 => ts.guest_EDX
  | 3 => ts.guest_EBX
  | 4 => ts.guest_ESI
  | 5 => ts.guest_EDI
  | 6 => ts.guest_EBP
  | 7 => ts.guest_EAX
  | _ => 0

/-- Conversion of a machine word to the 32-bit signed C type `Int`. -/
def to_Int (v : Nat) : Int :=
  if v % 2 ^ 32 < 2 ^ 31 then ((v % 2 ^ 32 : Nat) : Int)
  else ((v % 2 ^ 32 : Nat) : Int) - 2 ^ 32

/-- `VG_(memcmp)(cursor, needle, n_len) == 0` on the client memory `mem`. -/
def memcmp_eq (mem : Int → Nat) : Int → List Nat → Bool
  | _, [] => true
  | cursor, b :: rest => mem cursor == b && memcmp_eq mem (cursor + 1) rest

/-- The loop of `memmem`, by recursion on `count`.  With `count = 0` the loop
body is entered only for an empty needle, which `VG_(memcmp)` always
matches. -/
def memmem_loop (mem : Int → Nat) (needle : List Nat) : Nat → Int → Int
  | 0, cursor => if needle.length = 0 ∧ memcmp_eq mem cursor needle = true then cursor else 0
  | count + 1, cursor =>
    if count + 1 ≥ needle.length then
      if memcmp_eq mem cursor needle = true then cursor
      else memmem_loop mem needle count (cursor + 1)
    else 0

/-- `memmem(haystack, needle, h_len, n_len)` with `n_len` the length of
`needle`; `0` is `NULL`. -/
def memmem (mem : Int → Nat) (haystack : Int) (needle : List Nat) (h_len : Nat) : Int :=
  if h_len < needle.length then 0
  else if haystack = 0 then 0
  else memmem_loop mem needle h_len haystack

/-- The marker loop of `FL_(syscall_read)`: `base` is the buffer
`guest_args[tid].args[1]`, `res` the result, `data` and `remaining` the loop
variables.  `valid` is `VG_(am_is_valid_for_client)`.  The loop has no
bound in the source: `fuel` bounds the number of iterations and the result
is `none` when it is used up. -/
def syscall_read_loop (mem : Int → Nat) (valid : Int → Nat → Bool) (needle : List Nat)
    (base : Int) (res : Int) : Nat → Shadow → Int → Nat → Option Shadow
  | 0, sh, data, remaining =>
    if data ≠ 0 ∧ remaining > needle.length then none else some sh
  | fuel + 1, sh, data, remaining =>
    if data ≠ 0 ∧ remaining > needle.length then
      if valid data remaining = false then some sh
      else
        let found := memmem mem data needle remaining
        if found ≠ 0 then
          syscall_read_loop mem valid needle base res fuel
            (make_mem_undefined sh found needle.length)
            (found + (needle.length : Int)) (res - (found - base)).toNat
        else syscall_read_loop mem valid needle base res fuel sh found remaining
    else some sh

/-- `FL_(syscall_read)`.  `ts` is the register file of thread `tid`, `res`
the value `res.res` of the syscall result, `mem` the client memory. -/
def FL_syscall_read (cfg : Clo) (mem : Int → Nat) (valid : Int → Nat → Bool) (fuel : Nat)
    (s : FL_State) (tid : ThreadId) (ts : GuestRegs) (res : Int) : Option FL_State :=
  let args := populate_guest_args ts
  let fd : Int := to_Int (args 3)
  let data : Int := (args 1 : Int)
  if fd < 0 ∨ res ≤ 0 then some s
  else if fd < MAXIMUM_FDS ∧ s.tainted_fds tid fd.toNat = true then
    some { s with shadow := make_mem_undefined s.shadow data res.toNat }
  else
    match cfg.clo_taint_string with
    | none => some s
    | some needle =>
      match syscall_read_loop mem valid needle data res fuel s.shadow data res.toNat with
      | none => none
      | some sh => some { s with shadow := sh }

/-- `MAX_PATH`. -/
def MAX_PATH : Nat := 256

/-- Assignment `tainted_fds[tid][fd] = v`. -/
def set_tainted_fd (t : ThreadId → Nat → Bool) (tid : ThreadId) (fd : Nat) (v : Bool) :
    ThreadId → Nat → Bool :=
  fun tid1 fd1 => if tid1 = tid ∧ fd1 = fd then v else t tid1 fd1

/-- `resolve_fd(fd, path, max)`: the string left in `path`.  `readlink fd` is
what `VG_(readlink)` finds for `/proc/<pid>/fd/<fd>` (`none` when it returns
-1); at most `max` bytes are stored. -/
def resolve_fd (readlink : Int → Option (List Nat)) (fd : Int) (max : Nat) : List Nat :=
  match readlink fd with
  | none => []
  | some path => path.take max

/-- `VG_(strncmp)(fdpath, filter, VG_(strlen)(filter)) == 0` on strings given
by their bytes before the terminating NUL. -/
def strncmp_eq : List Nat → List Nat → Bool
  | _, [] => true
  | [], _ :: _ => false
  | a :: fdpath, b :: filter => a == b && strncmp_eq fdpath filter

/-- `FL_(syscall_close)`. -/
def FL_syscall_close (s : FL_State) (tid : ThreadId) (ts : GuestRegs) : FL_State :=
  let args := populate_guest_args ts
  let fd : Int := to_Int (args 1)
  if fd > -1 ∧ fd < MAXIMUM_FDS then
    { s with tainted_fds := set_tainted_fd s.tainted_fds tid fd.toNat false }
  else s

/-- `FL_(syscall_open)`.  `res` is the value `res.res` of the syscall result,
`readlink` the link resolution used by `resolve_fd`. -/
def FL_syscall_open (cfg : Clo) (readlink : Int → Option (List Nat)) (s : FL_State)
    (tid : ThreadId) (res : Int) : FL_State :=
  let fd : Int := res
  if cfg.clo_taint_file = false ∧ (fd ≠ 0 ∨ cfg.clo_taint_stdin = false) then s
  else if fd > -1 ∧ fd < MAXIMUM_FDS then
    let fdpath := resolve_fd readlink fd (MAX_PATH - 1)
    if strncmp_eq fdpath cfg.clo_file_filter = false then
      { s with tainted_fds := set_tainted_fd s.tainted_fds tid res.toNat false }
    else
      { s with tainted_fds := set_tainted_fd s.tainted_fds tid res.toNat true }
  else s

/-- The macro `SC_ARGn`: word `n` of the argument block of `socketcall`, whose
address is `guest_args[tid].args[1]`.  `memw a` is the machine word stored at
the client address `a`; words have 4 bytes (the code is for x86). -/
def SC_ARG (memw : Int → Nat) (ts : GuestRegs) (n : Nat) : Nat :=
  memw ((populate_guest_args ts 1 : Int) + 4 * (n : Int))

/-- `FL_(syscall_socket)`. -/
def FL_syscall_socket (cfg : Clo) (s : FL_State) (tid : ThreadId) (res : Int) : FL_State :=
  let fd : Int := res
  if cfg.clo_taint_network = false then s
  else if fd > -1 ∧ fd < MAXIMUM_FDS then
    { s with tainted_fds := set_tainted_fd s.tainted_fds tid fd.toNat true }
  else s

/-- `FL_(syscall_connect)`; `ts` holds the registers of the `socketcall`. -/
def FL_syscall_connect (cfg : Clo) (memw : Int → Nat) (s : FL_State) (tid : ThreadId)
    (ts : GuestRegs) (_res : Int) : FL_State :=
  let fd : Int := to_Int (SC_ARG memw ts 0)
  if cfg.clo_taint_network = false then s
  else if fd > -1 ∧ fd < MAXIMUM_FDS then
    { s with tainted_fds := set_tainted_fd s.tainted_fds tid fd.toNat true }
  else s

/-- `FL_(syscall_socketpair)`; `ts` holds the registers of the `socketcall`.
`((Int *)SC_ARG3)[0]` is the first element of the descriptor pair. -/
def FL_syscall_socketpair (cfg : Clo) (memw : Int → Nat) (s : FL_State) (tid : ThreadId)
    (ts : GuestRegs) (_res : Int) : FL_State :=
  let fd : Int := to_Int (memw (SC_ARG memw ts 3 : Int))
  if cfg.clo_taint_network = false then s
  else if fd > -1 ∧ fd < MAXIMUM_FDS then
    { s with tainted_fds := set_tainted_fd s.tainted_fds tid fd.toNat true }
  else s

/-- `FL_(syscall_accept)`. -/
def FL_syscall_accept (cfg : Clo) (s : FL_State) (tid : ThreadId) (res : Int) : FL_State :=
  let fd : Int := res
  if cfg.clo_taint_network = false then s
  else if fd > -1 ∧ fd < MAXIMUM_FDS then
    { s with tainted_fds := set_tainted_fd s.tainted_fds tid fd.toNat true }
  else s

/-- `FL_(syscall_recvfrom)`; `ts` holds the registers of the `socketcall`,
`SC_ARG0` is the descriptor and `SC_ARG1` the buffer. -/
def FL_syscall_recvfrom (memw : Int → Nat) (s : FL_State) (tid : ThreadId) (ts : GuestRegs)
    (res : Int) : FL_State :=
  let fd : Int := to_Int (SC_ARG memw ts 0)
  if fd > -1 ∧ fd < MAXIMUM_FDS ∧ s.tainted_fds tid fd.toNat = true ∧ res > 0 then
    { s with shadow := make_mem_undefined s.shadow (SC_ARG memw ts 1 : Int) res.toNat }
  else s

/-- The field `msg_iov` of a `struct vki_msghdr` at `msg`: on x86 the fields
are `msg_name` (offset 0), `msg_namelen` (4), `msg_iov` (8), `msg_iovlen`
(12), `msg_control` (16), `msg_controllen` (20) and `msg_flags` (24). -/
def msg_iov (memw : Int → Nat) (msg : Int) : Nat :=
  memw (msg + 8)

/-- The field `iov_base` of the first `struct vki_iovec` of the message: the
buffer that receives the data. -/
def msg_iov_base (memw : Int → Nat) (msg : Int) : Nat :=
  memw (msg_iov memw msg : Int)

/-- The field `msg_control` of a `struct vki_msghdr` at `msg`: the buffer for
ancillary data. -/
def msg_control (memw : Int → Nat) (msg : Int) : Nat :=
  memw (msg + 16)

/-- `FL_(syscall_recvmsg)`; `ts` holds the registers of the `socketcall`,
`SC_ARG0` is the descriptor and `SC_ARG1` the address of the message
header. -/
def FL_syscall_recvmsg (memw : Int → Nat) (s : FL_State) (tid : ThreadId) (ts : GuestRegs)
    (res : Int) : FL_State :=
  let fd : Int := to_Int (SC_ARG memw ts 0)
  let msg : Int := (SC_ARG memw ts 1 : Int)
  if fd > -1 ∧ fd < MAXIMUM_FDS ∧ s.tainted_fds tid fd.toNat = true ∧ res > 0 then
    { s with shadow := make_mem_undefined s.shadow (msg_control memw msg : Int) res.toNat }
  else s

/-- `FL_(setup_tainted_map)`: every entry is cleared, then descriptor 0 of
every thread is set when stdin tainting is on. -/
def FL_setup_tainted_map (cfg : Clo) (s : FL_State) : FL_State :=
  { s with tainted_fds := fun _ fd => if cfg.clo_taint_stdin = true then decide (fd = 0) else false }

/-! ## The patcher `mkf` -/

/-- `long_size`, `sizeof(long)`: 4 on x86, the platform of the tool. -/
def long_size : Nat := 4

/-- The `long` whose bytes in memory are `bytes`, first byte first (x86 is
little-endian). -/
def long_of_bytes : List Nat → Nat
  | [] => 0
  | b :: rest => b + 256 * long_of_bytes rest

/-- Byte `k` in memory of the `long` `v`. -/
def long_byte (v : Nat) (k : Nat) : Nat :=
  (v / 256 ^ k) % 256

/-- `memcpy(&value, &cursor[i], long_size)`: the `long` read from a buffer of
the tool at index `i`. -/
def long_at (cursor : Nat → Nat) (i : Nat) : Nat :=
  long_of_bytes ((List.range long_size).map (fun k => cursor (i + k)))

/-- `ptrace(PTRACE_PEEKDATA, child, addr, NULL)` when it succeeds: the word at
`addr` of the target memory. -/
def PTRACE_PEEKDATA (target : Int → Nat) (addr : Int) : Nat :=
  long_of_bytes ((List.range long_size).map (fun k => target (addr + (k : Int))))

/-- `ptrace(PTRACE_POKEDATA, child, addr, value)` when it succeeds: the target
memory with the word at `addr` replaced. -/
def PTRACE_POKEDATA (target : Int → Nat) (addr : Int) (value : Nat) : Int → Nat :=
  fun x =>
    if addr ≤ x ∧ x < addr + (long_size : Int) then long_byte value (x - addr).toNat
    else target x

/-- `memcpy(&dst[off], src, n)` on buffers of the tool, given by the byte at
each index. -/
def memcpy (dst : Nat → Nat) (off : Nat) (src : Nat → Nat) (n : Nat) : Nat → Nat :=
  fun j => if off ≤ j ∧ j < off + n then src (j - off) else dst j

/-- The loop of `ptrace_inject`, with `n` the number of blocks still to be
written and `i` the loop variable.  `poke_fails a` tells whether
`PTRACE_POKEDATA` at `a` fails (returns -1, nothing written). -/
def ptrace_inject_loop (poke_fails : Int → Bool) (addr : Int) (cursor : Nat → Nat) :
    Nat → Nat → Int → (Int → Nat) → Int × (Int → Nat)
  | 0, _, ret, target => (ret, target)
  | n + 1, i, ret, target =>
    if ret = 0 then
      let value := long_at cursor i
      if poke_fails (addr + (i : Int)) = true then
        ptrace_inject_loop poke_fails addr cursor n (i + long_size) (-1) target
      else
        ptrace_inject_loop poke_fails addr cursor n (i + long_size) 0
          (PTRACE_POKEDATA target (addr + (i : Int)) value)
    else (ret, target)

/-- `ptrace_inject(child, addr, src, len)`: the value returned and the target
memory afterwards.  `src` gives the byte at each index of the source buffer;
`malloc_ok` tells whether `malloc` succeeds and `junk` is the content of the
block it returns. -/
def ptrace_inject (malloc_ok : Bool) (junk : Nat → Nat) (poke_fails : Int → Bool)
    (target : Int → Nat) (addr : Int) (src : Nat → Nat) (len : Nat) : Int × (Int → Nat) :=
  let blocks := len / long_size
  let remainder := len % long_size
  if remainder ≠ 0 then
    if malloc_ok = false then (-1, target)
    else
      let ret := PTRACE_PEEKDATA target (addr + ((blocks * long_size : Nat) : Int))
      let code1 := memcpy junk (blocks * long_size) (long_byte ret) long_size
      let code2 := memcpy code1 0 src len
      ptrace_inject_loop poke_fails addr code2 (blocks + 1) 0 0 target
  else ptrace_inject_loop poke_fails addr src blocks 0 0 target

/-! ## Sequences of calls and concrete states -/

/-- The arguments of one call of `FL_(handle_free)`. -/
structure FreeCall where
  tid : ThreadId
  p : Int
  rzB : Nat
  kind : FL_AllocKind

/-- A sequence of `FL_(handle_free)` calls, run one after the other. -/
def release_calls (cfg : Clo) : FL_State → List FreeCall → Option FL_State
  | s, [] => some s
  | s, c :: rest =>
    match FL_handle_free cfg s c.tid c.p c.rzB c.kind with
    | none => none
    | some s1 => release_calls cfg s1 rest

/-- A sequence of `FL_(handle_free)` calls, run one after the other, with the
counter of the freed queue of 32 bits. -/
def release_calls32 (cfg : Clo) : FL_State → List FreeCall → Option FL_State
  | s, [] => some s
  | s, c :: rest =>
    match FL_handle_free32 cfg s c.tid c.p c.rzB c.kind with
    | none => none
    | some s1 => release_calls32 cfg s1 rest

/-- Options of a 32-bit run with the given quarantine budget and no marker. -/
def clo32 (budget : Int) : Clo :=
  { wordBits := 32, clo_freelist_vol := budget, clo_alignment := 8,
    clo_taint_string := none, clo_file_filter := [],
    clo_taint_file := false, clo_taint_network := false, clo_taint_stdin := false }

/-- The state at start-up with the given shadow store: empty registry, no
pool, empty quarantine. -/
def init_state (sh : Shadow) : FL_State :=
  { malloc_list := [], mempool_list := [], freed_list := [], freed_list_volume := 0,
    shadow := sh, tainted_fds := fun _ _ => false, errors := [], cli_freed := [],
    cmalloc_n_mallocs := 0, cmalloc_n_frees := 0, cmalloc_bs_mallocd := 0 }

/-- Start-up state in which the given chunks are live in the registry. -/
def state_with (sh : Shadow) (chunks : VgHashTable) : FL_State :=
  { init_state sh with malloc_list := chunks }

/-- A shadow store in which every byte is Untainted. -/
def sh_untainted : Shadow := fun _ => ShadowByte.Untainted

/-- A shadow store in which every byte is Tainted. -/
def sh_tainted : Shadow := fun _ => ShadowByte.Tainted

/-- A shadow store in which every byte is NoAccess. -/
def sh_noaccess : Shadow := fun _ => ShadowByte.NoAccess

/-- A `malloc` chunk of 64 bytes at 4096. -/
def chunk_a : FL_Chunk := { data := 4096, szB := 64, allockind := FL_AllocKind.FL_AllocMalloc }

/-- A `malloc` chunk of 6 bytes at 8192. -/
def chunk_b : FL_Chunk := { data := 8192, szB := 6, allockind := FL_AllocKind.FL_AllocMalloc }

/-- A `new` chunk of 5 bytes at 12288. -/
def chunk_c : FL_Chunk := { data := 12288, szB := 5, allockind := FL_AllocKind.FL_AllocNew }

/-- A state with `chunk_a` live and `chunk_b`, `chunk_c` in quarantine. -/
def state_q : FL_State :=
  { state_with sh_tainted [chunk_a] with freed_list := [chunk_b, chunk_c], freed_list_volume := 11 }

/-- A `malloc` chunk of `2^30 - 1` bytes, the largest size of the field
`szB`, at `d`. -/
def chunk_big (d : Int) : FL_Chunk :=
  { data := d, szB := 2 ^ 30 - 1, allockind := FL_AllocKind.FL_AllocMalloc }

/-- Start-up state with three live chunks of `2^30 - 1` bytes, at 4096,
`2^30 + 8192` and `2^31 + 12288`. -/
def state_big : FL_State :=
  state_with sh_tainted
    [chunk_big 4096, chunk_big (2 ^ 30 + 8192), chunk_big (2 ^ 31 + 12288)]

/-- A state with two chunks of `2^30 - 1` bytes in quarantine and the counter
`2^31 - 2`, their volume. -/
def state_big_queue : FL_State :=
  { init_state sh_tainted with
    freed_list := [chunk_big 4096, chunk_big (2 ^ 30 + 8192)],
    freed_list_volume := 2 ^ 31 - 2 }

/-- A pool chunk of 32 bytes at 20480. -/
def chunk_p : FL_Chunk := { data := 20480, szB := 32, allockind := FL_AllocKind.FL_AllocCustom }

/-- A state with one pool, of identifier 7 and redzone 8, that holds `chunk_p`. -/
def state_pool : FL_State :=
  { state_q with mempool_list := [{ pool := 7, rzB := 8, is_zeroed := false, chunks := [chunk_p] }] }

/-- Client memory holding `bytes` from `base` on, zero elsewhere. -/
def mem_bytes (base : Int) (bytes : List Nat) : Int → Nat :=
  fun a => if base ≤ a then bytes.getD (a - base).toNat 0 else 0

/-- Client memory holding the 4-byte words `words` from `base` on, zero
elsewhere. -/
def mem_words (base : Int) (words : List Nat) : Int → Nat :=
  fun a => if base ≤ a ∧ (a - base) % 4 = 0 then words.getD ((a - base) / 4).toNat 0 else 0

/-- Options with the given marker string and nothing else enabled. -/
def clo_marker (marker : List Nat) : Clo :=
  { clo32 100 with clo_taint_string := some marker }

/-- The marker `"marker"`. -/
def marker_bytes : List Nat := [109, 97, 114, 107, 101, 114]

/-- The buffer `"AAAmarkerBBB"`. -/
def buffer_bytes : List Nat := [65, 65, 65, 109, 97, 114, 107, 101, 114, 66, 66, 66]

/-- Options with stdin tainting on, file and network tainting off and the
path filter `"/tmp"`. -/
def clo_stdin : Clo :=
  { clo32 100 with clo_taint_stdin := true, clo_file_filter := [47, 116, 109, 112] }

/-- Options with file tainting on and the path filter `"/tmp"`. -/
def clo_file : Clo :=
  { clo32 100 with clo_taint_file := true, clo_file_filter := [47, 116, 109, 112] }

/-- Options with only network tainting on. -/
def clo_network : Clo :=
  { clo32 100 with clo_taint_network := true }

/-- Link resolution in which every descriptor resolves to `"/etc"`. -/
def readlink_etc : Int → Option (List Nat) := fun _ => some [47, 101, 116, 99]

/-- Link resolution in which every descriptor resolves to `"/tmp/x"`. -/
def readlink_tmp : Int → Option (List Nat) := fun _ => some [47, 116, 109, 112, 47, 120]

/-- Registers of a syscall with first argument `ebx` and second `ecx`. -/
def regs (ebx ecx : Nat) : GuestRegs :=
  { guest_EAX := 0, guest_ECX := ecx, guest_EDX := 0, guest_EBX := ebx,
    guest_ESI := 0, guest_EDI := 0, guest_EBP := 0 }

/-- The argument block of `socketpair(1, 1, 0, sv)` at 4096, with the pair
`sv = {4, 5}` stored behind it at 4112. -/
def socketpair_memory : Int → Nat := mem_words 4096 [1, 1, 0, 4112, 4, 5]

/-- A pool chunk (kind `FL_AllocCustom`) of `n` bytes at `d`. -/
def pool_chunk (d : Int) (n : Nat) : FL_Chunk :=
  { data := d, szB := n, allockind := FL_AllocKind.FL_AllocCustom }

/-- Start-up state with one pool, of identifier 7 and redzone `rzB`, that
holds `chunks`. -/
def state_one_pool (rzB : Nat) (sh : Shadow) (chunks : VgHashTable) : FL_State :=
  { init_state sh with
    mempool_list := [{ pool := 7, rzB := rzB, is_zeroed := false, chunks := chunks }] }

/-- One call of a pool hook with its arguments. -/
inductive PoolHook where
  | create_mempool (pool : Int) (rzB : Nat) ( is_zeroed : Bool)
  | destroy_mempool (pool : Int)
  | mempool_alloc (pool addr : Int) (szB : Nat)
  | mempool_free (pool addr : Int)
  | mempool_trim (pool addr : Int) (szB : Nat)
  | move_mempool (poolA poolB : Int)
  | mempool_change (pool addrA addrB : Int) (szB : Nat)

/-- One pool hook, run by thread `tid`. -/
def run_pool_hook (cfg : Clo) (tid : ThreadId) (s : FL_State) : PoolHook → Option FL_State
  | PoolHook.create_mempool pool rzB z => FL_create_mempool s pool rzB z
  | PoolHook.destroy_mempool pool => some (FL_destroy_mempool s tid pool)
  | PoolHook.mempool_alloc pool addr szB => FL_mempool_alloc s tid pool addr szB
  | PoolHook.mempool_free pool addr => FL_mempool_free cfg s tid pool addr
  | PoolHook.mempool_trim pool addr szB => FL_mempool_trim cfg s tid pool addr szB
  | PoolHook.move_mempool poolA poolB => some (FL_move_mempool s tid poolA poolB)
  | PoolHook.mempool_change pool addrA addrB szB =>
    some (FL_mempool_change s tid pool addrA addrB szB)

/-- A sequence of pool hooks, run one after the other. -/
def run_pool_hooks (cfg : Clo) (tid : ThreadId) : FL_State → List PoolHook → Option FL_State
  | s, [] => some s
  | s, h :: rest =>
    match run_pool_hook cfg tid s h with
    | none => none
    | some s1 => run_pool_hooks cfg tid s1 rest

/-- One call of a function of the malloc family, of the free family, of
`FL_(realloc)` or of a pool hook, with its arguments; `a_cli` is what
`VG_(cli_malloc)` returns if the call reaches it. -/
inductive HeapOp where
  | malloc (a_cli : Int) (n : Nat)
  | builtin_new (a_cli : Int) (n : Nat)
  | builtin_vec_new (a_cli : Int) (n : Nat)
  | memalign (a_cli : Int) (alignB n : Nat)
  | calloc (a_cli : Int) (nmemb size1 : Nat)
  | free (p : Int)
  | builtin_delete (p : Int)
  | builtin_vec_delete (p : Int)
  | realloc (a_cli : Int) (p : Int) (new_szB : Nat)
  | pool (hook : PoolHook)

/-- One operation on the heap, run by thread `tid`; the pointer that an
allocation returns is dropped. -/
def run_heap_op (cfg : Clo) (tid : ThreadId) (s : FL_State) : HeapOp → Option FL_State
  | HeapOp.malloc a_cli n => (FL_malloc cfg a_cli s tid n).map Prod.snd
  | HeapOp.builtin_new a_cli n => (FL___builtin_new cfg a_cli s tid n).map Prod.snd
  | HeapOp.builtin_vec_new a_cli n => (FL___builtin_vec_new cfg a_cli s tid n).map Prod.snd
  | HeapOp.memalign a_cli alignB n => (FL_memalign cfg a_cli s tid alignB n).map Prod.snd
  | HeapOp.calloc a_cli nmemb size1 => (FL_calloc cfg a_cli s tid nmemb size1).map Prod.snd
  | HeapOp.free p => FL_free cfg s tid p
  | HeapOp.builtin_delete p => FL___builtin_delete cfg s tid p
  | HeapOp.builtin_vec_delete p => FL___builtin_vec_delete cfg s tid p
  | HeapOp.realloc a_cli p new_szB => (FL_realloc cfg a_cli s tid p new_szB).map Prod.snd
  | HeapOp.pool hook => run_pool_hook cfg tid s hook

/-- A sequence of operations on the heap, each with the thread that runs
it. -/
def run_heap_ops (cfg : Clo) : FL_State → List (ThreadId × HeapOp) → Option FL_State
  | s, [] => some s
  | s, op :: rest =>
    match run_heap_op cfg op.1 s op.2 with
    | none => none
    | some s1 => run_heap_ops cfg s1 rest

/-- The freed queue at start-up, over a heap of the engine in which the record
at address `p` describes a block of 60 bytes at `4096 + 64 * p`. -/
def queue_at_startup : FreedQueue :=
  { freed_list_start := none, freed_list_end := none, freed_list_volume := 0,
    next := fun _ => none,
    chunk := fun p =>
      { data := 4096 + 64 * (p : Int), szB := 60, allockind := FL_AllocKind.FL_AllocMalloc } }

/-- The two pointers, the counter and the link of the newest record of the
queue that a run has produced, with the released addresses. -/
def queue_summary :
    Run (FreedQueue × List Int) → Option (Option Nat × Option Nat × Int × Option Nat × List Int)
  | Run.done (q, released) =>
    some (q.freed_list_start, q.freed_list_end, q.freed_list_volume,
          q.freed_list_end.bind q.next, released)
  | _ => none

/-- A sequence of calls of `add_to_freed_queue` on the records, one for each
address of `mcs`, each with `fuel` turns for its loop. -/
def add_records (budget : Int) (fuel : Nat) :
    FreedQueue → List Nat → Run (FreedQueue × List Int)
  | q, [] => Run.done (q, [])
  | q, mc :: rest =>
    match add_to_freed_queue_records budget fuel q mc with
    | Run.done (q1, released) =>
      match add_records budget fuel q1 rest with
      | Run.done (q2, released2) => Run.done (q2, released ++ released2)
      | Run.assert_failed => Run.assert_failed
      | Run.out_of_fuel => Run.out_of_fuel
    | Run.assert_failed => Run.assert_failed
    | Run.out_of_fuel => Run.out_of_fuel

/-- The kinds of the chunks are separated: every chunk in the table of a pool
has the kind `FL_AllocCustom`, no chunk of the registry and no chunk of the
freed queue has it. -/
def kinds_separated (s : FL_State) : Prop :=
  (∀ mp ∈ s.mempool_list, ∀ c ∈ mp.chunks, c.allockind = FL_AllocKind.FL_AllocCustom)
    ∧ (∀ c ∈ s.malloc_list, c.allockind ≠ FL_AllocKind.FL_AllocCustom)
    ∧ (∀ c ∈ s.freed_list, c.allockind ≠ FL_AllocKind.FL_AllocCustom)

/-- A sorting routine that can stand for `VG_(ssort)` with `mp_compar`:
insertion sort by base address. -/
def insertion_ssort (arr : List FL_Chunk) : List FL_Chunk :=
  List.insertionSort (fun a b => a.data ≤ b.data) arr

/-- Message header at 8192 for `recvmsg`: `msg_iov` points to the vector at
8256, whose first buffer is at 12288; `msg_control` is 16384. -/
def recvmsg_memory : Int → Nat :=
  fun a =>
    if a = 4096 then 5 else if a = 4100 then 8192
    else if a = 8200 then 8256 else if a = 8204 then 1 else if a = 8208 then 16384
    else if a = 8256 then 12288 else if a = 8260 then 64 else 0

/-! ## Lemmas -/

theorem HT_remove_data {t : VgHashTable} {p : Int} {mc : FL_Chunk} {rest : VgHashTable}
    (h : HT_remove t p = some (mc, rest)) : mc.data = p := by
  induction t generalizing rest with
  | nil => simp [HT_remove] at h
  | cons c t ih =>
    unfold HT_remove at h
    split at h
    · next hc =>
      simp only [Option.some.injEq, Prod.mk.injEq] at h
      rw [← h.1]; exact hc
    · split at h
      · simp at h
      · next found rest1 heq =>
        simp only [Option.some.injEq, Prod.mk.injEq] at h
        obtain ⟨h1, _⟩ := h
        subst h1
        exact ih heq

theorem HT_remove_none {t : VgHashTable} {p : Int} (h : ∀ c ∈ t, c.data ≠ p) :
    HT_remove t p = none := by
  induction t with
  | nil => rfl
  | cons c t ih =>
    have hc : c.data ≠ p := h c (List.mem_cons_self c t)
    have ht : HT_remove t p = none := ih (fun d hd => h d (List.mem_cons_of_mem c hd))
    simp [HT_remove, hc, ht]

theorem queue_volume_nonneg (q : List FL_Chunk) : 0 ≤ queue_volume q := by
  induction q with
  | nil => simp [queue_volume]
  | cons c q ih => simp only [queue_volume]; omega

theorem queue_volume_append (q r : List FL_Chunk) :
    queue_volume (q ++ r) = queue_volume q + queue_volume r := by
  induction q with
  | nil => simp [queue_volume]
  | cons c q ih =>
    have h : queue_volume (c :: (q ++ r)) = (c.szB : Int) + queue_volume (q ++ r) := rfl
    have h2 : queue_volume (c :: q) = (c.szB : Int) + queue_volume q := rfl
    rw [List.cons_append, h, h2, ih]; omega

/-- The eviction loop on a queue whose counter is exact: it returns, the
evicted chunks are a front segment, the kept queue is within the budget and
no longer end segment of the queue is. -/
theorem add_to_freed_queue_loop_spec (budget : Int) (hb : 0 ≤ budget) (q : List FL_Chunk) :
    ∃ evicted kept, add_to_freed_queue_loop budget q (queue_volume q)
        = some (kept, queue_volume kept, evicted.map FL_Chunk.data)
      ∧ evicted ++ kept = q
      ∧ queue_volume kept ≤ budget
      ∧ ∀ front t, front ++ t = q → queue_volume t ≤ budget → t.length ≤ kept.length := by
  induction q with
  | nil =>
    refine ⟨[], [], ?_, rfl, ?_, ?_⟩
    · simp [add_to_freed_queue_loop, queue_volume]; omega
    · simpa [queue_volume] using hb
    · intro front t h _
      have : t = [] := (List.append_eq_nil.mp h).2
      simp [this]
  | cons c q ih =>
    obtain ⟨evicted, kept, hrun, hsplit, hvol, hmax⟩ := ih
    by_cases hgt : queue_volume (c :: q) > budget
    · refine ⟨c :: evicted, kept, ?_, by simp [hsplit], hvol, ?_⟩
      · have hq := queue_volume_nonneg q
        have hsub : queue_volume (c :: q) - (c.szB : Int) = queue_volume q := by
          simp only [queue_volume]; omega
        unfold add_to_freed_queue_loop
        rw [if_pos hgt, hsub, if_neg (by omega), hrun]
        simp
      · intro front t h ht
        cases front with
        | nil =>
          simp only [List.nil_append] at h
          rw [h] at ht; omega
        | cons d front =>
          simp only [List.cons_append, List.cons.injEq] at h
          exact hmax front t h.2 ht
    · refine ⟨[], c :: q, ?_, rfl, by omega, ?_⟩
      · unfold add_to_freed_queue_loop
        rw [if_neg hgt]; simp
      · intro front t h _
        have := congrArg List.length h
        simp only [List.length_append] at this
        omega

/-- `add_to_freed_queue` on a state whose counter is exact: the call returns,
the evicted chunks are a front segment of the extended queue and are handed
to `VG_(cli_free)` in order, the kept queue is the longest end segment within
the budget, and nothing but the quarantine changes. -/
theorem add_to_freed_queue_spec (cfg : Clo) (s : FL_State) (c : FL_Chunk)
    (hb : 0 ≤ cfg.clo_freelist_vol) (hv : s.freed_list_volume = queue_volume s.freed_list) :
    ∃ evicted s1, add_to_freed_queue cfg s c = some s1
      ∧ evicted ++ s1.freed_list = s.freed_list ++ [c]
      ∧ s1.cli_freed = s.cli_freed ++ evicted.map FL_Chunk.data
      ∧ s1.freed_list_volume = queue_volume s1.freed_list
      ∧ s1.freed_list_volume ≤ cfg.clo_freelist_vol
      ∧ (∀ front t, front ++ t = s.freed_list ++ [c] →
          queue_volume t ≤ cfg.clo_freelist_vol → t.length ≤ s1.freed_list.length)
      ∧ s1.shadow = s.shadow ∧ s1.malloc_list = s.malloc_list
      ∧ s1.mempool_list = s.mempool_list ∧ s1.errors = s.errors
      ∧ s1.tainted_fds = s.tainted_fds := by
  obtain ⟨evicted, kept, hrun, hsplit, hvol, hmax⟩ :=
    add_to_freed_queue_loop_spec cfg.clo_freelist_vol hb (s.freed_list ++ [c])
  have hvol_eq : (match s.freed_list with
      | [] => (c.szB : Int)
      | _ :: _ => s.freed_list_volume + (c.szB : Int)) = queue_volume (s.freed_list ++ [c]) := by
    rw [queue_volume_append]
    cases hq : s.freed_list with
    | nil => simp [queue_volume]
    | cons d q => rw [hv, hq]; simp [queue_volume]
  have hadd : add_to_freed_queue cfg s c
      = some { s with freed_list := kept, freed_list_volume := queue_volume kept,
                      cli_freed := s.cli_freed ++ evicted.map FL_Chunk.data } := by
    unfold add_to_freed_queue
    simp only [hvol_eq, hrun]
  exact ⟨evicted, _, hadd, hsplit, rfl, rfl, hvol, hmax, rfl, rfl, rfl, rfl, rfl⟩

/-- A chunk that fits the budget stays at the end of the queue. -/
theorem kept_ends_with (budget : Int) (q evicted kept : List FL_Chunk) (c : FL_Chunk)
    (hc : (c.szB : Int) ≤ budget) (hsplit : evicted ++ kept = q ++ [c])
    (hmax : ∀ front t, front ++ t = q ++ [c] → queue_volume t ≤ budget →
      t.length ≤ kept.length) :
    ∃ kept0, kept = kept0 ++ [c] ∧ evicted ++ kept0 = q := by
  have hlen : 1 ≤ kept.length := by
    have := hmax q [c] rfl (by simpa [queue_volume] using hc)
    simpa using this
  have hne : kept ≠ [] := by
    intro h; rw [h] at hlen; simp at hlen
  have hk : kept.dropLast ++ [kept.getLast hne] = kept := List.dropLast_append_getLast hne
  have h2 : (evicted ++ kept.dropLast) ++ [kept.getLast hne] = q ++ [c] := by
    rw [List.append_assoc, hk, hsplit]
  have h3 := List.append_inj' h2 (by simp)
  refine ⟨kept.dropLast, ?_, h3.1⟩
  have h4 : kept.getLast hne = c := by simpa using h3.2
  rw [← h4, hk]

/-- The outcome of `die_and_free_mem` on a state whose counter is exact. -/
theorem die_and_free_mem_eq (cfg : Clo) (s : FL_State) (tid : ThreadId) (mc : FL_Chunk)
    (rzB : Nat) (hb : 0 ≤ cfg.clo_freelist_vol)
    (hv : s.freed_list_volume = queue_volume s.freed_list) :
    ∃ s1, die_and_free_mem cfg s tid mc rzB = some s1
      ∧ s1.shadow = make_mem_defined (make_mem_noaccess s.shadow (mc.data - (rzB : Int))
          (mc.szB + 2 * rzB)) (mc.data - (rzB : Int)) (mc.szB + 2 * rzB)
      ∧ s1.malloc_list = s.malloc_list ∧ s1.mempool_list = s.mempool_list
      ∧ s1.errors = s.errors ∧ s1.tainted_fds = s.tainted_fds
      ∧ s1.freed_list_volume = queue_volume s1.freed_list
      ∧ (s.freed_list_volume ≤ cfg.clo_freelist_vol →
          s1.freed_list_volume ≤ cfg.clo_freelist_vol)
      ∧ (mc.allockind = FL_AllocKind.FL_AllocCustom →
          s1.freed_list = s.freed_list ∧ s1.cli_freed = s.cli_freed)
      ∧ (mc.allockind ≠ FL_AllocKind.FL_AllocCustom →
          ∃ evicted, evicted ++ s1.freed_list = s.freed_list ++ [mc]
            ∧ s1.cli_freed = s.cli_freed ++ evicted.map FL_Chunk.data
            ∧ ∀ front t, front ++ t = s.freed_list ++ [mc] →
                queue_volume t ≤ cfg.clo_freelist_vol → t.length ≤ s1.freed_list.length) := by
  by_cases hk : mc.allockind = FL_AllocKind.FL_AllocCustom
  · refine ⟨{ s with shadow := make_mem_defined (make_mem_noaccess s.shadow
        (mc.data - (rzB : Int)) (mc.szB + 2 * rzB)) (mc.data - (rzB : Int)) (mc.szB + 2 * rzB) },
      ?_, rfl, rfl, rfl, rfl, rfl, hv, fun h => h, fun _ => ⟨rfl, rfl⟩, fun h => absurd hk h⟩
    simp [die_and_free_mem, hk]
  · obtain ⟨evicted, s1, hrun, hsplit, hcli, hvq, hvol, hmax, hsh, hml, hmp, herr, hfd⟩ :=
      add_to_freed_queue_spec cfg
        { s with shadow := make_mem_defined (make_mem_noaccess s.shadow (mc.data - (rzB : Int))
          (mc.szB + 2 * rzB)) (mc.data - (rzB : Int)) (mc.szB + 2 * rzB) } mc hb hv
    have hdie : die_and_free_mem cfg s tid mc rzB = some s1 := by
      simp only [die_and_free_mem, ne_eq, hk, not_false_eq_true, if_true]
      exact hrun
    exact ⟨s1, hdie, hsh, hml, hmp, herr, hfd, hvq, fun _ => hvol, fun h => absurd h hk,
      fun _ => ⟨evicted, hsplit, hcli, hmax⟩⟩

theorem add_to_freed_queue_frame {cfg : Clo} {s s1 : FL_State} {c : FL_Chunk}
    (h : add_to_freed_queue cfg s c = some s1) :
    s1.shadow = s.shadow ∧ s1.malloc_list = s.malloc_list ∧ s1.mempool_list = s.mempool_list
      ∧ s1.errors = s.errors ∧ s1.tainted_fds = s.tainted_fds := by
  unfold add_to_freed_queue at h
  split at h <;> simp only at h <;> split at h <;> cases h <;>
    exact ⟨rfl, rfl, rfl, rfl, rfl⟩

theorem die_and_free_mem_shadow {cfg : Clo} {s s1 : FL_State} {tid : ThreadId} {mc : FL_Chunk}
    {rzB : Nat} (h : die_and_free_mem cfg s tid mc rzB = some s1) (x : Int) :
    s1.shadow x = if mc.data - (rzB : Int) ≤ x ∧ x < mc.data + (mc.szB : Int) + (rzB : Int)
      then ShadowByte.Untainted else s.shadow x := by
  have hsh : s1.shadow = make_mem_defined (make_mem_noaccess s.shadow (mc.data - (rzB : Int))
      (mc.szB + 2 * rzB)) (mc.data - (rzB : Int)) (mc.szB + 2 * rzB) := by
    unfold die_and_free_mem at h
    split at h
    · exact (add_to_freed_queue_frame h).1
    · simp only [Option.some.injEq] at h
      subst h; rfl
  rw [hsh]
  simp only [make_mem_defined, make_mem_noaccess, set_range]
  have hiff : (mc.data - (rzB : Int) ≤ x ∧ x < mc.data - (rzB : Int) + ((mc.szB + 2 * rzB : Nat) : Int))
      ↔ (mc.data - (rzB : Int) ≤ x ∧ x < mc.data + (mc.szB : Int) + (rzB : Int)) := by
    constructor <;> intro h <;> constructor <;> omega
  by_cases hx : mc.data - (rzB : Int) ≤ x ∧ x < mc.data + (mc.szB : Int) + (rzB : Int)
  · rw [if_pos (hiff.mpr hx), if_pos hx]
  · rw [if_neg (fun h => hx (hiff.mp h)), if_neg (fun h => hx (hiff.mp h)), if_neg hx]

/-- `FL_(handle_free)` on a live chunk, in a state whose quarantine counter is
exact. -/
theorem handle_free_live (cfg : Clo) (s : FL_State) (tid : ThreadId) (p : Int) (rzB : Nat)
    (kind : FL_AllocKind) (mc : FL_Chunk) (rest : VgHashTable)
    (hlive : HT_remove s.malloc_list p = some (mc, rest))
    (hb : 0 ≤ cfg.clo_freelist_vol) (hv : s.freed_list_volume = queue_volume s.freed_list) :
    ∃ s1, FL_handle_free cfg s tid p rzB kind = some s1
      ∧ s1.malloc_list = rest
      ∧ s1.errors = (if kind = mc.allockind then s.errors
          else s.errors ++ [FL_Error.freemismatch_error tid mc])
      ∧ s1.mempool_list = s.mempool_list
      ∧ s1.freed_list_volume = queue_volume s1.freed_list
      ∧ (s.freed_list_volume ≤ cfg.clo_freelist_vol →
          s1.freed_list_volume ≤ cfg.clo_freelist_vol)
      ∧ (mc.allockind = FL_AllocKind.FL_AllocCustom →
          s1.freed_list = s.freed_list ∧ s1.cli_freed = s.cli_freed)
      ∧ (mc.allockind ≠ FL_AllocKind.FL_AllocCustom →
          ∃ evicted, evicted ++ s1.freed_list = s.freed_list ++ [mc]
            ∧ s1.cli_freed = s.cli_freed ++ evicted.map FL_Chunk.data
            ∧ ∀ front t, front ++ t = s.freed_list ++ [mc] →
                queue_volume t ≤ cfg.clo_freelist_vol → t.length ≤ s1.freed_list.length) := by
  have hdata : mc.data = p := HT_remove_data hlive
  by_cases hk : kind = mc.allockind
  · obtain ⟨s1, hdie, _, hml, hmp, herr, _, hvq, hvol, hcus, hnc⟩ :=
      die_and_free_mem_eq cfg
        { s with cmalloc_n_frees := s.cmalloc_n_frees + 1, malloc_list := rest } tid mc rzB hb hv
    refine ⟨s1, ?_, hml, ?_, hmp, hvq, hvol, hcus, hnc⟩
    · simp only [FL_handle_free, hlive, ne_eq, hk, not_true_eq_false, if_false]
      exact hdie
    · rw [if_pos hk]; exact herr
  · obtain ⟨s1, hdie, _, hml, hmp, herr, _, hvq, hvol, hcus, hnc⟩ :=
      die_and_free_mem_eq cfg
        (record_freemismatch_error
          { s with cmalloc_n_frees := s.cmalloc_n_frees + 1, malloc_list := rest } tid mc)
        tid mc rzB hb hv
    refine ⟨s1, ?_, hml, ?_, hmp, hvq, hvol, hcus, hnc⟩
    · simp only [FL_handle_free, hlive, ne_eq, hk, not_false_eq_true, if_true, hdata]
      exact hdie
    · rw [if_neg hk]; exact herr

/-- `FL_(handle_free)` on an address without a chunk. -/
theorem handle_free_absent (cfg : Clo) (s : FL_State) (tid : ThreadId) (p : Int) (rzB : Nat)
    (kind : FL_AllocKind) (habsent : ∀ c ∈ s.malloc_list, c.data ≠ p) :
    FL_handle_free cfg s tid p rzB kind
      = some (record_free_error { s with cmalloc_n_frees := s.cmalloc_n_frees + 1 } tid p) := by
  have h := HT_remove_none habsent
  simp only [FL_handle_free, h]

theorem HT_remove_cases (t : VgHashTable) (p : Int) :
    (∀ c ∈ t, c.data ≠ p) ∨ ∃ mc rest, HT_remove t p = some (mc, rest) := by
  induction t with
  | nil => left; intro c hc; simp at hc
  | cons c t ih =>
    by_cases hc : c.data = p
    · right; exact ⟨c, t, by simp [HT_remove, hc]⟩
    · rcases ih with h | ⟨mc, rest, h⟩
      · left
        intro d hd
        rcases List.mem_cons.mp hd with h1 | h1
        · rw [h1]; exact hc
        · exact h d h1
      · right; exact ⟨mc, c :: rest, by simp [HT_remove, hc, h]⟩

/-- Every call of `FL_(handle_free)` returns and keeps the quarantine counter
exact and within the budget. -/
theorem handle_free_invariant (cfg : Clo) (s : FL_State) (tid : ThreadId) (p : Int)
    (rzB : Nat) (kind : FL_AllocKind) (hb : 0 ≤ cfg.clo_freelist_vol)
    (hv : s.freed_list_volume = queue_volume s.freed_list)
    (hle : s.freed_list_volume ≤ cfg.clo_freelist_vol) :
    ∃ s1, FL_handle_free cfg s tid p rzB kind = some s1
      ∧ s1.freed_list_volume = queue_volume s1.freed_list
      ∧ s1.freed_list_volume ≤ cfg.clo_freelist_vol := by
  rcases HT_remove_cases s.malloc_list p with habsent | ⟨mc, rest, hlive⟩
  · exact ⟨_, handle_free_absent cfg s tid p rzB kind habsent, hv, hle⟩
  · obtain ⟨s1, hrun, _, _, _, hvq, hvol, _, _⟩ :=
      handle_free_live cfg s tid p rzB kind mc rest hlive hb hv
    exact ⟨s1, hrun, hvq, hvol hle⟩

theorem release_calls_invariant (cfg : Clo) (hb : 0 ≤ cfg.clo_freelist_vol)
    (calls : List FreeCall) (s : FL_State)
    (hv : s.freed_list_volume = queue_volume s.freed_list)
    (hle : s.freed_list_volume ≤ cfg.clo_freelist_vol) :
    ∃ s1, release_calls cfg s calls = some s1
      ∧ s1.freed_list_volume = queue_volume s1.freed_list
      ∧ s1.freed_list_volume ≤ cfg.clo_freelist_vol := by
  induction calls generalizing s with
  | nil => exact ⟨s, rfl, hv, hle⟩
  | cons c calls ih =>
    obtain ⟨s1, hrun, hv1, hle1⟩ := handle_free_invariant cfg s c.tid c.p c.rzB c.kind hb hv hle
    obtain ⟨s2, hrun2, hv2, hle2⟩ := ih s1 hv1 hle1
    exact ⟨s2, by simp only [release_calls, hrun]; exact hrun2, hv2, hle2⟩

/-- The shadow store after a release of a live chunk that returns. -/
theorem handle_free_shadow {cfg : Clo} {s s1 : FL_State} {tid : ThreadId} {p : Int} {rzB : Nat}
    {kind : FL_AllocKind} {mc : FL_Chunk} {rest : VgHashTable}
    (hlive : HT_remove s.malloc_list p = some (mc, rest))
    (hrun : FL_handle_free cfg s tid p rzB kind = some s1) (x : Int) :
    s1.shadow x = if p - (rzB : Int) ≤ x ∧ x < p + (mc.szB : Int) + (rzB : Int)
      then ShadowByte.Untainted else s.shadow x := by
  have hdata : mc.data = p := HT_remove_data hlive
  simp only [FL_handle_free, hlive] at hrun
  split at hrun
  · split at hrun
    · have h := die_and_free_mem_shadow hrun x
      rw [hdata] at h; exact h
    · cases hrun
  · have h := die_and_free_mem_shadow hrun x
    rw [hdata] at h; exact h

theorem die_and_free_mem_frame {cfg : Clo} {s s1 : FL_State} {tid : ThreadId} {mc : FL_Chunk}
    {rzB : Nat} (h : die_and_free_mem cfg s tid mc rzB = some s1) :
    s1.malloc_list = s.malloc_list ∧ s1.mempool_list = s.mempool_list ∧ s1.errors = s.errors
      ∧ s1.tainted_fds = s.tainted_fds := by
  unfold die_and_free_mem at h
  split at h
  · have hf := add_to_freed_queue_frame h
    exact ⟨hf.2.1, hf.2.2.1, hf.2.2.2.1, hf.2.2.2.2⟩
  · cases h
    exact ⟨rfl, rfl, rfl, rfl⟩

/-- The registry after a release of a live chunk that returns. -/
theorem handle_free_registry {cfg : Clo} {s s1 : FL_State} {tid : ThreadId} {p : Int}
    {rzB : Nat} {kind : FL_AllocKind} {mc : FL_Chunk} {rest : VgHashTable}
    (hlive : HT_remove s.malloc_list p = some (mc, rest))
    (hrun : FL_handle_free cfg s tid p rzB kind = some s1) : s1.malloc_list = rest := by
  simp only [FL_handle_free, hlive] at hrun
  split at hrun
  · split at hrun
    · exact (die_and_free_mem_frame hrun).1
    · cases hrun
  · exact (die_and_free_mem_frame hrun).1

/-- In a table with pairwise distinct keys, no chunk with the key is left
after `HT_remove`. -/
theorem HT_remove_rest_absent {t : VgHashTable} {p : Int} {mc : FL_Chunk} {rest : VgHashTable}
    (hnd : (t.map FL_Chunk.data).Nodup) (h : HT_remove t p = some (mc, rest)) :
    ∀ c ∈ rest, c.data ≠ p := by
  induction t generalizing rest with
  | nil => simp [HT_remove] at h
  | cons d t ih =>
    simp only [List.map_cons, List.nodup_cons] at hnd
    unfold HT_remove at h
    split at h
    · next hd =>
      simp only [Option.some.injEq, Prod.mk.injEq] at h
      intro c hc hcp
      apply hnd.1
      rw [hd, ← hcp]
      exact List.mem_map_of_mem FL_Chunk.data (h.2 ▸ hc)
    · next hd =>
      split at h
      · cases h
      · next found rest1 heq =>
        simp only [Option.some.injEq, Prod.mk.injEq] at h
        obtain ⟨h1, h2⟩ := h
        subst h1
        subst h2
        intro c hc
        rcases List.mem_cons.mp hc with hcd | hcr
        · rw [hcd]; exact hd
        · exact ih hnd.2 heq c hcr

theorem to_Int_small (v : Nat) (h : v < 256) : to_Int v = (v : Int) := by
  have h1 : v % 2 ^ 32 = v := Nat.mod_eq_of_lt (by omega)
  unfold to_Int
  rw [h1, if_pos (by omega)]

theorem die_and_free_mem_ne_none {cfg : Clo} {s : FL_State} {tid : ThreadId} {mc : FL_Chunk}
    {rzB : Nat} (hb : 0 ≤ cfg.clo_freelist_vol)
    (hv : s.freed_list_volume = queue_volume s.freed_list) :
    die_and_free_mem cfg s tid mc rzB ≠ none := by
  obtain ⟨s1, h, _⟩ := die_and_free_mem_eq cfg s tid mc rzB hb hv
  rw [h]; simp

theorem syscall_close_shadow (s : FL_State) (tid : ThreadId) (ts : GuestRegs) :
    (FL_syscall_close s tid ts).shadow = s.shadow := by
  unfold FL_syscall_close
  simp only []
  split <;> rfl

theorem syscall_open_shadow (cfg : Clo) (readlink : Int → Option (List Nat)) (s : FL_State)
    (tid : ThreadId) (res : Int) : (FL_syscall_open cfg readlink s tid res).shadow = s.shadow := by
  unfold FL_syscall_open
  simp only []
  split
  · rfl
  · split
    · split <;> rfl
    · rfl

/-- With file tainting on, an open that returns a descriptor in `0..255`
records whether the resolved path passes the filter. -/
theorem syscall_open_sets (cfg : Clo) (readlink : Int → Option (List Nat)) (s : FL_State)
    (tid : ThreadId) (fd : Nat) (hfile : cfg.clo_taint_file = true) (hfd : fd < 256) :
    (FL_syscall_open cfg readlink s tid (fd : Int)).tainted_fds tid fd
      = strncmp_eq (resolve_fd readlink (fd : Int) (MAX_PATH - 1)) cfg.clo_file_filter := by
  have h1 : ¬ (cfg.clo_taint_file = false ∧ ((fd : Int) ≠ 0 ∨ cfg.clo_taint_stdin = false)) := by
    rw [hfile]; simp
  have h2 : (fd : Int) > -1 ∧ (fd : Int) < MAXIMUM_FDS := by
    simp only [MAXIMUM_FDS]; omega
  unfold FL_syscall_open
  simp only [if_neg h1, if_pos h2, Int.toNat_natCast]
  cases hm : strncmp_eq (resolve_fd readlink (fd : Int) (MAX_PATH - 1)) cfg.clo_file_filter
  · simp [set_tainted_fd]
  · simp [set_tainted_fd]

/-- A read on a descriptor in `0..255` that is not Tainted, with no marker
configured, changes nothing. -/
theorem syscall_read_untainted (cfg : Clo) (mem : Int → Nat) (valid : Int → Nat → Bool)
    (fuel : Nat) (s : FL_State) (tid : ThreadId) (ts : GuestRegs) (res : Int)
    (hmark : cfg.clo_taint_string = none) (hfd : ts.guest_EBX < 256)
    (hclean : s.tainted_fds tid ts.guest_EBX = false) :
    FL_syscall_read cfg mem valid fuel s tid ts res = some s := by
  have hto : to_Int ts.guest_EBX = (ts.guest_EBX : Int) := to_Int_small _ hfd
  have h2 : ¬ (to_Int ts.guest_EBX < MAXIMUM_FDS
      ∧ s.tainted_fds tid (to_Int ts.guest_EBX).toNat = true) := by
    rw [hto, Int.toNat_natCast, hclean]
    simp
  unfold FL_syscall_read
  simp only [populate_guest_args, if_neg h2, hmark]
  split <;> rfl

/-- A read with a positive result on a Tainted descriptor in `0..255`. -/
theorem syscall_read_tainted (cfg : Clo) (mem : Int → Nat) (valid : Int → Nat → Bool)
    (fuel : Nat) (s : FL_State) (tid : ThreadId) (ts : GuestRegs) (res : Int)
    (hfd : ts.guest_EBX < 256) (htaint : s.tainted_fds tid ts.guest_EBX = true)
    (hres : 0 < res) :
    FL_syscall_read cfg mem valid fuel s tid ts res
      = some { s with shadow := make_mem_undefined s.shadow (ts.guest_ECX : Int) res.toNat } := by
  have hto : to_Int ts.guest_EBX = (ts.guest_EBX : Int) := to_Int_small _ hfd
  have h1 : ¬ (to_Int ts.guest_EBX < 0 ∨ res ≤ 0) := by rw [hto]; omega
  have h2 : to_Int ts.guest_EBX < MAXIMUM_FDS
      ∧ s.tainted_fds tid (to_Int ts.guest_EBX).toNat = true := by
    rw [hto]
    refine ⟨by simp only [MAXIMUM_FDS]; omega, ?_⟩
    rw [Int.toNat_natCast]; exact htaint
  simp only [FL_syscall_read, populate_guest_args, if_neg h1, if_pos h2]

theorem silly_false_of_lt (cfg : Clo) (n : Nat) (h : n < 2 ^ (cfg.wordBits - 1)) :
    complain_about_silly_args cfg n = false := by
  have hmod : n % 2 ^ cfg.wordBits ≤ n := Nat.mod_le _ _
  unfold complain_about_silly_args
  rw [decide_eq_false_iff_not]
  omega

theorem HT_lookup_none {t : VgHashTable} {p : Int} (h : ∀ c ∈ t, c.data ≠ p) :
    HT_lookup t p = none := by
  induction t with
  | nil => rfl
  | cons c t ih =>
    have hc : c.data ≠ p := h c (List.mem_cons_self c t)
    have ht : HT_lookup t p = none := ih (fun d hd => h d (List.mem_cons_of_mem c hd))
    simp [HT_lookup, hc, ht]

/-- The quarantine after `add_to_freed_queue` depends only on the quarantine
before it. -/
theorem add_to_freed_queue_congr {cfg : Clo} {s t s1 t1 : FL_State} {c : FL_Chunk}
    (hq : s.freed_list = t.freed_list) (hvol : s.freed_list_volume = t.freed_list_volume)
    (hcli : s.cli_freed = t.cli_freed)
    (hs : add_to_freed_queue cfg s c = some s1) (ht : add_to_freed_queue cfg t c = some t1) :
    s1.freed_list = t1.freed_list ∧ s1.freed_list_volume = t1.freed_list_volume
      ∧ s1.cli_freed = t1.cli_freed := by
  unfold add_to_freed_queue at hs ht
  rw [hq, hvol, hcli] at hs
  simp only [] at hs ht
  revert hs ht
  generalize add_to_freed_queue_loop cfg.clo_freelist_vol (t.freed_list ++ [c]) _ = r
  intro hs ht
  cases r with
  | none => cases hs
  | some val =>
    obtain ⟨q, v, released⟩ := val
    cases hs
    cases ht
    exact ⟨rfl, rfl, rfl⟩

/-- The quarantine after `die_and_free_mem` depends only on the chunk and the
quarantine before it. -/
theorem die_and_free_mem_congr {cfg : Clo} {s t s1 t1 : FL_State} {tid tid1 : ThreadId}
    {mc : FL_Chunk} {rzB rzB1 : Nat}
    (hq : s.freed_list = t.freed_list) (hvol : s.freed_list_volume = t.freed_list_volume)
    (hcli : s.cli_freed = t.cli_freed)
    (hs : die_and_free_mem cfg s tid mc rzB = some s1)
    (ht : die_and_free_mem cfg t tid1 mc rzB1 = some t1) :
    s1.freed_list = t1.freed_list ∧ s1.freed_list_volume = t1.freed_list_volume
      ∧ s1.cli_freed = t1.cli_freed := by
  unfold die_and_free_mem at hs ht
  by_cases hk : mc.allockind = FL_AllocKind.FL_AllocCustom
  · simp only [ne_eq, hk, not_true_eq_false, if_false] at hs ht
    cases hs
    cases ht
    exact ⟨hq, hvol, hcli⟩
  · simp only [ne_eq, hk, not_false_eq_true, if_true] at hs ht
    refine add_to_freed_queue_congr ?_ ?_ ?_ hs ht
    · exact hq
    · exact hvol
    · exact hcli

/-- A release of a live chunk that returns is a call of `die_and_free_mem` on
a state with the same quarantine. -/
theorem handle_free_as_die {cfg : Clo} {s s1 : FL_State} {tid : ThreadId} {p : Int}
    {rzB : Nat} {kind : FL_AllocKind} {mc : FL_Chunk} {rest : VgHashTable}
    (hlive : HT_remove s.malloc_list p = some (mc, rest))
    (hrun : FL_handle_free cfg s tid p rzB kind = some s1) :
    ∃ t : FL_State, t.freed_list = s.freed_list ∧ t.freed_list_volume = s.freed_list_volume
      ∧ t.cli_freed = s.cli_freed ∧ die_and_free_mem cfg t tid mc rzB = some s1 := by
  simp only [FL_handle_free, hlive] at hrun
  split at hrun
  · split at hrun
    · refine ⟨_, ?_, ?_, ?_, hrun⟩ <;> rfl
    · cases hrun
  · refine ⟨_, ?_, ?_, ?_, hrun⟩ <;> rfl

/-- The growing branch of `FL_(realloc)`: the call is the release of the old
chunk by `die_and_free_mem`, in a state that has the shadow store
`realloc_grow_shadow`, followed by the registration of the new chunk. -/
theorem realloc_grow (cfg : Clo) (s : FL_State) (tid : ThreadId) (p : Int) (mc : FL_Chunk)
    (rest : VgHashTable) (a : Int) (new_szB : Nat)
    (hlive : HT_remove s.malloc_list p = some (mc, rest))
    (hb : 0 ≤ cfg.clo_freelist_vol) (hv : s.freed_list_volume = queue_volume s.freed_list)
    (hsilly : complain_about_silly_args cfg new_szB = false)
    (hgrow : mc.szB < new_szB) (ha : a ≠ 0) :
    ∃ s3 s4 : FL_State, s3.freed_list = s.freed_list
      ∧ s3.freed_list_volume = s.freed_list_volume ∧ s3.cli_freed = s.cli_freed
      ∧ s3.malloc_list = rest ∧ s3.mempool_list = s.mempool_list
      ∧ die_and_free_mem cfg
          { s3 with shadow := realloc_grow_shadow s.shadow p a mc.szB new_szB }
          tid mc FL_MALLOC_REDZONE_SZB = some s4
      ∧ FL_realloc cfg a s tid p new_szB
          = some (a, { s4 with malloc_list :=
              { data := a, szB := new_szB % 2 ^ szB_bits,
                allockind := FL_AllocKind.FL_AllocMalloc }
                :: s4.malloc_list }) := by
  have hdata : mc.data = p := HT_remove_data hlive
  unfold FL_realloc
  simp only [hsilly, hlive, Bool.false_eq_true, if_false]
  by_cases hk : mc.allockind = FL_AllocKind.FL_AllocMalloc
  · have hk1 : ¬ (FL_AllocKind.FL_AllocMalloc ≠ mc.allockind) := by simp [hk]
    rw [if_neg hk1]
    simp only []
    rw [if_neg (by omega), if_neg (by omega), if_pos ha]
    split
    · next hnone => exact absurd hnone (die_and_free_mem_ne_none hb (by exact hv))
    · next s4 hdie =>
      exact ⟨{ s with cmalloc_n_frees := s.cmalloc_n_frees + 1,
                      cmalloc_n_mallocs := s.cmalloc_n_mallocs + 1,
                      cmalloc_bs_mallocd := s.cmalloc_bs_mallocd + new_szB,
                      malloc_list := rest }, s4, rfl, rfl, rfl, rfl, rfl, hdie, rfl⟩
  · have hk1 : FL_AllocKind.FL_AllocMalloc ≠ mc.allockind := fun h => hk h.symm
    rw [if_pos hk1, if_pos hdata.symm]
    simp only []
    rw [if_neg (by omega), if_neg (by omega), if_pos ha]
    split
    · next hnone => exact absurd hnone (die_and_free_mem_ne_none hb (by exact hv))
    · next s4 hdie =>
      exact ⟨record_freemismatch_error
          { s with cmalloc_n_frees := s.cmalloc_n_frees + 1,
                   cmalloc_n_mallocs := s.cmalloc_n_mallocs + 1,
                   cmalloc_bs_mallocd := s.cmalloc_bs_mallocd + new_szB,
                   malloc_list := rest } tid mc, s4, rfl, rfl, rfl, rfl, rfl, hdie, rfl⟩

theorem HT_remove_mem {t : VgHashTable} {p : Int} {mc : FL_Chunk} {rest : VgHashTable}
    (h : HT_remove t p = some (mc, rest)) : mc ∈ t := by
  induction t generalizing rest with
  | nil => simp [HT_remove] at h
  | cons c t ih =>
    unfold HT_remove at h
    split at h
    · simp only [Option.some.injEq, Prod.mk.injEq] at h
      rw [← h.1]; exact List.mem_cons_self c t
    · split at h
      · cases h
      · next found rest1 heq =>
        simp only [Option.some.injEq, Prod.mk.injEq] at h
        obtain ⟨h1, _⟩ := h
        subst h1
        exact List.mem_cons_of_mem c (ih heq)

/-- An open that returns descriptor 0 while stdin tainting is on is handled,
and records whether the resolved path passes the filter, like every other
handled open. -/
theorem syscall_open_stdin (cfg : Clo) (readlink : Int → Option (List Nat)) (s : FL_State)
    (tid : ThreadId) (hstdin : cfg.clo_taint_stdin = true) :
    (FL_syscall_open cfg readlink s tid 0).tainted_fds tid 0
      = strncmp_eq (resolve_fd readlink 0 (MAX_PATH - 1)) cfg.clo_file_filter := by
  have h1 : ¬ (cfg.clo_taint_file = false ∧ ((0 : Int) ≠ 0 ∨ cfg.clo_taint_stdin = false)) := by
    rw [hstdin]; simp
  have h2 : (0 : Int) > -1 ∧ (0 : Int) < MAXIMUM_FDS := by
    simp only [MAXIMUM_FDS]; omega
  unfold FL_syscall_open
  simp only [if_neg h1, if_pos h2]
  cases hm : strncmp_eq (resolve_fd readlink 0 (MAX_PATH - 1)) cfg.clo_file_filter
  · simp [set_tainted_fd]
  · simp [set_tainted_fd]

/-- The network handlers with network tainting on: the descriptor each of
them reads, when in `0..255`, is Tainted afterwards. -/
theorem network_handlers_taint (cfg : Clo) (memw : Int → Nat) (s : FL_State) (tid : ThreadId)
    (ts : GuestRegs) (res : Int) (fd : Nat) (hnet : cfg.clo_taint_network = true)
    (hfd : fd < 256) :
    (FL_syscall_socket cfg s tid (fd : Int)).tainted_fds tid fd = true
      ∧ (FL_syscall_accept cfg s tid (fd : Int)).tainted_fds tid fd = true
      ∧ (to_Int (SC_ARG memw ts 0) = (fd : Int) →
          (FL_syscall_connect cfg memw s tid ts res).tainted_fds tid fd = true)
      ∧ (to_Int (memw (SC_ARG memw ts 3 : Int)) = (fd : Int) →
          (FL_syscall_socketpair cfg memw s tid ts res).tainted_fds tid fd = true) := by
  have h1 : ¬ (cfg.clo_taint_network = false) := by rw [hnet]; simp
  have h2 : (fd : Int) > -1 ∧ (fd : Int) < MAXIMUM_FDS := by
    simp only [MAXIMUM_FDS]; omega
  refine ⟨?_, ?_, ?_, ?_⟩
  · simp [FL_syscall_socket, h1, h2, set_tainted_fd]
  · simp [FL_syscall_accept, h1, h2, set_tainted_fd]
  · intro h
    simp [FL_syscall_connect, h, h1, h2, set_tainted_fd]
  · intro h
    simp [FL_syscall_socketpair, h, h1, h2, set_tainted_fd]

/-- The network handlers with network tainting off change nothing. -/
theorem network_handlers_off (cfg : Clo) (memw : Int → Nat) (s : FL_State) (tid : ThreadId)
    (ts : GuestRegs) (res : Int) (hnet : cfg.clo_taint_network = false) :
    FL_syscall_socket cfg s tid res = s ∧ FL_syscall_accept cfg s tid res = s
      ∧ FL_syscall_connect cfg memw s tid ts res = s
      ∧ FL_syscall_socketpair cfg memw s tid ts res = s := by
  refine ⟨?_, ?_, ?_, ?_⟩
  · simp [FL_syscall_socket, hnet]
  · simp [FL_syscall_accept, hnet]
  · simp [FL_syscall_connect, hnet]
  · simp [FL_syscall_socketpair, hnet]

/-- `FL_(calloc)` with an argument that is negative as a signed word returns
`NULL` and changes nothing. -/
theorem calloc_silly (cfg : Clo) (a_cli : Int) (s : FL_State) (tid : ThreadId)
    (nmemb size1 : Nat) (h : complain_about_silly_args2 cfg nmemb size1 = true) :
    FL_calloc cfg a_cli s tid nmemb size1 = some (0, s) := by
  simp [FL_calloc, h]

/-- `FL_(calloc)` with arguments that pass the sign check and a successful
allocation registers a chunk whose size is the product reduced modulo the
word. -/
theorem calloc_registers (cfg : Clo) (a_cli : Int) (s : FL_State) (tid : ThreadId)
    (nmemb size1 : Nat) (h : complain_about_silly_args2 cfg nmemb size1 = false)
    (ha : a_cli ≠ 0) :
    ∃ s1, FL_calloc cfg a_cli s tid nmemb size1 = some (a_cli, s1)
      ∧ s1.malloc_list
          = { data := a_cli, szB := ((nmemb * size1) % 2 ^ cfg.wordBits) % 2 ^ szB_bits,
              allockind := FL_AllocKind.FL_AllocMalloc } :: s.malloc_list := by
  have hrun : FL_calloc cfg a_cli s tid nmemb size1
      = some (a_cli, { s with cmalloc_n_mallocs := s.cmalloc_n_mallocs + 1,
                              cmalloc_bs_mallocd := s.cmalloc_bs_mallocd
                                + (nmemb * size1) % 2 ^ cfg.wordBits,
                              shadow := make_mem_defined s.shadow a_cli
                                ((nmemb * size1) % 2 ^ cfg.wordBits),
                              malloc_list := HT_add_node s.malloc_list
                                (create_FL_Chunk tid a_cli ((nmemb * size1) % 2 ^ cfg.wordBits)
                                  FL_AllocKind.FL_AllocMalloc) }) := by
    simp [FL_calloc, h, FL_new_block, ha, into_malloc_list, HT_add_node, create_FL_Chunk]
  exact ⟨_, hrun, rfl⟩

theorem HT_remove_perm {t : VgHashTable} {p : Int} {mc : FL_Chunk} {rest : VgHashTable}
    (h : HT_remove t p = some (mc, rest)) : List.Perm (mc :: rest) t := by
  induction t generalizing rest with
  | nil => simp [HT_remove] at h
  | cons c t ih =>
    unfold HT_remove at h
    split at h
    · simp only [Option.some.injEq, Prod.mk.injEq] at h
      rw [← h.1, ← h.2]
    · split at h
      · cases h
      · next found rest1 heq =>
        simp only [Option.some.injEq, Prod.mk.injEq] at h
        obtain ⟨h1, h2⟩ := h
        subst h1
        subst h2
        exact (List.Perm.swap c found rest1).trans (List.Perm.cons c (ih heq))

/-- Taking the first node with a key out of a table and putting it back at
the head leaves every lookup as it was. -/
theorem HT_remove_lookup {t : VgHashTable} {p : Int} {mc : FL_Chunk} {rest : VgHashTable}
    (h : HT_remove t p = some (mc, rest)) (key : Int) :
    HT_lookup (mc :: rest) key = HT_lookup t key := by
  induction t generalizing rest with
  | nil => simp [HT_remove] at h
  | cons c t ih =>
    have hdata := HT_remove_data h
    unfold HT_remove at h
    split at h
    · simp only [Option.some.injEq, Prod.mk.injEq] at h
      rw [← h.1, ← h.2]
    · next hc =>
      split at h
      · cases h
      · next found rest1 heq =>
        simp only [Option.some.injEq, Prod.mk.injEq] at h
        obtain ⟨h1, h2⟩ := h
        subst h1
        subst h2
        have ih1 := ih heq
        simp only [HT_lookup] at ih1 ⊢
        by_cases hk : found.data = key
        · have hck : ¬ c.data = key := by rw [← hk, hdata]; exact hc
          rw [if_pos hk] at ih1 ⊢
          rw [if_neg hck]; exact ih1
        · rw [if_neg hk] at ih1 ⊢
          rw [ih1]

theorem HT_lookup_of_remove {t : VgHashTable} {p : Int} {mc : FL_Chunk} {rest : VgHashTable}
    (h : HT_remove t p = some (mc, rest)) : HT_lookup t p = some mc := by
  rw [← HT_remove_lookup h p]
  simp [HT_lookup, HT_remove_data h]

theorem HT_lookup_mem {t : VgHashTable} {p : Int} {mc : FL_Chunk}
    (h : HT_lookup t p = some mc) : mc ∈ t ∧ mc.data = p := by
  induction t with
  | nil => simp [HT_lookup] at h
  | cons c t ih =>
    unfold HT_lookup at h
    split at h
    · next hc =>
      simp only [Option.some.injEq] at h
      subst h
      exact ⟨List.mem_cons_self _ _, hc⟩
    · exact ⟨List.mem_cons_of_mem c (ih h).1, (ih h).2⟩

theorem HT_remove_of_lookup {t : VgHashTable} {p : Int} {mc : FL_Chunk}
    (h : HT_lookup t p = some mc) : ∃ rest, HT_remove t p = some (mc, rest) := by
  rcases HT_remove_cases t p with hno | ⟨mc1, rest, hr⟩
  · rw [HT_lookup_none hno] at h; cases h
  · have h1 := HT_lookup_of_remove hr
    rw [h] at h1
    simp only [Option.some.injEq] at h1
    subst h1
    exact ⟨rest, hr⟩

theorem HT_remove_none_of_lookup {t : VgHashTable} {p : Int}
    (h : HT_lookup t p = none) : HT_remove t p = none := by
  rcases HT_remove_cases t p with hno | ⟨mc1, rest, hr⟩
  · exact HT_remove_none hno
  · rw [HT_lookup_of_remove hr] at h; cases h

/-- A registration through `FL_(new_block)` with no address given: the call
returns; it returns no address exactly when `VG_(cli_malloc)` fails, and then
only the counter of calls has changed. -/
theorem new_block_outcome (a_cli : Int) (s : FL_State) (tid : ThreadId) (szB alignB rzB : Nat)
    (z : Bool) (kind : FL_AllocKind) (hk : kind ≠ FL_AllocKind.FL_AllocCustom) :
    ∃ r, into_malloc_list (FL_new_block a_cli s tid 0 szB alignB rzB z kind s.malloc_list)
        = some r
      ∧ (a_cli = 0 → r.1 = 0)
      ∧ (r.1 = 0 → r.2.malloc_list = s.malloc_list ∧ r.2.freed_list = s.freed_list
          ∧ r.2.freed_list_volume = s.freed_list_volume ∧ r.2.cli_freed = s.cli_freed
          ∧ r.2.shadow = s.shadow ∧ r.2.mempool_list = s.mempool_list
          ∧ r.2.errors = s.errors) := by
  by_cases ha : a_cli = 0
  · refine ⟨(0, { s with cmalloc_n_mallocs := s.cmalloc_n_mallocs + 1 }), ?_, fun _ => rfl,
      fun _ => ⟨rfl, rfl, rfl, rfl, rfl, rfl, rfl⟩⟩
    simp [FL_new_block, into_malloc_list, hk, ha]
  · simp only [FL_new_block, ne_eq, not_true_eq_false, if_false, hk, ha, into_malloc_list]
    refine ⟨_, rfl, ?_, ?_⟩ <;> intro h <;> first | exact h.elim | exact absurd h ha

/-- A call of `FL_(realloc)` that returns no address, on a registry without a
chunk at `NULL`: the registry holds the same chunks and answers every lookup
as before, and the quarantine, the shadow store and the pools are unchanged. -/
theorem realloc_no_address (cfg : Clo) (a_cli : Int) (s : FL_State) (tid : ThreadId) (p : Int)
    (new_szB : Nat) (hnull : ∀ c ∈ s.malloc_list, c.data ≠ 0) (r : Int × FL_State)
    (hrun : FL_realloc cfg a_cli s tid p new_szB = some r) (h0 : r.1 = 0) :
    List.Perm r.2.malloc_list s.malloc_list
      ∧ (∀ key, HT_lookup r.2.malloc_list key = HT_lookup s.malloc_list key)
      ∧ r.2.freed_list = s.freed_list ∧ r.2.freed_list_volume = s.freed_list_volume
      ∧ r.2.cli_freed = s.cli_freed ∧ r.2.shadow = s.shadow
      ∧ r.2.mempool_list = s.mempool_list := by
  unfold FL_realloc at hrun
  simp only [] at hrun
  split at hrun
  · cases hrun
    exact ⟨List.Perm.refl _, fun _ => rfl, rfl, rfl, rfl, rfl, rfl⟩
  · split at hrun
    · cases hrun
      exact ⟨List.Perm.refl _, fun _ => rfl, rfl, rfl, rfl, rfl, rfl⟩
    · next mc rest hlive =>
      have hlive1 : HT_remove s.malloc_list p = some (mc, rest) := hlive
      have hdata : mc.data = p := HT_remove_data hlive1
      have hp : p ≠ 0 := by
        rw [← hdata]; exact hnull mc (HT_remove_mem hlive1)
      have hperm := HT_remove_perm hlive1
      have hlook := HT_remove_lookup hlive1
      split at hrun
      · cases hrun
      · next s3 hchecked =>
        have hs3 : s3.malloc_list = rest ∧ s3.freed_list = s.freed_list
            ∧ s3.freed_list_volume = s.freed_list_volume ∧ s3.cli_freed = s.cli_freed
            ∧ s3.shadow = s.shadow ∧ s3.mempool_list = s.mempool_list := by
          split at hchecked
          · split at hchecked
            · cases hchecked; exact ⟨rfl, rfl, rfl, rfl, rfl, rfl⟩
            · cases hchecked
          · cases hchecked; exact ⟨rfl, rfl, rfl, rfl, rfl, rfl⟩
        obtain ⟨hm, hq, hv, hc, hsh, hmp⟩ := hs3
        split at hrun
        · cases hrun; exact absurd h0 hp
        · split at hrun
          · cases hrun; exact absurd h0 hp
          · split at hrun
            · next ha =>
              split at hrun
              · cases hrun
              · cases hrun; exact absurd h0 ha
            · cases hrun
              simp only [HT_add_node, hm]
              exact ⟨hperm, hlook, hq, hv, hc, hsh, hmp⟩

/-- A growth of a live chunk for which `VG_(cli_malloc)` fails: the call
returns no address and the chunk is put back at the head of the registry. -/
theorem realloc_growth_fails (cfg : Clo) (s : FL_State) (tid : ThreadId) (p : Int)
    (new_szB : Nat) (mc : FL_Chunk)
    (hsilly : complain_about_silly_args cfg new_szB = false)
    (hmc : HT_lookup s.malloc_list p = some mc) (hgrow : mc.szB < new_szB) :
    ∃ s1 rest, HT_remove s.malloc_list p = some (mc, rest)
      ∧ FL_realloc cfg 0 s tid p new_szB = some (0, s1)
      ∧ s1.malloc_list = mc :: rest ∧ s1.freed_list = s.freed_list
      ∧ s1.freed_list_volume = s.freed_list_volume ∧ s1.cli_freed = s.cli_freed
      ∧ s1.shadow = s.shadow ∧ s1.mempool_list = s.mempool_list := by
  obtain ⟨rest, hr⟩ := HT_remove_of_lookup hmc
  have hdata : mc.data = p := HT_remove_data hr
  unfold FL_realloc
  simp only [hsilly, hr, Bool.false_eq_true, if_false]
  by_cases hk : mc.allockind = FL_AllocKind.FL_AllocMalloc
  · have hk1 : ¬ (FL_AllocKind.FL_AllocMalloc ≠ mc.allockind) := by simp [hk]
    rw [if_neg hk1]
    simp only []
    rw [if_neg (by omega), if_neg (by omega), if_neg (by simp)]
    exact ⟨_, rest, rfl, rfl, rfl, rfl, rfl, rfl, rfl, rfl⟩
  · have hk1 : FL_AllocKind.FL_AllocMalloc ≠ mc.allockind := fun h => hk h.symm
    rw [if_pos hk1, if_pos hdata.symm]
    simp only []
    rw [if_neg (by omega), if_neg (by omega), if_neg (by simp)]
    exact ⟨_, rest, rfl, rfl, rfl, rfl, rfl, rfl, rfl, rfl⟩

/-- The calls of `FL_(realloc)` that return no address: a size that is
negative as a signed word, an address without a live chunk, and a growth for
which `VG_(cli_malloc)` fails. -/
theorem realloc_fails (cfg : Clo) (a_cli : Int) (s : FL_State) (tid : ThreadId) (p : Int)
    (new_szB : Nat)
    (h : complain_about_silly_args cfg new_szB = true ∨ HT_lookup s.malloc_list p = none
      ∨ ∃ mc, HT_lookup s.malloc_list p = some mc ∧ mc.szB < new_szB ∧ a_cli = 0) :
    ∃ s1, FL_realloc cfg a_cli s tid p new_szB = some (0, s1) := by
  by_cases hsilly : complain_about_silly_args cfg new_szB = true
  · simp only [FL_realloc, hsilly, if_true]
    exact ⟨_, rfl⟩
  · rcases h with h | h | ⟨mc, hmc, hgrow, ha⟩
    · exact absurd h hsilly
    · have hr := HT_remove_none_of_lookup h
      simp only [FL_realloc, hsilly, hr, Bool.false_eq_true, if_false]
      exact ⟨_, rfl⟩
    · obtain ⟨s1, rest, _, hrun, _⟩ := realloc_growth_fails cfg s tid p new_szB mc
        (by simpa using hsilly) hmc hgrow
      rw [ha]
      exact ⟨s1, hrun⟩

theorem set_pool_chunks_self {l : List FL_Mempool} {pool : Int} {mp : FL_Mempool}
    (h : HT_lookup_pool l pool = some mp) : set_pool_chunks l pool mp.chunks = l := by
  induction l with
  | nil => rfl
  | cons m l ih =>
    unfold HT_lookup_pool at h
    unfold set_pool_chunks
    split at h
    · next hm =>
      simp only [Option.some.injEq] at h
      subst h
      rw [if_pos hm]
    · next hm =>
      rw [if_neg hm, ih h]

theorem lookup_set_pool_chunks {l : List FL_Mempool} {pool : Int} {mp : FL_Mempool}
    (h : HT_lookup_pool l pool = some mp) (table : VgHashTable) :
    HT_lookup_pool (set_pool_chunks l pool table) pool = some { mp with chunks := table } := by
  induction l with
  | nil => simp [HT_lookup_pool] at h
  | cons m l ih =>
    unfold HT_lookup_pool at h
    unfold set_pool_chunks
    split at h
    · next hm =>
      simp only [Option.some.injEq] at h
      subst h
      rw [if_pos hm]
      simp [HT_lookup_pool, hm]
    · next hm =>
      rw [if_neg hm]
      simp only [HT_lookup_pool, if_neg hm]
      exact ih h

/-- Other pools are not touched by the write-back of a chunk table. -/
theorem lookup_set_pool_chunks_other {l : List FL_Mempool} {pool key : Int}
    (table : VgHashTable) (hne : key ≠ pool) :
    HT_lookup_pool (set_pool_chunks l pool table) key = HT_lookup_pool l key := by
  induction l with
  | nil => rfl
  | cons m l ih =>
    unfold set_pool_chunks
    by_cases hm : m.pool = pool
    · rw [if_pos hm]
      have h1 : ¬ m.pool = key := fun h => hne (h.symm.trans hm)
      simp only [HT_lookup_pool, if_neg h1]
    · rw [if_neg hm]
      simp only [HT_lookup_pool, ih]

theorem state_eta (s : FL_State) {l : List FL_Mempool} (h : l = s.mempool_list) :
    { s with mempool_list := l } = s := by
  subst h; rfl

/-- `die_and_free_mem` on a pool chunk: only the shadow store changes. -/
theorem die_and_free_mem_custom (cfg : Clo) (s : FL_State) (tid : ThreadId) (mc : FL_Chunk)
    (rzB : Nat) (hk : mc.allockind = FL_AllocKind.FL_AllocCustom) :
    die_and_free_mem cfg s tid mc rzB
      = some
        { s with
          shadow :=
            make_mem_defined
              (make_mem_noaccess s.shadow (mc.data - (rzB : Int)) (mc.szB + 2 * rzB))
              (mc.data - (rzB : Int)) (mc.szB + 2 * rzB) } := by
  simp [die_and_free_mem, hk]

theorem extent_contains_iff (addr : Int) (szB : Nat) (x : Int) :
    EXTENT_CONTAINS addr szB x = true ↔ addr ≤ x ∧ x < addr + (szB : Int) := by
  simp [EXTENT_CONTAINS]

theorem extent_contains_false_iff (addr : Int) (szB : Nat) (x : Int) :
    EXTENT_CONTAINS addr szB x = false ↔ ¬ (addr ≤ x ∧ x < addr + (szB : Int)) := by
  rw [← extent_contains_iff]; simp

/-- The loop of `FL_(mempool_trim)` on a table of pool chunks whose first and
last byte all lie outside the extent: every chunk is taken out of the table
and released, and only the shadow store changes. -/
theorem trim_loop_all_outside (cfg : Clo) (tid : ThreadId) (rzB : Nat) (addr : Int) (szB : Nat)
    (l : List FL_Chunk) (s : FL_State)
    (hkind : ∀ c ∈ l, c.allockind = FL_AllocKind.FL_AllocCustom)
    (hout : ∀ c ∈ l, EXTENT_CONTAINS addr szB c.data = false
      ∧ EXTENT_CONTAINS addr szB
          (if c.szB = 0 then c.data else c.data + (c.szB : Int) - 1) = false) :
    ∃ s1, mempool_trim_loop cfg tid rzB addr szB l s l = some (s1, [])
      ∧ s1.freed_list = s.freed_list ∧ s1.freed_list_volume = s.freed_list_volume
      ∧ s1.cli_freed = s.cli_freed ∧ s1.malloc_list = s.malloc_list
      ∧ s1.mempool_list = s.mempool_list ∧ s1.errors = s.errors := by
  induction l generalizing s with
  | nil => exact ⟨s, rfl, rfl, rfl, rfl, rfl, rfl, rfl⟩
  | cons c l ih =>
    obtain ⟨hlo, hhi⟩ := hout c (List.mem_cons_self c l)
    have hk := hkind c (List.mem_cons_self c l)
    have hrem : HT_remove (c :: l) c.data = some (c, l) := by simp [HT_remove]
    obtain ⟨s1, hrun, h1, h2, h3, h4, h5, h6⟩ :=
      ih { s with
           shadow :=
             make_mem_defined
               (make_mem_noaccess s.shadow (c.data - (rzB : Int)) (c.szB + 2 * rzB))
               (c.data - (rzB : Int)) (c.szB + 2 * rzB) }
        (fun d hd => hkind d (List.mem_cons_of_mem c hd))
        (fun d hd => hout d (List.mem_cons_of_mem c hd))
    refine ⟨s1, ?_, h1, h2, h3, h4, h5, h6⟩
    rw [← hrun]
    simp only [mempool_trim_loop, hlo, hhi, Bool.and_self, Bool.false_eq_true, if_false,
      Bool.not_false, if_true, hrem, die_and_free_mem_custom cfg s tid c rzB hk]

theorem HT_remove_pool_none {l : List FL_Mempool} {pool : Int}
    (h : HT_lookup_pool l pool = none) : HT_remove_pool l pool = none := by
  induction l with
  | nil => rfl
  | cons m l ih =>
    unfold HT_lookup_pool at h
    split at h
    · cases h
    · next hm => simp only [HT_remove_pool, if_neg hm, ih h]

theorem HT_remove_mem_other {t : VgHashTable} {p : Int} {mc c : FL_Chunk} {rest : VgHashTable}
    (h : HT_remove t p = some (mc, rest)) (hc : c ∈ t) (hne : c.data ≠ p) : c ∈ rest := by
  induction t generalizing rest with
  | nil => simp [HT_remove] at h
  | cons d t ih =>
    unfold HT_remove at h
    split at h
    · next hd =>
      simp only [Option.some.injEq, Prod.mk.injEq] at h
      rw [← h.2]
      rcases List.mem_cons.mp hc with h1 | h1
      · rw [h1] at hne; exact absurd hd hne
      · exact h1
    · split at h
      · cases h
      · next found rest1 heq =>
        simp only [Option.some.injEq, Prod.mk.injEq] at h
        obtain ⟨h3, h4⟩ := h
        subst h3
        rw [← h4]
        rcases List.mem_cons.mp hc with h1 | h1
        · rw [h1]; exact List.mem_cons_self d rest1
        · exact List.mem_cons_of_mem d (ih heq h1)

theorem ite_none_eq_some {α : Type} {P : Prop} [Decidable P] {x : Option α} {y : α}
    (h : (if P then none else x) = some y) : ¬ P ∧ x = some y := by
  by_cases hP : P
  · rw [if_pos hP] at h; cases h
  · rw [if_neg hP] at h; exact ⟨hP, h⟩

/-- One turn of the loop of `FL_(mempool_trim)`, by the branch taken for the
chunk `mc`: kept, early return because the chunk is not in the table,
released, or trimmed and put back. -/
theorem trim_loop_cons (cfg : Clo) (tid : ThreadId) (rzB : Nat) (addr : Int) (szB : Nat)
    (mc : FL_Chunk) (arr : List FL_Chunk) (s : FL_State) (table : VgHashTable) (s1 : FL_State)
    (table1 : VgHashTable)
    (h : mempool_trim_loop cfg tid rzB addr szB (mc :: arr) s table = some (s1, table1)) :
    ((EXTENT_CONTAINS addr szB mc.data
          && EXTENT_CONTAINS addr szB
              (if mc.szB = 0 then mc.data else mc.data + (mc.szB : Int) - 1)) = true
        ∧ mempool_trim_loop cfg tid rzB addr szB arr s table = some (s1, table1))
      ∨ (¬ (EXTENT_CONTAINS addr szB mc.data
          && EXTENT_CONTAINS addr szB
              (if mc.szB = 0 then mc.data else mc.data + (mc.szB : Int) - 1)) = true
        ∧ ((HT_remove table mc.data = none ∧ s1 = record_free_error s tid mc.data
              ∧ table1 = table)
          ∨ (∃ found rest s2, HT_remove table mc.data = some (found, rest)
              ∧ die_and_free_mem cfg s tid mc rzB = some s2
              ∧ mempool_trim_loop cfg tid rzB addr szB arr s2 rest = some (s1, table1))
          ∨ ∃ found rest sh lo1 n, HT_remove table mc.data = some (found, rest)
              ∧ mempool_trim_loop cfg tid rzB addr szB arr { s with shadow := sh }
                  ({ mc with data := lo1, szB := n } :: rest) = some (s1, table1)
              ∧ addr ≤ lo1 ∧ lo1 + (n : Int) ≤ addr + (szB : Int)
              ∧ (lo1 = mc.data
                ∨ (lo1 = addr ∧ mc.data < addr ∧ addr < mc.data + (mc.szB : Int))))) := by
  rw [mempool_trim_loop] at h
  dsimp only at h
  generalize hhi : (if mc.szB = 0 then mc.data else mc.data + (mc.szB : Int) - 1) = hi at h ⊢
  by_cases h1 : (EXTENT_CONTAINS addr szB mc.data && EXTENT_CONTAINS addr szB hi) = true
  · rw [if_pos h1] at h
    exact Or.inl ⟨h1, h⟩
  · rw [if_neg h1] at h
    refine Or.inr ⟨h1, ?_⟩
    by_cases h2 : (!EXTENT_CONTAINS addr szB mc.data && !EXTENT_CONTAINS addr szB hi) = true
    · rw [if_pos h2] at h
      cases hrem : HT_remove table mc.data with
      | none =>
        rw [hrem] at h
        dsimp only at h
        simp only [Option.some.injEq, Prod.mk.injEq] at h
        exact Or.inl ⟨rfl, h.1.symm, h.2.symm⟩
      | some fr =>
        obtain ⟨found, rest⟩ := fr
        rw [hrem] at h
        dsimp only at h
        cases hdie : die_and_free_mem cfg s tid mc rzB with
        | none => rw [hdie] at h; cases h
        | some s2 =>
          rw [hdie] at h
          dsimp only at h
          exact Or.inr (Or.inl ⟨found, rest, s2, rfl, rfl, h⟩)
    · rw [if_neg h2] at h
      by_cases h3 : (!(EXTENT_CONTAINS addr szB mc.data || EXTENT_CONTAINS addr szB hi)) = true
      · rw [if_pos h3] at h; cases h
      · rw [if_neg h3] at h
        cases hrem : HT_remove table mc.data with
        | none =>
          rw [hrem] at h
          dsimp only at h
          simp only [Option.some.injEq, Prod.mk.injEq] at h
          exact Or.inl ⟨rfl, h.1.symm, h.2.symm⟩
        | some fr =>
          obtain ⟨found, rest⟩ := fr
          rw [hrem] at h
          dsimp only at h
          obtain ⟨ha1, h⟩ := ite_none_eq_some h
          obtain ⟨ha2, h⟩ := ite_none_eq_some h
          obtain ⟨ha3, h⟩ := ite_none_eq_some h
          refine Or.inr (Or.inr ⟨found, rest, _, _, _, rfl, h, ?_, ?_, ?_⟩)
          · split <;> omega
          · have hmod : ∀ k : Nat, ((k % 2 ^ szB_bits : Nat) : Int) ≤ (k : Int) :=
              fun k => by exact_mod_cast Nat.mod_le k _
            refine le_trans (add_le_add_left (hmod _) _) ?_
            by_cases hlt : mc.data < addr <;>
              by_cases hgt : mc.data + (szB : Int) > addr + (szB : Int) <;>
              simp only [hlt, hgt, if_true, if_false] at ha2 ⊢ <;> omega
          · by_cases hlt : mc.data < addr
            · right
              refine ⟨by rw [if_pos hlt], hlt, ?_⟩
              have hlo : EXTENT_CONTAINS addr szB mc.data = false := by
                rw [extent_contains_false_iff]; omega
              have hc : EXTENT_CONTAINS addr szB hi = true := by
                cases hv : EXTENT_CONTAINS addr szB hi with
                | true => rfl
                | false => rw [hlo, hv] at h2; exact absurd rfl h2
              rw [extent_contains_iff] at hc
              rw [← hhi] at hc
              by_cases hz : mc.szB = 0
              · rw [if_pos hz] at hc; omega
              · rw [if_neg hz] at hc; omega
            · left
              rw [if_neg hlt]

/-- The loop of `FL_(mempool_trim)` touches neither the list of pools nor the
registry. -/
theorem trim_loop_frame (cfg : Clo) (tid : ThreadId) (rzB : Nat) (addr : Int) (szB : Nat)
    (arr : List FL_Chunk) (s : FL_State) (table : VgHashTable) (s1 : FL_State)
    (table1 : VgHashTable)
    (h : mempool_trim_loop cfg tid rzB addr szB arr s table = some (s1, table1)) :
    s1.mempool_list = s.mempool_list ∧ s1.malloc_list = s.malloc_list := by
  induction arr generalizing s table with
  | nil =>
    simp only [mempool_trim_loop, Option.some.injEq, Prod.mk.injEq] at h
    rw [← h.1]; exact ⟨rfl, rfl⟩
  | cons mc arr ih =>
    rcases trim_loop_cons cfg tid rzB addr szB mc arr s table s1 table1 h with
      ⟨_, h1⟩ | ⟨_, ⟨_, h1, _⟩ | ⟨found, rest, s2, _, hdie, h1⟩
        | ⟨found, rest, sh, lo1, n, _, h1, _⟩⟩
    · exact ih s table h1
    · rw [h1]; exact ⟨rfl, rfl⟩
    · have hf := die_and_free_mem_frame hdie
      have h2 := ih s2 _ h1
      exact ⟨h2.1.trans hf.2.1, h2.2.trans hf.1⟩
    · exact ih { s with shadow := sh } _ h1

/-- A chunk whose first and last byte lie in the extent, and whose address no
other chunk of the array has, is in the table when the loop of
`FL_(mempool_trim)` returns. -/
theorem trim_loop_keeps_inner (cfg : Clo) (tid : ThreadId) (rzB : Nat) (addr : Int) (szB : Nat)
    (c : FL_Chunk) (hlo : EXTENT_CONTAINS addr szB c.data = true)
    (hhi : EXTENT_CONTAINS addr szB
      (if c.szB = 0 then c.data else c.data + (c.szB : Int) - 1) = true)
    (arr : List FL_Chunk) (s : FL_State) (table : VgHashTable) (s1 : FL_State)
    (table1 : VgHashTable) (huniq : ∀ mc ∈ arr, mc.data = c.data → mc = c)
    (hc : c ∈ table)
    (h : mempool_trim_loop cfg tid rzB addr szB arr s table = some (s1, table1)) :
    c ∈ table1 := by
  induction arr generalizing s table with
  | nil =>
    simp only [mempool_trim_loop, Option.some.injEq, Prod.mk.injEq] at h
    rw [← h.2]; exact hc
  | cons mc arr ih =>
    have huniq1 : ∀ d ∈ arr, d.data = c.data → d = c :=
      fun d hd => huniq d (List.mem_cons_of_mem mc hd)
    rcases trim_loop_cons cfg tid rzB addr szB mc arr s table s1 table1 h with
      ⟨_, h1⟩ | ⟨hnot, hrest⟩
    · exact ih s table huniq1 hc h1
    · have hne : c.data ≠ mc.data := by
        intro heq
        have hmc : mc = c := huniq mc (List.mem_cons_self mc arr) heq.symm
        apply hnot
        rw [hmc, hlo, hhi]; rfl
      rcases hrest with ⟨_, _, h1⟩ | ⟨found, rest, s2, hrem, _, h1⟩
        | ⟨found, rest, sh, lo1, n, hrem, h1, _⟩
      · rw [h1]; exact hc
      · exact ih _ rest huniq1 (HT_remove_mem_other hrem hc hne) h1
      · exact ih _ _ huniq1 (List.mem_cons_of_mem _ (HT_remove_mem_other hrem hc hne)) h1

/-- A chunk of positive size that lies wholly inside the extent, and whose
address no other chunk of the pool has, is still in the chunk table of the
pool when `FL_(mempool_trim)` returns. -/
theorem mempool_trim_keeps_inner (cfg : Clo) (s s1 : FL_State) (tid : ThreadId)
    (pool addr : Int) (szB : Nat) (mp : FL_Mempool) (c : FL_Chunk)
    (hpool : HT_lookup_pool s.mempool_list pool = some mp) (hc : c ∈ mp.chunks)
    (hpos : 0 < c.szB) (hin : addr ≤ c.data ∧ c.data + (c.szB : Int) ≤ addr + (szB : Int))
    (huniq : ∀ mc ∈ mp.chunks, mc.data = c.data → mc = c)
    (hrun : FL_mempool_trim cfg s tid pool addr szB = some s1) :
    ∃ table, HT_lookup_pool s1.mempool_list pool = some { mp with chunks := table }
      ∧ c ∈ table := by
  have hne : ¬ c.szB = 0 := by omega
  have hlo : EXTENT_CONTAINS addr szB c.data = true := by
    rw [extent_contains_iff]; omega
  have hhi : EXTENT_CONTAINS addr szB
      (if c.szB = 0 then c.data else c.data + (c.szB : Int) - 1) = true := by
    rw [if_neg hne, extent_contains_iff]; omega
  have hlen : ¬ (HT_to_array mp.chunks).length = 0 := by
    intro h
    have h1 : mp.chunks = [] := List.length_eq_zero.mp h
    rw [h1] at hc
    cases hc
  simp only [FL_mempool_trim, hpool, hlen, if_false] at hrun
  cases hloop : mempool_trim_loop cfg tid mp.rzB addr szB (HT_to_array mp.chunks) s mp.chunks with
  | none => rw [hloop] at hrun; cases hrun
  | some r =>
    obtain ⟨s2, table⟩ := r
    rw [hloop] at hrun
    simp only [Option.some.injEq] at hrun
    have hf := trim_loop_frame cfg tid mp.rzB addr szB _ s mp.chunks s2 table hloop
    have hin1 := trim_loop_keeps_inner cfg tid mp.rzB addr szB c hlo hhi _ s mp.chunks s2 table
      huniq hc hloop
    refine ⟨table, ?_, hin1⟩
    rw [← hrun]
    simp only [hf.1]
    exact lookup_set_pool_chunks hpool table

theorem map_pool_set_pool_chunks (l : List FL_Mempool) (pool : Int) (table : VgHashTable) :
    (set_pool_chunks l pool table).map FL_Mempool.pool = l.map FL_Mempool.pool := by
  induction l with
  | nil => rfl
  | cons m l ih =>
    unfold set_pool_chunks
    by_cases hm : m.pool = pool
    · rw [if_pos hm]; rfl
    · rw [if_neg hm]; simp only [List.map_cons, ih]

theorem HT_lookup_pool_none_iff (l : List FL_Mempool) (pool : Int) :
    HT_lookup_pool l pool = none ↔ pool ∉ l.map FL_Mempool.pool := by
  induction l with
  | nil => simp [HT_lookup_pool]
  | cons m l ih =>
    unfold HT_lookup_pool
    by_cases hm : m.pool = pool
    · rw [if_pos hm]; simp [hm]
    · rw [if_neg hm, ih]
      simp only [List.map_cons, List.mem_cons, not_or]
      exact ⟨fun h => ⟨fun h1 => hm h1.symm, h⟩, fun h => h.2⟩

theorem HT_remove_pool_spec {l : List FL_Mempool} {pool : Int} {mp : FL_Mempool}
    {rest : List FL_Mempool} (h : HT_remove_pool l pool = some (mp, rest)) :
    mp.pool = pool ∧ List.Perm (l.map FL_Mempool.pool) (pool :: rest.map FL_Mempool.pool) := by
  induction l generalizing rest with
  | nil => simp [HT_remove_pool] at h
  | cons m l ih =>
    unfold HT_remove_pool at h
    split at h
    · next hm =>
      simp only [Option.some.injEq, Prod.mk.injEq] at h
      obtain ⟨h1, h2⟩ := h
      subst h1
      subst h2
      refine ⟨hm, ?_⟩
      simp only [List.map_cons, hm]
      exact List.Perm.refl _
    · split at h
      · cases h
      · next found rest1 heq =>
        simp only [Option.some.injEq, Prod.mk.injEq] at h
        obtain ⟨h1, h2⟩ := h
        subst h1
        subst h2
        obtain ⟨hp, hperm⟩ := ih heq
        refine ⟨hp, ?_⟩
        simp only [List.map_cons]
        exact (List.Perm.cons m.pool hperm).trans (List.Perm.swap pool m.pool _)

theorem new_block_frame {a_cli : Int} {s s1 : FL_State} {tid : ThreadId} {p p1 : Int}
    {szB alignB rzB : Nat} {z : Bool} {kind : FL_AllocKind} {table table1 : VgHashTable}
    (h : FL_new_block a_cli s tid p szB alignB rzB z kind table = some (p1, table1, s1)) :
    s1.mempool_list = s.mempool_list ∧ s1.malloc_list = s.malloc_list
      ∧ s1.freed_list = s.freed_list ∧ s1.errors = s.errors := by
  unfold FL_new_block at h
  simp only [] at h
  split at h
  · split at h
    · cases h; exact ⟨rfl, rfl, rfl, rfl⟩
    · cases h
  · split at h
    · cases h
    · split at h
      · cases h; exact ⟨rfl, rfl, rfl, rfl⟩
      · cases h; exact ⟨rfl, rfl, rfl, rfl⟩

/-- Every pool hook keeps the identifiers of the live pools distinct, except
a `move_mempool(poolA, poolB)` onto the identifier of another live pool. -/
theorem pool_hook_unique_ids (cfg : Clo) (tid : ThreadId) (s s1 : FL_State) (hook : PoolHook)
    (hnd : (s.mempool_list.map FL_Mempool.pool).Nodup)
    (hmove : ∀ a b, hook = PoolHook.move_mempool a b →
      b = a ∨ FL_mempool_exists s b = false)
    (hrun : run_pool_hook cfg tid s hook = some s1) :
    (s1.mempool_list.map FL_Mempool.pool).Nodup := by
  cases hook with
  | create_mempool pool rzB z =>
    simp only [run_pool_hook, FL_create_mempool] at hrun
    cases hl : HT_lookup_pool s.mempool_list pool with
    | some mp => rw [hl] at hrun; cases hrun
    | none =>
      rw [hl] at hrun
      simp only [Option.some.injEq] at hrun
      rw [← hrun]
      simp only [List.map_cons, List.nodup_cons]
      exact ⟨(HT_lookup_pool_none_iff _ _).mp hl, hnd⟩
  | destroy_mempool pool =>
    simp only [run_pool_hook, FL_destroy_mempool, Option.some.injEq] at hrun
    cases hr : HT_remove_pool s.mempool_list pool with
    | none => rw [hr] at hrun; rw [← hrun]; exact hnd
    | some r =>
      obtain ⟨mp, rest⟩ := r
      rw [hr] at hrun
      rw [← hrun]
      have hperm := (HT_remove_pool_spec hr).2
      have h2 := (List.Perm.nodup_iff hperm).mp hnd
      exact (List.nodup_cons.mp h2).2
  | mempool_alloc pool addr szB =>
    simp only [run_pool_hook, FL_mempool_alloc] at hrun
    cases hl : HT_lookup_pool s.mempool_list pool with
    | none =>
      rw [hl] at hrun
      simp only [Option.some.injEq] at hrun
      rw [← hrun]; exact hnd
    | some mp =>
      rw [hl] at hrun
      simp only [] at hrun
      split at hrun
      · cases hrun
      · next p1 table s2 hnb =>
        simp only [Option.some.injEq] at hrun
        rw [← hrun]
        simp only [map_pool_set_pool_chunks, (new_block_frame hnb).1]
        exact hnd
  | mempool_free pool addr =>
    simp only [run_pool_hook, FL_mempool_free] at hrun
    cases hl : HT_lookup_pool s.mempool_list pool with
    | none =>
      rw [hl] at hrun
      simp only [Option.some.injEq] at hrun
      rw [← hrun]; exact hnd
    | some mp =>
      rw [hl] at hrun
      simp only [] at hrun
      split at hrun
      · simp only [Option.some.injEq] at hrun
        rw [← hrun]; exact hnd
      · have hf := die_and_free_mem_frame hrun
        rw [hf.2.1]
        simp only [map_pool_set_pool_chunks]
        exact hnd
  | mempool_trim pool addr szB =>
    simp only [run_pool_hook, FL_mempool_trim] at hrun
    cases hl : HT_lookup_pool s.mempool_list pool with
    | none =>
      rw [hl] at hrun
      simp only [Option.some.injEq] at hrun
      rw [← hrun]; exact hnd
    | some mp =>
      rw [hl] at hrun
      simp only [] at hrun
      split at hrun
      · simp only [Option.some.injEq] at hrun
        rw [← hrun]; exact hnd
      · split at hrun
        · cases hrun
        · next s2 table hloop =>
          simp only [Option.some.injEq] at hrun
          rw [← hrun]
          have hf := trim_loop_frame cfg tid mp.rzB addr szB _ s mp.chunks s2 table hloop
          simp only [map_pool_set_pool_chunks, hf.1]
          exact hnd
  | move_mempool poolA poolB =>
    simp only [run_pool_hook, FL_move_mempool, Option.some.injEq] at hrun
    cases hr : HT_remove_pool s.mempool_list poolA with
    | none => rw [hr] at hrun; rw [← hrun]; exact hnd
    | some r =>
      obtain ⟨mp, rest⟩ := r
      rw [hr] at hrun
      rw [← hrun]
      have hperm := (HT_remove_pool_spec hr).2
      have h2 := (List.Perm.nodup_iff hperm).mp hnd
      simp only [List.map_cons, List.nodup_cons]
      refine ⟨?_, (List.nodup_cons.mp h2).2⟩
      rcases hmove poolA poolB rfl with hb | hb
      · rw [hb]; exact (List.nodup_cons.mp h2).1
      · have hnone : HT_lookup_pool s.mempool_list poolB = none := by
          unfold FL_mempool_exists at hb
          cases hx : HT_lookup_pool s.mempool_list poolB with
          | none => rfl
          | some y => rw [hx] at hb; cases hb
        have hnot := (HT_lookup_pool_none_iff _ _).mp hnone
        intro hmem
        exact hnot (hperm.mem_iff.mpr (List.mem_cons_of_mem _ hmem))
  | mempool_change pool addrA addrB szB =>
    simp only [run_pool_hook, FL_mempool_change, Option.some.injEq] at hrun
    cases hl : HT_lookup_pool s.mempool_list pool with
    | none => rw [hl] at hrun; rw [← hrun]; exact hnd
    | some mp =>
      rw [hl] at hrun
      simp only [] at hrun
      split at hrun
      · rw [← hrun]; exact hnd
      · rw [← hrun]
        simp only [map_pool_set_pool_chunks]
        exact hnd

/-- `FL_(mempool_alloc)` with a non-null address returns, whatever the pool
identifier. -/
theorem mempool_alloc_returns (s : FL_State) (tid : ThreadId) (pool addr : Int) (szB : Nat)
    (haddr : addr ≠ 0) : ∃ s1, FL_mempool_alloc s tid pool addr szB = some s1 := by
  unfold FL_mempool_alloc
  cases HT_lookup_pool s.mempool_list pool with
  | none => exact ⟨_, rfl⟩
  | some mp =>
    simp only [FL_new_block, ne_eq, haddr, not_false_eq_true, if_true]
    exact ⟨_, rfl⟩

/-- With an empty marker the loop of `FL_(syscall_read)` does not advance:
`memmem` finds the empty string at `data`, nothing is added to `data` and
`remaining` is computed anew from the same position. -/
theorem read_loop_empty_marker (mem : Int → Nat) (valid : Int → Nat → Bool) (base : Int)
    (res : Int) (hvalid : ∀ a n, valid a n = true) (hbase : base ≠ 0) (hres : 0 < res)
    (fuel : Nat) (sh : Shadow) :
    syscall_read_loop mem valid [] base res fuel sh base res.toNat = none := by
  have hrem : res.toNat > 0 := by omega
  induction fuel generalizing sh with
  | zero =>
    simp only [syscall_read_loop, List.length_nil]
    rw [if_pos ⟨hbase, hrem⟩]
  | succ fuel ih =>
    have hfound : memmem mem base [] res.toNat = base := by
      unfold memmem
      rw [if_neg (by simp), if_neg hbase]
      cases hn : res.toNat with
      | zero => omega
      | succ n => simp [memmem_loop, memcmp_eq]
    simp only [syscall_read_loop, List.length_nil]
    rw [if_pos ⟨hbase, hrem⟩, if_neg (by simp [hvalid])]
    simp only [hfound]
    rw [if_pos hbase]
    have h1 : base + ((0 : Nat) : Int) = base := by simp
    have h2 : (res - (base - base)).toNat = res.toNat := by simp
    rw [h1, h2]
    exact ih _

theorem memmem_loop_ge (mem : Int → Nat) (needle : List Nat) (count : Nat) (cursor : Int) :
    memmem_loop mem needle count cursor = 0 ∨ cursor ≤ memmem_loop mem needle count cursor := by
  induction count generalizing cursor with
  | zero =>
    unfold memmem_loop
    split
    · right; exact le_refl _
    · left; rfl
  | succ count ih =>
    unfold memmem_loop
    split
    · split
      · right; exact le_refl _
      · rcases ih (cursor + 1) with h | h
        · left; exact h
        · right; omega
    · left; rfl

theorem memmem_ge (mem : Int → Nat) (haystack : Int) (needle : List Nat) (h_len : Nat) :
    memmem mem haystack needle h_len = 0 ∨ haystack ≤ memmem mem haystack needle h_len := by
  unfold memmem
  split
  · left; rfl
  · split
    · left; rfl
    · exact memmem_loop_ge mem needle h_len haystack

/-- With a non-empty marker the loop of `FL_(syscall_read)` ends: every match
moves `data` forward by the length of the marker, and the loop goes on only
while `data` is less than `res` bytes behind the start of the buffer. -/
theorem read_loop_terminates (mem : Int → Nat) (valid : Int → Nat → Bool) (needle : List Nat)
    (base : Int) (res : Int) (hne : 0 < needle.length) (fuel : Nat) (sh : Shadow) (data : Int)
    (remaining : Nat)
    (hinv : remaining > needle.length →
      (remaining : Int) ≤ res - (data - base) + (needle.length : Int))
    (hfuel : (res - (data - base)).toNat + 1 ≤ fuel) :
    ∃ sh1, syscall_read_loop mem valid needle base res fuel sh data remaining = some sh1 := by
  induction fuel generalizing sh data remaining with
  | zero => omega
  | succ fuel ih =>
    unfold syscall_read_loop
    by_cases hcond : data ≠ 0 ∧ remaining > needle.length
    · rw [if_pos hcond]
      have hM := hinv hcond.2
      split
      · exact ⟨sh, rfl⟩
      · simp only []
        rcases memmem_ge mem data needle remaining with hz | hge
        · rw [hz]
          simp only [ne_eq, not_true_eq_false, if_false]
          cases fuel with
          | zero => exact ⟨sh, by simp [syscall_read_loop]⟩
          | succ f => exact ⟨sh, by simp [syscall_read_loop]⟩
        · by_cases hf : memmem mem data needle remaining = 0
          · rw [hf]
            simp only [ne_eq, not_true_eq_false, if_false]
            cases fuel with
            | zero => exact ⟨sh, by simp [syscall_read_loop]⟩
            | succ f => exact ⟨sh, by simp [syscall_read_loop]⟩
          · rw [if_pos hf]
            apply ih
            · intro hgt
              have : (res - (memmem mem data needle remaining - base)).toNat
                  = res - (memmem mem data needle remaining - base) := by
                apply Int.toNat_of_nonneg
                by_contra hneg
                have h0 : (res - (memmem mem data needle remaining - base)).toNat = 0 := by
                  omega
                omega
              omega
            · omega
    · rw [if_neg hcond]
      exact ⟨sh, rfl⟩

/-- `FL_(syscall_read)` with a non-empty marker returns when it is given
`res + 1` turns of the marker loop. -/
theorem syscall_read_returns (cfg : Clo) (mem : Int → Nat) (valid : Int → Nat → Bool)
    (s : FL_State) (tid : ThreadId) (ts : GuestRegs) (res : Int)
    (hmarker : ∀ m, cfg.clo_taint_string = some m → 0 < m.length) :
    ∃ s1, FL_syscall_read cfg mem valid (res.toNat + 1) s tid ts res = some s1 := by
  unfold FL_syscall_read
  simp only []
  split
  · exact ⟨s, rfl⟩
  · next hcond =>
    split
    · exact ⟨_, rfl⟩
    · cases hm : cfg.clo_taint_string with
      | none => exact ⟨s, rfl⟩
      | some needle =>
        simp only []
        obtain ⟨sh1, hsh1⟩ := read_loop_terminates mem valid needle
          (populate_guest_args ts 1 : Int) res (hmarker needle hm) (res.toNat + 1) s.shadow
          (populate_guest_args ts 1 : Int) res.toNat (by intro _; omega) (by simp)
        rw [hsh1]
        exact ⟨_, rfl⟩

/-- `FL_(syscall_recvfrom)` on a Tainted descriptor in range and a positive
result marks the buffer `SC_ARG1` and changes nothing else; in every other
case the state is unchanged. -/
theorem syscall_recvfrom_spec (memw : Int → Nat) (s : FL_State) (tid : ThreadId)
    (ts : GuestRegs) (res : Int) :
    (to_Int (SC_ARG memw ts 0) > -1 ∧ to_Int (SC_ARG memw ts 0) < MAXIMUM_FDS
        ∧ s.tainted_fds tid (to_Int (SC_ARG memw ts 0)).toNat = true ∧ res > 0 →
      FL_syscall_recvfrom memw s tid ts res
        = { s with shadow := make_mem_undefined s.shadow (SC_ARG memw ts 1 : Int) res.toNat })
      ∧ (¬ (to_Int (SC_ARG memw ts 0) > -1 ∧ to_Int (SC_ARG memw ts 0) < MAXIMUM_FDS
          ∧ s.tainted_fds tid (to_Int (SC_ARG memw ts 0)).toNat = true ∧ res > 0) →
        FL_syscall_recvfrom memw s tid ts res = s) := by
  constructor
  · intro h
    simp only [FL_syscall_recvfrom, if_pos h]
  · intro h
    simp only [FL_syscall_recvfrom, if_neg h]

/-- The shadow store after the loop of `FL_(destroy_mempool)`: the region of
every chunk, redzones included, is NoAccess and no other byte has changed. -/
theorem destroy_mempool_loop_spec (rzB : Nat) (l : List FL_Chunk) (sh : Shadow) (x : Int) :
    destroy_mempool_loop rzB l sh x
      = if ∃ c ∈ l, c.data - (rzB : Int) ≤ x ∧ x < c.data + (c.szB : Int) + (rzB : Int)
        then ShadowByte.NoAccess else sh x := by
  induction l generalizing sh with
  | nil => simp [destroy_mempool_loop]
  | cons c l ih =>
    simp only [destroy_mempool_loop, ih, List.mem_cons, exists_eq_or_imp]
    by_cases hl : ∃ d ∈ l, d.data - (rzB : Int) ≤ x ∧ x < d.data + (d.szB : Int) + (rzB : Int)
    · rw [if_pos hl, if_pos (Or.inr hl)]
    · rw [if_neg hl]
      by_cases hc : c.data - (rzB : Int) ≤ x ∧ x < c.data + (c.szB : Int) + (rzB : Int)
      · rw [if_pos (Or.inl hc)]
        simp only [make_mem_noaccess, set_range]
        rw [if_pos]
        push_cast
        omega
      · rw [if_neg (by rintro (h | h); exact hc h; exact hl h)]
        simp only [make_mem_noaccess, set_range]
        rw [if_neg]
        push_cast
        omega

theorem HT_remove_pool_of_lookup {l : List FL_Mempool} {pool : Int} {mp : FL_Mempool}
    (h : HT_lookup_pool l pool = some mp) :
    ∃ rest, HT_remove_pool l pool = some (mp, rest)
      ∧ ∀ key, key ≠ pool → HT_lookup_pool rest key = HT_lookup_pool l key := by
  induction l with
  | nil => simp [HT_lookup_pool] at h
  | cons m l ih =>
    unfold HT_lookup_pool at h
    by_cases hm : m.pool = pool
    · rw [if_pos hm] at h
      simp only [Option.some.injEq] at h
      subst h
      refine ⟨l, by simp [HT_remove_pool, hm], ?_⟩
      intro key hkey
      have : ¬ m.pool = key := fun h1 => hkey (h1.symm.trans hm)
      simp only [HT_lookup_pool, if_neg this]
    · rw [if_neg hm] at h
      obtain ⟨rest, hr, hlook⟩ := ih h
      refine ⟨m :: rest, by simp [HT_remove_pool, hm, hr], ?_⟩
      intro key hkey
      simp only [HT_lookup_pool, hlook key hkey]

theorem insertion_ssort_perm (l : List FL_Chunk) : List.Perm (insertion_ssort l) l :=
  List.perm_insertionSort _ l

theorem insertion_ssort_sorted (l : List FL_Chunk) :
    List.Sorted (fun a b : FL_Chunk => a.data ≤ b.data) (insertion_ssort l) := by
  haveI : IsTotal FL_Chunk (fun a b => a.data ≤ b.data) := ⟨fun a b => le_total a.data b.data⟩
  haveI : IsTrans FL_Chunk (fun a b => a.data ≤ b.data) :=
    ⟨fun a b c h1 h2 => le_trans h1 h2⟩
  exact List.sorted_insertionSort _ l

/-- The first loop of `check_mempool_sane` finds nothing in a sorted array. -/
theorem out_of_order_loop_sorted (l : List FL_Chunk)
    (h : List.Sorted (fun a b : FL_Chunk => a.data ≤ b.data) l) :
    out_of_order_loop l = false := by
  induction l with
  | nil => rfl
  | cons a l ih =>
    cases l with
    | nil => rfl
    | cons b rest =>
      have hab : a.data ≤ b.data := List.rel_of_sorted_cons h b (List.mem_cons_self b rest)
      have hrest := ih (List.Sorted.of_cons h)
      simp only [out_of_order_loop, hrest, Bool.or_false, decide_eq_false_iff_not]
      omega

/-- The second loop of `check_mempool_sane` finds nothing exactly when every
chunk of the array ends at or before the base of its successor. -/
theorem overlap_loop_false_iff (l : List FL_Chunk) :
    overlap_loop l = false
      ↔ List.Chain' (fun a b : FL_Chunk => a.data + (a.szB : Int) ≤ b.data) l := by
  induction l with
  | nil => simp [overlap_loop]
  | cons a l ih =>
    cases l with
    | nil => simp [overlap_loop]
    | cons b rest =>
      simp only [overlap_loop, Bool.or_eq_false_iff, decide_eq_false_iff_not, ih,
        List.chain'_cons, not_lt]

/-- What `check_mempool_sane` decides, for every sorting routine that
returns its input sorted by base address: the pool is reported as bad
exactly when, in the sorted array, some chunk ends behind the base of its
successor. -/
theorem check_mempool_sane_spec (ssort : List FL_Chunk → List FL_Chunk) (mp : FL_Mempool)
    (hsorted : ∀ l, List.Sorted (fun a b : FL_Chunk => a.data ≤ b.data) (ssort l))
    (hnil : ssort [] = []) :
    check_mempool_sane ssort mp = false
      ↔ List.Chain' (fun a b : FL_Chunk => a.data + (a.szB : Int) ≤ b.data)
          (ssort mp.chunks) := by
  unfold check_mempool_sane HT_to_array
  cases hc : mp.chunks with
  | nil => simp [hnil]
  | cons c rest =>
    simp only [Bool.or_eq_false_iff, out_of_order_loop_sorted _ (hsorted _), true_and]
    exact overlap_loop_false_iff _

theorem set_tainted_fd_frame (tbl : ThreadId → Nat → Bool) (tid : ThreadId) (fd : Nat)
    (v : Bool) (t : ThreadId) (f : Nat) (h : t ≠ tid ∨ f ≠ fd) :
    set_tainted_fd tbl tid fd v t f = tbl t f := by
  unfold set_tainted_fd
  rw [if_neg]
  rintro ⟨h1, h2⟩
  rcases h with h | h
  · exact h h1
  · exact h h2

/-- A state that differs from `s` at most in one entry `tainted_fds[tid][fd]`
with `fd` below `MAXIMUM_FDS`. -/
theorem no_write_in_range (s : FL_State) (tid : ThreadId) :
    ∃ n : Nat, (n : Int) < MAXIMUM_FDS
      ∧ ∀ t f, (t ≠ tid ∨ f ≠ n) → s.tainted_fds t f = s.tainted_fds t f :=
  ⟨0, by decide, fun _ _ _ => rfl⟩

theorem write_in_range (s : FL_State) (tid : ThreadId) (fd : Int) (v : Bool)
    (h : fd > -1 ∧ fd < MAXIMUM_FDS) :
    ∃ n : Nat, (n : Int) < MAXIMUM_FDS
      ∧ ∀ t f, (t ≠ tid ∨ f ≠ n) →
          ({ s with tainted_fds := set_tainted_fd s.tainted_fds tid fd.toNat v } :
              FL_State).tainted_fds t f
            = s.tainted_fds t f := by
  refine ⟨fd.toNat, ?_, fun t f hne => set_tainted_fd_frame _ _ _ _ _ _ hne⟩
  have : (fd.toNat : Int) = fd := Int.toNat_of_nonneg (by omega)
  rw [this]; exact h.2

theorem syscall_open_writes (cfg : Clo) (readlink : Int → Option (List Nat)) (s : FL_State)
    (tid : ThreadId) (res : Int) :
    ∃ n : Nat, (n : Int) < MAXIMUM_FDS
      ∧ ∀ t f, (t ≠ tid ∨ f ≠ n) →
          (FL_syscall_open cfg readlink s tid res).tainted_fds t f = s.tainted_fds t f := by
  unfold FL_syscall_open
  simp only []
  split
  · exact no_write_in_range s tid
  · split
    · next h =>
      split
      · exact write_in_range s tid res false h
      · exact write_in_range s tid res true h
    · exact no_write_in_range s tid

theorem syscall_close_writes (s : FL_State) (tid : ThreadId) (ts : GuestRegs) :
    ∃ n : Nat, (n : Int) < MAXIMUM_FDS
      ∧ ∀ t f, (t ≠ tid ∨ f ≠ n) →
          (FL_syscall_close s tid ts).tainted_fds t f = s.tainted_fds t f := by
  unfold FL_syscall_close
  simp only []
  split
  · next h => exact write_in_range s tid _ false h
  · exact no_write_in_range s tid

theorem syscall_socket_writes (cfg : Clo) (s : FL_State) (tid : ThreadId) (res : Int) :
    (∃ n : Nat, (n : Int) < MAXIMUM_FDS
      ∧ ∀ t f, (t ≠ tid ∨ f ≠ n) →
          (FL_syscall_socket cfg s tid res).tainted_fds t f = s.tainted_fds t f)
      ∧ ∃ n : Nat, (n : Int) < MAXIMUM_FDS
        ∧ ∀ t f, (t ≠ tid ∨ f ≠ n) →
            (FL_syscall_accept cfg s tid res).tainted_fds t f = s.tainted_fds t f := by
  constructor
  · unfold FL_syscall_socket
    simp only []
    split
    · exact no_write_in_range s tid
    · split
      · next h => exact write_in_range s tid res true h
      · exact no_write_in_range s tid
  · unfold FL_syscall_accept
    simp only []
    split
    · exact no_write_in_range s tid
    · split
      · next h => exact write_in_range s tid res true h
      · exact no_write_in_range s tid

theorem syscall_connect_writes (cfg : Clo) (memw : Int → Nat) (s : FL_State) (tid : ThreadId)
    (ts : GuestRegs) (res : Int) :
    (∃ n : Nat, (n : Int) < MAXIMUM_FDS
      ∧ ∀ t f, (t ≠ tid ∨ f ≠ n) →
          (FL_syscall_connect cfg memw s tid ts res).tainted_fds t f = s.tainted_fds t f)
      ∧ ∃ n : Nat, (n : Int) < MAXIMUM_FDS
        ∧ ∀ t f, (t ≠ tid ∨ f ≠ n) →
            (FL_syscall_socketpair cfg memw s tid ts res).tainted_fds t f
              = s.tainted_fds t f := by
  constructor
  · unfold FL_syscall_connect
    simp only []
    split
    · exact no_write_in_range s tid
    · split
      · next h => exact write_in_range s tid _ true h
      · exact no_write_in_range s tid
  · unfold FL_syscall_socketpair
    simp only []
    split
    · exact no_write_in_range s tid
    · split
      · next h => exact write_in_range s tid _ true h
      · exact no_write_in_range s tid

/-- `FL_(syscall_read)`, `FL_(syscall_recvfrom)` and `FL_(syscall_recvmsg)`
do not write the descriptor table. -/
theorem read_handlers_keep_table (cfg : Clo) (mem memw : Int → Nat)
    (valid : Int → Nat → Bool) (fuel : Nat) (s : FL_State) (tid : ThreadId) (ts : GuestRegs)
    (res : Int) :
    (∀ s1, FL_syscall_read cfg mem valid fuel s tid ts res = some s1 →
        s1.tainted_fds = s.tainted_fds)
      ∧ (FL_syscall_recvfrom memw s tid ts res).tainted_fds = s.tainted_fds
      ∧ (FL_syscall_recvmsg memw s tid ts res).tainted_fds = s.tainted_fds := by
  refine ⟨?_, ?_, ?_⟩
  · intro s1 h
    unfold FL_syscall_read at h
    simp only [] at h
    split at h
    · cases h; rfl
    · split at h
      · cases h; rfl
      · split at h
        · cases h; rfl
        · split at h
          · cases h
          · cases h; rfl
  · unfold FL_syscall_recvfrom
    simp only []
    split <;> rfl
  · unfold FL_syscall_recvmsg
    simp only []
    split <;> rfl

/-- The three handlers that read the descriptor table read only the row of
the calling thread and only entries below `MAXIMUM_FDS`: a table that agrees
with the table of `s` on these entries gives the same shadow store. -/
theorem read_handlers_read_in_range (cfg : Clo) (mem memw : Int → Nat)
    (valid : Int → Nat → Bool) (fuel : Nat) (s : FL_State) (tid : ThreadId) (ts : GuestRegs)
    (res : Int) (g : ThreadId → Nat → Bool)
    (hg : ∀ f : Nat, (f : Int) < MAXIMUM_FDS → g tid f = s.tainted_fds tid f) :
    (FL_syscall_read cfg mem valid fuel { s with tainted_fds := g } tid ts res).map
          FL_State.shadow
        = (FL_syscall_read cfg mem valid fuel s tid ts res).map FL_State.shadow
      ∧ (FL_syscall_recvfrom memw { s with tainted_fds := g } tid ts res).shadow
        = (FL_syscall_recvfrom memw s tid ts res).shadow
      ∧ (FL_syscall_recvmsg memw { s with tainted_fds := g } tid ts res).shadow
        = (FL_syscall_recvmsg memw s tid ts res).shadow := by
  have hkey : ∀ fd : Int, fd > -1 → fd < MAXIMUM_FDS →
      g tid fd.toNat = s.tainted_fds tid fd.toNat := by
    intro fd h1 h2
    apply hg
    have : (fd.toNat : Int) = fd := Int.toNat_of_nonneg (by omega)
    rw [this]; exact h2
  refine ⟨?_, ?_, ?_⟩
  · unfold FL_syscall_read
    simp only []
    by_cases h1 : to_Int (populate_guest_args ts 3) < 0 ∨ res ≤ 0
    · rw [if_pos h1, if_pos h1]; rfl
    · rw [if_neg h1, if_neg h1]
      by_cases h2 : to_Int (populate_guest_args ts 3) < MAXIMUM_FDS
      · have hk := hkey _ (by omega) h2
        rw [hk]
        split
        · rfl
        · cases cfg.clo_taint_string with
          | none => rfl
          | some needle =>
            simp only []
            cases syscall_read_loop mem valid needle (populate_guest_args ts 1 : Int) res fuel
              s.shadow (populate_guest_args ts 1 : Int) res.toNat <;> rfl
      · rw [if_neg (fun h => h2 h.1), if_neg (fun h => h2 h.1)]
        cases cfg.clo_taint_string with
        | none => rfl
        | some needle =>
          simp only []
          cases syscall_read_loop mem valid needle (populate_guest_args ts 1 : Int) res fuel
            s.shadow (populate_guest_args ts 1 : Int) res.toNat <;> rfl
  · unfold FL_syscall_recvfrom
    simp only []
    by_cases h : to_Int (SC_ARG memw ts 0) > -1 ∧ to_Int (SC_ARG memw ts 0) < MAXIMUM_FDS
    · rw [hkey _ h.1 h.2]
      split <;> rfl
    · rw [if_neg (fun h1 => h ⟨h1.1, h1.2.1⟩), if_neg (fun h1 => h ⟨h1.1, h1.2.1⟩)]
  · unfold FL_syscall_recvmsg
    simp only []
    by_cases h : to_Int (SC_ARG memw ts 0) > -1 ∧ to_Int (SC_ARG memw ts 0) < MAXIMUM_FDS
    · rw [hkey _ h.1 h.2]
      split <;> rfl
    · rw [if_neg (fun h1 => h ⟨h1.1, h1.2.1⟩), if_neg (fun h1 => h ⟨h1.1, h1.2.1⟩)]

/-- A descriptor outside `0 .. MAXIMUM_FDS - 1` is never looked up: whatever
the table holds, the handlers that read it give the same shadow store, and
the two handlers without marker scan leave the state unchanged. -/
theorem read_handlers_out_of_range (cfg : Clo) (mem memw : Int → Nat)
    (valid : Int → Nat → Bool) (fuel : Nat) (s : FL_State) (tid : ThreadId) (ts : GuestRegs)
    (res : Int) :
    ((to_Int (populate_guest_args ts 3) < 0 ∨ MAXIMUM_FDS ≤ to_Int (populate_guest_args ts 3)) →
        ∀ g : ThreadId → Nat → Bool,
          (FL_syscall_read cfg mem valid fuel { s with tainted_fds := g } tid ts res).map
              FL_State.shadow
            = (FL_syscall_read cfg mem valid fuel s tid ts res).map FL_State.shadow)
      ∧ ((to_Int (SC_ARG memw ts 0) < 0 ∨ MAXIMUM_FDS ≤ to_Int (SC_ARG memw ts 0)) →
          FL_syscall_recvfrom memw s tid ts res = s ∧ FL_syscall_recvmsg memw s tid ts res = s)
      := by
  constructor
  · intro hout g
    unfold FL_syscall_read
    simp only []
    by_cases h1 : to_Int (populate_guest_args ts 3) < 0 ∨ res ≤ 0
    · rw [if_pos h1, if_pos h1]; rfl
    · rw [if_neg h1, if_neg h1]
      have h2 : ¬ to_Int (populate_guest_args ts 3) < MAXIMUM_FDS := by
        rcases hout with h | h
        · exact absurd (Or.inl h) h1
        · omega
      rw [if_neg (fun h => h2 h.1), if_neg (fun h => h2 h.1)]
      cases cfg.clo_taint_string with
      | none => rfl
      | some needle =>
        simp only []
        cases syscall_read_loop mem valid needle (populate_guest_args ts 1 : Int) res fuel
          s.shadow (populate_guest_args ts 1 : Int) res.toNat <;> rfl
  · intro hout
    have h : ¬ (to_Int (SC_ARG memw ts 0) > -1 ∧ to_Int (SC_ARG memw ts 0) < MAXIMUM_FDS
        ∧ s.tainted_fds tid (to_Int (SC_ARG memw ts 0)).toNat = true ∧ res > 0) := by
      rintro ⟨h1, h2, _⟩
      rcases hout with h | h <;> omega
    simp only [FL_syscall_recvfrom, FL_syscall_recvmsg, if_neg h, and_self]

theorem long_byte_of_bytes (b0 b1 b2 b3 : Nat) (h0 : b0 < 256) (h1 : b1 < 256)
    (h2 : b2 < 256) (h3 : b3 < 256) :
    long_byte (long_of_bytes [b0, b1, b2, b3]) 0 = b0
      ∧ long_byte (long_of_bytes [b0, b1, b2, b3]) 1 = b1
      ∧ long_byte (long_of_bytes [b0, b1, b2, b3]) 2 = b2
      ∧ long_byte (long_of_bytes [b0, b1, b2, b3]) 3 = b3 := by
  simp only [long_byte, long_of_bytes]
  norm_num
  refine ⟨?_, ?_, ?_, ?_⟩ <;> omega

theorem long_at_eq (cursor : Nat → Nat) (i : Nat) :
    long_at cursor i
      = long_of_bytes [cursor i, cursor (i + 1), cursor (i + 2), cursor (i + 3)] := by
  have hr : List.range long_size = [0, 1, 2, 3] := by decide
  simp only [long_at, hr, List.map_cons, List.map_nil, Nat.add_zero]

theorem peekdata_eq (target : Int → Nat) (addr : Int) :
    PTRACE_PEEKDATA target addr
      = long_of_bytes [target addr, target (addr + 1), target (addr + 2), target (addr + 3)] := by
  have hr : List.range long_size = [0, 1, 2, 3] := by decide
  simp only [PTRACE_PEEKDATA, hr, List.map_cons, List.map_nil]
  norm_num

/-- The byte `k` of a `long` read from four bytes, for `k` below 4. -/
theorem long_byte_get (b0 b1 b2 b3 : Nat) (h0 : b0 < 256) (h1 : b1 < 256)
    (h2 : b2 < 256) (h3 : b3 < 256) (k : Nat) (hk : k < 4) :
    long_byte (long_of_bytes [b0, b1, b2, b3]) k
      = if k = 0 then b0 else if k = 1 then b1 else if k = 2 then b2 else b3 := by
  obtain ⟨e0, e1, e2, e3⟩ := long_byte_of_bytes b0 b1 b2 b3 h0 h1 h2 h3
  have : k = 0 ∨ k = 1 ∨ k = 2 ∨ k = 3 := by omega
  rcases this with h | h | h | h <;> subst h
  · simp [e0]
  · simp [e1]
  · simp [e2]
  · simp [e3]

/-- A successful poke of the `long` read at index `i` of a buffer writes the
four bytes of the buffer from `i` on. -/
theorem pokedata_long_at (target : Int → Nat) (addr : Int) (cursor : Nat → Nat) (i : Nat)
    (hb : ∀ j, i ≤ j → j < i + 4 → cursor j < 256) (x : Int) :
    PTRACE_POKEDATA target addr (long_at cursor i) x
      = if addr ≤ x ∧ x < addr + 4 then cursor (i + (x - addr).toNat) else target x := by
  have hls : ((long_size : Nat) : Int) = 4 := by decide
  unfold PTRACE_POKEDATA
  rw [hls]
  by_cases hx : addr ≤ x ∧ x < addr + 4
  · rw [if_pos hx, if_pos hx, long_at_eq]
    have hk : (x - addr).toNat < 4 := by omega
    rw [long_byte_get _ _ _ _ (hb i (by omega) (by omega)) (hb (i + 1) (by omega) (by omega))
      (hb (i + 2) (by omega) (by omega)) (hb (i + 3) (by omega) (by omega)) _ hk]
    have : (x - addr).toNat = 0 ∨ (x - addr).toNat = 1 ∨ (x - addr).toNat = 2
        ∨ (x - addr).toNat = 3 := by omega
    rcases this with h | h | h | h <;> rw [h] <;> simp
  · rw [if_neg hx, if_neg hx]

/-- The loop of `ptrace_inject` when every poke succeeds: it returns 0 and
the `4 n` bytes of the target from `addr + i` on are those of the buffer from
index `i` on. -/
theorem ptrace_inject_loop_spec (poke_fails : Int → Bool) (addr : Int) (cursor : Nat → Nat)
    (hpoke : ∀ a, poke_fails a = false) (n i : Nat) (target : Int → Nat)
    (hb : ∀ j, i ≤ j → j < i + 4 * n → cursor j < 256) :
    (ptrace_inject_loop poke_fails addr cursor n i 0 target).1 = 0
      ∧ ∀ x : Int, (ptrace_inject_loop poke_fails addr cursor n i 0 target).2 x
          = if addr + (i : Int) ≤ x ∧ x < addr + (i : Int) + 4 * (n : Int)
            then cursor (x - addr).toNat else target x := by
  induction n generalizing i target with
  | zero =>
    refine ⟨rfl, fun x => ?_⟩
    simp only [ptrace_inject_loop]
    rw [if_neg]
    push_cast
    omega
  | succ n ih =>
    have hls : long_size = 4 := rfl
    have hstep : ptrace_inject_loop poke_fails addr cursor (n + 1) i 0 target
        = ptrace_inject_loop poke_fails addr cursor n (i + 4) 0
            (PTRACE_POKEDATA target (addr + (i : Int)) (long_at cursor i)) := by
      simp only [ptrace_inject_loop, hpoke, hls, if_true, Bool.false_eq_true, if_false]
    rw [hstep]
    obtain ⟨h1, h2⟩ := ih (i + 4)
      (PTRACE_POKEDATA target (addr + (i : Int)) (long_at cursor i))
      (fun j hj1 hj2 => hb j (by omega) (by omega))
    refine ⟨h1, fun x => ?_⟩
    rw [h2 x, pokedata_long_at target (addr + (i : Int)) cursor i
      (fun j hj1 hj2 => hb j hj1 (by omega)) x]
    by_cases hx1 : addr + ((i + 4 : Nat) : Int) ≤ x ∧ x < addr + ((i + 4 : Nat) : Int) + 4 * (n : Int)
    · rw [if_pos hx1, if_pos]
      push_cast at hx1 ⊢
      omega
    · rw [if_neg hx1]
      by_cases hx2 : addr + (i : Int) ≤ x ∧ x < addr + (i : Int) + 4
      · rw [if_pos hx2, if_pos]
        · congr 1
          omega
        · push_cast
          omega
      · rw [if_neg hx2, if_neg]
        push_cast at hx1 ⊢
        omega

/-- In a table with distinct keys `VG_(HT_remove)` by the key of a node takes
out that node and nothing else. -/
theorem HT_remove_nodup {t : VgHashTable} {mc : FL_Chunk}
    (hnd : (t.map FL_Chunk.data).Nodup) (hmem : mc ∈ t) :
    ∃ rest, HT_remove t mc.data = some (mc, rest)
      ∧ (rest.map FL_Chunk.data).Nodup
      ∧ ∀ d, d ∈ rest ↔ (d ∈ t ∧ d.data ≠ mc.data) := by
  induction t with
  | nil => cases hmem
  | cons c t ih =>
    simp only [List.map_cons, List.nodup_cons] at hnd
    by_cases hc : c.data = mc.data
    · have hcm : c = mc := by
        rcases List.mem_cons.mp hmem with h | h
        · exact h.symm
        · exact absurd (List.mem_map_of_mem FL_Chunk.data h) (hc ▸ hnd.1)
      subst hcm
      refine ⟨t, by simp [HT_remove], hnd.2, ?_⟩
      intro d
      constructor
      · intro hd
        refine ⟨List.mem_cons_of_mem _ hd, ?_⟩
        intro heq
        exact hnd.1 (heq ▸ List.mem_map_of_mem FL_Chunk.data hd)
      · rintro ⟨hd, hne⟩
        rcases List.mem_cons.mp hd with h | h
        · rw [h] at hne; exact absurd rfl hne
        · exact h
    · have hmt : mc ∈ t := by
        rcases List.mem_cons.mp hmem with h | h
        · rw [h] at hc; exact absurd rfl hc
        · exact h
      obtain ⟨rest, hr, hrnd, hiff⟩ := ih hnd.2 hmt
      refine ⟨c :: rest, by simp [HT_remove, hc, hr], ?_, ?_⟩
      · simp only [List.map_cons, List.nodup_cons]
        refine ⟨?_, hrnd⟩
        intro hin
        obtain ⟨d, hd, hdc⟩ := List.mem_map.mp hin
        exact hnd.1 (hdc ▸ List.mem_map_of_mem FL_Chunk.data ((hiff d).mp hd).1)
      · intro d
        simp only [List.mem_cons, hiff]
        constructor
        · rintro (h | ⟨h1, h2⟩)
          · exact ⟨Or.inl h, by rw [h]; exact hc⟩
          · exact ⟨Or.inr h1, h2⟩
        · rintro ⟨h | h, h2⟩
          · exact Or.inl h
          · exact Or.inr ⟨h, h2⟩

/-- The loop of `FL_(mempool_trim)` on chunks with distinct bases that do not
overlap: when it returns, no error has been recorded and every chunk of the
table lies within the extent.  The table holds, besides the chunks still to
be visited, only chunks within the extent, and its keys stay distinct. -/
theorem trim_loop_within (cfg : Clo) (tid : ThreadId) (rzB : Nat) (addr : Int) (szB : Nat)
    (arr : List FL_Chunk) (s : FL_State) (table : VgHashTable) (s1 : FL_State)
    (table1 : VgHashTable)
    (hA : (table.map FL_Chunk.data).Nodup)
    (hN : (arr.map FL_Chunk.data).Nodup)
    (hB : ∀ c ∈ arr, c ∈ table)
    (hC : ∀ d ∈ table,
      (addr ≤ d.data ∧ d.data + (d.szB : Int) ≤ addr + (szB : Int)) ∨ d ∈ arr)
    (hP : List.Pairwise (fun c d : FL_Chunk =>
      c.data + (c.szB : Int) ≤ d.data ∨ d.data + (d.szB : Int) ≤ c.data) arr)
    (hF : (∃ d ∈ table, d.data = addr ∧ d ∉ arr) →
      ∀ c ∈ arr, ¬ (c.data < addr ∧ addr < c.data + (c.szB : Int)))
    (h : mempool_trim_loop cfg tid rzB addr szB arr s table = some (s1, table1)) :
    s1.errors = s.errors
      ∧ ∀ d ∈ table1, addr ≤ d.data ∧ d.data + (d.szB : Int) ≤ addr + (szB : Int) := by
  induction arr generalizing s table with
  | nil =>
    simp only [mempool_trim_loop, Option.some.injEq, Prod.mk.injEq] at h
    rw [← h.1, ← h.2]
    refine ⟨rfl, fun d hd => ?_⟩
    rcases hC d hd with hw | hw
    · exact hw
    · cases hw
  | cons mc arr ih =>
    have hmc : mc ∈ table := hB mc (List.mem_cons_self mc arr)
    have hP1 := List.pairwise_cons.mp hP
    simp only [List.map_cons, List.nodup_cons] at hN
    have hkeys : ∀ c ∈ arr, c.data ≠ mc.data := by
      intro c hc heq
      exact hN.1 (heq ▸ List.mem_map_of_mem FL_Chunk.data hc)
    have hmc_not : mc ∉ arr := fun hin => hkeys mc hin rfl
    obtain ⟨rest, hrem, hrnd, hiff⟩ := HT_remove_nodup hA hmc
    -- facts about the table without `mc`
    have hB1 : ∀ c ∈ arr, c ∈ rest := fun c hc =>
      (hiff c).mpr ⟨hB c (List.mem_cons_of_mem mc hc), hkeys c hc⟩
    have hC1 : ∀ d ∈ rest,
        (addr ≤ d.data ∧ d.data + (d.szB : Int) ≤ addr + (szB : Int)) ∨ d ∈ arr := by
      intro d hd
      obtain ⟨hdt, hdk⟩ := (hiff d).mp hd
      rcases hC d hdt with hw | hw
      · exact Or.inl hw
      · rcases List.mem_cons.mp hw with e | e
        · rw [e] at hdk; exact absurd rfl hdk
        · exact Or.inr e
    have hF1 : (∃ d ∈ rest, d.data = addr ∧ d ∉ arr) →
        ∀ c ∈ arr, ¬ (c.data < addr ∧ addr < c.data + (c.szB : Int)) := by
      rintro ⟨d, hd, hda, hdn⟩ c hc
      obtain ⟨hdt, hdk⟩ := (hiff d).mp hd
      refine hF ⟨d, hdt, hda, ?_⟩ c (List.mem_cons_of_mem mc hc)
      intro hin
      rcases List.mem_cons.mp hin with e | e
      · rw [e] at hdk; exact absurd rfl hdk
      · exact hdn e
    -- a chunk at `addr` excludes later chunks that start before `addr` and reach it
    have hat : mc.data = addr →
        ∀ c ∈ arr, ¬ (c.data < addr ∧ addr < c.data + (c.szB : Int)) := by
      intro hma c hc hcs
      rcases hP1.1 c hc with hp | hp <;> omega
    have hlow : (mc.data < addr ∧ addr < mc.data + (mc.szB : Int)) →
        ∀ c ∈ arr, ¬ (c.data < addr ∧ addr < c.data + (c.szB : Int)) := by
      intro hms c hc hcs
      rcases hP1.1 c hc with hp | hp <;> omega
    rcases trim_loop_cons cfg tid rzB addr szB mc arr s table s1 table1 h with
      ⟨hin, h1⟩ | ⟨hnot, hrest⟩
    · -- kept: the chunk lies within the extent
      have hw : addr ≤ mc.data ∧ mc.data + (mc.szB : Int) ≤ addr + (szB : Int) := by
        rw [Bool.and_eq_true, extent_contains_iff, extent_contains_iff] at hin
        obtain ⟨h2, h3⟩ := hin
        by_cases hz : mc.szB = 0
        · rw [if_pos hz] at h3; omega
        · rw [if_neg hz] at h3; omega
      refine ih s table hA hN.2 (fun c hc => hB c (List.mem_cons_of_mem mc hc)) ?_ hP1.2 ?_ h1
      · intro d hd
        rcases hC d hd with hx | hx
        · exact Or.inl hx
        · rcases List.mem_cons.mp hx with e | e
          · rw [e]; exact Or.inl hw
          · exact Or.inr e
      · rintro ⟨d, hd, hda, hdn⟩ c hc
        by_cases hdm : d = mc
        · exact hat (hdm ▸ hda) c hc
        · refine hF ⟨d, hd, hda, ?_⟩ c (List.mem_cons_of_mem mc hc)
          intro hin2
          rcases List.mem_cons.mp hin2 with e | e
          · exact hdm e
          · exact hdn e
    · rcases hrest with ⟨hnone, _, _⟩ | ⟨found, rest1, s2, hrem1, hdie, h1⟩
        | ⟨found, rest1, sh, lo1, n, hrem1, h1, hb1, hb2, hb3⟩
      · rw [hrem] at hnone; cases hnone
      · -- released
        rw [hrem] at hrem1
        simp only [Option.some.injEq, Prod.mk.injEq] at hrem1
        obtain ⟨_, hr⟩ := hrem1
        subst hr
        obtain ⟨he, hw⟩ := ih s2 rest hrnd hN.2 hB1 hC1 hP1.2 hF1 h1
        exact ⟨he.trans (die_and_free_mem_frame hdie).2.2.1, hw⟩
      · -- trimmed and put back
        rw [hrem] at hrem1
        simp only [Option.some.injEq, Prod.mk.injEq] at hrem1
        obtain ⟨_, hr⟩ := hrem1
        subst hr
        have hnokey : ∀ d ∈ rest, d.data ≠ lo1 := by
          intro d hd hdl
          obtain ⟨hdt, hdk⟩ := (hiff d).mp hd
          rcases hb3 with e | ⟨e, hlt, hreach⟩
          · exact hdk (hdl.trans e)
          · have hda : d.data = addr := hdl.trans e
            by_cases hdin : d ∈ arr
            · rcases hP1.1 d hdin with hp | hp <;> omega
            · refine hF ⟨d, hdt, hda, ?_⟩ mc (List.mem_cons_self mc arr) ⟨hlt, hreach⟩
              intro hin2
              rcases List.mem_cons.mp hin2 with e2 | e2
              · rw [e2] at hdk; exact absurd rfl hdk
              · exact hdin e2
        have hA2 : ((({ mc with data := lo1, szB := n } : FL_Chunk) :: rest).map
            FL_Chunk.data).Nodup := by
          simp only [List.map_cons, List.nodup_cons]
          refine ⟨?_, hrnd⟩
          intro hin2
          obtain ⟨d, hd, hdl⟩ := List.mem_map.mp hin2
          exact hnokey d hd hdl
        have hB2 : ∀ c ∈ arr, c ∈ ({ mc with data := lo1, szB := n } : FL_Chunk) :: rest :=
          fun c hc => List.mem_cons_of_mem _ (hB1 c hc)
        have hC2 : ∀ d ∈ ({ mc with data := lo1, szB := n } : FL_Chunk) :: rest,
            (addr ≤ d.data ∧ d.data + (d.szB : Int) ≤ addr + (szB : Int)) ∨ d ∈ arr := by
          intro d hd
          rcases List.mem_cons.mp hd with e | e
          · rw [e]; exact Or.inl ⟨hb1, hb2⟩
          · exact hC1 d e
        have hF2 : (∃ d ∈ ({ mc with data := lo1, szB := n } : FL_Chunk) :: rest,
            d.data = addr ∧ d ∉ arr) →
            ∀ c ∈ arr, ¬ (c.data < addr ∧ addr < c.data + (c.szB : Int)) := by
          rintro ⟨d, hd, hda, hdn⟩ c hc
          rcases List.mem_cons.mp hd with e | e
          · rw [e] at hda
            simp only at hda
            rcases hb3 with e3 | ⟨_, hlt, hreach⟩
            · exact hat (e3.symm.trans hda) c hc
            · exact hlow ⟨hlt, hreach⟩ c hc
          · exact hF1 ⟨d, e, hda, hdn⟩ c hc
        exact ih { s with shadow := sh } _ hA2 hN.2 hB2 hC2 hP1.2 hF2 h1

/-- The chunks that the eviction loop keeps are chunks of the queue it was
given. -/
theorem add_to_freed_queue_loop_mem (budget : Int) (q : List FL_Chunk) (vol : Int)
    (q1 : List FL_Chunk) (v1 : Int) (released : List Int)
    (h : add_to_freed_queue_loop budget q vol = some (q1, v1, released)) :
    ∃ evicted, evicted ++ q1 = q := by
  induction q generalizing vol released q1 v1 with
  | nil =>
    unfold add_to_freed_queue_loop at h
    split at h
    · cases h
    · simp only [Option.some.injEq, Prod.mk.injEq] at h
      exact ⟨[], by rw [← h.1]; rfl⟩
  | cons c q ih =>
    unfold add_to_freed_queue_loop at h
    split at h
    · split at h
      · cases h
      · split at h
        · cases h
        · next q2 v2 rel2 heq =>
          simp only [Option.some.injEq, Prod.mk.injEq] at h
          obtain ⟨ev, hev⟩ := ih _ _ _ _ heq
          exact ⟨c :: ev, by rw [← h.1, List.cons_append, hev]⟩
    · simp only [Option.some.injEq, Prod.mk.injEq] at h
      exact ⟨[], by rw [← h.1]; rfl⟩

/-- `add_to_freed_queue`, when it returns: the queue afterwards is an end
segment of the old queue followed by the chunk. -/
theorem add_to_freed_queue_suffix {cfg : Clo} {s s1 : FL_State} {c : FL_Chunk}
    (h : add_to_freed_queue cfg s c = some s1) :
    ∃ evicted, evicted ++ s1.freed_list = s.freed_list ++ [c] := by
  unfold add_to_freed_queue at h
  simp only [] at h
  split at h
  · cases h
  · next q v released heq =>
    simp only [Option.some.injEq] at h
    obtain ⟨ev, hev⟩ := add_to_freed_queue_loop_mem _ _ _ _ _ _ heq
    exact ⟨ev, by rw [← h]; exact hev⟩

/-- `die_and_free_mem`, when it returns: a pool chunk leaves the quarantine as
it was, any other chunk is put at its end. -/
theorem die_and_free_mem_queue {cfg : Clo} {s s1 : FL_State} {tid : ThreadId} {mc : FL_Chunk}
    {rzB : Nat} (h : die_and_free_mem cfg s tid mc rzB = some s1) :
    (mc.allockind = FL_AllocKind.FL_AllocCustom →
        s1.freed_list = s.freed_list ∧ s1.freed_list_volume = s.freed_list_volume
          ∧ s1.cli_freed = s.cli_freed)
      ∧ (mc.allockind ≠ FL_AllocKind.FL_AllocCustom →
          ∃ evicted, evicted ++ s1.freed_list = s.freed_list ++ [mc]) := by
  unfold die_and_free_mem at h
  simp only [] at h
  split at h
  · next hk =>
    have hq := add_to_freed_queue_suffix h
    exact ⟨fun hc => absurd hc hk, fun _ => hq⟩
  · next hk =>
    simp only [Option.some.injEq] at h
    subst h
    exact ⟨fun _ => ⟨rfl, rfl, rfl⟩, fun hc => absurd hc hk⟩

theorem mem_of_suffix {q q1 evicted : List FL_Chunk} {c d : FL_Chunk}
    (h : evicted ++ q1 = q ++ [c]) (hd : d ∈ q1) : d ∈ q ∨ d = c := by
  have : d ∈ q ++ [c] := by rw [← h]; exact List.mem_append_right _ hd
  rcases List.mem_append.mp this with h1 | h1
  · exact Or.inl h1
  · exact Or.inr (List.mem_singleton.mp h1)

theorem mem_set_pool_chunks {l : List FL_Mempool} {pool : Int} {table : VgHashTable}
    {mp1 : FL_Mempool} (h : mp1 ∈ set_pool_chunks l pool table) :
    mp1 ∈ l ∨ mp1.chunks = table := by
  induction l with
  | nil => cases h
  | cons m l ih =>
    unfold set_pool_chunks at h
    split at h
    · rcases List.mem_cons.mp h with e | e
      · right; rw [e]
      · left; exact List.mem_cons_of_mem m e
    · rcases List.mem_cons.mp h with e | e
      · left; rw [e]; exact List.mem_cons_self m l
      · rcases ih e with h1 | h1
        · left; exact List.mem_cons_of_mem m h1
        · right; exact h1

theorem HT_lookup_pool_mem {l : List FL_Mempool} {pool : Int} {mp : FL_Mempool}
    (h : HT_lookup_pool l pool = some mp) : mp ∈ l := by
  induction l with
  | nil => simp [HT_lookup_pool] at h
  | cons m l ih =>
    unfold HT_lookup_pool at h
    split at h
    · simp only [Option.some.injEq] at h
      rw [← h]; exact List.mem_cons_self m l
    · exact List.mem_cons_of_mem m (ih h)

theorem HT_remove_pool_mem {l : List FL_Mempool} {pool : Int} {mp : FL_Mempool}
    {rest : List FL_Mempool} (h : HT_remove_pool l pool = some (mp, rest)) :
    mp ∈ l ∧ ∀ m ∈ rest, m ∈ l := by
  induction l generalizing rest with
  | nil => simp [HT_remove_pool] at h
  | cons m l ih =>
    unfold HT_remove_pool at h
    split at h
    · simp only [Option.some.injEq, Prod.mk.injEq] at h
      rw [← h.1, ← h.2]
      exact ⟨List.mem_cons_self m l, fun x hx => List.mem_cons_of_mem m hx⟩
    · split at h
      · cases h
      · next found rest1 heq =>
        simp only [Option.some.injEq, Prod.mk.injEq] at h
        obtain ⟨h1, h2⟩ := h
        subst h1
        subst h2
        obtain ⟨hm, hr⟩ := ih heq
        refine ⟨List.mem_cons_of_mem m hm, fun x hx => ?_⟩
        rcases List.mem_cons.mp hx with e | e
        · rw [e]; exact List.mem_cons_self m l
        · exact List.mem_cons_of_mem m (hr x e)

theorem HT_remove_subset {t : VgHashTable} {p : Int} {mc : FL_Chunk} {rest : VgHashTable}
    (h : HT_remove t p = some (mc, rest)) : ∀ c ∈ rest, c ∈ t :=
  fun _ hc => (HT_remove_perm h).subset (List.mem_cons_of_mem mc hc)

/-- The loop of `FL_(mempool_trim)` on a table of pool chunks: the chunks of
the table it leaves are pool chunks and the quarantine is not touched. -/
theorem trim_loop_kinds (cfg : Clo) (tid : ThreadId) (rzB : Nat) (addr : Int) (szB : Nat)
    (arr : List FL_Chunk) (s : FL_State) (table : VgHashTable) (s1 : FL_State)
    (table1 : VgHashTable)
    (harr : ∀ c ∈ arr, c.allockind = FL_AllocKind.FL_AllocCustom)
    (htable : ∀ c ∈ table, c.allockind = FL_AllocKind.FL_AllocCustom)
    (h : mempool_trim_loop cfg tid rzB addr szB arr s table = some (s1, table1)) :
    (∀ c ∈ table1, c.allockind = FL_AllocKind.FL_AllocCustom)
      ∧ s1.freed_list = s.freed_list ∧ s1.freed_list_volume = s.freed_list_volume
      ∧ s1.cli_freed = s.cli_freed := by
  induction arr generalizing s table with
  | nil =>
    simp only [mempool_trim_loop, Option.some.injEq, Prod.mk.injEq] at h
    rw [← h.1, ← h.2]
    exact ⟨htable, rfl, rfl, rfl⟩
  | cons mc arr ih =>
    have harr1 : ∀ c ∈ arr, c.allockind = FL_AllocKind.FL_AllocCustom :=
      fun c hc => harr c (List.mem_cons_of_mem mc hc)
    have hmck := harr mc (List.mem_cons_self mc arr)
    rcases trim_loop_cons cfg tid rzB addr szB mc arr s table s1 table1 h with
      ⟨_, h1⟩ | ⟨_, ⟨_, h1, h2⟩ | ⟨found, rest, s2, hrem, hdie, h1⟩
        | ⟨found, rest, sh, lo1, n, hrem, h1, _⟩⟩
    · exact ih s table harr1 htable h1
    · rw [h1, h2]; exact ⟨htable, rfl, rfl, rfl⟩
    · obtain ⟨hk, hq, hv, hc⟩ := ih s2 rest harr1
        (fun c hc => htable c (HT_remove_subset hrem c hc)) h1
      obtain ⟨e1, e2, e3⟩ := (die_and_free_mem_queue hdie).1 hmck
      exact ⟨hk, hq.trans e1, hv.trans e2, hc.trans e3⟩
    · refine ih { s with shadow := sh } _ harr1 ?_ h1
      intro c hc
      rcases List.mem_cons.mp hc with e | e
      · rw [e]; exact hmck
      · exact htable c (HT_remove_subset hrem c e)

/-- `die_and_free_mem`, when it returns, as a step of the two invariants of
the quarantine: no pool chunk is put into it and its counter stays exact. -/
theorem die_and_free_mem_step {cfg : Clo} {s s1 : FL_State} {tid : ThreadId} {mc : FL_Chunk}
    {rzB : Nat} (h : die_and_free_mem cfg s tid mc rzB = some s1) :
    s1.malloc_list = s.malloc_list ∧ s1.mempool_list = s.mempool_list
      ∧ ((∀ c ∈ s.freed_list, c.allockind ≠ FL_AllocKind.FL_AllocCustom) →
          ∀ c ∈ s1.freed_list, c.allockind ≠ FL_AllocKind.FL_AllocCustom)
      ∧ (0 ≤ cfg.clo_freelist_vol → s.freed_list_volume = queue_volume s.freed_list →
          s1.freed_list_volume = queue_volume s1.freed_list) := by
  have hf := die_and_free_mem_frame h
  have hq := die_and_free_mem_queue h
  refine ⟨hf.1, hf.2.1, ?_, ?_⟩
  · intro hk c hc
    by_cases hm : mc.allockind = FL_AllocKind.FL_AllocCustom
    · rw [(hq.1 hm).1] at hc; exact hk c hc
    · obtain ⟨ev, hev⟩ := hq.2 hm
      rcases mem_of_suffix hev hc with h1 | h1
      · exact hk c h1
      · rw [h1]; exact hm
  · intro hb hv
    obtain ⟨s2, hrun, _, _, _, _, _, hv1, _⟩ := die_and_free_mem_eq cfg s tid mc rzB hb hv
    rw [h] at hrun
    cases hrun
    exact hv1

/-- `FL_(new_block)`, when it returns: the quarantine and its counter are as
before, and the table holds the chunks it held and at most one new chunk, of
the kind asked for. -/
theorem new_block_table {a_cli : Int} {s s1 : FL_State} {tid : ThreadId} {p p1 : Int}
    {szB alignB rzB : Nat} {z : Bool} {kind : FL_AllocKind} {table table1 : VgHashTable}
    (h : FL_new_block a_cli s tid p szB alignB rzB z kind table = some (p1, table1, s1)) :
    s1.freed_list_volume = s.freed_list_volume ∧ s1.cli_freed = s.cli_freed
      ∧ ∀ c ∈ table1, c ∈ table ∨ c.allockind = kind := by
  unfold FL_new_block at h
  simp only [] at h
  have hadd : ∀ q : Int, ∀ c ∈ HT_add_node table (create_FL_Chunk tid q szB kind),
      c ∈ table ∨ c.allockind = kind := by
    intro q c hc
    rcases List.mem_cons.mp hc with e | e
    · right; rw [e]; rfl
    · left; exact e
  split at h
  · split at h
    · cases h; exact ⟨rfl, rfl, hadd _⟩
    · cases h
  · split at h
    · cases h
    · split at h
      · cases h; exact ⟨rfl, rfl, fun c hc => Or.inl hc⟩
      · cases h; exact ⟨rfl, rfl, hadd _⟩

/-- An allocation into the registry, as a step of the invariants. -/
theorem alloc_step {a_cli : Int} {s : FL_State} {tid : ThreadId} {szB alignB rzB : Nat}
    {z : Bool} {kind : FL_AllocKind} {r : Int × FL_State}
    (hkind : kind ≠ FL_AllocKind.FL_AllocCustom) (hk : kinds_separated s)
    (h : into_malloc_list (FL_new_block a_cli s tid 0 szB alignB rzB z kind s.malloc_list)
      = some r) :
    kinds_separated r.2 ∧ r.2.freed_list = s.freed_list
      ∧ r.2.freed_list_volume = s.freed_list_volume ∧ r.2.cli_freed = s.cli_freed := by
  cases hnb : FL_new_block a_cli s tid 0 szB alignB rzB z kind s.malloc_list with
  | none => rw [hnb] at h; cases h
  | some t =>
    obtain ⟨p1, table1, s1⟩ := t
    rw [hnb] at h
    simp only [into_malloc_list, Option.some.injEq] at h
    subst h
    obtain ⟨f1, _, f3, _⟩ := new_block_frame hnb
    obtain ⟨t1, t2, t3⟩ := new_block_table hnb
    refine ⟨⟨?_, ?_, ?_⟩, f3, t1, t2⟩
    · intro mp hmp
      exact hk.1 mp (f1 ▸ hmp)
    · intro c hc
      rcases t3 c hc with e | e
      · exact hk.2.1 c e
      · rw [e]; exact hkind
    · intro c hc
      exact hk.2.2 c (f3 ▸ hc)

/-- `FL_(handle_free)`, as a step of the invariants. -/
theorem handle_free_step {cfg : Clo} {s s1 : FL_State} {tid : ThreadId} {p : Int} {rzB : Nat}
    {kind : FL_AllocKind} (hk : kinds_separated s)
    (h : FL_handle_free cfg s tid p rzB kind = some s1) :
    kinds_separated s1
      ∧ (0 ≤ cfg.clo_freelist_vol → s.freed_list_volume = queue_volume s.freed_list →
          s1.freed_list_volume = queue_volume s1.freed_list) := by
  unfold FL_handle_free at h
  simp only [] at h
  split at h
  · simp only [Option.some.injEq] at h
    subst h
    exact ⟨hk, fun _ hv => hv⟩
  · next mc rest hrem =>
    have hrem1 : HT_remove s.malloc_list p = some (mc, rest) := hrem
    have hsub := HT_remove_subset hrem1
    have key : ∀ s2 : FL_State, die_and_free_mem cfg s2 tid mc rzB = some s1 →
        s2.malloc_list = rest → s2.mempool_list = s.mempool_list →
        s2.freed_list = s.freed_list → s2.freed_list_volume = s.freed_list_volume →
        kinds_separated s1
          ∧ (0 ≤ cfg.clo_freelist_vol → s.freed_list_volume = queue_volume s.freed_list →
              s1.freed_list_volume = queue_volume s1.freed_list) := by
      intro s2 hd a1 a2 a3 a4
      obtain ⟨e1, e2, e3, e4⟩ := die_and_free_mem_step hd
      refine ⟨⟨?_, ?_, ?_⟩, ?_⟩
      · intro mp hmp
        rw [e2, a2] at hmp
        exact hk.1 mp hmp
      · intro c hc
        rw [e1, a1] at hc
        exact hk.2.1 c (hsub c hc)
      · apply e3
        rw [a3]; exact hk.2.2
      · intro hb hv
        apply e4 hb
        rw [a3, a4]; exact hv
    split at h
    · split at h
      · exact key _ h rfl rfl rfl rfl
      · cases h
    · exact key _ h rfl rfl rfl rfl

/-- `FL_(realloc)`, as a step of the invariants. -/
theorem realloc_step {cfg : Clo} {a_cli : Int} {s : FL_State} {tid : ThreadId} {p : Int}
    {new_szB : Nat} {r : Int × FL_State} (hk : kinds_separated s)
    (hrun : FL_realloc cfg a_cli s tid p new_szB = some r) :
    kinds_separated r.2
      ∧ (0 ≤ cfg.clo_freelist_vol → s.freed_list_volume = queue_volume s.freed_list →
          r.2.freed_list_volume = queue_volume r.2.freed_list) := by
  unfold FL_realloc at hrun
  simp only [] at hrun
  split at hrun
  · cases hrun
    exact ⟨hk, fun _ hv => hv⟩
  · split at hrun
    · cases hrun
      exact ⟨hk, fun _ hv => hv⟩
    · next mc rest hlive =>
      have hlive1 : HT_remove s.malloc_list p = some (mc, rest) := hlive
      have hsub := HT_remove_subset hlive1
      have hmck : mc.allockind ≠ FL_AllocKind.FL_AllocCustom :=
        hk.2.1 mc (HT_remove_mem hlive1)
      split at hrun
      · cases hrun
      · next s3 hchecked =>
        have hs3 : s3.malloc_list = rest ∧ s3.freed_list = s.freed_list
            ∧ s3.freed_list_volume = s.freed_list_volume
            ∧ s3.mempool_list = s.mempool_list := by
          split at hchecked
          · split at hchecked
            · cases hchecked; exact ⟨rfl, rfl, rfl, rfl⟩
            · cases hchecked
          · cases hchecked; exact ⟨rfl, rfl, rfl, rfl⟩
        obtain ⟨hm, hq, hv3, hpl⟩ := hs3
        have hrest : ∀ mc1 : FL_Chunk, mc1.allockind ≠ FL_AllocKind.FL_AllocCustom →
            ∀ sh : Shadow, kinds_separated
              { s3 with shadow := sh, malloc_list := HT_add_node s3.malloc_list mc1 } := by
          intro mc1 hmc1 sh
          refine ⟨?_, ?_, ?_⟩
          · intro mp hmp
            exact hk.1 mp (hpl ▸ hmp)
          · intro c hc
            rcases List.mem_cons.mp hc with e | e
            · rw [e]; exact hmc1
            · exact hk.2.1 c (hsub c (hm ▸ e))
          · intro c hc
            exact hk.2.2 c (hq ▸ hc)
        have hvol : ∀ (sh : Shadow) (t : VgHashTable), 0 ≤ cfg.clo_freelist_vol →
            s.freed_list_volume = queue_volume s.freed_list →
            ({ s3 with shadow := sh, malloc_list := t } : FL_State).freed_list_volume
              = queue_volume ({ s3 with shadow := sh, malloc_list := t } : FL_State).freed_list := by
          intro sh t _ hv
          show s3.freed_list_volume = queue_volume s3.freed_list
          rw [hv3, hq]; exact hv
        split at hrun
        · cases hrun
          exact ⟨hrest mc hmck s3.shadow, hvol s3.shadow _⟩
        · split at hrun
          · cases hrun
            exact ⟨hrest { mc with szB := new_szB } hmck _, hvol _ _⟩
          · split at hrun
            · split at hrun
              · cases hrun
              · next s4 hdie =>
                cases hrun
                obtain ⟨e1, e2, e3, e4⟩ := die_and_free_mem_step hdie
                refine ⟨⟨?_, ?_, ?_⟩, ?_⟩
                · intro mp hmp
                  have hmp1 : mp ∈ s4.mempool_list := hmp
                  rw [e2] at hmp1
                  exact hk.1 mp (hpl ▸ hmp1)
                · intro c hc
                  rcases List.mem_cons.mp hc with e | e
                  · rw [e]; exact fun hcontra => by cases hcontra
                  · rw [e1] at e
                    exact hk.2.1 c (hsub c (hm ▸ e))
                · have : ∀ c ∈ s4.freed_list, c.allockind ≠ FL_AllocKind.FL_AllocCustom := by
                    apply e3
                    intro c hc
                    exact hk.2.2 c (hq ▸ hc)
                  exact this
                · intro hb hv
                  have : s4.freed_list_volume = queue_volume s4.freed_list := by
                    apply e4 hb
                    show s3.freed_list_volume = queue_volume s3.freed_list
                    rw [hv3, hq]; exact hv
                  exact this
            · cases hrun
              exact ⟨hrest mc hmck s3.shadow, hvol s3.shadow _⟩

theorem kinds_of_pools {s s1 : FL_State} (hk : kinds_separated s)
    (hm : s1.malloc_list = s.malloc_list) (hq : s1.freed_list = s.freed_list)
    (hp : ∀ mp ∈ s1.mempool_list, ∀ c ∈ mp.chunks,
      c.allockind = FL_AllocKind.FL_AllocCustom) : kinds_separated s1 :=
  ⟨hp, fun c hc => hk.2.1 c (hm ▸ hc), fun c hc => hk.2.2 c (hq ▸ hc)⟩

theorem kinds_set_pool_chunks {l : List FL_Mempool} {pool : Int} {table : VgHashTable}
    (hl : ∀ mp ∈ l, ∀ c ∈ mp.chunks, c.allockind = FL_AllocKind.FL_AllocCustom)
    (ht : ∀ c ∈ table, c.allockind = FL_AllocKind.FL_AllocCustom) :
    ∀ mp ∈ set_pool_chunks l pool table, ∀ c ∈ mp.chunks,
      c.allockind = FL_AllocKind.FL_AllocCustom := by
  intro mp hmp c hc
  rcases mem_set_pool_chunks hmp with h | h
  · exact hl mp h c hc
  · exact ht c (h ▸ hc)

/-- A pool hook that returns, as a step of the invariants: the kinds stay
separated, and the registry, the quarantine, its counter and the list of
released client blocks are as before. -/
theorem pool_hook_step {cfg : Clo} {tid : ThreadId} {s s1 : FL_State} {hook : PoolHook}
    (hk : kinds_separated s) (hrun : run_pool_hook cfg tid s hook = some s1) :
    kinds_separated s1 ∧ s1.freed_list = s.freed_list
      ∧ s1.freed_list_volume = s.freed_list_volume ∧ s1.cli_freed = s.cli_freed
      ∧ s1.malloc_list = s.malloc_list := by
  cases hook with
  | create_mempool pool rzB z =>
    simp only [run_pool_hook, FL_create_mempool] at hrun
    cases hl : HT_lookup_pool s.mempool_list pool with
    | some mp => rw [hl] at hrun; cases hrun
    | none =>
      rw [hl] at hrun
      simp only [Option.some.injEq] at hrun
      subst hrun
      refine ⟨kinds_of_pools hk rfl rfl ?_, rfl, rfl, rfl, rfl⟩
      intro mp hmp c hc
      rcases List.mem_cons.mp hmp with e | e
      · rw [e] at hc; cases hc
      · exact hk.1 mp e c hc
  | destroy_mempool pool =>
    simp only [run_pool_hook, FL_destroy_mempool, Option.some.injEq] at hrun
    cases hr : HT_remove_pool s.mempool_list pool with
    | none =>
      rw [hr] at hrun
      subst hrun
      exact ⟨kinds_of_pools hk rfl rfl hk.1, rfl, rfl, rfl, rfl⟩
    | some r =>
      obtain ⟨mp, rest⟩ := r
      rw [hr] at hrun
      subst hrun
      refine ⟨kinds_of_pools hk rfl rfl ?_, rfl, rfl, rfl, rfl⟩
      intro m hm c hc
      exact hk.1 m ((HT_remove_pool_mem hr).2 m hm) c hc
  | mempool_alloc pool addr szB =>
    simp only [run_pool_hook, FL_mempool_alloc] at hrun
    cases hl : HT_lookup_pool s.mempool_list pool with
    | none =>
      rw [hl] at hrun
      simp only [Option.some.injEq] at hrun
      subst hrun
      exact ⟨kinds_of_pools hk rfl rfl hk.1, rfl, rfl, rfl, rfl⟩
    | some mp =>
      rw [hl] at hrun
      simp only [] at hrun
      split at hrun
      · cases hrun
      · next p1 table s2 hnb =>
        simp only [Option.some.injEq] at hrun
        subst hrun
        obtain ⟨f1, f2, f3, _⟩ := new_block_frame hnb
        obtain ⟨t1, t2, t3⟩ := new_block_table hnb
        refine ⟨kinds_of_pools hk f2 f3 ?_, f3, t1, t2, f2⟩
        apply kinds_set_pool_chunks
        · intro m hm
          exact hk.1 m (f1 ▸ hm)
        · intro c hc
          rcases t3 c hc with e | e
          · exact hk.1 mp (HT_lookup_pool_mem hl) c e
          · exact e
  | mempool_free pool addr =>
    simp only [run_pool_hook, FL_mempool_free] at hrun
    cases hl : HT_lookup_pool s.mempool_list pool with
    | none =>
      rw [hl] at hrun
      simp only [Option.some.injEq] at hrun
      subst hrun
      exact ⟨kinds_of_pools hk rfl rfl hk.1, rfl, rfl, rfl, rfl⟩
    | some mp =>
      rw [hl] at hrun
      simp only [] at hrun
      have hmp := hk.1 mp (HT_lookup_pool_mem hl)
      split at hrun
      · simp only [Option.some.injEq] at hrun
        subst hrun
        exact ⟨kinds_of_pools hk rfl rfl hk.1, rfl, rfl, rfl, rfl⟩
      · next mc rest hrem =>
        have hf := die_and_free_mem_frame hrun
        obtain ⟨q1, q2, q3⟩ := (die_and_free_mem_queue hrun).1 (hmp mc (HT_remove_mem hrem))
        refine ⟨kinds_of_pools hk hf.1 q1 ?_, q1, q2, q3, hf.1⟩
        rw [hf.2.1]
        exact kinds_set_pool_chunks hk.1 (fun c hc => hmp c (HT_remove_subset hrem c hc))
  | mempool_trim pool addr szB =>
    simp only [run_pool_hook, FL_mempool_trim] at hrun
    cases hl : HT_lookup_pool s.mempool_list pool with
    | none =>
      rw [hl] at hrun
      simp only [Option.some.injEq] at hrun
      subst hrun
      exact ⟨kinds_of_pools hk rfl rfl hk.1, rfl, rfl, rfl, rfl⟩
    | some mp =>
      rw [hl] at hrun
      simp only [] at hrun
      have hmp := hk.1 mp (HT_lookup_pool_mem hl)
      split at hrun
      · simp only [Option.some.injEq] at hrun
        subst hrun
        exact ⟨hk, rfl, rfl, rfl, rfl⟩
      · split at hrun
        · cases hrun
        · next s2 table hloop =>
          simp only [Option.some.injEq] at hrun
          subst hrun
          obtain ⟨f1, f2⟩ := trim_loop_frame _ _ _ _ _ _ _ _ _ _ hloop
          obtain ⟨k1, k2, k3, k4⟩ := trim_loop_kinds _ _ _ _ _ _ _ _ _ _ hmp hmp hloop
          refine ⟨kinds_of_pools hk f2 k2 ?_, k2, k3, k4, f2⟩
          apply kinds_set_pool_chunks _ k1
          intro m hm
          exact hk.1 m (f1 ▸ hm)
  | move_mempool poolA poolB =>
    simp only [run_pool_hook, FL_move_mempool, Option.some.injEq] at hrun
    cases hr : HT_remove_pool s.mempool_list poolA with
    | none =>
      rw [hr] at hrun
      subst hrun
      exact ⟨kinds_of_pools hk rfl rfl hk.1, rfl, rfl, rfl, rfl⟩
    | some r =>
      obtain ⟨mp, rest⟩ := r
      rw [hr] at hrun
      subst hrun
      refine ⟨kinds_of_pools hk rfl rfl ?_, rfl, rfl, rfl, rfl⟩
      intro m hm c hc
      rcases List.mem_cons.mp hm with e | e
      · rw [e] at hc
        exact hk.1 mp (HT_remove_pool_mem hr).1 c hc
      · exact hk.1 m ((HT_remove_pool_mem hr).2 m e) c hc
  | mempool_change pool addrA addrB szB =>
    simp only [run_pool_hook, FL_mempool_change, Option.some.injEq] at hrun
    cases hl : HT_lookup_pool s.mempool_list pool with
    | none =>
      rw [hl] at hrun
      subst hrun
      exact ⟨kinds_of_pools hk rfl rfl hk.1, rfl, rfl, rfl, rfl⟩
    | some mp =>
      rw [hl] at hrun
      simp only [] at hrun
      have hmp := hk.1 mp (HT_lookup_pool_mem hl)
      cases hrem : HT_remove mp.chunks addrA with
      | none =>
        rw [hrem] at hrun
        subst hrun
        exact ⟨kinds_of_pools hk rfl rfl hk.1, rfl, rfl, rfl, rfl⟩
      | some r =>
        obtain ⟨mc, rest⟩ := r
        rw [hrem] at hrun
        subst hrun
        refine ⟨kinds_of_pools hk rfl rfl ?_, rfl, rfl, rfl, rfl⟩
        apply kinds_set_pool_chunks hk.1
        intro c hc
        rcases List.mem_cons.mp hc with e | e
        · rw [e]; exact hmp mc (HT_remove_mem hrem)
        · exact hmp c (HT_remove_subset hrem c e)

/-- One operation on the heap that returns keeps the kinds separated, and
with a budget that is not negative it keeps the counter of the quarantine
exact. -/
theorem heap_op_step {cfg : Clo} {tid : ThreadId} {s s1 : FL_State} {op : HeapOp}
    (hk : kinds_separated s) (hrun : run_heap_op cfg tid s op = some s1) :
    kinds_separated s1
      ∧ (0 ≤ cfg.clo_freelist_vol → s.freed_list_volume = queue_volume s.freed_list →
          s1.freed_list_volume = queue_volume s1.freed_list) := by
  have halloc : ∀ (a_cli : Int) (szB alignB : Nat) (z : Bool) (kind : FL_AllocKind)
      (silly : Bool), kind ≠ FL_AllocKind.FL_AllocCustom →
      (if silly = true then some (0, s)
        else into_malloc_list (FL_new_block a_cli s tid 0 szB alignB FL_MALLOC_REDZONE_SZB z
          kind s.malloc_list)).map Prod.snd = some s1 →
      kinds_separated s1
        ∧ (0 ≤ cfg.clo_freelist_vol → s.freed_list_volume = queue_volume s.freed_list →
            s1.freed_list_volume = queue_volume s1.freed_list) := by
    intro a_cli szB alignB z kind silly hkind h
    obtain ⟨r, hr, hs⟩ := Option.map_eq_some'.mp h
    subst hs
    split at hr
    · cases hr
      exact ⟨hk, fun _ hv => hv⟩
    · obtain ⟨k, q, v, _⟩ := alloc_step hkind hk hr
      exact ⟨k, fun _ hv => by rw [v, q]; exact hv⟩
  cases op with
  | malloc a_cli n => exact halloc a_cli _ _ _ _ _ (by decide) hrun
  | builtin_new a_cli n => exact halloc a_cli _ _ _ _ _ (by decide) hrun
  | builtin_vec_new a_cli n => exact halloc a_cli _ _ _ _ _ (by decide) hrun
  | memalign a_cli alignB n => exact halloc a_cli _ _ _ _ _ (by decide) hrun
  | calloc a_cli nmemb size1 => exact halloc a_cli _ _ _ _ _ (by decide) hrun
  | free p => exact handle_free_step hk hrun
  | builtin_delete p => exact handle_free_step hk hrun
  | builtin_vec_delete p => exact handle_free_step hk hrun
  | realloc a_cli p new_szB =>
    obtain ⟨r, hr, hs⟩ := Option.map_eq_some'.mp hrun
    subst hs
    exact realloc_step hk hr
  | pool hook =>
    obtain ⟨k, q, v, _⟩ := pool_hook_step hk hrun
    exact ⟨k, fun _ hv => by rw [v, q]; exact hv⟩

/-- Every state that a sequence of operations on the heap reaches from the
state at start-up has the kinds separated, and with a budget that is not
negative the counter of its quarantine is exact. -/
theorem heap_ops_reach (cfg : Clo) (ops : List (ThreadId × HeapOp)) (s0 s : FL_State)
    (hk : kinds_separated s0) (hrun : run_heap_ops cfg s0 ops = some s) :
    kinds_separated s
      ∧ (0 ≤ cfg.clo_freelist_vol → s0.freed_list_volume = queue_volume s0.freed_list →
          s.freed_list_volume = queue_volume s.freed_list) := by
  induction ops generalizing s0 with
  | nil =>
    simp only [run_heap_ops, Option.some.injEq] at hrun
    subst hrun
    exact ⟨hk, fun _ hv => hv⟩
  | cons op ops ih =>
    simp only [run_heap_ops] at hrun
    split at hrun
    · cases hrun
    · next s1 hop =>
      obtain ⟨k1, v1⟩ := heap_op_step hk hop
      obtain ⟨k2, v2⟩ := ih s1 k1 hrun
      exact ⟨k2, fun hb hv => v2 hb (v1 hb hv)⟩

theorem init_state_kinds (sh : Shadow) : kinds_separated (init_state sh) := by
  refine ⟨?_, ?_, ?_⟩ <;> intro _ h <;> cases h

/-- `FL_(mempool_free)` returns in every state in which the chunks of the
pools are pool chunks. -/
theorem mempool_free_returns (cfg : Clo) (s : FL_State) (tid : ThreadId) (pool addr : Int)
    (hk : kinds_separated s) : ∃ s1, FL_mempool_free cfg s tid pool addr = some s1 := by
  unfold FL_mempool_free
  cases hl : HT_lookup_pool s.mempool_list pool with
  | none => exact ⟨_, rfl⟩
  | some mp =>
    simp only []
    cases hrem : HT_remove mp.chunks addr with
    | none => exact ⟨_, rfl⟩
    | some r =>
      obtain ⟨mc, rest⟩ := r
      simp only []
      rw [die_and_free_mem_custom _ _ _ _ _
        (hk.1 mp (HT_lookup_pool_mem hl) mc (HT_remove_mem hrem))]
      exact ⟨_, rfl⟩

/-- A release of a live chunk of the registry that returns has put the chunk
at the end of the quarantine, if the chunk is not a pool chunk. -/
theorem handle_free_enqueues {cfg : Clo} {s s1 : FL_State} {tid : ThreadId} {p : Int}
    {rzB : Nat} {kind : FL_AllocKind} {mc : FL_Chunk} {rest : VgHashTable}
    (hlive : HT_remove s.malloc_list p = some (mc, rest))
    (hmc : mc.allockind ≠ FL_AllocKind.FL_AllocCustom)
    (hrun : FL_handle_free cfg s tid p rzB kind = some s1) :
    ∃ evicted, evicted ++ s1.freed_list = s.freed_list ++ [mc] := by
  simp only [FL_handle_free, hlive] at hrun
  split at hrun
  · split at hrun
    · exact (die_and_free_mem_queue hrun).2 hmc
    · cases hrun
  · exact (die_and_free_mem_queue hrun).2 hmc

/-- Changing the links of records whose link is `NULL`, or of records that
are not among `l`, keeps the chain of `l`. -/
theorem chain_next_congr {next next1 : Nat → Option Nat} {l : List Nat}
    (h : List.Chain' (fun a b => next a = some b) l)
    (hagree : ∀ a ∈ l, next a ≠ none → next1 a = next a) :
    List.Chain' (fun a b => next1 a = some b) l := by
  refine (List.Chain'.iff_mem.mp h).imp ?_
  intro a b hab
  obtain ⟨ha, _, hr⟩ := hab
  rw [hagree a ha (by rw [hr]; simp)]
  exact hr

/-- One turn of the loop of `add_to_freed_queue` on the records, when the
oldest record is not the newest. -/
theorem freed_queue_loop_turn (budget : Int) (fuel : Nat) (q : FreedQueue)
    (released : List Int) (a last : Nat) (hover : q.freed_list_volume > budget)
    (hs : q.freed_list_start = some a) (he : q.freed_list_end = some last)
    (hvol : ¬ q.freed_list_volume - ((q.chunk a).szB : Int) < 0) (hne : a ≠ last) :
    freed_queue_loop budget (fuel + 1) q released
      = freed_queue_loop budget fuel
          { q with freed_list_start := q.next a,
                   freed_list_volume := q.freed_list_volume - ((q.chunk a).szB : Int),
                   next := fun p => if p = a then none else q.next p }
          (released ++ [(q.chunk a).data]) := by
  rw [freed_queue_loop]
  simp only [if_pos hover, hs, he, if_neg hvol, if_neg hne]

/-- One turn of the loop of `add_to_freed_queue` on the records, when one
record is left. -/
theorem freed_queue_loop_last (budget : Int) (fuel : Nat) (q : FreedQueue)
    (released : List Int) (a : Nat) (hover : q.freed_list_volume > budget)
    (hs : q.freed_list_start = some a) (he : q.freed_list_end = some a)
    (hvol : ¬ q.freed_list_volume - ((q.chunk a).szB : Int) < 0) :
    freed_queue_loop budget (fuel + 1) q released
      = freed_queue_loop budget fuel
          { q with freed_list_start := none, freed_list_end := none,
                   freed_list_volume := q.freed_list_volume - ((q.chunk a).szB : Int),
                   next := fun p => if p = a then none else q.next p }
          (released ++ [(q.chunk a).data]) := by
  rw [freed_queue_loop]
  simp only [if_pos hover, hs, he, if_neg hvol, if_true]

/-- The records that stay on the queue when the oldest record is taken
off. -/
theorem queue_records_pop {q q2 : FreedQueue} {a : Nat} {t : List Nat}
    (hq : queue_records q (a :: t))
    (hnext : q2.next = fun p => if p = a then none else q.next p)
    (hchunk : q2.chunk = q.chunk)
    (hvol : q2.freed_list_volume = q.freed_list_volume - ((q.chunk a).szB : Int))
    (hstart : q2.freed_list_start = t.head?) (hend : q2.freed_list_end = t.getLast?) :
    queue_records q2 t := by
  obtain ⟨hnd, _, _, hch, hlast, hv⟩ := hq
  have hnd1 := List.nodup_cons.mp hnd
  refine ⟨hnd1.2, hstart, hend, ?_, ?_, ?_⟩
  · rw [hnext]
    apply chain_next_congr hch.tail
    intro x hx _
    have hxa : x ≠ a := fun e => hnd1.1 (e ▸ hx)
    simp only [if_neg hxa]
  · intro last1 hl
    rw [hnext]
    by_cases e : last1 = a
    · simp only [if_pos e]
    · simp only [if_neg e]
      apply hlast
      cases t with
      | nil => cases hl
      | cons b t1 => rw [List.getLast?_cons_cons]; exact hl
  · rw [hvol, hv, hchunk]
    simp only [List.map_cons, queue_volume]
    omega

/-- The loop of `add_to_freed_queue` on the records of a well-formed queue,
with a budget that is not negative and one unit of fuel for each record:
it comes to its end, no assertion fails, the records taken off are a front
part of the queue, what is left is a well-formed queue within the budget,
and the chunks, the counter and the released addresses are those of the loop
on the list of chunks. -/
theorem freed_queue_loop_spec (budget : Int) (hb : 0 ≤ budget) :
    ∀ (fuel : Nat) (q : FreedQueue) (l : List Nat) (released : List Int),
      queue_records q l → l.length ≤ fuel →
      ∃ evicted kept q1,
        freed_queue_loop budget fuel q released
            = Run.done (q1, released ++ evicted.map (fun a => (q.chunk a).data))
          ∧ evicted ++ kept = l ∧ queue_records q1 kept ∧ q1.chunk = q.chunk
          ∧ q1.freed_list_volume ≤ budget
          ∧ add_to_freed_queue_loop budget (l.map q.chunk) q.freed_list_volume
              = some (kept.map q.chunk, q1.freed_list_volume,
                      evicted.map (fun a => (q.chunk a).data)) := by
  intro fuel
  induction fuel with
  | zero =>
    intro q l released hq hlen
    have hl : l = [] := List.length_eq_zero.mp (Nat.le_zero.mp hlen)
    subst hl
    have hv : q.freed_list_volume = 0 := hq.2.2.2.2.2
    have hover : ¬ q.freed_list_volume > budget := by omega
    refine ⟨[], [], q, ?_, rfl, hq, rfl, by omega, ?_⟩
    · simp only [freed_queue_loop, if_neg hover, List.map_nil, List.append_nil]
    · simp only [List.map_nil, add_to_freed_queue_loop, if_neg hover]
  | succ fuel ih =>
    intro q l released hq hlen
    by_cases hover : q.freed_list_volume > budget
    · cases l with
      | nil =>
        have hv : q.freed_list_volume = 0 := hq.2.2.2.2.2
        omega
      | cons a t =>
        have hs : q.freed_list_start = some a := hq.2.1
        have hv : q.freed_list_volume
            = ((q.chunk a).szB : Int) + queue_volume (t.map q.chunk) := hq.2.2.2.2.2
        have hvol : ¬ q.freed_list_volume - ((q.chunk a).szB : Int) < 0 := by
          have := queue_volume_nonneg (t.map q.chunk)
          omega
        have hlen1 : t.length ≤ fuel := by
          simp only [List.length_cons] at hlen; omega
        have hnd := List.nodup_cons.mp hq.1
        have finish : ∀ q2 : FreedQueue,
            freed_queue_loop budget (fuel + 1) q released
              = freed_queue_loop budget fuel q2 (released ++ [(q.chunk a).data]) →
            queue_records q2 t → q2.chunk = q.chunk →
            q2.freed_list_volume = q.freed_list_volume - ((q.chunk a).szB : Int) →
            ∃ evicted kept q1,
              freed_queue_loop budget (fuel + 1) q released
                  = Run.done (q1, released ++ evicted.map (fun a => (q.chunk a).data))
                ∧ evicted ++ kept = a :: t ∧ queue_records q1 kept ∧ q1.chunk = q.chunk
                ∧ q1.freed_list_volume ≤ budget
                ∧ add_to_freed_queue_loop budget ((a :: t).map q.chunk) q.freed_list_volume
                    = some (kept.map q.chunk, q1.freed_list_volume,
                            evicted.map (fun a => (q.chunk a).data)) := by
          intro q2 hturn hq2 hc2 hv2
          obtain ⟨ev, kept, q1, h1, h2, h3, h4, h5, h6⟩ :=
            ih q2 t (released ++ [(q.chunk a).data]) hq2 hlen1
          refine ⟨a :: ev, kept, q1, ?_, ?_, h3, h4.trans hc2, h5, ?_⟩
          · rw [hturn, h1, hc2]
            simp only [List.map_cons, List.append_assoc, List.singleton_append]
          · rw [List.cons_append, h2]
          · rw [hc2, hv2] at h6
            simp only [List.map_cons, add_to_freed_queue_loop, if_pos hover, if_neg hvol, h6]
        cases t with
        | nil =>
          have he : q.freed_list_end = some a := hq.2.2.1
          exact finish _ (freed_queue_loop_last budget fuel q released a hover hs he hvol)
            (queue_records_pop hq rfl rfl rfl rfl rfl) rfl rfl
        | cons b t1 =>
          have he : q.freed_list_end = (b :: t1).getLast? := by
            rw [hq.2.2.1, List.getLast?_cons_cons]
          obtain ⟨last, hlast⟩ : ∃ last, (b :: t1).getLast? = some last := by
            cases hg : (b :: t1).getLast? with
            | none => exact absurd (List.getLast?_eq_none_iff.mp hg) (by simp)
            | some x => exact ⟨x, rfl⟩
          have hne : a ≠ last := by
            intro e
            apply hnd.1
            rw [e]
            exact List.mem_of_mem_getLast? (by rw [hlast]; exact rfl)
          have hnext : q.next a = some b := (List.chain'_cons.mp hq.2.2.2.1).1
          exact finish _
            (freed_queue_loop_turn budget fuel q released a last hover hs (he.trans hlast)
              hvol hne)
            (queue_records_pop hq rfl rfl rfl hnext he) rfl rfl
    · refine ⟨[], l, q, ?_, rfl, hq, rfl, by omega, ?_⟩
      · simp only [freed_queue_loop, if_neg hover, List.map_nil, List.append_nil]
      · cases l with
        | nil => simp only [List.map_nil, add_to_freed_queue_loop, if_neg hover]
        | cons a t =>
          simp only [List.map_cons, add_to_freed_queue_loop, if_neg hover, List.map_nil]

/-- What a well-formed queue says about the two pointers, the link of the
newest record and the counter. -/
theorem queue_records_pointers {q : FreedQueue} {l : List Nat} (hq : queue_records q l) :
    (q.freed_list_start = none ↔ l = []) ∧ (q.freed_list_end = none ↔ l = [])
      ∧ (∀ last, q.freed_list_end = some last → q.next last = none)
      ∧ q.freed_list_volume = queue_volume (l.map q.chunk) := by
  obtain ⟨_, hs, he, _, hlast, hv⟩ := hq
  refine ⟨?_, ?_, ?_, hv⟩
  · rw [hs]; exact List.head?_eq_none_iff
  · rw [he]; exact List.getLast?_eq_none_iff
  · intro last h
    exact hlast last (he ▸ h)

/-- The queue after the first part of `add_to_freed_queue`, which links the
record `mc` behind the newest record: it is well formed. -/
theorem queue_records_push {q q2 : FreedQueue} {l : List Nat} {mc : Nat}
    (hq : queue_records q l) (hmc : mc ∉ l)
    (hnext : q2.next = fun p =>
      if p = mc then none
      else if some p = q.freed_list_end then some mc else q.next p)
    (hchunk : q2.chunk = q.chunk)
    (hvol : q2.freed_list_volume = q.freed_list_volume + ((q.chunk mc).szB : Int))
    (hstart : q2.freed_list_start = (l ++ [mc]).head?)
    (hend : q2.freed_list_end = some mc) :
    queue_records q2 (l ++ [mc]) := by
  obtain ⟨hnd, _, he, hch, hlast, hv⟩ := hq
  refine ⟨?_, hstart, ?_, ?_, ?_, ?_⟩
  · exact List.Nodup.append hnd (List.nodup_singleton mc) (List.disjoint_singleton.mpr hmc)
  · rw [hend, List.getLast?_concat]
  · rw [hnext]
    refine List.chain'_append.mpr ⟨?_, List.chain'_singleton mc, ?_⟩
    · apply chain_next_congr hch
      intro x hx hxn
      have h1 : x ≠ mc := fun e => hmc (e ▸ hx)
      have h2 : ¬ some x = q.freed_list_end := by
        intro e
        exact hxn (hlast x (by rw [← he]; exact e.symm))
      simp only [if_neg h1, if_neg h2]
    · intro x hx y hy
      have hx1 : l.getLast? = some x := hx
      have hy1 : y = mc := by
        have : some mc = some y := hy
        simp only [Option.some.injEq] at this
        exact this.symm
      have h1 : x ≠ mc := fun e => hmc (e ▸ List.mem_of_mem_getLast? hx)
      have h2 : some x = q.freed_list_end := by rw [he, hx1]
      simp only [if_neg h1, if_pos h2, hy1]
  · intro last h
    rw [List.getLast?_concat] at h
    simp only [Option.some.injEq] at h
    rw [hnext, ← h]
    simp only [if_true]
  · rw [hvol, hv, hchunk, List.map_append, queue_volume_append]
    simp only [List.map_cons, List.map_nil, queue_volume]
    omega

/-- `add_to_freed_queue` on the records of a well-formed queue, for a record
that is not on the queue, with a budget that is not negative and one unit of
fuel for each record: no assertion fails and the loop comes to its end; the
queue afterwards is well formed, within the budget, and holds the old
records and the new one without a front part; and the chunks, the counter
and the released addresses are those of `add_to_freed_queue` on the list of
chunks. -/
theorem add_to_freed_queue_records_spec (budget : Int) (hb : 0 ≤ budget) (fuel : Nat)
    (q : FreedQueue) (l : List Nat) (mc : Nat) (hq : queue_records q l) (hmc : mc ∉ l)
    (hfuel : l.length + 1 ≤ fuel) :
    ∃ evicted kept q1,
      add_to_freed_queue_records budget fuel q mc
          = Run.done (q1, evicted.map (fun a => (q.chunk a).data))
        ∧ evicted ++ kept = l ++ [mc] ∧ queue_records q1 kept ∧ q1.chunk = q.chunk
        ∧ q1.freed_list_volume ≤ budget
        ∧ ∀ (cfg : Clo) (s : FL_State), cfg.clo_freelist_vol = budget →
            s.freed_list = l.map q.chunk → s.freed_list_volume = q.freed_list_volume →
            add_to_freed_queue cfg s (q.chunk mc)
              = some { s with freed_list := kept.map q.chunk,
                              freed_list_volume := q1.freed_list_volume,
                              cli_freed := s.cli_freed
                                ++ evicted.map (fun a => (q.chunk a).data) } := by
  have hv : q.freed_list_volume = queue_volume (l.map q.chunk) := hq.2.2.2.2.2
  have hlen : (l ++ [mc]).length ≤ fuel := by
    rw [List.length_append, List.length_singleton]; exact hfuel
  have finish : ∀ q2 : FreedQueue,
      add_to_freed_queue_records budget fuel q mc = freed_queue_loop budget fuel q2 [] →
      queue_records q2 (l ++ [mc]) → q2.chunk = q.chunk →
      q2.freed_list_volume = (match l.map q.chunk with
        | [] => ((q.chunk mc).szB : Int)
        | _ :: _ => q.freed_list_volume + ((q.chunk mc).szB : Int)) →
      ∃ evicted kept q1,
        add_to_freed_queue_records budget fuel q mc
            = Run.done (q1, evicted.map (fun a => (q.chunk a).data))
          ∧ evicted ++ kept = l ++ [mc] ∧ queue_records q1 kept ∧ q1.chunk = q.chunk
          ∧ q1.freed_list_volume ≤ budget
          ∧ ∀ (cfg : Clo) (s : FL_State), cfg.clo_freelist_vol = budget →
              s.freed_list = l.map q.chunk → s.freed_list_volume = q.freed_list_volume →
              add_to_freed_queue cfg s (q.chunk mc)
                = some { s with freed_list := kept.map q.chunk,
                                freed_list_volume := q1.freed_list_volume,
                                cli_freed := s.cli_freed
                                  ++ evicted.map (fun a => (q.chunk a).data) } := by
    intro q2 hrun hq2 hc2 hv2
    obtain ⟨ev, kept, q1, h1, h2, h3, h4, h5, h6⟩ :=
      freed_queue_loop_spec budget hb fuel q2 (l ++ [mc]) [] hq2 hlen
    refine ⟨ev, kept, q1, ?_, h2, h3, h4.trans hc2, h5, ?_⟩
    · rw [hrun, h1, hc2, List.nil_append]
    · intro cfg s hcfg hsl hsv
      rw [hc2, hv2, List.map_append, List.map_cons, List.map_nil] at h6
      unfold add_to_freed_queue
      simp only [hcfg, hsl, hsv, h6]
  cases l with
  | nil =>
    have hs : q.freed_list_start = none := hq.2.1
    have he : q.freed_list_end = none := hq.2.2.1
    have hrun : add_to_freed_queue_records budget fuel q mc
        = freed_queue_loop budget fuel
            (FreedQueue.mk (some mc) (some mc) ((q.chunk mc).szB : Int)
              (fun p => if p = mc then none else q.next p) q.chunk) [] := by
      simp only [add_to_freed_queue_records, he, hs, if_true]
    refine finish _ hrun (queue_records_push hq hmc ?_ rfl ?_ rfl rfl) rfl rfl
    · funext p
      simp only [he]
      by_cases e : p = mc
      · simp only [if_pos e]
      · simp only [if_neg e]
        rfl
    · show ((q.chunk mc).szB : Int) = q.freed_list_volume + ((q.chunk mc).szB : Int)
      rw [hv]; simp only [List.map_nil, queue_volume]; omega
  | cons a t =>
    obtain ⟨last, hlast⟩ : ∃ last, (a :: t).getLast? = some last := by
      cases hg : (a :: t).getLast? with
      | none => exact absurd (List.getLast?_eq_none_iff.mp hg) (by simp)
      | some x => exact ⟨x, rfl⟩
    have hs : q.freed_list_start = some a := hq.2.1
    have he : q.freed_list_end = some last := hq.2.2.1.trans hlast
    have hn : q.next last = none := hq.2.2.2.2.1 last hlast
    have hrun : add_to_freed_queue_records budget fuel q mc
        = freed_queue_loop budget fuel
            (FreedQueue.mk q.freed_list_start (some mc)
              (q.freed_list_volume + ((q.chunk mc).szB : Int))
              (fun p => if p = mc then none else if p = last then some mc else q.next p)
              q.chunk) [] := by
      simp only [add_to_freed_queue_records, he, hn, if_true]
    refine finish _ hrun (queue_records_push hq hmc ?_ rfl rfl hs rfl) rfl rfl
    funext p
    simp only [he, Option.some.injEq]

/-- Well-formedness of the queue looks only at the two pointers, the counter
and the records on the queue: writes to other records keep it. -/
theorem queue_records_frame {q q2 : FreedQueue} {l : List Nat} (hq : queue_records q l)
    (hs : q2.freed_list_start = q.freed_list_start)
    (he : q2.freed_list_end = q.freed_list_end)
    (hv : q2.freed_list_volume = q.freed_list_volume)
    (hrec : ∀ p ∈ l, q2.next p = q.next p ∧ q2.chunk p = q.chunk p) :
    queue_records q2 l := by
  obtain ⟨hnd, h1, h2, hch, hlast, hvol⟩ := hq
  refine ⟨hnd, hs.trans h1, he.trans h2, ?_, ?_, ?_⟩
  · exact chain_next_congr hch (fun a ha _ => (hrec a ha).1)
  · intro last h
    rw [(hrec last (List.mem_of_mem_getLast? h)).1]
    exact hlast last h
  · rw [hv, hvol]
    congr 1
    apply List.map_congr_left
    intro a ha
    exact (hrec a ha).2.symm

/-- A sequence of calls of `add_to_freed_queue` on the records, for records
that are different from each other and from those on the queue, with a
budget that is not negative and one unit of fuel for each record: no
assertion fails, every loop comes to its end, and the queue afterwards is
well formed and holds the records without a front part. -/
theorem add_records_spec (budget : Int) (hb : 0 ≤ budget) (fuel : Nat) :
    ∀ (mcs : List Nat) (q : FreedQueue) (l : List Nat),
      queue_records q l → (l ++ mcs).Nodup → l.length + mcs.length ≤ fuel →
      ∃ evicted kept q1,
        add_records budget fuel q mcs
            = Run.done (q1, evicted.map (fun a => (q.chunk a).data))
          ∧ evicted ++ kept = l ++ mcs ∧ queue_records q1 kept ∧ q1.chunk = q.chunk := by
  intro mcs
  induction mcs with
  | nil =>
    intro q l hq _ _
    exact ⟨[], l, q, rfl, by simp, hq, rfl⟩
  | cons mc rest ih =>
    intro q l hq hnd hfuel
    have hmc : mc ∉ l := by
      intro hin
      have := (List.nodup_append.mp hnd).2.2
      exact this hin (List.mem_cons_self mc rest)
    have hf1 : l.length + 1 ≤ fuel := by
      simp only [List.length_cons] at hfuel; omega
    obtain ⟨ev1, kept1, q1, h1, h2, h3, h4, _, _⟩ :=
      add_to_freed_queue_records_spec budget hb fuel q l mc hq hmc hf1
    have hsplit : ev1 ++ (kept1 ++ rest) = l ++ mc :: rest := by
      rw [← List.append_assoc, h2, List.append_assoc, List.singleton_append]
    have hnd1 : (kept1 ++ rest).Nodup := by
      have h5 : (ev1 ++ (kept1 ++ rest)).Nodup := by rw [hsplit]; exact hnd
      exact (List.nodup_append.mp h5).2.1
    have hlen : kept1.length + rest.length ≤ fuel := by
      have h5 : (ev1 ++ kept1).length = (l ++ [mc]).length := by rw [h2]
      simp only [List.length_append, List.length_singleton] at h5
      simp only [List.length_cons] at hfuel
      omega
    obtain ⟨ev2, kept2, q2, g1, g2, g3, g4⟩ := ih q1 kept1 h3 hnd1 hlen
    refine ⟨ev1 ++ ev2, kept2, q2, ?_, ?_, g3, g4.trans h4⟩
    · simp only [add_records, h1, g1, h4, List.map_append]
    · rw [List.append_assoc, g2, hsplit]

theorem wrap_Int_eq {x : Int} (h0 : -(2 ^ 31) ≤ x) (h1 : x < 2 ^ 31) : wrap_Int x = x := by
  unfold wrap_Int
  omega

/-- While the volume of the queue is less than `2^31`, the loop with the
counter of 32 bits is the loop with the exact counter. -/
theorem add_to_freed_queue_loop32_eq (budget : Int) (q : List FL_Chunk) :
    ∀ vol : Int, vol = queue_volume q → vol < 2 ^ 31 →
      add_to_freed_queue_loop32 budget q vol = add_to_freed_queue_loop budget q vol := by
  induction q with
  | nil =>
    intro vol _ _
    simp only [add_to_freed_queue_loop32, add_to_freed_queue_loop]
  | cons c q ih =>
    intro vol hv hlt
    have hq : queue_volume (c :: q) = (c.szB : Int) + queue_volume q := rfl
    have hnn := queue_volume_nonneg q
    have hw : wrap_Int (vol - (c.szB : Int)) = vol - (c.szB : Int) :=
      wrap_Int_eq (by omega) (by omega)
    simp only [add_to_freed_queue_loop32, add_to_freed_queue_loop, hw]
    rw [ih (vol - (c.szB : Int)) (by omega) (by omega)]

/-- While the volume of the queue with the new chunk is less than `2^31`,
`add_to_freed_queue` with the counter of 32 bits is `add_to_freed_queue` with
the exact counter. -/
theorem add_to_freed_queue32_eq (cfg : Clo) (s : FL_State) (c : FL_Chunk)
    (hv : s.freed_list_volume = queue_volume s.freed_list)
    (hfit : queue_volume (s.freed_list ++ [c]) < 2 ^ 31) :
    add_to_freed_queue32 cfg s c = add_to_freed_queue cfg s c := by
  have happ : queue_volume (s.freed_list ++ [c])
      = queue_volume s.freed_list + (c.szB : Int) := by
    rw [queue_volume_append]
    simp only [queue_volume]
    omega
  have hnn := queue_volume_nonneg s.freed_list
  have h0 : queue_volume ([] : List FL_Chunk) = 0 := rfl
  cases hl : s.freed_list with
  | nil =>
    rw [hl] at happ hfit
    have hvol : (c.szB : Int) = queue_volume ([] ++ [c]) := by
      rw [happ, h0]; omega
    have hlt : (c.szB : Int) < 2 ^ 31 := by
      rw [hvol]; exact hfit
    have hw : wrap_Int (c.szB : Int) = (c.szB : Int) :=
      wrap_Int_eq (x := (c.szB : Int)) (by omega) hlt
    have hloop := add_to_freed_queue_loop32_eq cfg.clo_freelist_vol ([] ++ [c])
      (c.szB : Int) hvol hlt
    unfold add_to_freed_queue32 add_to_freed_queue
    simp only [hl, hw, hloop]
  | cons a l =>
    rw [hl] at happ hfit hv hnn
    have hvol : s.freed_list_volume + (c.szB : Int) = queue_volume ((a :: l) ++ [c]) := by
      rw [happ, hv]
    have hlt : s.freed_list_volume + (c.szB : Int) < 2 ^ 31 := by
      rw [hvol]; exact hfit
    have hw : wrap_Int (s.freed_list_volume + (c.szB : Int))
        = s.freed_list_volume + (c.szB : Int) :=
      wrap_Int_eq (x := s.freed_list_volume + (c.szB : Int)) (by omega) hlt
    have hloop := add_to_freed_queue_loop32_eq cfg.clo_freelist_vol ((a :: l) ++ [c])
      (s.freed_list_volume + (c.szB : Int)) hvol hlt
    unfold add_to_freed_queue32 add_to_freed_queue
    simp only [hl, hw, hloop]

theorem die_and_free_mem32_eq (cfg : Clo) (s : FL_State) (tid : ThreadId) (mc : FL_Chunk)
    (rzB : Nat) (hv : s.freed_list_volume = queue_volume s.freed_list)
    (hfit : queue_volume (s.freed_list ++ [mc]) < 2 ^ 31) :
    die_and_free_mem32 cfg s tid mc rzB = die_and_free_mem cfg s tid mc rzB := by
  unfold die_and_free_mem32 die_and_free_mem
  simp only []
  split
  · exact add_to_freed_queue32_eq cfg _ mc hv hfit
  · rfl

theorem handle_free32_eq (cfg : Clo) (s : FL_State) (tid : ThreadId) (p : Int) (rzB : Nat)
    (kind : FL_AllocKind) (hv : s.freed_list_volume = queue_volume s.freed_list)
    (hfit : ∀ c ∈ s.malloc_list, queue_volume (s.freed_list ++ [c]) < 2 ^ 31) :
    FL_handle_free32 cfg s tid p rzB kind = FL_handle_free cfg s tid p rzB kind := by
  unfold FL_handle_free32 FL_handle_free
  simp only []
  cases hrem : HT_remove s.malloc_list p with
  | none => rfl
  | some r =>
    obtain ⟨mc, rest⟩ := r
    have hmc := hfit mc (HT_remove_mem hrem)
    simp only []
    split
    · split
      · exact die_and_free_mem32_eq cfg _ tid mc rzB hv hmc
      · rfl
    · exact die_and_free_mem32_eq cfg _ tid mc rzB hv hmc

/-- The registry after `FL_(handle_free)` holds chunks of the registry
before. -/
theorem handle_free_registry_subset {cfg : Clo} {s s1 : FL_State} {tid : ThreadId} {p : Int}
    {rzB : Nat} {kind : FL_AllocKind} (hrun : FL_handle_free cfg s tid p rzB kind = some s1) :
    ∀ c ∈ s1.malloc_list, c ∈ s.malloc_list := by
  rcases HT_remove_cases s.malloc_list p with habsent | ⟨mc, rest, hlive⟩
  · rw [handle_free_absent cfg s tid p rzB kind habsent] at hrun
    cases hrun
    exact fun c hc => hc
  · rw [handle_free_registry hlive hrun]
    exact HT_remove_subset hlive

/-- Release calls with the counter of 32 bits, for a budget of at most
`2^31 - 2^30` and registered sizes that fit the field `szB`: every call
returns, the counter stays the volume of the queue and the volume stays
within the budget. -/
theorem release_calls32_invariant (cfg : Clo) (hb : 0 ≤ cfg.clo_freelist_vol)
    (hB : cfg.clo_freelist_vol ≤ 2 ^ 31 - 2 ^ szB_bits)
    (calls : List FreeCall) (s : FL_State)
    (hv : s.freed_list_volume = queue_volume s.freed_list)
    (hle : s.freed_list_volume ≤ cfg.clo_freelist_vol)
    (hsz : ∀ c ∈ s.malloc_list, c.szB < 2 ^ szB_bits) :
    ∃ s1, release_calls32 cfg s calls = some s1
      ∧ s1.freed_list_volume = queue_volume s1.freed_list
      ∧ queue_volume s1.freed_list ≤ cfg.clo_freelist_vol := by
  induction calls generalizing s with
  | nil => exact ⟨s, rfl, hv, by rw [← hv]; exact hle⟩
  | cons c calls ih =>
    have hfit : ∀ d ∈ s.malloc_list, queue_volume (s.freed_list ++ [d]) < 2 ^ 31 := by
      intro d hd
      have h1 := hsz d hd
      have h2 : queue_volume (s.freed_list ++ [d])
          = queue_volume s.freed_list + (d.szB : Int) := by
        rw [queue_volume_append]
        simp only [queue_volume]
        omega
      have h3 : ((d.szB : Nat) : Int) < 2 ^ szB_bits := by exact_mod_cast h1
      rw [h2, ← hv]
      have h4 : (2 : Int) ^ szB_bits = 2 ^ 30 := rfl
      omega
    obtain ⟨s1, hrun, hv1, hle1⟩ := handle_free_invariant cfg s c.tid c.p c.rzB c.kind hb hv hle
    have hsz1 : ∀ d ∈ s1.malloc_list, d.szB < 2 ^ szB_bits :=
      fun d hd => hsz d (handle_free_registry_subset hrun d hd)
    obtain ⟨s2, hrun2, hv2, hle2⟩ := ih s1 hv1 hle1 hsz1
    refine ⟨s2, ?_, hv2, hle2⟩
    simp only [release_calls32, handle_free32_eq cfg s c.tid c.p c.rzB c.kind hv hfit, hrun]
    exact hrun2

/-- `FL_(destroy_mempool)` on a live pool with redzone `rz`: afterwards,
for every chunk `(b, s)` the pool contained, every byte of `[b-rz, b+s+rz)` is
NoAccess and no byte outside these regions has changed; the pool is taken out
of the list of pools, every other identifier resolves as before, and, the
identifiers of the live pools being distinct, `FL_(mempool_exists)` returns
False for the destroyed one; the registry, the quarantine and the error log
are unchanged. -/
theorem destroy_mempool_effect (s : FL_State) (tid : ThreadId) (pool : Int) (mp : FL_Mempool)
    (hlive : HT_lookup_pool s.mempool_list pool = some mp) :
    (∀ c ∈ mp.chunks, ∀ x : Int, c.data - (mp.rzB : Int) ≤ x →
        x < c.data + (c.szB : Int) + (mp.rzB : Int) →
        (FL_destroy_mempool s tid pool).shadow x = ShadowByte.NoAccess)
      ∧ (∀ x : Int,
          (∀ c ∈ mp.chunks,
            ¬ (c.data - (mp.rzB : Int) ≤ x ∧ x < c.data + (c.szB : Int) + (mp.rzB : Int))) →
          (FL_destroy_mempool s tid pool).shadow x = s.shadow x)
      ∧ ((s.mempool_list.map FL_Mempool.pool).Nodup →
          FL_mempool_exists (FL_destroy_mempool s tid pool) pool = false)
      ∧ List.Perm s.mempool_list (mp :: (FL_destroy_mempool s tid pool).mempool_list)
      ∧ (∀ key, key ≠ pool →
          HT_lookup_pool (FL_destroy_mempool s tid pool).mempool_list key
            = HT_lookup_pool s.mempool_list key)
      ∧ (FL_destroy_mempool s tid pool).malloc_list = s.malloc_list
      ∧ (FL_destroy_mempool s tid pool).freed_list = s.freed_list
      ∧ (FL_destroy_mempool s tid pool).freed_list_volume = s.freed_list_volume
      ∧ (FL_destroy_mempool s tid pool).cli_freed = s.cli_freed
      ∧ (FL_destroy_mempool s tid pool).errors = s.errors := by
  obtain ⟨rest, hr, hlook⟩ := HT_remove_pool_of_lookup hlive
  have hrun : FL_destroy_mempool s tid pool
      = { s with mempool_list := rest,
                 shadow := destroy_mempool_loop mp.rzB mp.chunks s.shadow } := by
    simp only [FL_destroy_mempool, hr]
  have hspec := HT_remove_pool_spec hr
  rw [hrun]
  refine ⟨?_, ?_, ?_, ?_, hlook, rfl, rfl, rfl, rfl, rfl⟩
  · intro c hc x h1 h2
    simp only [destroy_mempool_loop_spec]
    rw [if_pos ⟨c, hc, h1, h2⟩]
  · intro x hx
    simp only [destroy_mempool_loop_spec]
    rw [if_neg]
    rintro ⟨c, hc, h⟩
    exact hx c hc h
  · intro hnd
    have h2 := (List.Perm.nodup_iff hspec.2).mp hnd
    have hnot : pool ∉ rest.map FL_Mempool.pool := (List.nodup_cons.mp h2).1
    have hnone := (HT_lookup_pool_none_iff rest pool).mpr hnot
    simp only [FL_mempool_exists, hnone, Option.isSome_none]
  · have hmem : ∀ (l : List FL_Mempool) (r : List FL_Mempool),
        HT_remove_pool l pool = some (mp, r) → List.Perm l (mp :: r) := by
      intro l
      induction l with
      | nil => intro r h; simp [HT_remove_pool] at h
      | cons m l ih =>
        intro r h
        unfold HT_remove_pool at h
        split at h
        · simp only [Option.some.injEq, Prod.mk.injEq] at h
          rw [← h.1, ← h.2]
        · split at h
          · cases h
          · next found rest1 heq =>
            simp only [Option.some.injEq, Prod.mk.injEq] at h
            obtain ⟨h1, h2⟩ := h
            subst h1
            subst h2
            exact (List.Perm.cons m (ih rest1 heq)).trans (List.Perm.swap found m rest1)
    exact hmem _ _ hr


/-- `HT_remove_node` returns a record with the key and unlinks that one
occurrence. -/
theorem HT_remove_node_spec {heap : Nat → FL_Chunk} {t : List Nat} {key : Int} {m : Nat}
    {rest : List Nat} (h : HT_remove_node heap t key = some (m, rest)) :
    (heap m).data = key ∧ List.Perm (m :: rest) t := by
  induction t generalizing rest with
  | nil => simp [HT_remove_node] at h
  | cons c t ih =>
    unfold HT_remove_node at h
    split at h
    · next hc =>
      simp only [Option.some.injEq, Prod.mk.injEq] at h
      obtain ⟨h1, h2⟩ := h
      subst h1
      subst h2
      exact ⟨hc, List.Perm.refl _⟩
    · split at h
      · cases h
      · next found rest1 heq =>
        simp only [Option.some.injEq, Prod.mk.injEq] at h
        obtain ⟨h1, h2⟩ := h
        subst h1
        subst h2
        obtain ⟨hk, hp⟩ := ih heq
        exact ⟨hk, (List.Perm.swap c found rest1).trans (List.Perm.cons c hp)⟩

/-- One turn of the loop of `FL_(mempool_trim)` on the records, by the branch
taken for the record `n`: kept, early return because no record with the key
is linked, released, or trimmed and linked again. -/
theorem trim_nodes_loop_cons (cfg : Clo) (tid : ThreadId) (rzB : Nat) (addr : Int) (szB : Nat)
    (n : Nat) (arr : List Nat) (s : FL_State) (heap : Nat → FL_Chunk) (table : List Nat)
    (s1 : FL_State) (heap1 : Nat → FL_Chunk) (table1 : List Nat)
    (h : mempool_trim_nodes_loop cfg tid rzB addr szB (n :: arr) s heap table
      = some (s1, heap1, table1)) :
    ((EXTENT_CONTAINS addr szB (heap n).data
          && EXTENT_CONTAINS addr szB
              (if (heap n).szB = 0 then (heap n).data
                else (heap n).data + ((heap n).szB : Int) - 1)) = true
        ∧ mempool_trim_nodes_loop cfg tid rzB addr szB arr s heap table
            = some (s1, heap1, table1))
      ∨ (HT_remove_node heap table (heap n).data = none
          ∧ s1 = record_free_error s tid (heap n).data)
      ∨ (EXTENT_CONTAINS addr szB (heap n).data = false
          ∧ ∃ found rest s2, HT_remove_node heap table (heap n).data = some (found, rest)
              ∧ die_and_free_mem cfg s tid (heap n) rzB = some s2
              ∧ mempool_trim_nodes_loop cfg tid rzB addr szB arr s2 heap rest
                  = some (s1, heap1, table1))
      ∨ ∃ found rest sh lo1 k, HT_remove_node heap table (heap n).data = some (found, rest)
          ∧ mempool_trim_nodes_loop cfg tid rzB addr szB arr { s with shadow := sh }
              (fun p => if p = n then { heap n with data := lo1, szB := k } else heap p)
              (n :: rest) = some (s1, heap1, table1)
          ∧ addr ≤ lo1 ∧ lo1 < addr + (szB : Int) ∧ lo1 + (k : Int) ≤ addr + (szB : Int) := by
  rw [mempool_trim_nodes_loop] at h
  dsimp only at h
  generalize hhi : (if (heap n).szB = 0 then (heap n).data
    else (heap n).data + ((heap n).szB : Int) - 1) = hi at h ⊢
  by_cases h1 : (EXTENT_CONTAINS addr szB (heap n).data && EXTENT_CONTAINS addr szB hi) = true
  · rw [if_pos h1] at h
    exact Or.inl ⟨h1, h⟩
  · rw [if_neg h1] at h
    refine Or.inr ?_
    by_cases h2 : (!EXTENT_CONTAINS addr szB (heap n).data
        && !EXTENT_CONTAINS addr szB hi) = true
    · rw [if_pos h2] at h
      have hlo : EXTENT_CONTAINS addr szB (heap n).data = false := by
        cases hv : EXTENT_CONTAINS addr szB (heap n).data with
        | false => rfl
        | true => rw [hv] at h2; simp at h2
      cases hrem : HT_remove_node heap table (heap n).data with
      | none =>
        rw [hrem] at h
        dsimp only at h
        simp only [Option.some.injEq, Prod.mk.injEq] at h
        exact Or.inl ⟨rfl, h.1.symm⟩
      | some fr =>
        obtain ⟨found, rest⟩ := fr
        rw [hrem] at h
        dsimp only at h
        cases hdie : die_and_free_mem cfg s tid (heap n) rzB with
        | none => rw [hdie] at h; cases h
        | some s2 =>
          rw [hdie] at h
          dsimp only at h
          exact Or.inr (Or.inl ⟨hlo, found, rest, s2, rfl, rfl, h⟩)
    · rw [if_neg h2] at h
      by_cases h3 : (!(EXTENT_CONTAINS addr szB (heap n).data
          || EXTENT_CONTAINS addr szB hi)) = true
      · rw [if_pos h3] at h; cases h
      · rw [if_neg h3] at h
        cases hrem : HT_remove_node heap table (heap n).data with
        | none =>
          rw [hrem] at h
          dsimp only at h
          simp only [Option.some.injEq, Prod.mk.injEq] at h
          exact Or.inl ⟨rfl, h.1.symm⟩
        | some fr =>
          obtain ⟨found, rest⟩ := fr
          rw [hrem] at h
          dsimp only at h
          obtain ⟨ha1, h⟩ := ite_none_eq_some h
          obtain ⟨ha2, h⟩ := ite_none_eq_some h
          obtain ⟨ha3, h⟩ := ite_none_eq_some h
          refine Or.inr (Or.inr ⟨found, rest, _, _, _, rfl, h, ?_, ?_, ?_⟩)
          · split <;> omega
          · by_cases hlt : (heap n).data < addr <;>
              by_cases hgt : (heap n).data + (szB : Int) > addr + (szB : Int) <;>
              simp only [hlt, hgt, if_true, if_false] at ha2 ⊢ <;> omega
          · have hmod : ∀ k : Nat, ((k % 2 ^ szB_bits : Nat) : Int) ≤ (k : Int) :=
              fun k => by exact_mod_cast Nat.mod_le k _
            refine le_trans (add_le_add_left (hmod _) _) ?_
            by_cases hlt : (heap n).data < addr <;>
              by_cases hgt : (heap n).data + (szB : Int) > addr + (szB : Int) <;>
              simp only [hlt, hgt, if_true, if_false] at ha2 ⊢ <;> omega

/-- A chunk whose first and last byte are inside the extent lies within the
extent. -/
theorem inside_within {addr : Int} {szB : Nat} {c : FL_Chunk}
    (h : (EXTENT_CONTAINS addr szB c.data
      && EXTENT_CONTAINS addr szB
          (if c.szB = 0 then c.data else c.data + (c.szB : Int) - 1)) = true) :
    addr ≤ c.data ∧ c.data + (c.szB : Int) ≤ addr + (szB : Int) := by
  rw [Bool.and_eq_true, extent_contains_iff, extent_contains_iff] at h
  obtain ⟨h1, h2⟩ := h
  by_cases hz : c.szB = 0
  · rw [if_pos hz] at h2; omega
  · rw [if_neg hz] at h2; omega

/-- The loop of `FL_(mempool_trim)` on the records, when it returns without
having recorded an error: every record that is linked at the end lies within
the extent.  The array holds each record once; for every key outside the
extent no more records with the key are linked than the array still holds;
and a linked record is still in the array, lies within the extent, or has
its key outside the extent. -/
theorem trim_nodes_within (cfg : Clo) (tid : ThreadId) (rzB : Nat) (addr : Int) (szB : Nat) :
    ∀ (arr : List Nat) (s : FL_State) (heap : Nat → FL_Chunk) (table : List Nat)
      (s1 : FL_State) (heap1 : Nat → FL_Chunk) (table1 : List Nat),
      arr.Nodup →
      (∀ K : Int, EXTENT_CONTAINS addr szB K = false →
        table.countP (fun p => decide ((heap p).data = K))
          ≤ arr.countP (fun p => decide ((heap p).data = K))) →
      (∀ p ∈ table, p ∈ arr
        ∨ (addr ≤ (heap p).data ∧ (heap p).data + ((heap p).szB : Int) ≤ addr + (szB : Int))
        ∨ EXTENT_CONTAINS addr szB (heap p).data = false) →
      mempool_trim_nodes_loop cfg tid rzB addr szB arr s heap table
        = some (s1, heap1, table1) →
      s1.errors = s.errors →
      ∀ p ∈ table1, addr ≤ (heap1 p).data
        ∧ (heap1 p).data + ((heap1 p).szB : Int) ≤ addr + (szB : Int) := by
  intro arr
  induction arr with
  | nil =>
    intro s heap table s1 heap1 table1 _ hA hB h _ p hp
    simp only [mempool_trim_nodes_loop, Option.some.injEq, Prod.mk.injEq] at h
    obtain ⟨_, h2, h3⟩ := h
    subst h2
    subst h3
    rcases hB p hp with hin | hw | hout
    · cases hin
    · exact hw
    · exfalso
      have h0 := hA _ hout
      simp only [List.countP_nil, Nat.le_zero] at h0
      exact (List.countP_eq_zero.mp h0) p hp (decide_eq_true rfl)
  | cons n arr ih =>
    intro s heap table s1 heap1 table1 hnd hA hB h herr
    have hnd1 := List.nodup_cons.mp hnd
    rcases trim_nodes_loop_cons cfg tid rzB addr szB n arr s heap table s1 heap1 table1 h with
      ⟨hin, h1⟩ | ⟨_, hs1⟩ | ⟨hlo, m, rest, s2, hrem, hdie, h1⟩
        | ⟨m, rest, sh, lo1, k, hrem, h1, hb1, hb2, hb3⟩
    · -- the record is kept
      have hw := inside_within hin
      have hkey : EXTENT_CONTAINS addr szB (heap n).data = true :=
        (Bool.and_eq_true _ _ ▸ hin).1
      refine ih s heap table s1 heap1 table1 hnd1.2 ?_ ?_ h1 herr
      · intro K hK
        have hne : ¬ decide ((heap n).data = K) = true := by
          intro e
          have e1 := of_decide_eq_true e
          rw [e1, hK] at hkey
          cases hkey
        have h0 := hA K hK
        rw [List.countP_cons_of_neg (fun p => decide ((heap p).data = K)) _ hne] at h0
        exact h0
      · intro p hp
        rcases hB p hp with hin1 | hw1 | hout
        · rcases List.mem_cons.mp hin1 with e | e
          · right; left; rw [e]; exact hw
          · left; exact e
        · right; left; exact hw1
        · right; right; exact hout
    · -- early return with an error
      exfalso
      rw [hs1] at herr
      have hlen := congrArg List.length herr
      simp only [record_free_error, List.length_append, List.length_singleton] at hlen
      omega
    · -- the record is released
      obtain ⟨hk, hperm⟩ := HT_remove_node_spec hrem
      have herr2 : s1.errors = s2.errors :=
        herr.trans (die_and_free_mem_frame hdie).2.2.1.symm
      refine ih s2 heap rest s1 heap1 table1 hnd1.2 ?_ ?_ h1 herr2
      · intro K hK
        have h0 := hA K hK
        rw [← List.Perm.countP_eq (fun p => decide ((heap p).data = K)) hperm] at h0
        by_cases e : (heap n).data = K
        · have e1 : decide ((heap n).data = K) = true := decide_eq_true e
          have e2 : decide ((heap m).data = K) = true := decide_eq_true (hk.trans e)
          rw [List.countP_cons_of_pos (fun p => decide ((heap p).data = K)) _ e1,
            List.countP_cons_of_pos (fun p => decide ((heap p).data = K)) _ e2] at h0
          omega
        · have e1 : ¬ decide ((heap n).data = K) = true := fun c => e (of_decide_eq_true c)
          have e2 : ¬ decide ((heap m).data = K) = true :=
            fun c => e (hk.symm.trans (of_decide_eq_true c))
          rw [List.countP_cons_of_neg (fun p => decide ((heap p).data = K)) _ e1,
            List.countP_cons_of_neg (fun p => decide ((heap p).data = K)) _ e2] at h0
          exact h0
      · intro p hp
        have hp1 : p ∈ table := hperm.subset (List.mem_cons_of_mem m hp)
        rcases hB p hp1 with hin1 | hw1 | hout
        · rcases List.mem_cons.mp hin1 with e | e
          · right; right; rw [e]; exact hlo
          · left; exact e
        · right; left; exact hw1
        · right; right; exact hout
    · -- the record is trimmed and linked again
      obtain ⟨hk, hperm⟩ := HT_remove_node_spec hrem
      have hself : (if n = n then ({ heap n with data := lo1, szB := k } : FL_Chunk)
          else heap n) = { heap n with data := lo1, szB := k } := if_pos rfl
      have hkin : EXTENT_CONTAINS addr szB lo1 = true :=
        (extent_contains_iff addr szB lo1).mpr ⟨hb1, hb2⟩
      refine ih { s with shadow := sh } _ (n :: rest) s1 heap1 table1 hnd1.2 ?_ ?_ h1 herr
      · intro K hK
        have hne : ¬ decide (((if n = n then ({ heap n with data := lo1, szB := k } : FL_Chunk)
            else heap n)).data = K) = true := by
          intro c
          have c1 := of_decide_eq_true c
          rw [hself] at c1
          have c2 : lo1 = K := c1
          rw [c2, hK] at hkin
          cases hkin
        rw [List.countP_cons_of_neg (fun p => decide (((if p = n then
            ({ heap n with data := lo1, szB := k } : FL_Chunk) else heap p)).data = K)) _ hne]
        have hmono : rest.countP (fun p => decide (((if p = n then
              ({ heap n with data := lo1, szB := k } : FL_Chunk) else heap p)).data = K))
            ≤ rest.countP (fun p => decide ((heap p).data = K)) := by
          apply List.countP_mono_left
          intro x _ hx
          by_cases e : x = n
          · exfalso
            subst e
            exact hne hx
          · simp only [if_neg e] at hx
            exact hx
        have hcongr : arr.countP (fun p => decide (((if p = n then
              ({ heap n with data := lo1, szB := k } : FL_Chunk) else heap p)).data = K))
            = arr.countP (fun p => decide ((heap p).data = K)) := by
          apply List.countP_congr
          intro x hx
          have e : x ≠ n := fun c => hnd1.1 (c ▸ hx)
          simp only [if_neg e]
        rw [hcongr]
        refine le_trans hmono ?_
        have h0 := hA K hK
        rw [← List.Perm.countP_eq (fun p => decide ((heap p).data = K)) hperm] at h0
        by_cases e : (heap n).data = K
        · have e1 : decide ((heap n).data = K) = true := decide_eq_true e
          have e2 : decide ((heap m).data = K) = true := decide_eq_true (hk.trans e)
          rw [List.countP_cons_of_pos (fun p => decide ((heap p).data = K)) _ e1,
            List.countP_cons_of_pos (fun p => decide ((heap p).data = K)) _ e2] at h0
          omega
        · have e1 : ¬ decide ((heap n).data = K) = true := fun c => e (of_decide_eq_true c)
          have e2 : ¬ decide ((heap m).data = K) = true :=
            fun c => e (hk.symm.trans (of_decide_eq_true c))
          rw [List.countP_cons_of_neg (fun p => decide ((heap p).data = K)) _ e1,
            List.countP_cons_of_neg (fun p => decide ((heap p).data = K)) _ e2] at h0
          exact h0
      · intro p hp
        by_cases e : p = n
        · right; left
          subst e
          simp only [if_true]
          exact ⟨hb1, hb3⟩
        · simp only [if_neg e]
          have hp0 : p ∈ rest := by
            rcases List.mem_cons.mp hp with c | c
            · exact absurd c e
            · exact c
          have hp1 : p ∈ table := hperm.subset (List.mem_cons_of_mem m hp0)
          rcases hB p hp1 with hin1 | hw1 | hout
          · rcases List.mem_cons.mp hin1 with c | c
            · exact absurd c e
            · left; exact c
          · right; left; exact hw1
          · right; right; exact hout

/-- The loop of `FL_(mempool_trim)` on the records touches neither the list of
pools nor the registry. -/
theorem trim_nodes_loop_frame (cfg : Clo) (tid : ThreadId) (rzB : Nat) (addr : Int) (szB : Nat) :
    ∀ (arr : List Nat) (s : FL_State) (heap : Nat → FL_Chunk) (table : List Nat)
      (s1 : FL_State) (heap1 : Nat → FL_Chunk) (table1 : List Nat),
      mempool_trim_nodes_loop cfg tid rzB addr szB arr s heap table
        = some (s1, heap1, table1) →
      s1.mempool_list = s.mempool_list ∧ s1.malloc_list = s.malloc_list := by
  intro arr
  induction arr with
  | nil =>
    intro s heap table s1 heap1 table1 h
    simp only [mempool_trim_nodes_loop, Option.some.injEq, Prod.mk.injEq] at h
    rw [← h.1]
    exact ⟨rfl, rfl⟩
  | cons n arr ih =>
    intro s heap table s1 heap1 table1 h
    rcases trim_nodes_loop_cons cfg tid rzB addr szB n arr s heap table s1 heap1 table1 h with
      ⟨_, h1⟩ | ⟨_, hs1⟩ | ⟨_, m, rest, s2, _, hdie, h1⟩ | ⟨m, rest, sh, lo1, k, _, h1, _⟩
    · exact ih s heap table s1 heap1 table1 h1
    · rw [hs1]
      exact ⟨rfl, rfl⟩
    · have hf := die_and_free_mem_frame hdie
      have h2 := ih s2 heap rest s1 heap1 table1 h1
      exact ⟨h2.1.trans hf.2.1, h2.2.trans hf.1⟩
    · have h2 := ih { s with shadow := sh } _ (n :: rest) s1 heap1 table1 h1
      exact h2

/-! ## The claims -/

/-- C1, as stated, fails for `FL_(realloc)`: the chunk at 12288 is live with
kind New, and `FL_(realloc)` with the new size `2^31` (negative as a signed
32-bit word) returns `NULL` having recorded no kind-mismatch error and
without any resize. -/
theorem C1_counterexample :
    HT_lookup (state_with sh_tainted [chunk_c]).malloc_list 12288 = some chunk_c
      ∧ chunk_c.allockind ≠ FL_AllocKind.FL_AllocMalloc
      ∧ ∃ r, FL_realloc (clo32 100) 16384 (state_with sh_tainted [chunk_c]) 1 12288 (2 ^ 31)
            = some r
          ∧ r.1 = 0 ∧ mismatch_count r.2.errors = 0 ∧ r.2.malloc_list = [chunk_c] :=
  ⟨by decide, by decide, _, rfl, by decide, by decide, by decide⟩

/-- C1, amended. For every live registry chunk `mc` at `p` (quarantine
counter exact, budget `>= 0`) and every expected kind, `FL_(handle_free)`
returns, records no kind-mismatch error when the kinds agree and exactly one
when they differ, and in both cases removes the chunk from the registry.
`FL_(realloc)` called with a new size that is not negative as a signed word
returns, records exactly one kind-mismatch error iff the chunk's kind is not
Malloc, and carries out the resize whenever the underlying allocation does
not fail: in place for a size that does not grow, to the new address
otherwise, where the chunk is registered with the low `szB_bits` = 30 bits of
the new size, the width of the field `szB`; when the allocation for a growing
block fails it returns `NULL` and keeps the chunk. -/
theorem C1_kind_mismatch_reporting (cfg : Clo) (s : FL_State) (tid : ThreadId) (p : Int)
    (mc : FL_Chunk) (rest : VgHashTable)
    (hlive : HT_remove s.malloc_list p = some (mc, rest))
    (hb : 0 ≤ cfg.clo_freelist_vol) (hv : s.freed_list_volume = queue_volume s.freed_list) :
    (∀ (rzB : Nat) (kind : FL_AllocKind),
        ∃ s1, FL_handle_free cfg s tid p rzB kind = some s1
          ∧ s1.malloc_list = rest
          ∧ s1.errors = (if kind = mc.allockind then s.errors
              else s.errors ++ [FL_Error.freemismatch_error tid mc]))
    ∧ (∀ (a_cli : Int) (new_szB : Nat), complain_about_silly_args cfg new_szB = false →
        ∃ r, FL_realloc cfg a_cli s tid p new_szB = some r
          ∧ r.2.errors = (if mc.allockind = FL_AllocKind.FL_AllocMalloc then s.errors
              else s.errors ++ [FL_Error.freemismatch_error tid mc])
          ∧ (new_szB ≤ mc.szB →
              r.1 = p ∧ r.2.malloc_list = { mc with szB := new_szB } :: rest)
          ∧ (mc.szB < new_szB → a_cli ≠ 0 →
              r.1 = a_cli ∧ r.2.malloc_list
                = { data := a_cli, szB := new_szB % 2 ^ szB_bits,
                    allockind := FL_AllocKind.FL_AllocMalloc } :: rest)
          ∧ (mc.szB < new_szB → a_cli = 0 → r.1 = 0 ∧ r.2.malloc_list = mc :: rest)) := by
  have hdata : mc.data = p := HT_remove_data hlive
  constructor
  · intro rzB kind
    obtain ⟨s1, hrun, hreg, herr, _⟩ :=
      handle_free_live cfg s tid p rzB kind mc rest hlive hb hv
    exact ⟨s1, hrun, hreg, herr⟩
  · intro a_cli new_szB hsilly
    unfold FL_realloc
    simp only [hsilly, hlive, Bool.false_eq_true, if_false]
    by_cases hk : mc.allockind = FL_AllocKind.FL_AllocMalloc
    · have hk1 : ¬ (FL_AllocKind.FL_AllocMalloc ≠ mc.allockind) := by simp [hk]
      rw [if_neg hk1, if_pos hk]
      simp only []
      by_cases heq : mc.szB = new_szB
      · subst heq
        rw [if_pos rfl]
        exact ⟨_, rfl, rfl, fun _ => ⟨rfl, rfl⟩, fun h => by omega, fun h => by omega⟩
      · rw [if_neg heq]
        by_cases hgt : mc.szB > new_szB
        · rw [if_pos hgt]
          exact ⟨_, rfl, by rfl, fun _ => ⟨rfl, rfl⟩, fun h => by omega, fun h => by omega⟩
        · rw [if_neg hgt]
          by_cases ha : a_cli = 0
          · rw [if_neg (by simp [ha])]
            exact ⟨_, rfl, by rfl, fun h => by omega, fun _ h => absurd ha h,
              fun _ _ => ⟨ha, rfl⟩⟩
          · rw [if_pos ha]
            split
            · next hnone => exact absurd hnone (die_and_free_mem_ne_none hb (by exact hv))
            · next s4 hdie =>
              have hf := die_and_free_mem_frame hdie
              refine ⟨_, rfl, ?_, fun h => by omega, fun _ _ => ⟨rfl, ?_⟩,
                fun _ h => absurd h ha⟩
              · exact hf.2.2.1
              · exact congrArg (List.cons _) hf.1
    · have hk1 : FL_AllocKind.FL_AllocMalloc ≠ mc.allockind := fun h => hk h.symm
      rw [if_pos hk1, if_pos hdata.symm, if_neg hk]
      simp only []
      by_cases heq : mc.szB = new_szB
      · subst heq
        rw [if_pos rfl]
        exact ⟨_, rfl, rfl, fun _ => ⟨rfl, rfl⟩, fun h => by omega, fun h => by omega⟩
      · rw [if_neg heq]
        by_cases hgt : mc.szB > new_szB
        · rw [if_pos hgt]
          exact ⟨_, rfl, by rfl, fun _ => ⟨rfl, rfl⟩, fun h => by omega, fun h => by omega⟩
        · rw [if_neg hgt]
          by_cases ha : a_cli = 0
          · rw [if_neg (by simp [ha])]
            exact ⟨_, rfl, by rfl, fun h => by omega, fun _ h => absurd ha h,
              fun _ _ => ⟨ha, rfl⟩⟩
          · rw [if_pos ha]
            split
            · next hnone => exact absurd hnone (die_and_free_mem_ne_none hb (by exact hv))
            · next s4 hdie =>
              have hf := die_and_free_mem_frame hdie
              refine ⟨_, rfl, ?_, fun h => by omega, fun _ _ => ⟨rfl, ?_⟩,
                fun _ h => absurd h ha⟩
              · exact hf.2.2.1
              · exact congrArg (List.cons _) hf.1

/-- Witness of C1: the live Malloc chunk of `state_q`, budget 100. -/
theorem C1_witness :
    HT_remove state_q.malloc_list 4096 = some (chunk_a, [])
      ∧ 0 ≤ (clo32 100).clo_freelist_vol
      ∧ state_q.freed_list_volume = queue_volume state_q.freed_list
      ∧ (∀ (rzB : Nat) (kind : FL_AllocKind),
          ∃ s1, FL_handle_free (clo32 100) state_q 1 4096 rzB kind = some s1
            ∧ s1.malloc_list = []
            ∧ s1.errors = (if kind = chunk_a.allockind then state_q.errors
                else state_q.errors ++ [FL_Error.freemismatch_error 1 chunk_a]))
      ∧ (∀ (a_cli : Int) (new_szB : Nat),
          complain_about_silly_args (clo32 100) new_szB = false →
          ∃ r, FL_realloc (clo32 100) a_cli state_q 1 4096 new_szB = some r
            ∧ r.2.errors = (if chunk_a.allockind = FL_AllocKind.FL_AllocMalloc
                then state_q.errors
                else state_q.errors ++ [FL_Error.freemismatch_error 1 chunk_a])
            ∧ (new_szB ≤ chunk_a.szB →
                r.1 = 4096 ∧ r.2.malloc_list = { chunk_a with szB := new_szB } :: [])
            ∧ (chunk_a.szB < new_szB → a_cli ≠ 0 →
                r.1 = a_cli ∧ r.2.malloc_list
                  = { data := a_cli, szB := new_szB % 2 ^ szB_bits,
                      allockind := FL_AllocKind.FL_AllocMalloc } :: [])
            ∧ (chunk_a.szB < new_szB → a_cli = 0 →
                r.1 = 0 ∧ r.2.malloc_list = chunk_a :: [])) :=
  ⟨rfl, by decide, by decide,
    C1_kind_mismatch_reporting (clo32 100) state_q 1 4096 chunk_a [] rfl (by decide) (by decide)⟩

/-- C2. For every address with no chunk in the registry, `FL_(handle_free)`
returns, records exactly one free-of-unallocated error and leaves the
registry, the quarantine queue and its volume, the shadow store, the pools
and the `VG_(cli_free)` log unchanged.  In particular, in a registry keyed by
base address (pairwise distinct keys), a second release of `A` directly after
a release of the live chunk at `A` that returned records that error, returns,
and leaves the registry as it was. -/
theorem C2_free_of_unallocated :
    (∀ (cfg : Clo) (s : FL_State) (tid : ThreadId) (p : Int) (rzB : Nat) (kind : FL_AllocKind),
        (∀ c ∈ s.malloc_list, c.data ≠ p) →
        ∃ s1, FL_handle_free cfg s tid p rzB kind = some s1
          ∧ s1.errors = s.errors ++ [FL_Error.free_error tid p]
          ∧ s1.malloc_list = s.malloc_list ∧ s1.freed_list = s.freed_list
          ∧ s1.freed_list_volume = s.freed_list_volume ∧ s1.shadow = s.shadow
          ∧ s1.mempool_list = s.mempool_list ∧ s1.cli_freed = s.cli_freed)
    ∧ (∀ (cfg : Clo) (s s1 : FL_State) (tid tid2 : ThreadId) (A : Int) (rzB rzB2 : Nat)
        (kind kind2 : FL_AllocKind) (mc : FL_Chunk) (rest : VgHashTable),
        (s.malloc_list.map FL_Chunk.data).Nodup →
        HT_remove s.malloc_list A = some (mc, rest) →
        FL_handle_free cfg s tid A rzB kind = some s1 →
        ∃ s2, FL_handle_free cfg s1 tid2 A rzB2 kind2 = some s2
          ∧ s2.errors = s1.errors ++ [FL_Error.free_error tid2 A]
          ∧ s2.malloc_list = s1.malloc_list ∧ s2.freed_list = s1.freed_list
          ∧ s2.freed_list_volume = s1.freed_list_volume ∧ s2.shadow = s1.shadow
          ∧ s2.mempool_list = s1.mempool_list ∧ s2.cli_freed = s1.cli_freed) := by
  have habs : ∀ (cfg : Clo) (s : FL_State) (tid : ThreadId) (p : Int) (rzB : Nat)
      (kind : FL_AllocKind), (∀ c ∈ s.malloc_list, c.data ≠ p) →
      ∃ s1, FL_handle_free cfg s tid p rzB kind = some s1
        ∧ s1.errors = s.errors ++ [FL_Error.free_error tid p]
        ∧ s1.malloc_list = s.malloc_list ∧ s1.freed_list = s.freed_list
        ∧ s1.freed_list_volume = s.freed_list_volume ∧ s1.shadow = s.shadow
        ∧ s1.mempool_list = s.mempool_list ∧ s1.cli_freed = s.cli_freed :=
    fun cfg s tid p rzB kind h =>
      ⟨_, handle_free_absent cfg s tid p rzB kind h, rfl, rfl, rfl, rfl, rfl, rfl, rfl⟩
  refine ⟨habs, ?_⟩
  intro cfg s s1 tid tid2 A rzB rzB2 kind kind2 mc rest hnd hlive hrun
  have hreg : s1.malloc_list = rest := handle_free_registry hlive hrun
  exact habs cfg s1 tid2 A rzB2 kind2 (by rw [hreg]; exact HT_remove_rest_absent hnd hlive)

/-- Witness of C2: a release of 5000, where `state_q` has no chunk, and a
double release of 4096. -/
theorem C2_witness :
    (∃ s1, FL_handle_free (clo32 100) state_q 1 5000 16 FL_AllocKind.FL_AllocMalloc = some s1
      ∧ s1.errors = state_q.errors ++ [FL_Error.free_error 1 5000]
      ∧ s1.malloc_list = state_q.malloc_list ∧ s1.freed_list = state_q.freed_list
      ∧ s1.freed_list_volume = state_q.freed_list_volume ∧ s1.shadow = state_q.shadow
      ∧ s1.mempool_list = state_q.mempool_list ∧ s1.cli_freed = state_q.cli_freed)
    ∧ (∃ s1, FL_handle_free (clo32 100) state_q 1 4096 16 FL_AllocKind.FL_AllocMalloc = some s1
      ∧ ∃ s2, FL_handle_free (clo32 100) s1 2 4096 16 FL_AllocKind.FL_AllocMalloc = some s2
      ∧ s2.errors = s1.errors ++ [FL_Error.free_error 2 4096]
      ∧ s2.malloc_list = s1.malloc_list ∧ s2.freed_list = s1.freed_list
      ∧ s2.freed_list_volume = s1.freed_list_volume ∧ s2.shadow = s1.shadow
      ∧ s2.mempool_list = s1.mempool_list ∧ s2.cli_freed = s1.cli_freed) :=
  ⟨C2_free_of_unallocated.1 (clo32 100) state_q 1 5000 16 FL_AllocKind.FL_AllocMalloc
      (by decide),
   ⟨_, rfl, C2_free_of_unallocated.2 (clo32 100) state_q _ 1 2 4096 16 16
      FL_AllocKind.FL_AllocMalloc FL_AllocKind.FL_AllocMalloc chunk_a []
      (by decide) rfl rfl⟩⟩

/-- C3 as stated fails on the counter of 32 bits.  With the budget
`2^31 - 1` and three live chunks of `2^30 - 1` bytes, three releases from the
empty quarantine: the third `freed_list_volume += mc->szB` wraps around to
`-1073741827`, the loop condition `freed_list_volume > FL_(clo_freelist_vol)`
is false, nothing is evicted, and the quarantine holds `3221225469` bytes,
more than the budget. -/
theorem C3_counterexample :
    0 ≤ (clo32 (2 ^ 31 - 1)).clo_freelist_vol
      ∧ state_big.freed_list = [] ∧ state_big.freed_list_volume = 0
      ∧ (∀ c ∈ state_big.malloc_list, c.szB < 2 ^ szB_bits)
      ∧ ∃ s, release_calls32 (clo32 (2 ^ 31 - 1)) state_big
            [⟨1, 4096, 16, FL_AllocKind.FL_AllocMalloc⟩,
             ⟨1, 2 ^ 30 + 8192, 16, FL_AllocKind.FL_AllocMalloc⟩,
             ⟨1, 2 ^ 31 + 12288, 16, FL_AllocKind.FL_AllocMalloc⟩] = some s
          ∧ s.freed_list
              = [chunk_big 4096, chunk_big (2 ^ 30 + 8192), chunk_big (2 ^ 31 + 12288)]
          ∧ s.cli_freed = []
          ∧ s.freed_list_volume = -1073741827
          ∧ queue_volume s.freed_list = 3221225469
          ∧ ¬ queue_volume s.freed_list ≤ (clo32 (2 ^ 31 - 1)).clo_freelist_vol :=
  ⟨by decide, rfl, rfl, by decide, _, rfl, rfl, rfl, by decide, by decide, by decide⟩

/-- C3, amended.  For every budget `0 <= FL_(clo_freelist_vol) <= 2^31 - 2^30`
and every sequence of `FL_(handle_free)` calls started in a state with the
empty quarantine (empty queue, counter 0) whose live chunks have sizes that
fit the field `szB` (less than `2^30`), with the counter of 32 bits: after
each call of the sequence (after the first `k` calls, for every `k`) the
engine has returned, `freed_list_volume` is the total size of the chunks in
the queue, and that total is at most the budget. -/
theorem C3_quarantine_volume_within_budget (cfg : Clo) (s0 : FL_State) (calls : List FreeCall)
    (hb : 0 ≤ cfg.clo_freelist_vol) (hB : cfg.clo_freelist_vol ≤ 2 ^ 31 - 2 ^ szB_bits)
    (hq : s0.freed_list = []) (hv : s0.freed_list_volume = 0)
    (hsz : ∀ c ∈ s0.malloc_list, c.szB < 2 ^ szB_bits) :
    ∀ k : Nat, ∃ s, release_calls32 cfg s0 (calls.take k) = some s
      ∧ s.freed_list_volume = queue_volume s.freed_list
      ∧ queue_volume s.freed_list ≤ cfg.clo_freelist_vol := by
  intro k
  exact release_calls32_invariant cfg hb hB (calls.take k) s0
    (by rw [hv, hq]; rfl) (by rw [hv]; exact hb) hsz

/-- Witness of C3: three releases (one with a wrong kind, one of an address
already released) with budget 10. -/
theorem C3_witness :
    0 ≤ (clo32 10).clo_freelist_vol
      ∧ (clo32 10).clo_freelist_vol ≤ 2 ^ 31 - 2 ^ szB_bits
      ∧ (state_with sh_tainted [chunk_a, chunk_b]).freed_list = []
      ∧ (state_with sh_tainted [chunk_a, chunk_b]).freed_list_volume = 0
      ∧ (∀ c ∈ (state_with sh_tainted [chunk_a, chunk_b]).malloc_list, c.szB < 2 ^ szB_bits)
      ∧ ∀ k : Nat, ∃ s, release_calls32 (clo32 10) (state_with sh_tainted [chunk_a, chunk_b])
            (List.take k [⟨1, 8192, 16, FL_AllocKind.FL_AllocMalloc⟩,
              ⟨1, 4096, 16, FL_AllocKind.FL_AllocNew⟩,
              ⟨1, 4096, 16, FL_AllocKind.FL_AllocMalloc⟩]) = some s
          ∧ s.freed_list_volume = queue_volume s.freed_list
          ∧ queue_volume s.freed_list ≤ (clo32 10).clo_freelist_vol :=
  ⟨by decide, by decide, rfl, rfl, by decide,
    C3_quarantine_volume_within_budget (clo32 10) (state_with sh_tainted [chunk_a, chunk_b]) _
      (by decide) (by decide) rfl rfl (by decide)⟩

/-- C4 as stated fails on the counter of 32 bits.  The queue holds two chunks
of `2^30 - 1` bytes, the counter is their volume `2^31 - 2`, the budget is
`2^31 - 1`.  Adding a third chunk of `2^30 - 1` bytes makes the counter wrap
around to `-1073741827`: the loop does not run, the queue keeps all three
chunks, `3221225469` bytes, where the longest end segment within the budget
is the last two. -/
theorem C4_counterexample :
    0 ≤ (clo32 (2 ^ 31 - 1)).clo_freelist_vol
      ∧ state_big_queue.freed_list_volume = queue_volume state_big_queue.freed_list
      ∧ ∃ s1, add_to_freed_queue32 (clo32 (2 ^ 31 - 1)) state_big_queue
            (chunk_big (2 ^ 31 + 12288)) = some s1
          ∧ s1.freed_list
              = [chunk_big 4096, chunk_big (2 ^ 30 + 8192), chunk_big (2 ^ 31 + 12288)]
          ∧ s1.cli_freed = []
          ∧ s1.freed_list_volume = -1073741827
          ∧ ¬ queue_volume s1.freed_list ≤ (clo32 (2 ^ 31 - 1)).clo_freelist_vol
          ∧ queue_volume [chunk_big (2 ^ 30 + 8192), chunk_big (2 ^ 31 + 12288)]
              ≤ (clo32 (2 ^ 31 - 1)).clo_freelist_vol :=
  ⟨by decide, by decide, _, rfl, rfl, rfl, by decide, by decide, by decide⟩

/-- C4, amended.  `add_to_freed_queue`, with the counter of 32 bits, is a FIFO
with minimal eviction as long as the counter does not wrap around: for every
queue (oldest first, its volume counter exact), chunk `c` and budget `>= 0`
such that the total size of `q ++ [c]` is less than `2^31`, the call
returns; the queue afterwards is an end segment of `q ++ [c]` in unchanged
order whose total size is within the budget, no longer end segment of
`q ++ [c]` is within the budget, and the addresses handed to `VG_(cli_free)`
by the call are those of the removed front segment, oldest first. -/
theorem C4_add_to_freed_queue_fifo (cfg : Clo) (s : FL_State) (c : FL_Chunk)
    (hb : 0 ≤ cfg.clo_freelist_vol) (hv : s.freed_list_volume = queue_volume s.freed_list)
    (hfit : queue_volume (s.freed_list ++ [c]) < 2 ^ 31) :
    ∃ evicted s1, add_to_freed_queue32 cfg s c = some s1
      ∧ evicted ++ s1.freed_list = s.freed_list ++ [c]
      ∧ queue_volume s1.freed_list ≤ cfg.clo_freelist_vol
      ∧ (∀ front t, front ++ t = s.freed_list ++ [c] →
          queue_volume t ≤ cfg.clo_freelist_vol → t.length ≤ s1.freed_list.length)
      ∧ s1.cli_freed = s.cli_freed ++ evicted.map FL_Chunk.data := by
  obtain ⟨evicted, s1, hrun, hsplit, hcli, hvq, hvol, hmax, _⟩ :=
    add_to_freed_queue_spec cfg s c hb hv
  rw [← add_to_freed_queue32_eq cfg s c hv hfit] at hrun
  exact ⟨evicted, s1, hrun, hsplit, by rw [← hvq]; exact hvol, hmax, hcli⟩

/-- Witness of C4: `chunk_b` is added to the queue `[chunk_b, chunk_c]` of
volume 11 with budget 12. -/
theorem C4_witness :
    0 ≤ (clo32 12).clo_freelist_vol
      ∧ state_q.freed_list_volume = queue_volume state_q.freed_list
      ∧ queue_volume (state_q.freed_list ++ [chunk_b]) < 2 ^ 31
      ∧ ∃ evicted s1, add_to_freed_queue32 (clo32 12) state_q chunk_b = some s1
          ∧ evicted ++ s1.freed_list = state_q.freed_list ++ [chunk_b]
          ∧ queue_volume s1.freed_list ≤ (clo32 12).clo_freelist_vol
          ∧ (∀ front t, front ++ t = state_q.freed_list ++ [chunk_b] →
              queue_volume t ≤ (clo32 12).clo_freelist_vol → t.length ≤ s1.freed_list.length)
          ∧ s1.cli_freed = state_q.cli_freed ++ evicted.map FL_Chunk.data :=
  ⟨by decide, by decide, by decide,
    C4_add_to_freed_queue_fifo (clo32 12) state_q chunk_b (by decide) (by decide) (by decide)⟩

/-- C6, as stated, fails: after `FL_(free)` of the live 64-byte chunk at 4096
with budget 100 the chunk is held in the freed queue, its memory has not been
handed to `VG_(cli_free)`, and the first byte of its payload is Untainted, not
NoAccess. -/
theorem C6_counterexample :
    ∃ s1, FL_free (clo32 100) (state_with sh_tainted [chunk_a]) 1 4096 = some s1
      ∧ s1.freed_list = [chunk_a] ∧ s1.cli_freed = []
      ∧ s1.shadow 4096 = ShadowByte.Untainted
      ∧ s1.shadow 4096 ≠ ShadowByte.NoAccess :=
  ⟨_, rfl, rfl, rfl, by decide, by decide⟩

/-- C6, amended. Directly after a release that returns and leaves the freed
chunk in the quarantine queue, every byte of its payload `[base, base+size)`
is Untainted (defined) in the shadow store, and so is not NoAccess:
`die_and_free_mem` marks the block NoAccess and then defined. -/
theorem C6_quarantined_payload_untainted (cfg : Clo) (s s1 : FL_State) (tid : ThreadId)
    (p : Int) (rzB : Nat) (kind : FL_AllocKind) (mc : FL_Chunk) (rest : VgHashTable)
    (hlive : HT_remove s.malloc_list p = some (mc, rest))
    (hrun : FL_handle_free cfg s tid p rzB kind = some s1)
    (_hheld : mc ∈ s1.freed_list) (x : Int) (hx : p ≤ x ∧ x < p + (mc.szB : Int)) :
    s1.shadow x = ShadowByte.Untainted ∧ s1.shadow x ≠ ShadowByte.NoAccess := by
  have h := handle_free_shadow hlive hrun x
  rw [if_pos (by constructor <;> omega)] at h
  rw [h]
  exact ⟨rfl, by decide⟩

/-- Witness of C6 as amended: after the release of the chunk at 4096 with
budget 100, byte 4100 of its payload. -/
theorem C6_witness :
    ∃ s1, FL_handle_free (clo32 100) state_q 1 4096 16 FL_AllocKind.FL_AllocMalloc = some s1
      ∧ chunk_a ∈ s1.freed_list
      ∧ ((4096 : Int) ≤ 4100 ∧ (4100 : Int) < 4096 + (chunk_a.szB : Int))
      ∧ s1.shadow 4100 = ShadowByte.Untainted ∧ s1.shadow 4100 ≠ ShadowByte.NoAccess :=
  ⟨_, rfl, by decide, by decide,
    C6_quarantined_payload_untainted (clo32 100) state_q _ 1 4096 16
      FL_AllocKind.FL_AllocMalloc chunk_a [] rfl rfl (by decide) 4100 (by decide)⟩

/-- C7, as stated, fails: with budget 10, `FL_(free)` of the live 64-byte
non-pool chunk at 4096 returns with the chunk not in the freed queue and its
address handed to `VG_(cli_free)`. -/
theorem C7_counterexample :
    0 ≤ (clo32 10).clo_freelist_vol
      ∧ HT_lookup (state_with sh_tainted [chunk_a]).malloc_list 4096 = some chunk_a
      ∧ chunk_a.allockind ≠ FL_AllocKind.FL_AllocCustom
      ∧ ∃ s1, FL_free (clo32 10) (state_with sh_tainted [chunk_a]) 1 4096 = some s1
          ∧ chunk_a ∉ s1.freed_list ∧ 4096 ∈ s1.cli_freed :=
  ⟨by decide, by decide, by decide, _, rfl, by decide, by decide⟩

/-- C7, amended. For every live non-pool chunk whose size is at most the
budget (quarantine counter exact, no quarantined chunk at the same address),
`FL_(handle_free)` returns, the chunk is then the newest entry of the freed
queue, the chunks evicted by the call are a front segment of the old queue,
and the call has not passed the chunk's address to `VG_(cli_free)`. -/
theorem C7_release_enqueues_within_budget (cfg : Clo) (s : FL_State) (tid : ThreadId)
    (p : Int) (rzB : Nat) (kind : FL_AllocKind) (mc : FL_Chunk) (rest : VgHashTable)
    (hlive : HT_remove s.malloc_list p = some (mc, rest))
    (hk : mc.allockind ≠ FL_AllocKind.FL_AllocCustom)
    (hv : s.freed_list_volume = queue_volume s.freed_list)
    (hfit : (mc.szB : Int) ≤ cfg.clo_freelist_vol)
    (hfresh : ∀ c ∈ s.freed_list, c.data ≠ p) :
    ∃ s1 evicted kept, FL_handle_free cfg s tid p rzB kind = some s1
      ∧ s1.freed_list = kept ++ [mc]
      ∧ evicted ++ kept = s.freed_list
      ∧ s1.cli_freed = s.cli_freed ++ evicted.map FL_Chunk.data
      ∧ p ∉ evicted.map FL_Chunk.data := by
  have hb : 0 ≤ cfg.clo_freelist_vol := by omega
  obtain ⟨s1, hrun, _, _, _, _, _, _, hnc⟩ :=
    handle_free_live cfg s tid p rzB kind mc rest hlive hb hv
  obtain ⟨evicted, hsplit, hcli, hmax⟩ := hnc hk
  obtain ⟨kept, hkept, hev⟩ :=
    kept_ends_with cfg.clo_freelist_vol s.freed_list evicted s1.freed_list mc hfit hsplit hmax
  refine ⟨s1, evicted, kept, hrun, hkept, hev, hcli, ?_⟩
  intro hmem
  obtain ⟨c, hc, hcp⟩ := List.mem_map.mp hmem
  have hin : c ∈ s.freed_list := by
    rw [← hev]; exact List.mem_append_left kept hc
  exact hfresh c hin hcp

/-- Witness of C7 as amended: the 64-byte chunk at 4096 is released with
budget 70 into a queue of volume 11. -/
theorem C7_witness :
    chunk_a.allockind ≠ FL_AllocKind.FL_AllocCustom
      ∧ state_q.freed_list_volume = queue_volume state_q.freed_list
      ∧ (chunk_a.szB : Int) ≤ (clo32 70).clo_freelist_vol
      ∧ (∀ c ∈ state_q.freed_list, c.data ≠ 4096)
      ∧ ∃ s1 evicted kept,
          FL_handle_free (clo32 70) state_q 1 4096 16 FL_AllocKind.FL_AllocMalloc = some s1
          ∧ s1.freed_list = kept ++ [chunk_a]
          ∧ evicted ++ kept = state_q.freed_list
          ∧ s1.cli_freed = state_q.cli_freed ++ evicted.map FL_Chunk.data
          ∧ (4096 : Int) ∉ evicted.map FL_Chunk.data :=
  ⟨by decide, by decide, by decide, by decide,
    C7_release_enqueues_within_budget (clo32 70) state_q 1 4096 16 FL_AllocKind.FL_AllocMalloc
      chunk_a [] rfl (by decide) (by decide) (by decide) (by decide)⟩

/-- C8 as stated fails for a size that does not fit the bit-field `szB` of
`szB_bits` = 30 bits.  The size `2^30 + 5` is not negative as a signed 32-bit
word, so `FL_(malloc)` does not refuse it; with `VG_(cli_malloc)` returning
4096, `FL_(new_block)` registers the chunk `(4096, 5, Malloc)`: the store
`mc->szB = szB` keeps the low 30 bits.  The payload `[4096, 4096 + 2^30 + 5)`
is marked with the full size. -/
theorem C8_counterexample :
    complain_about_silly_args (clo32 100) (2 ^ 30 + 5) = false
      ∧ (∃ s1, FL_new_block 4096 (init_state sh_tainted) 1 0 (2 ^ 30 + 5) 8 16 false
            FL_AllocKind.FL_AllocMalloc []
          = some (4096,
              [{ data := 4096, szB := 5, allockind := FL_AllocKind.FL_AllocMalloc }], s1)
          ∧ s1.shadow (4096 + 2 ^ 30) = ShadowByte.Untainted)
      ∧ ∃ s1, FL_malloc (clo32 100) 4096 (init_state sh_tainted) 1 (2 ^ 30 + 5)
            = some (4096, s1)
          ∧ s1.malloc_list
              = [{ data := 4096, szB := 5, allockind := FL_AllocKind.FL_AllocMalloc }]
          ∧ ({ data := 4096, szB := 2 ^ 30 + 5, allockind := FL_AllocKind.FL_AllocMalloc }
              : FL_Chunk) ∉ s1.malloc_list :=
  ⟨by decide, ⟨_, rfl, by decide⟩, _, rfl, rfl, by decide⟩

/-- C8, amended.  Successful registration of a size that fits the bit-field
`szB` (`szB < 2^30`).  When `FL_(new_block)` is called on a table
`T` with no address (`p = 0`), a kind other than Custom and `VG_(cli_malloc)`
returning `a != 0`, or with a caller-supplied address `a != 0` and kind
Custom, it returns `a`, the table afterwards is `T` with the one new chunk
`(a, szB, kind)` added, every byte of the payload `[a, a+szB)` is Untainted,
and the quarantine queue, its volume and the `VG_(cli_free)` log are
unchanged.  With the registry as `T` (the malloc family) the registry gains
that one chunk and the pools are unchanged; `FL_(mempool_alloc)` on a live
pool with an address `a != 0` adds the Custom chunk to that pool's table and
changes neither the registry nor another pool. -/
theorem C8_successful_registration :
    (∀ (a_cli : Int) (s : FL_State) (tid : ThreadId) (p : Int) (szB alignB rzB : Nat)
        (is_zeroed : Bool) (kind : FL_AllocKind) (T : VgHashTable) (a : Int),
        ((p = 0 ∧ kind ≠ FL_AllocKind.FL_AllocCustom ∧ a_cli = a)
          ∨ (p = a ∧ kind = FL_AllocKind.FL_AllocCustom)) →
        a ≠ 0 → szB < 2 ^ szB_bits →
        ∃ s1, FL_new_block a_cli s tid p szB alignB rzB is_zeroed kind T
            = some (a, { data := a, szB := szB, allockind := kind } :: T, s1)
          ∧ (∀ x : Int, a ≤ x ∧ x < a + (szB : Int) → s1.shadow x = ShadowByte.Untainted)
          ∧ s1.freed_list = s.freed_list ∧ s1.freed_list_volume = s.freed_list_volume
          ∧ s1.cli_freed = s.cli_freed)
    ∧ (∀ (a : Int) (s : FL_State) (tid : ThreadId) (szB alignB rzB : Nat)
        (is_zeroed : Bool) (kind : FL_AllocKind),
        kind ≠ FL_AllocKind.FL_AllocCustom →
        a ≠ 0 → szB < 2 ^ szB_bits →
        ∃ s1, into_malloc_list
              (FL_new_block a s tid 0 szB alignB rzB is_zeroed kind s.malloc_list)
            = some (a, s1)
          ∧ s1.malloc_list = { data := a, szB := szB, allockind := kind } :: s.malloc_list
          ∧ (∀ x : Int, a ≤ x ∧ x < a + (szB : Int) → s1.shadow x = ShadowByte.Untainted)
          ∧ s1.mempool_list = s.mempool_list
          ∧ s1.freed_list = s.freed_list ∧ s1.freed_list_volume = s.freed_list_volume
          ∧ s1.cli_freed = s.cli_freed)
    ∧ (∀ (s : FL_State) (tid : ThreadId) (pool a : Int) (szB : Nat) (mp : FL_Mempool),
        HT_lookup_pool s.mempool_list pool = some mp →
        a ≠ 0 → szB < 2 ^ szB_bits →
        ∃ s1, FL_mempool_alloc s tid pool a szB = some s1
          ∧ s1.mempool_list = set_pool_chunks s.mempool_list pool
              ({ data := a, szB := szB, allockind := FL_AllocKind.FL_AllocCustom } :: mp.chunks)
          ∧ (∀ x : Int, a ≤ x ∧ x < a + (szB : Int) → s1.shadow x = ShadowByte.Untainted)
          ∧ s1.malloc_list = s.malloc_list
          ∧ s1.freed_list = s.freed_list ∧ s1.freed_list_volume = s.freed_list_volume
          ∧ s1.cli_freed = s.cli_freed) := by
  have hpay : ∀ (sh : Shadow) (a : Int) (szB : Nat) (x : Int),
      a ≤ x ∧ x < a + (szB : Int) → make_mem_defined sh a szB x = ShadowByte.Untainted := by
    intro sh a szB x hx
    simp only [make_mem_defined, set_range]
    rw [if_pos hx]
  have hnew : ∀ (a_cli : Int) (s : FL_State) (tid : ThreadId) (p : Int) (szB alignB rzB : Nat)
      (is_zeroed : Bool) (kind : FL_AllocKind) (T : VgHashTable) (a : Int),
      ((p = 0 ∧ kind ≠ FL_AllocKind.FL_AllocCustom ∧ a_cli = a)
        ∨ (p = a ∧ kind = FL_AllocKind.FL_AllocCustom)) →
      a ≠ 0 → szB < 2 ^ szB_bits →
      FL_new_block a_cli s tid p szB alignB rzB is_zeroed kind T
        = some (a, { data := a, szB := szB, allockind := kind } :: T,
            { s with cmalloc_n_mallocs := s.cmalloc_n_mallocs + 1,
                     cmalloc_bs_mallocd := s.cmalloc_bs_mallocd + szB,
                     shadow := make_mem_defined s.shadow a szB }) := by
    intro a_cli s tid p szB alignB rzB is_zeroed kind T a hmode ha hsz
    rcases hmode with ⟨hp, hk, hcli⟩ | ⟨hp, hk⟩
    · subst hp
      subst hcli
      simp only [FL_new_block, ne_eq, not_true_eq_false, if_false, hk, ha, HT_add_node,
        create_FL_Chunk, Nat.mod_eq_of_lt hsz]
    · subst hp
      subst hk
      simp only [FL_new_block, ne_eq, ha, not_false_eq_true, if_true, HT_add_node,
        create_FL_Chunk, Nat.mod_eq_of_lt hsz]
  refine ⟨?_, ?_, ?_⟩
  · intro a_cli s tid p szB alignB rzB is_zeroed kind T a hmode ha hsz
    exact ⟨_, hnew a_cli s tid p szB alignB rzB is_zeroed kind T a hmode ha hsz,
      fun x hx => hpay _ _ _ x hx, rfl, rfl, rfl⟩
  · intro a s tid szB alignB rzB is_zeroed kind hk ha hsz
    have hrun := hnew a s tid 0 szB alignB rzB is_zeroed kind s.malloc_list a
      (Or.inl ⟨rfl, hk, rfl⟩) ha hsz
    have hinto : into_malloc_list
          (FL_new_block a s tid 0 szB alignB rzB is_zeroed kind s.malloc_list)
        = some (a, { s with cmalloc_n_mallocs := s.cmalloc_n_mallocs + 1,
                            cmalloc_bs_mallocd := s.cmalloc_bs_mallocd + szB,
                            shadow := make_mem_defined s.shadow a szB,
                            malloc_list :=
                              { data := a, szB := szB, allockind := kind }
                                :: s.malloc_list }) := by
      rw [hrun]; rfl
    exact ⟨_, hinto, rfl, fun x hx => hpay _ _ _ x hx, rfl, rfl, rfl, rfl⟩
  · intro s tid pool a szB mp hpool ha hsz
    have hrun : FL_mempool_alloc s tid pool a szB
        = some { s with cmalloc_n_mallocs := s.cmalloc_n_mallocs + 1,
                        cmalloc_bs_mallocd := s.cmalloc_bs_mallocd + szB,
                        shadow := make_mem_defined s.shadow a szB,
                        mempool_list := set_pool_chunks s.mempool_list pool
                          ({ data := a, szB := szB,
                             allockind := FL_AllocKind.FL_AllocCustom } :: mp.chunks) } := by
      simp only [FL_mempool_alloc, hpool, FL_new_block, ne_eq, ha, not_false_eq_true, if_true,
        HT_add_node, create_FL_Chunk, Nat.mod_eq_of_lt hsz]
    exact ⟨_, hrun, rfl, fun x hx => hpay _ _ _ x hx, rfl, rfl, rfl, rfl⟩

/-- Witness of C8: the registration of 64 zeroed bytes with alignment 8 and
redzone 16 as a Malloc chunk, the allocator returning 4096, and a pool
allocation of 48 bytes at 24576 in pool 7. -/
theorem C8_witness :
    (((0 : Int) = 0 ∧ FL_AllocKind.FL_AllocMalloc ≠ FL_AllocKind.FL_AllocCustom
        ∧ (4096 : Int) = 4096)
      ∨ ((0 : Int) = 4096 ∧ FL_AllocKind.FL_AllocMalloc = FL_AllocKind.FL_AllocCustom))
    ∧ (4096 : Int) ≠ 0
    ∧ 64 < 2 ^ szB_bits
    ∧ (∃ s1, FL_new_block 4096 (init_state sh_tainted) 1 0 64 8 16 true
            FL_AllocKind.FL_AllocMalloc []
          = some (4096, [chunk_a], s1)
        ∧ (∀ x : Int, 4096 ≤ x ∧ x < 4096 + ((64 : Nat) : Int) →
            s1.shadow x = ShadowByte.Untainted)
        ∧ s1.freed_list = [] ∧ s1.freed_list_volume = 0 ∧ s1.cli_freed = [])
    ∧ (∃ s1, into_malloc_list (FL_new_block 4096 state_pool 1 0 64 8 16 true
            FL_AllocKind.FL_AllocMalloc state_pool.malloc_list) = some (4096, s1)
        ∧ s1.malloc_list = chunk_a :: state_pool.malloc_list
        ∧ (∀ x : Int, 4096 ≤ x ∧ x < 4096 + ((64 : Nat) : Int) →
            s1.shadow x = ShadowByte.Untainted)
        ∧ s1.mempool_list = state_pool.mempool_list
        ∧ s1.freed_list = state_pool.freed_list
        ∧ s1.freed_list_volume = state_pool.freed_list_volume
        ∧ s1.cli_freed = state_pool.cli_freed)
    ∧ (∃ s1, FL_mempool_alloc state_pool 1 7 24576 48 = some s1
        ∧ s1.mempool_list = set_pool_chunks state_pool.mempool_list 7
            ({ data := 24576, szB := 48, allockind := FL_AllocKind.FL_AllocCustom }
              :: [chunk_p])
        ∧ (∀ x : Int, 24576 ≤ x ∧ x < 24576 + ((48 : Nat) : Int) →
            s1.shadow x = ShadowByte.Untainted)
        ∧ s1.malloc_list = state_pool.malloc_list
        ∧ s1.freed_list = state_pool.freed_list
        ∧ s1.freed_list_volume = state_pool.freed_list_volume
        ∧ s1.cli_freed = state_pool.cli_freed) :=
  ⟨Or.inl ⟨rfl, by decide, rfl⟩, by decide, by decide,
    C8_successful_registration.1 4096 (init_state sh_tainted) 1 0 64 8 16 true
      FL_AllocKind.FL_AllocMalloc [] 4096 (Or.inl ⟨rfl, by decide, rfl⟩) (by decide)
      (by decide),
    C8_successful_registration.2.1 4096 state_pool 1 64 8 16 true
      FL_AllocKind.FL_AllocMalloc (by decide) (by decide) (by decide),
    C8_successful_registration.2.2 state_pool 1 7 24576 48
      { pool := 7, rzB := 8, is_zeroed := false, chunks := [chunk_p] } rfl (by decide)
      (by decide)⟩

/-- C9 fails on the code: `FL_(new_block)` never touches the redzone margins.
Registering 64 bytes with redzone 16 at 4096 over Untainted memory leaves
the four end bytes of the margins `[4080, 4096)` and `[4160, 4176)`
Untainted.  The same happens from a start-up state in which every byte is
NoAccess: after `FL_(malloc)(64)` returns 4096, `FL_(free)(4096)` (budget 0)
releases the block and `FL_(malloc)(64)` returns 4096 again, the margins of
the live chunk are Untainted. -/
theorem C9_redzones_not_marked :
    (∃ s1, FL_new_block 4096 (init_state sh_untainted) 1 0 64 8 16 true
            FL_AllocKind.FL_AllocMalloc [] = some (4096, [chunk_a], s1)
        ∧ s1.shadow 4080 = ShadowByte.Untainted ∧ s1.shadow 4095 = ShadowByte.Untainted
        ∧ s1.shadow 4160 = ShadowByte.Untainted ∧ s1.shadow 4175 = ShadowByte.Untainted)
    ∧ (∃ s1 s2 s3, FL_malloc (clo32 0) 4096 (init_state sh_noaccess) 1 64 = some (4096, s1)
        ∧ FL_free (clo32 0) s1 1 4096 = some s2
        ∧ s2.cli_freed = [4096]
        ∧ FL_malloc (clo32 0) 4096 s2 1 64 = some (4096, s3)
        ∧ s3.malloc_list = [chunk_a]
        ∧ s3.shadow 4080 = ShadowByte.Untainted ∧ s3.shadow 4095 = ShadowByte.Untainted
        ∧ s3.shadow 4160 = ShadowByte.Untainted ∧ s3.shadow 4175 = ShadowByte.Untainted) :=
  ⟨⟨_, rfl, by decide, by decide, by decide, by decide⟩,
   ⟨_, _, _, rfl, rfl, rfl, rfl, rfl, by decide, by decide, by decide, by decide⟩⟩

/-- C10. `FL_(syscall_read)` on thread `tid` with a descriptor `fd` in
`0..255` (register EBX) that is Tainted for `tid`, and a result `res > 0`,
returns and marks exactly `[buf, buf+res)` Tainted (`buf` is register ECX):
every byte of the range is Tainted afterwards, every byte outside keeps its
shadow state, and the fd taint table is unchanged.  When the result is `<= 0`
or the descriptor is negative the state is unchanged. -/
theorem C10_read_taints_buffer :
    (∀ (cfg : Clo) (mem : Int → Nat) (valid : Int → Nat → Bool) (fuel : Nat) (s : FL_State)
        (tid : ThreadId) (ts : GuestRegs) (res : Int),
        ts.guest_EBX < 256 → s.tainted_fds tid ts.guest_EBX = true → 0 < res →
        ∃ s1, FL_syscall_read cfg mem valid fuel s tid ts res = some s1
          ∧ (∀ x : Int, s1.shadow x =
              if (ts.guest_ECX : Int) ≤ x ∧ x < (ts.guest_ECX : Int) + res
              then ShadowByte.Tainted else s.shadow x)
          ∧ s1.tainted_fds = s.tainted_fds)
    ∧ (∀ (cfg : Clo) (mem : Int → Nat) (valid : Int → Nat → Bool) (fuel : Nat) (s : FL_State)
        (tid : ThreadId) (ts : GuestRegs) (res : Int),
        res ≤ 0 ∨ to_Int ts.guest_EBX < 0 →
        FL_syscall_read cfg mem valid fuel s tid ts res = some s) := by
  constructor
  · intro cfg mem valid fuel s tid ts res hfd htaint hres
    have hto : to_Int ts.guest_EBX = (ts.guest_EBX : Int) := to_Int_small _ hfd
    have h1 : ¬ (to_Int ts.guest_EBX < 0 ∨ res ≤ 0) := by rw [hto]; omega
    have h2 : to_Int ts.guest_EBX < MAXIMUM_FDS
        ∧ s.tainted_fds tid (to_Int ts.guest_EBX).toNat = true := by
      rw [hto]
      refine ⟨by simp only [MAXIMUM_FDS]; omega, ?_⟩
      rw [Int.toNat_natCast]; exact htaint
    have hrun : FL_syscall_read cfg mem valid fuel s tid ts res
        = some { s with shadow := make_mem_undefined s.shadow (ts.guest_ECX : Int) res.toNat } := by
      simp only [FL_syscall_read, populate_guest_args, if_neg h1, if_pos h2]
    refine ⟨_, hrun, ?_, rfl⟩
    intro x
    simp only [make_mem_undefined, set_range]
    have hcast : ((res.toNat : Nat) : Int) = res := Int.toNat_of_nonneg (by omega)
    rw [hcast]
  · intro cfg mem valid fuel s tid ts res h
    have h1 : to_Int ts.guest_EBX < 0 ∨ res ≤ 0 := h.symm
    simp only [FL_syscall_read, populate_guest_args, if_pos h1]

/-- Witness of C10: a read of 10 bytes at 4096 on the Tainted descriptor 3,
and a read with result 0. -/
theorem C10_witness :
    (∃ s1, FL_syscall_read (clo32 100) (fun _ => 0) (fun _ _ => true) 0
            { state_q with tainted_fds := fun _ fd => decide (fd = 3) } 1
            { guest_EAX := 0, guest_ECX := 4096, guest_EDX := 64, guest_EBX := 3,
              guest_ESI := 0, guest_EDI := 0, guest_EBP := 0 } 10 = some s1
        ∧ (∀ x : Int, s1.shadow x =
            if ((4096 : Nat) : Int) ≤ x ∧ x < ((4096 : Nat) : Int) + 10
            then ShadowByte.Tainted else state_q.shadow x)
        ∧ s1.tainted_fds = fun _ fd => decide (fd = 3))
    ∧ FL_syscall_read (clo32 100) (fun _ => 0) (fun _ _ => true) 0 state_q 1
        { guest_EAX := 0, guest_ECX := 4096, guest_EDX := 64, guest_EBX := 3,
          guest_ESI := 0, guest_EDI := 0, guest_EBP := 0 } 0 = some state_q :=
  ⟨C10_read_taints_buffer.1 (clo32 100) (fun _ => 0) (fun _ _ => true) 0
      { state_q with tainted_fds := fun _ fd => decide (fd = 3) } 1
      { guest_EAX := 0, guest_ECX := 4096, guest_EDX := 64, guest_EBX := 3,
        guest_ESI := 0, guest_EDI := 0, guest_EBP := 0 } 10 (by decide) (by decide) (by decide),
   C10_read_taints_buffer.2 (clo32 100) (fun _ => 0) (fun _ _ => true) 0 state_q 1
      { guest_EAX := 0, guest_ECX := 4096, guest_EDX := 64, guest_EBX := 3,
        guest_ESI := 0, guest_EDI := 0, guest_EBP := 0 } 0 (Or.inl (by decide))⟩

/-- C11 fails on the code: `FL_(syscall_open)` applies the path filter to
descriptor 0 as to every other descriptor.  With stdin tainting on (file
tainting off) and the filter `"/tmp"`, descriptor 0 of thread 1 is Tainted
after `FL_(setup_tainted_map)`; an open that returns 0 for a path resolving to
`"/etc"` is handled and leaves descriptor 0 Untainted. -/
theorem C11_open_filters_stdin :
    clo_stdin.clo_taint_stdin = true
      ∧ strncmp_eq (resolve_fd readlink_etc 0 (MAX_PATH - 1)) clo_stdin.clo_file_filter = false
      ∧ (FL_setup_tainted_map clo_stdin (init_state sh_untainted)).tainted_fds 1 0 = true
      ∧ (FL_syscall_open clo_stdin readlink_etc
          (FL_setup_tainted_map clo_stdin (init_state sh_untainted)) 1 0).tainted_fds 1 0
          = false := by
  decide

/-- C12 fails on the code: `FL_(syscall_close)` takes the descriptor from
`guest_args[tid].args[1]` (ECX), not from `args[3]` (EBX) where
`FL_(syscall_read)` takes it.  With network tainting on, `socket()` returns 5
and descriptor 5 is Tainted; after `close(5)` (EBX = 5, ECX = 9) it is still
Tainted; an open that returns 5 is not handled (file tainting is off), and a
read of 4 bytes at 4096 on descriptor 5 taints the buffer. -/
theorem C12_close_reads_wrong_register :
    (FL_syscall_socket clo_network (init_state sh_untainted) 1 5).tainted_fds 1 5 = true
      ∧ (FL_syscall_close (FL_syscall_socket clo_network (init_state sh_untainted) 1 5) 1
          (regs 5 9)).tainted_fds 1 5 = true
      ∧ (FL_syscall_open clo_network readlink_etc
          (FL_syscall_close (FL_syscall_socket clo_network (init_state sh_untainted) 1 5) 1
            (regs 5 9)) 1 5).tainted_fds 1 5 = true
      ∧ ∃ s1, FL_syscall_read clo_network (fun _ => 0) (fun _ _ => true) 0
            (FL_syscall_open clo_network readlink_etc
              (FL_syscall_close (FL_syscall_socket clo_network (init_state sh_untainted) 1 5) 1
                (regs 5 9)) 1 5) 1 (regs 5 4096) 4 = some s1
          ∧ s1.shadow 4096 = ShadowByte.Tainted ∧ s1.shadow 4099 = ShadowByte.Tainted :=
  ⟨by decide, by decide, by decide, _, rfl, by decide, by decide⟩

/-- C13 fails on the code for `socketpair()`: `FL_(syscall_socketpair)` marks
only `((Int *)SC_ARG3)[0]`.  With network tainting on and the pair
`sv = {4, 5}`, descriptor 4 is Tainted after the call and descriptor 5, the
second descriptor of the pair, is not. -/
theorem C13_socketpair_second_descriptor :
    clo_network.clo_taint_network = true
      ∧ to_Int (socketpair_memory (SC_ARG socketpair_memory (regs 8 4096) 3 : Int)) = 4
      ∧ to_Int (socketpair_memory ((SC_ARG socketpair_memory (regs 8 4096) 3 : Int) + 4)) = 5
      ∧ (FL_syscall_socketpair clo_network socketpair_memory (init_state sh_untainted) 1
          (regs 8 4096) 0).tainted_fds 1 4 = true
      ∧ (FL_syscall_socketpair clo_network socketpair_memory (init_state sh_untainted) 1
          (regs 8 4096) 0).tainted_fds 1 5 = false := by
  decide

/-- C14 fails on the code: after a match `remaining` is counted from the
start of the match while `data` is moved past it, so the next `memmem` reads
up to the marker's length beyond the buffer.  For the buffer
`"AAAmarkerBBB"` (12 bytes at 4096, read on the Untainted descriptor 3) and
the marker `"marker"`: when the memory behind the buffer holds no marker,
exactly the 6 bytes at offset 3 become Tainted; when the 6 bytes behind the
buffer hold `"marker"`, the bytes `[4108, 4114)`, outside `[4096, 4108)`,
become Tainted as well. -/
theorem C14_marker_scan_overruns_buffer :
    FL_syscall_read (clo_marker marker_bytes) (mem_bytes 4096 buffer_bytes) (fun _ _ => true) 8
        (init_state sh_untainted) 1 (regs 3 4096) 12
      = some { init_state sh_untainted with
                 shadow := make_mem_undefined sh_untainted 4099 6 }
    ∧ ∃ s1, FL_syscall_read (clo_marker marker_bytes)
          (mem_bytes 4096 (buffer_bytes ++ marker_bytes)) (fun _ _ => true) 8
          (init_state sh_untainted) 1 (regs 3 4096) 12 = some s1
        ∧ s1.shadow 4107 = ShadowByte.Untainted
        ∧ s1.shadow 4108 = ShadowByte.Tainted ∧ s1.shadow 4109 = ShadowByte.Tainted
        ∧ s1.shadow 4110 = ShadowByte.Tainted ∧ s1.shadow 4111 = ShadowByte.Tainted
        ∧ s1.shadow 4112 = ShadowByte.Tainted ∧ s1.shadow 4113 = ShadowByte.Tainted :=
  ⟨rfl, _, rfl, by decide, by decide, by decide, by decide, by decide, by decide, by decide⟩

/-- C15 fails on the code: the marker loop runs only while
`remaining > taint_len`.  A read of 2 bytes `"ab"` at 4096 on the Untainted
descriptor 3 with the marker `"ab"` (so `n = length(m)`, the buffer valid)
changes nothing: the occurrence at offset 0 stays Untainted.  With one more
byte in the buffer the same occurrence is Tainted. -/
theorem C15_marker_of_buffer_length_missed :
    FL_syscall_read (clo_marker [97, 98]) (mem_bytes 4096 [97, 98]) (fun _ _ => true) 8
        (init_state sh_untainted) 1 (regs 3 4096) 2
      = some (init_state sh_untainted)
    ∧ memcmp_eq (mem_bytes 4096 [97, 98]) 4096 [97, 98] = true
    ∧ (init_state sh_untainted).shadow 4096 = ShadowByte.Untainted
    ∧ ∃ s1, FL_syscall_read (clo_marker [97, 98]) (mem_bytes 4096 [97, 98, 88])
          (fun _ _ => true) 8 (init_state sh_untainted) 1 (regs 3 4096) 3 = some s1
        ∧ s1.shadow 4096 = ShadowByte.Tainted ∧ s1.shadow 4097 = ShadowByte.Tainted :=
  ⟨rfl, by decide, by decide, _, rfl, by decide, by decide⟩

/-- C16. With file tainting enabled and no marker configured, for every
thread and descriptor value `fd` in `0..255`: after an open of a path that
passes the filter and returns `fd`, a read of `n > 0` bytes on `fd` taints
exactly `[buf, buf+n)`; and after then closing `fd` and opening a path that
does not pass the filter and returns the same integer `fd`, a read on `fd` of
any number of bytes into a buffer `buf2` returns and leaves every byte with
its previous shadow state. -/
theorem C16_open_read_close_reopen (cfg : Clo) (s : FL_State) (tid : ThreadId) (fd : Nat)
    (readlink1 readlink2 : Int → Option (List Nat)) (mem mem2 : Int → Nat)
    (valid valid2 : Int → Nat → Bool) (fuel fuel2 : Nat)
    (ts_read ts_close ts_read2 : GuestRegs) (n res2 : Int)
    (hfile : cfg.clo_taint_file = true) (hmark : cfg.clo_taint_string = none)
    (hfd : fd < 256)
    (hmatch : strncmp_eq (resolve_fd readlink1 (fd : Int) (MAX_PATH - 1)) cfg.clo_file_filter
      = true)
    (hnomatch : strncmp_eq (resolve_fd readlink2 (fd : Int) (MAX_PATH - 1)) cfg.clo_file_filter
      = false)
    (hr1 : ts_read.guest_EBX = fd) (_hc : ts_close.guest_EBX = fd)
    (hr2 : ts_read2.guest_EBX = fd) (hn : 0 < n) :
    ∃ s2, FL_syscall_read cfg mem valid fuel (FL_syscall_open cfg readlink1 s tid (fd : Int))
          tid ts_read n = some s2
      ∧ (∀ x : Int, s2.shadow x =
          if (ts_read.guest_ECX : Int) ≤ x ∧ x < (ts_read.guest_ECX : Int) + n
          then ShadowByte.Tainted else s.shadow x)
      ∧ ∃ s5, FL_syscall_read cfg mem2 valid2 fuel2
            (FL_syscall_open cfg readlink2 (FL_syscall_close s2 tid ts_close) tid (fd : Int))
            tid ts_read2 res2 = some s5
          ∧ ∀ x : Int, s5.shadow x = s2.shadow x := by
  have hopen1 : (FL_syscall_open cfg readlink1 s tid (fd : Int)).tainted_fds tid ts_read.guest_EBX
      = true := by
    rw [hr1, syscall_open_sets cfg readlink1 s tid fd hfile hfd, hmatch]
  have hread1 := syscall_read_tainted cfg mem valid fuel
    (FL_syscall_open cfg readlink1 s tid (fd : Int)) tid ts_read n (by rw [hr1]; exact hfd)
    hopen1 hn
  refine ⟨_, hread1, ?_, ?_⟩
  · intro x
    have hcast : ((n.toNat : Nat) : Int) = n := Int.toNat_of_nonneg (by omega)
    simp only [make_mem_undefined, set_range, syscall_open_shadow, hcast]
  · have hopen2 : (FL_syscall_open cfg readlink2
        (FL_syscall_close { FL_syscall_open cfg readlink1 s tid (fd : Int) with
          shadow := make_mem_undefined (FL_syscall_open cfg readlink1 s tid (fd : Int)).shadow
            (ts_read.guest_ECX : Int) n.toNat } tid ts_close) tid (fd : Int)).tainted_fds tid
        ts_read2.guest_EBX = false := by
      rw [hr2, syscall_open_sets cfg readlink2 _ tid fd hfile hfd, hnomatch]
    have hread2 := syscall_read_untainted cfg mem2 valid2 fuel2 _ tid ts_read2 res2 hmark
      (by rw [hr2]; exact hfd) hopen2
    refine ⟨_, hread2, ?_⟩
    intro x
    rw [syscall_open_shadow, syscall_close_shadow]

/-- Witness of C16: descriptor 3, filter `"/tmp"`, first path `"/tmp/x"`,
second path `"/etc"`, reads of 8 bytes at 4096 and of 5 bytes at 8192. -/
theorem C16_witness :
    clo_file.clo_taint_file = true ∧ clo_file.clo_taint_string = none ∧ 3 < 256
      ∧ strncmp_eq (resolve_fd readlink_tmp ((3 : Nat) : Int) (MAX_PATH - 1))
          clo_file.clo_file_filter = true
      ∧ strncmp_eq (resolve_fd readlink_etc ((3 : Nat) : Int) (MAX_PATH - 1))
          clo_file.clo_file_filter = false
      ∧ (regs 3 4096).guest_EBX = 3 ∧ (regs 3 77).guest_EBX = 3 ∧ (regs 3 8192).guest_EBX = 3
      ∧ (0 : Int) < 8
      ∧ ∃ s2, FL_syscall_read clo_file (fun _ => 0) (fun _ _ => true) 0
            (FL_syscall_open clo_file readlink_tmp (init_state sh_untainted) 1 ((3 : Nat) : Int))
            1 (regs 3 4096) 8 = some s2
          ∧ (∀ x : Int, s2.shadow x =
              if ((regs 3 4096).guest_ECX : Int) ≤ x ∧ x < ((regs 3 4096).guest_ECX : Int) + 8
              then ShadowByte.Tainted else (init_state sh_untainted).shadow x)
          ∧ ∃ s5, FL_syscall_read clo_file (fun _ => 0) (fun _ _ => true) 0
                (FL_syscall_open clo_file readlink_etc (FL_syscall_close s2 1 (regs 3 77)) 1
                  ((3 : Nat) : Int)) 1 (regs 3 8192) 5 = some s5
              ∧ ∀ x : Int, s5.shadow x = s2.shadow x :=
  ⟨rfl, rfl, by decide, by decide, by decide, rfl, rfl, rfl, by decide,
    C16_open_read_close_reopen clo_file (init_state sh_untainted) 1 3 readlink_tmp readlink_etc
      (fun _ => 0) (fun _ => 0) (fun _ _ => true) (fun _ _ => true) 0 0
      (regs 3 4096) (regs 3 77) (regs 3 8192) 8 5
      rfl rfl (by decide) (by decide) (by decide) rfl rfl rfl (by decide)⟩

/-- C17 as stated fails for a new size that does not fit the bit-field `szB`
of `szB_bits` = 30 bits: the size `2^30 + 5` is not negative as a signed
32-bit word, so `FL_(realloc)` grows the 64-byte chunk at 4096 of `state_q`
to the new block at 32768, and the chunk it registers there has the size 5,
not `2^30 + 5`. -/
theorem C17_counterexample :
    complain_about_silly_args (clo32 100) (2 ^ 30 + 5) = false
      ∧ HT_lookup state_q.malloc_list 4096 = some chunk_a
      ∧ chunk_a.szB < 2 ^ 30 + 5
      ∧ ∃ r, FL_realloc (clo32 100) 32768 state_q 1 4096 (2 ^ 30 + 5) = some r
          ∧ r.1 = 32768
          ∧ r.2.malloc_list
              = [{ data := 32768, szB := 5, allockind := FL_AllocKind.FL_AllocMalloc }]
          ∧ ({ data := 32768, szB := 2 ^ 30 + 5, allockind := FL_AllocKind.FL_AllocMalloc }
              : FL_Chunk) ∉ r.2.malloc_list :=
  ⟨by decide, by decide, by decide, _, rfl, rfl, rfl, by decide⟩

/-- C17, amended.  Growing resize.  For every live chunk `mc` at `p` of a
registry keyed by base address, and every `new_szB > mc.szB` that fits the
bit-field `szB` (`new_szB < 2^30`) for which the allocation in
`FL_(realloc)` is made and succeeds (`VG_(cli_malloc)` returns `a != 0`, `a`
not the address of a live chunk), `FL_(realloc)` returns `a`, which differs
from `p`; the registry afterwards is the rest of the old registry with the
one new chunk `(a, new_szB, Malloc)`, and has no chunk at `p`; the old chunk
is appended to the freed queue by the same path as a release: the quarantine
afterwards is the one `FL_(handle_free)` of `p` leaves. -/
theorem C17_growing_resize (cfg : Clo) (s : FL_State) (tid : ThreadId) (p : Int) (mc : FL_Chunk)
    (rest : VgHashTable) (a : Int) (new_szB : Nat)
    (hlive : HT_remove s.malloc_list p = some (mc, rest))
    (hsz : new_szB < 2 ^ szB_bits)
    (hnd : (s.malloc_list.map FL_Chunk.data).Nodup)
    (hk : mc.allockind ≠ FL_AllocKind.FL_AllocCustom)
    (hb : 0 ≤ cfg.clo_freelist_vol) (hv : s.freed_list_volume = queue_volume s.freed_list)
    (hsilly : complain_about_silly_args cfg new_szB = false)
    (hgrow : mc.szB < new_szB) (ha : a ≠ 0) (hfresh : ∀ c ∈ s.malloc_list, c.data ≠ a) :
    ∃ r, FL_realloc cfg a s tid p new_szB = some r
      ∧ r.1 = a ∧ r.1 ≠ p
      ∧ r.2.malloc_list
          = { data := a, szB := new_szB, allockind := FL_AllocKind.FL_AllocMalloc } :: rest
      ∧ HT_lookup r.2.malloc_list p = none
      ∧ (∃ evicted, evicted ++ r.2.freed_list = s.freed_list ++ [mc]
          ∧ r.2.cli_freed = s.cli_freed ++ evicted.map FL_Chunk.data)
      ∧ (∀ (tid1 : ThreadId) (rzB : Nat) (kind : FL_AllocKind) (s1 : FL_State),
          FL_handle_free cfg s tid1 p rzB kind = some s1 →
          r.2.freed_list = s1.freed_list ∧ r.2.freed_list_volume = s1.freed_list_volume
            ∧ r.2.cli_freed = s1.cli_freed) := by
  have hdata : mc.data = p := HT_remove_data hlive
  have hap : a ≠ p := by
    intro h
    exact hfresh mc (HT_remove_mem hlive) (by rw [hdata, h])
  obtain ⟨s3, s4, hq3, hv3, hc3, hm3, _, hdie, hreal⟩ :=
    realloc_grow cfg s tid p mc rest a new_szB hlive hb hv hsilly hgrow ha
  have hframe := die_and_free_mem_frame hdie
  have hreg : s4.malloc_list = rest := hframe.1.trans hm3
  obtain ⟨s5, hdie5, _, _, _, _, _, _, _, _, hnc⟩ :=
    die_and_free_mem_eq cfg
      { s3 with shadow := realloc_grow_shadow s.shadow p a mc.szB new_szB } tid mc
      FL_MALLOC_REDZONE_SZB hb (by rw [hv3, hq3]; exact hv)
  rw [hdie] at hdie5
  cases hdie5
  obtain ⟨evicted, hsplit, hcli, _⟩ := hnc hk
  rw [Nat.mod_eq_of_lt hsz] at hreal
  refine ⟨_, hreal, rfl, hap, ?_, ?_, ⟨evicted, ?_, ?_⟩, ?_⟩
  · exact congrArg (List.cons _) hreg
  · apply HT_lookup_none
    intro c hc
    rcases List.mem_cons.mp hc with h1 | h1
    · rw [h1]; exact hap
    · rw [hreg] at h1
      exact HT_remove_rest_absent hnd hlive c h1
  · rw [← hq3]; exact hsplit
  · rw [← hc3]; exact hcli
  · intro tid1 rzB kind s1 hrun
    obtain ⟨t, htq, htv, htc, hdie1⟩ := handle_free_as_die hlive hrun
    have h := die_and_free_mem_congr
      (s := { s3 with shadow := realloc_grow_shadow s.shadow p a mc.szB new_szB })
      (hq3.trans htq.symm) (hv3.trans htv.symm) (hc3.trans htc.symm) hdie hdie1
    exact h

/-- Witness of C17: the 64-byte chunk at 4096 of `state_q` grows to 128 bytes
at 32768, budget 100. -/
theorem C17_witness :
    HT_remove state_q.malloc_list 4096 = some (chunk_a, [])
      ∧ 128 < 2 ^ szB_bits
      ∧ (state_q.malloc_list.map FL_Chunk.data).Nodup
      ∧ chunk_a.allockind ≠ FL_AllocKind.FL_AllocCustom
      ∧ 0 ≤ (clo32 100).clo_freelist_vol
      ∧ state_q.freed_list_volume = queue_volume state_q.freed_list
      ∧ complain_about_silly_args (clo32 100) 128 = false
      ∧ chunk_a.szB < 128 ∧ (32768 : Int) ≠ 0
      ∧ (∀ c ∈ state_q.malloc_list, c.data ≠ 32768)
      ∧ ∃ r, FL_realloc (clo32 100) 32768 state_q 1 4096 128 = some r
          ∧ r.1 = 32768 ∧ r.1 ≠ 4096
          ∧ r.2.malloc_list
              = { data := 32768, szB := 128, allockind := FL_AllocKind.FL_AllocMalloc } :: []
          ∧ HT_lookup r.2.malloc_list 4096 = none
          ∧ (∃ evicted, evicted ++ r.2.freed_list = state_q.freed_list ++ [chunk_a]
              ∧ r.2.cli_freed = state_q.cli_freed ++ evicted.map FL_Chunk.data)
          ∧ (∀ (tid1 : ThreadId) (rzB : Nat) (kind : FL_AllocKind) (s1 : FL_State),
              FL_handle_free (clo32 100) state_q tid1 4096 rzB kind = some s1 →
              r.2.freed_list = s1.freed_list ∧ r.2.freed_list_volume = s1.freed_list_volume
                ∧ r.2.cli_freed = s1.cli_freed) :=
  ⟨rfl, by decide, by decide, by decide, by decide, by decide, by decide, by decide, by decide,
    by decide,
    C17_growing_resize (clo32 100) state_q 1 4096 chunk_a [] 32768 128 rfl (by decide)
      (by decide) (by decide) (by decide) (by decide) (by decide) (by decide) (by decide)
      (by decide)⟩

/-- C18. Growing resize carries taint over.  When `FL_(realloc)` grows a live
chunk `(p, old)` to `(a, new_szB)` and the new block with its 16-byte
redzones, `[a-16, a+new_szB+16)`, is disjoint from the old block with its
redzones, `[p-16, p+old+16)`, then the call returns `a` and afterwards for
every `i < old` the shadow state of `a+i` is the one `p+i` had before the
call, every byte of the grown tail `[a+old, a+new_szB)` is Untainted, and the
redzones `[a-16, a)` and `[a+new_szB, a+new_szB+16)` are NoAccess. -/
theorem C18_growing_resize_carries_taint (cfg : Clo) (s : FL_State) (tid : ThreadId) (p : Int)
    (mc : FL_Chunk) (rest : VgHashTable) (a : Int) (new_szB : Nat)
    (hlive : HT_remove s.malloc_list p = some (mc, rest))
    (hb : 0 ≤ cfg.clo_freelist_vol) (hv : s.freed_list_volume = queue_volume s.freed_list)
    (hsilly : complain_about_silly_args cfg new_szB = false)
    (hgrow : mc.szB < new_szB) (ha : a ≠ 0)
    (hdisj : a + (new_szB : Int) + 16 ≤ p - 16 ∨ p + (mc.szB : Int) + 16 ≤ a - 16) :
    ∃ r, FL_realloc cfg a s tid p new_szB = some r
      ∧ r.1 = a
      ∧ (∀ i : Nat, i < mc.szB → r.2.shadow (a + (i : Int)) = s.shadow (p + (i : Int)))
      ∧ (∀ x : Int, a + (mc.szB : Int) ≤ x ∧ x < a + (new_szB : Int) →
          r.2.shadow x = ShadowByte.Untainted)
      ∧ (∀ x : Int, (a - 16 ≤ x ∧ x < a)
            ∨ (a + (new_szB : Int) ≤ x ∧ x < a + (new_szB : Int) + 16) →
          r.2.shadow x = ShadowByte.NoAccess) := by
  have hdata : mc.data = p := HT_remove_data hlive
  obtain ⟨s3, s4, _, _, _, _, _, hdie, hreal⟩ :=
    realloc_grow cfg s tid p mc rest a new_szB hlive hb hv hsilly hgrow ha
  have key : ∀ x : Int, p - 16 ≤ x ∧ x < p + (mc.szB : Int) + 16 ∨
      s4.shadow x = realloc_grow_shadow s.shadow p a mc.szB new_szB x := by
    intro x
    have h := die_and_free_mem_shadow hdie x
    rw [hdata] at h
    simp only [FL_MALLOC_REDZONE_SZB, Nat.cast_ofNat] at h
    by_cases hx : p - 16 ≤ x ∧ x < p + (mc.szB : Int) + 16
    · exact Or.inl hx
    · rw [if_neg hx] at h
      exact Or.inr h
  refine ⟨_, hreal, rfl, ?_, ?_, ?_⟩
  · intro i hi
    show s4.shadow (a + (i : Int)) = s.shadow (p + (i : Int))
    rcases key (a + (i : Int)) with hin | hsh
    · omega
    · rw [hsh]
      simp only [realloc_grow_shadow, make_mem_noaccess, make_mem_defined,
        copy_address_range_state, set_range, FL_MALLOC_REDZONE_SZB, Nat.cast_ofNat]
      rw [if_neg (by omega), if_neg (by omega), if_pos (by constructor <;> omega),
        if_neg (by omega)]
      congr 1
      omega
  · intro x hx
    show s4.shadow x = ShadowByte.Untainted
    rcases key x with hin | hsh
    · omega
    · rw [hsh]
      simp only [realloc_grow_shadow, make_mem_noaccess, make_mem_defined,
        copy_address_range_state, set_range, FL_MALLOC_REDZONE_SZB, Nat.cast_ofNat]
      rw [if_neg (by omega), if_pos (by constructor <;> omega)]
  · intro x hx
    show s4.shadow x = ShadowByte.NoAccess
    rcases key x with hin | hsh
    · omega
    · rw [hsh]
      simp only [realloc_grow_shadow, make_mem_noaccess, make_mem_defined,
        copy_address_range_state, set_range, FL_MALLOC_REDZONE_SZB, Nat.cast_ofNat]
      rcases hx with hlo | hhi
      · rw [if_neg (by omega), if_neg (by omega), if_neg (by omega),
          if_pos (by constructor <;> omega)]
      · rw [if_pos (by constructor <;> omega)]

/-- Witness of C18: the 64-byte chunk at 4096 of `state_q` grows to 128 bytes
at 32768. -/
theorem C18_witness :
    HT_remove state_q.malloc_list 4096 = some (chunk_a, [])
      ∧ 0 ≤ (clo32 100).clo_freelist_vol
      ∧ state_q.freed_list_volume = queue_volume state_q.freed_list
      ∧ complain_about_silly_args (clo32 100) 128 = false
      ∧ chunk_a.szB < 128 ∧ (32768 : Int) ≠ 0
      ∧ ((32768 : Int) + ((128 : Nat) : Int) + 16 ≤ 4096 - 16
          ∨ (4096 : Int) + (chunk_a.szB : Int) + 16 ≤ 32768 - 16)
      ∧ ∃ r, FL_realloc (clo32 100) 32768 state_q 1 4096 128 = some r
          ∧ r.1 = 32768
          ∧ (∀ i : Nat, i < chunk_a.szB →
              r.2.shadow (32768 + (i : Int)) = state_q.shadow (4096 + (i : Int)))
          ∧ (∀ x : Int, 32768 + (chunk_a.szB : Int) ≤ x ∧ x < 32768 + ((128 : Nat) : Int) →
              r.2.shadow x = ShadowByte.Untainted)
          ∧ (∀ x : Int, (32768 - 16 ≤ x ∧ x < 32768)
                ∨ (32768 + ((128 : Nat) : Int) ≤ x ∧ x < 32768 + ((128 : Nat) : Int) + 16) →
              r.2.shadow x = ShadowByte.NoAccess) :=
  ⟨rfl, by decide, by decide, by decide, by decide, by decide, by decide,
    C18_growing_resize_carries_taint (clo32 100) state_q 1 4096 chunk_a [] 32768 128 rfl
      (by decide) (by decide) (by decide) (by decide) (by decide) (by decide)⟩

/-- C19. Shrinking resize.  For every live chunk `mc` at `p` (its size a size
the registry can hold, below `2^(w-1)`) and every `new_szB <= mc.szB`,
`FL_(realloc)` returns `p` itself; the registry afterwards holds the chunk at
`p` with size `new_szB` and unchanged kind next to the other chunks as they
were; every byte of the shrunk tail `[p+new_szB, p+old)` is NoAccess, the
shadow state of every other byte, in particular of `[p, p+new_szB)`, and the
quarantine queue, its volume and the `VG_(cli_free)` log are unchanged. -/
theorem C19_shrinking_resize (cfg : Clo) (s : FL_State) (tid : ThreadId) (p : Int)
    (mc : FL_Chunk) (rest : VgHashTable) (a_cli : Int) (new_szB : Nat)
    (hlive : HT_remove s.malloc_list p = some (mc, rest))
    (hsz : mc.szB < 2 ^ (cfg.wordBits - 1)) (hle : new_szB ≤ mc.szB) :
    ∃ r, FL_realloc cfg a_cli s tid p new_szB = some r
      ∧ r.1 = p
      ∧ r.2.malloc_list = { mc with szB := new_szB } :: rest
      ∧ (∀ x : Int, p + (new_szB : Int) ≤ x ∧ x < p + (mc.szB : Int) →
          r.2.shadow x = ShadowByte.NoAccess)
      ∧ (∀ x : Int, ¬ (p + (new_szB : Int) ≤ x ∧ x < p + (mc.szB : Int)) →
          r.2.shadow x = s.shadow x)
      ∧ r.2.freed_list = s.freed_list ∧ r.2.freed_list_volume = s.freed_list_volume
      ∧ r.2.cli_freed = s.cli_freed := by
  have hdata : mc.data = p := HT_remove_data hlive
  have hsilly : complain_about_silly_args cfg new_szB = false :=
    silly_false_of_lt cfg new_szB (by omega)
  have htail : ∀ (sh : Shadow) (x : Int),
      (p + (new_szB : Int) ≤ x ∧ x < p + (mc.szB : Int) →
        make_mem_noaccess sh (mc.data + (new_szB : Int)) (mc.szB - new_szB) x
          = ShadowByte.NoAccess)
      ∧ (¬ (p + (new_szB : Int) ≤ x ∧ x < p + (mc.szB : Int)) →
        make_mem_noaccess sh (mc.data + (new_szB : Int)) (mc.szB - new_szB) x = sh x) := by
    intro sh x
    simp only [make_mem_noaccess, set_range, hdata]
    constructor
    · intro hx
      rw [if_pos (by constructor <;> omega)]
    · intro hx
      rw [if_neg (by omega)]
  unfold FL_realloc
  simp only [hsilly, hlive, Bool.false_eq_true, if_false]
  by_cases hk : mc.allockind = FL_AllocKind.FL_AllocMalloc
  · have hk1 : ¬ (FL_AllocKind.FL_AllocMalloc ≠ mc.allockind) := by simp [hk]
    rw [if_neg hk1]
    simp only []
    by_cases heq : mc.szB = new_szB
    · subst heq
      rw [if_pos rfl]
      exact ⟨_, rfl, rfl, rfl, fun x hx => by omega, fun _ _ => rfl, rfl, rfl, rfl⟩
    · rw [if_neg heq, if_pos (by omega)]
      exact ⟨_, rfl, rfl, rfl, fun x hx => (htail _ x).1 hx, fun x hx => (htail _ x).2 hx,
        rfl, rfl, rfl⟩
  · have hk1 : FL_AllocKind.FL_AllocMalloc ≠ mc.allockind := fun h => hk h.symm
    rw [if_pos hk1, if_pos hdata.symm]
    simp only []
    by_cases heq : mc.szB = new_szB
    · subst heq
      rw [if_pos rfl]
      exact ⟨_, rfl, rfl, rfl, fun x hx => by omega, fun _ _ => rfl, rfl, rfl, rfl⟩
    · rw [if_neg heq, if_pos (by omega)]
      exact ⟨_, rfl, rfl, rfl, fun x hx => (htail _ x).1 hx, fun x hx => (htail _ x).2 hx,
        rfl, rfl, rfl⟩

/-- Witness of C19: the 64-byte chunk at 4096 of `state_q` shrinks to 10
bytes. -/
theorem C19_witness :
    HT_remove state_q.malloc_list 4096 = some (chunk_a, [])
      ∧ chunk_a.szB < 2 ^ ((clo32 100).wordBits - 1) ∧ 10 ≤ chunk_a.szB
      ∧ ∃ r, FL_realloc (clo32 100) 0 state_q 1 4096 10 = some r
          ∧ r.1 = 4096
          ∧ r.2.malloc_list = { chunk_a with szB := 10 } :: []
          ∧ (∀ x : Int, 4096 + ((10 : Nat) : Int) ≤ x ∧ x < 4096 + (chunk_a.szB : Int) →
              r.2.shadow x = ShadowByte.NoAccess)
          ∧ (∀ x : Int, ¬ (4096 + ((10 : Nat) : Int) ≤ x ∧ x < 4096 + (chunk_a.szB : Int)) →
              r.2.shadow x = state_q.shadow x)
          ∧ r.2.freed_list = state_q.freed_list
          ∧ r.2.freed_list_volume = state_q.freed_list_volume
          ∧ r.2.cli_freed = state_q.cli_freed :=
  ⟨rfl, by decide, by decide,
    C19_shrinking_resize (clo32 100) state_q 1 4096 chunk_a [] 0 10 rfl (by decide) (by decide)⟩

/-- C20 fails on the code: `FL_(calloc)` checks only the signs of its
arguments.  On a 32-bit word, `calloc(65537, 65536)` (both arguments
non-negative as signed words, the product `2^32 + 65536` overflows) returns
the address 4096 handed out by `VG_(cli_malloc)` and registers a chunk whose
recorded size is the wrapped product 65536. -/
theorem C20_calloc_registers_wrapped_product :
    complain_about_silly_args2 (clo32 100) 65537 65536 = false
      ∧ 2 ^ (clo32 100).wordBits ≤ 65537 * 65536
      ∧ (65537 * 65536) % 2 ^ (clo32 100).wordBits = 65536
      ∧ ∃ s1, FL_calloc (clo32 100) 4096 (init_state sh_untainted) 1 65537 65536
            = some (4096, s1)
          ∧ s1.malloc_list
            = [{ data := 4096, szB := 65536, allockind := FL_AllocKind.FL_AllocMalloc }] :=
  ⟨by decide, by decide, by decide, _, rfl, rfl⟩

/-- C21. Failure atomicity of allocation.  Each of `FL_(malloc)`,
`FL_(__builtin_new)`, `FL_(__builtin_vec_new)`, `FL_(memalign)` and
`FL_(calloc)` returns, and when it returns no address the registry, the
quarantine and the shadow store are those of before the call; it returns no
address when the size is negative as a signed word and when
`VG_(cli_malloc)` fails.  `FL_(realloc)` returns no address when the size is
negative as a signed word, when the address has no live chunk and when the
growth allocation fails; whenever it returns no address (the registry holding
no chunk at `NULL`) the registry holds the same chunks and answers every
lookup as before, and the quarantine and the shadow store are unchanged.  In
particular a realloc whose growth allocation fails leaves the old chunk live
with its old size and kind. -/
theorem C21_failed_allocation_atomic (cfg : Clo) (a_cli : Int) (s : FL_State) (tid : ThreadId)
    (alignB n nmemb size1 : Nat) (p : Int) (new_szB : Nat) :
    (∀ call ∈ [FL_malloc cfg a_cli s tid n, FL___builtin_new cfg a_cli s tid n,
        FL___builtin_vec_new cfg a_cli s tid n, FL_memalign cfg a_cli s tid alignB n,
        FL_calloc cfg a_cli s tid nmemb size1],
      ∃ r, call = some r
        ∧ (r.1 = 0 → r.2.malloc_list = s.malloc_list ∧ r.2.freed_list = s.freed_list
            ∧ r.2.freed_list_volume = s.freed_list_volume ∧ r.2.cli_freed = s.cli_freed
            ∧ r.2.shadow = s.shadow))
    ∧ (complain_about_silly_args cfg n = true ∨ a_cli = 0 →
        ∀ call ∈ [FL_malloc cfg a_cli s tid n, FL___builtin_new cfg a_cli s tid n,
          FL___builtin_vec_new cfg a_cli s tid n, FL_memalign cfg a_cli s tid alignB n],
        ∃ s1, call = some (0, s1))
    ∧ (complain_about_silly_args cfg nmemb = true ∨ complain_about_silly_args cfg size1 = true
        ∨ a_cli = 0 → ∃ s1, FL_calloc cfg a_cli s tid nmemb size1 = some (0, s1))
    ∧ (complain_about_silly_args cfg new_szB = true ∨ HT_lookup s.malloc_list p = none
        ∨ (∃ mc, HT_lookup s.malloc_list p = some mc ∧ mc.szB < new_szB ∧ a_cli = 0) →
        ∃ s1, FL_realloc cfg a_cli s tid p new_szB = some (0, s1))
    ∧ ((∀ c ∈ s.malloc_list, c.data ≠ 0) →
        ∀ r, FL_realloc cfg a_cli s tid p new_szB = some r → r.1 = 0 →
          List.Perm r.2.malloc_list s.malloc_list
          ∧ (∀ key, HT_lookup r.2.malloc_list key = HT_lookup s.malloc_list key)
          ∧ r.2.freed_list = s.freed_list ∧ r.2.freed_list_volume = s.freed_list_volume
          ∧ r.2.cli_freed = s.cli_freed ∧ r.2.shadow = s.shadow)
    ∧ (∀ mc, HT_lookup s.malloc_list p = some mc →
        complain_about_silly_args cfg new_szB = false → mc.szB < new_szB →
        ∃ s1, FL_realloc cfg 0 s tid p new_szB = some (0, s1)
          ∧ HT_lookup s1.malloc_list p = some mc
          ∧ List.Perm s1.malloc_list s.malloc_list
          ∧ s1.freed_list = s.freed_list ∧ s1.freed_list_volume = s.freed_list_volume
          ∧ s1.cli_freed = s.cli_freed ∧ s1.shadow = s.shadow) := by
  have hnew : ∀ (szB al : Nat) (z : Bool) (kind : FL_AllocKind),
      kind ≠ FL_AllocKind.FL_AllocCustom →
      ∃ r, into_malloc_list (FL_new_block a_cli s tid 0 szB al FL_MALLOC_REDZONE_SZB z kind
          s.malloc_list) = some r
        ∧ (a_cli = 0 → r.1 = 0)
        ∧ (r.1 = 0 → r.2.malloc_list = s.malloc_list ∧ r.2.freed_list = s.freed_list
            ∧ r.2.freed_list_volume = s.freed_list_volume ∧ r.2.cli_freed = s.cli_freed
            ∧ r.2.shadow = s.shadow) := by
    intro szB al z kind hk
    obtain ⟨r, hr, h1, h2⟩ := new_block_outcome a_cli s tid szB al FL_MALLOC_REDZONE_SZB z kind hk
    exact ⟨r, hr, h1, fun h => ⟨(h2 h).1, (h2 h).2.1, (h2 h).2.2.1, (h2 h).2.2.2.1,
      (h2 h).2.2.2.2.1⟩⟩
  have hfam : ∀ (szB al : Nat) (z : Bool) (kind : FL_AllocKind) (silly : Bool),
      kind ≠ FL_AllocKind.FL_AllocCustom →
      ∃ r, (if silly = true then some (0, s)
            else into_malloc_list (FL_new_block a_cli s tid 0 szB al FL_MALLOC_REDZONE_SZB z kind
              s.malloc_list)) = some r
        ∧ (silly = true ∨ a_cli = 0 → r.1 = 0)
        ∧ (r.1 = 0 → r.2.malloc_list = s.malloc_list ∧ r.2.freed_list = s.freed_list
            ∧ r.2.freed_list_volume = s.freed_list_volume ∧ r.2.cli_freed = s.cli_freed
            ∧ r.2.shadow = s.shadow) := by
    intro szB al z kind silly hk
    cases silly with
    | true => exact ⟨(0, s), rfl, fun _ => rfl, fun _ => ⟨rfl, rfl, rfl, rfl, rfl⟩⟩
    | false =>
      obtain ⟨r, hr, h1, h2⟩ := hnew szB al z kind hk
      refine ⟨r, ?_, ?_, h2⟩
      · simpa using hr
      · intro h
        rcases h with h | h
        · cases h
        · exact h1 h
  have hm := hfam n cfg.clo_alignment false FL_AllocKind.FL_AllocMalloc
    (complain_about_silly_args cfg n) (by decide)
  have hn := hfam n cfg.clo_alignment false FL_AllocKind.FL_AllocNew
    (complain_about_silly_args cfg n) (by decide)
  have hv := hfam n cfg.clo_alignment false FL_AllocKind.FL_AllocNewVec
    (complain_about_silly_args cfg n) (by decide)
  have ha := hfam n alignB false FL_AllocKind.FL_AllocMalloc
    (complain_about_silly_args cfg n) (by decide)
  have hc := hfam ((nmemb * size1) % 2 ^ cfg.wordBits) cfg.clo_alignment true
    FL_AllocKind.FL_AllocMalloc (complain_about_silly_args2 cfg nmemb size1) (by decide)
  refine ⟨?_, ?_, ?_, realloc_fails cfg a_cli s tid p new_szB,
    fun hnull r hrun h0 => ?_, fun mc hmc hsilly hgrow => ?_⟩
  · intro call hcall
    simp only [List.mem_cons, List.mem_singleton, List.not_mem_nil, or_false] at hcall
    rcases hcall with h | h | h | h | h <;> subst h
    · obtain ⟨r, hr, _, h2⟩ := hm; exact ⟨r, hr, h2⟩
    · obtain ⟨r, hr, _, h2⟩ := hn; exact ⟨r, hr, h2⟩
    · obtain ⟨r, hr, _, h2⟩ := hv; exact ⟨r, hr, h2⟩
    · obtain ⟨r, hr, _, h2⟩ := ha; exact ⟨r, hr, h2⟩
    · obtain ⟨r, hr, _, h2⟩ := hc; exact ⟨r, hr, h2⟩
  · intro hfail call hcall
    simp only [List.mem_cons, List.mem_singleton, List.not_mem_nil, or_false] at hcall
    rcases hcall with h | h | h | h <;> subst h
    · obtain ⟨r, hr, h1, _⟩ := hm
      exact ⟨r.2, by rw [show FL_malloc cfg a_cli s tid n = some r from hr, ← h1 hfail]⟩
    · obtain ⟨r, hr, h1, _⟩ := hn
      exact ⟨r.2, by rw [show FL___builtin_new cfg a_cli s tid n = some r from hr, ← h1 hfail]⟩
    · obtain ⟨r, hr, h1, _⟩ := hv
      exact ⟨r.2, by
        rw [show FL___builtin_vec_new cfg a_cli s tid n = some r from hr, ← h1 hfail]⟩
    · obtain ⟨r, hr, h1, _⟩ := ha
      exact ⟨r.2, by
        rw [show FL_memalign cfg a_cli s tid alignB n = some r from hr, ← h1 hfail]⟩
  · intro hfail
    obtain ⟨r, hr, h1, _⟩ := hc
    have hfail1 : complain_about_silly_args2 cfg nmemb size1 = true ∨ a_cli = 0 := by
      rcases hfail with h | h | h
      · left; simp [complain_about_silly_args2, h]
      · left; simp [complain_about_silly_args2, h]
      · right; exact h
    exact ⟨r.2, by
      rw [show FL_calloc cfg a_cli s tid nmemb size1 = some r from hr, ← h1 hfail1]⟩
  · obtain ⟨h1, h2, h3, h4, h5, h6, _⟩ :=
      realloc_no_address cfg a_cli s tid p new_szB hnull r hrun h0
    exact ⟨h1, h2, h3, h4, h5, h6⟩
  · obtain ⟨s1, rest, hr, hrun, hm1, hq, hvol, hcli, hsh, _⟩ :=
      realloc_growth_fails cfg s tid p new_szB mc hsilly hmc hgrow
    refine ⟨s1, hrun, ?_, ?_, hq, hvol, hcli, hsh⟩
    · rw [hm1, HT_remove_lookup hr]; exact hmc
    · rw [hm1]; exact HT_remove_perm hr

/-- C21 at a concrete state: in `state_q` (chunk `chunk_a`, 64 bytes at 4096,
live, no chunk at `NULL`) `realloc(4096, 100)` with a failing
`VG_(cli_malloc)` returns no address and leaves `chunk_a` live;
`realloc(5000, 100)` returns no address and leaves the registry, the
quarantine and the shadow store as they were; `malloc(10)` with a failing
`VG_(cli_malloc)` returns no address. -/
theorem C21_witness :
    (∀ c ∈ state_q.malloc_list, c.data ≠ 0)
      ∧ HT_lookup state_q.malloc_list 4096 = some chunk_a
      ∧ (∃ s1, FL_realloc (clo32 100) 0 state_q 1 4096 100 = some (0, s1)
          ∧ HT_lookup s1.malloc_list 4096 = some chunk_a
          ∧ List.Perm s1.malloc_list state_q.malloc_list
          ∧ s1.freed_list = state_q.freed_list
          ∧ s1.freed_list_volume = state_q.freed_list_volume
          ∧ s1.cli_freed = state_q.cli_freed ∧ s1.shadow = state_q.shadow)
      ∧ (∃ s1, FL_realloc (clo32 100) 0 state_q 1 5000 100 = some (0, s1)
          ∧ List.Perm s1.malloc_list state_q.malloc_list
          ∧ s1.freed_list = state_q.freed_list ∧ s1.shadow = state_q.shadow)
      ∧ ∃ s1, FL_malloc (clo32 100) 0 state_q 1 10 = some (0, s1) := by
  have h := C21_failed_allocation_atomic (clo32 100) 0 state_q 1 8 10 0 0 5000 100
  obtain ⟨s1, hs1⟩ := h.2.2.2.1 (Or.inr (Or.inl (by decide)))
  have h5 := h.2.2.2.2.1 (by decide) (0, s1) hs1 rfl
  exact ⟨by decide, by decide,
    (C21_failed_allocation_atomic (clo32 100) 0 state_q 1 8 10 0 0 4096 100).2.2.2.2.2
      chunk_a (by decide) (by decide) (by decide),
    ⟨s1, hs1, h5.1, h5.2.2.1, h5.2.2.2.2.2⟩,
    h.2.1 (Or.inr rfl) _ (List.mem_cons_self _ _)⟩

/-- C22 fails on the code: in the branch for a chunk that straddles the
extent, `FL_(mempool_trim)` computes the upper bounds from `mc->data + szB`
with `szB` the size of the extent, not the size of the chunk, and a chunk
whose first and last byte both lie outside the extent is deleted even when it
contains the extent.  For the pool 7 with the single chunk `[4096, 4196)`:
trimmed to `[4146, 4206)` the table holds the chunk `[4146, 4156)`, not the
intersection `[4146, 4196)`; trimmed to `[4106, 4116)` the table is empty,
not the intersection `[4106, 4116)`. -/
theorem C22_trim_keeps_wrong_range :
    (∃ s1, FL_mempool_trim (clo32 100) (state_one_pool 0 sh_tainted [pool_chunk 4096 100]) 1 7
          4146 60 = some s1
        ∧ s1.mempool_list
          = [{ pool := 7, rzB := 0, is_zeroed := false, chunks := [pool_chunk 4146 10] }])
      ∧ ∃ s2, FL_mempool_trim (clo32 100) (state_one_pool 0 sh_tainted [pool_chunk 4096 100]) 1 7
            4106 10 = some s2
          ∧ s2.mempool_list = [{ pool := 7, rzB := 0, is_zeroed := false, chunks := [] }] :=
  ⟨⟨_, rfl, rfl⟩, _, rfl, rfl⟩

/-- C23 fails on the code: the marking done for another chunk reaches the
payload of a chunk that lies wholly inside the extent.  Pool 7 (no redzone)
holds the chunks `[4096, 4196)` and `[4196, 4206)`, every byte Tainted; the
trim to `[4146, 4206)` keeps the chunk `[4196, 4206)` in the table, and the
branch for the straddling chunk `[4096, 4196)` marks `[4156, 4206)` NoAccess,
the payload of the kept chunk included.  With a redzone of 16, the chunks
`[4096, 4146)` and `[4146, 4196)` and the extent `[4146, 4196)`, the release
of `[4096, 4146)` re-marks its redzone `[4146, 4162)`, which is payload of the
kept chunk. -/
theorem C23_trim_marks_inner_chunk :
    (∃ s1, FL_mempool_trim (clo32 100)
          (state_one_pool 0 sh_tainted [pool_chunk 4096 100, pool_chunk 4196 10]) 1 7 4146 60
          = some s1
        ∧ HT_lookup_pool s1.mempool_list 7
          = some { pool := 7, rzB := 0, is_zeroed := false,
                   chunks := [pool_chunk 4146 10, pool_chunk 4196 10] }
        ∧ sh_tainted 4196 = ShadowByte.Tainted ∧ sh_tainted 4205 = ShadowByte.Tainted
        ∧ s1.shadow 4196 = ShadowByte.NoAccess ∧ s1.shadow 4205 = ShadowByte.NoAccess)
      ∧ ∃ s2, FL_mempool_trim (clo32 100)
            (state_one_pool 16 sh_tainted [pool_chunk 4096 50, pool_chunk 4146 50]) 1 7 4146 50
            = some s2
          ∧ HT_lookup_pool s2.mempool_list 7
            = some { pool := 7, rzB := 16, is_zeroed := false, chunks := [pool_chunk 4146 50] }
          ∧ s2.shadow 4146 = ShadowByte.Untainted ∧ s2.shadow 4161 = ShadowByte.Untainted
          ∧ s2.shadow 4162 = ShadowByte.Tainted :=
  ⟨⟨_, rfl, rfl, rfl, rfl, by decide, by decide⟩, _, rfl, rfl, by decide, by decide, by decide⟩

/-- C24 fails on the code: the margins are computed from `mc->data + szB`
with `szB` the size of the extent.  In pool 7 (no redzone, every byte
Tainted): the chunk `[4196, 4246)` trimmed to `[4196, 4216)` is kept as
`[4196, 4216)` and no byte of its discarded margin `[4216, 4246)` is marked;
the chunk `[4206, 4256)` trimmed to `[4196, 4216)` is kept as `[4206, 4216)`
and only `[4216, 4226)` of its margin `[4216, 4256)` is marked; for the chunk
`[4096, 4196)` trimmed to `[4146, 4206)` the bytes `[4196, 4206)`, outside the
chunk, are marked NoAccess, as are the bytes `[4156, 4196)` inside the
extent. -/
theorem C24_trim_margins_not_marked :
    (∃ s1, FL_mempool_trim (clo32 100) (state_one_pool 0 sh_tainted [pool_chunk 4196 50]) 1 7
          4196 20 = some s1
        ∧ s1.mempool_list
          = [{ pool := 7, rzB := 0, is_zeroed := false, chunks := [pool_chunk 4196 20] }]
        ∧ s1.shadow 4216 = ShadowByte.Tainted ∧ s1.shadow 4245 = ShadowByte.Tainted)
      ∧ (∃ s2, FL_mempool_trim (clo32 100) (state_one_pool 0 sh_tainted [pool_chunk 4206 50]) 1 7
          4196 20 = some s2
        ∧ s2.mempool_list
          = [{ pool := 7, rzB := 0, is_zeroed := false, chunks := [pool_chunk 4206 10] }]
        ∧ s2.shadow 4216 = ShadowByte.NoAccess ∧ s2.shadow 4225 = ShadowByte.NoAccess
        ∧ s2.shadow 4226 = ShadowByte.Tainted ∧ s2.shadow 4255 = ShadowByte.Tainted)
      ∧ ∃ s3, FL_mempool_trim (clo32 100) (state_one_pool 0 sh_tainted [pool_chunk 4096 100]) 1 7
            4146 60 = some s3
          ∧ s3.shadow 4096 = ShadowByte.NoAccess ∧ s3.shadow 4145 = ShadowByte.NoAccess
          ∧ s3.shadow 4156 = ShadowByte.NoAccess ∧ s3.shadow 4195 = ShadowByte.NoAccess
          ∧ s3.shadow 4196 = ShadowByte.NoAccess ∧ s3.shadow 4205 = ShadowByte.NoAccess
          ∧ s3.shadow 4206 = ShadowByte.Tainted :=
  ⟨⟨_, rfl, rfl, by decide, by decide⟩,
   ⟨_, rfl, rfl, by decide, by decide, by decide, by decide⟩,
   _, rfl, by decide, by decide, by decide, by decide, by decide, by decide, by decide⟩

/-- C25 as stated fails for `size = 0`: an empty extent contains no address,
so the chunk of size 0 at `addr`, which is exactly `[addr, addr+0)`, counts
as outside the extent and is discarded.  Pool 7 (redzone 8, every byte
Tainted) holds the single chunk of size 0 at 100; after the trim to
`[100, 100)` the table is empty and the redzone bytes `[92, 108)` are
Untainted. -/
theorem C25_counterexample :
    ∃ s1, FL_mempool_trim (clo32 100) (state_one_pool 8 sh_tainted [pool_chunk 100 0]) 1 7 100 0
        = some s1
      ∧ s1.mempool_list = [{ pool := 7, rzB := 8, is_zeroed := false, chunks := [] }]
      ∧ sh_tainted 92 = ShadowByte.Tainted ∧ sh_tainted 107 = ShadowByte.Tainted
      ∧ s1.shadow 92 = ShadowByte.Untainted ∧ s1.shadow 107 = ShadowByte.Untainted :=
  ⟨_, rfl, rfl, rfl, rfl, by decide, by decide⟩

/-- C25, amended.  For every live pool whose only chunk is exactly
`[addr, addr+size)`: when `size > 0`, `FL_(mempool_trim)(pool, addr, size)`
returns and leaves the whole state, the chunk table and the shadow store
included, unchanged; and for every `size` (the chunk being a pool chunk, of
kind `FL_AllocCustom`) the trim returns and a second trim of the result
returns the same state: trimming twice equals trimming once. -/
theorem C25_trim_exact_chunk (cfg : Clo) (s : FL_State) (tid : ThreadId) (pool addr : Int)
    (size : Nat) (mp : FL_Mempool) (c : FL_Chunk)
    (hpool : HT_lookup_pool s.mempool_list pool = some mp) (honly : mp.chunks = [c])
    (hdata : c.data = addr) (hsize : c.szB = size) :
    (0 < size → FL_mempool_trim cfg s tid pool addr size = some s)
      ∧ (c.allockind = FL_AllocKind.FL_AllocCustom →
          ∃ s1, FL_mempool_trim cfg s tid pool addr size = some s1
            ∧ FL_mempool_trim cfg s1 tid pool addr size = some s1) := by
  have hpos : 0 < size → FL_mempool_trim cfg s tid pool addr size = some s := by
    intro hs
    have hne : ¬ c.szB = 0 := by omega
    have hlo : EXTENT_CONTAINS addr size c.data = true := by
      rw [extent_contains_iff]; omega
    have hhi : EXTENT_CONTAINS addr size (c.data + (c.szB : Int) - 1) = true := by
      rw [extent_contains_iff]; omega
    simp only [FL_mempool_trim, hpool, HT_to_array, honly, List.length_singleton,
      one_ne_zero, if_false, mempool_trim_loop, hne, hlo, hhi, Bool.and_self, if_true]
    rw [← honly, set_pool_chunks_self hpool]
  refine ⟨hpos, fun hk => ?_⟩
  by_cases hs : 0 < size
  · exact ⟨s, hpos hs, hpos hs⟩
  · have hz : c.szB = 0 := by omega
    have hlo : EXTENT_CONTAINS addr size c.data = false := by
      rw [extent_contains_false_iff]; omega
    have hrem : HT_remove [c] c.data = some (c, []) := by simp [HT_remove]
    have hrun : FL_mempool_trim cfg s tid pool addr size
        = some { s with
                 shadow :=
                   make_mem_defined
                     (make_mem_noaccess s.shadow (c.data - (mp.rzB : Int)) (c.szB + 2 * mp.rzB))
                     (c.data - (mp.rzB : Int)) (c.szB + 2 * mp.rzB),
                 mempool_list := set_pool_chunks s.mempool_list pool [] } := by
      simp only [FL_mempool_trim, hpool, HT_to_array, honly, List.length_singleton,
        one_ne_zero, if_false, mempool_trim_loop, hz, if_true, hlo, Bool.and_self,
        Bool.false_eq_true, Bool.not_false, hrem, die_and_free_mem_custom cfg s tid c mp.rzB hk]
    refine ⟨_, hrun, ?_⟩
    have hl := lookup_set_pool_chunks hpool []
    simp only [FL_mempool_trim, hl, HT_to_array, List.length_nil, if_true]

/-- C25 at a concrete pool: pool 7 of `state_pool` holds only `chunk_p`, the
32 bytes at 20480; trimming it to `[20480, 20480+32)` changes nothing, once
or twice.  For the pool with the single chunk of size 0 at 100, trimming to
`[100, 100)` twice gives the state of trimming once. -/
theorem C25_witness :
    HT_lookup_pool state_pool.mempool_list 7
        = some { pool := 7, rzB := 8, is_zeroed := false, chunks := [chunk_p] }
      ∧ FL_mempool_trim (clo32 100) state_pool 1 7 20480 32 = some state_pool
      ∧ (∃ s1, FL_mempool_trim (clo32 100) state_pool 1 7 20480 32 = some s1
          ∧ FL_mempool_trim (clo32 100) s1 1 7 20480 32 = some s1)
      ∧ ∃ s1, FL_mempool_trim (clo32 100) (state_one_pool 8 sh_tainted [pool_chunk 100 0]) 1 7
            100 0 = some s1
          ∧ FL_mempool_trim (clo32 100) s1 1 7 100 0 = some s1 :=
  ⟨rfl,
   (C25_trim_exact_chunk (clo32 100) state_pool 1 7 20480 32
      { pool := 7, rzB := 8, is_zeroed := false, chunks := [chunk_p] } chunk_p
      rfl rfl rfl rfl).1 (by decide),
   (C25_trim_exact_chunk (clo32 100) state_pool 1 7 20480 32
      { pool := 7, rzB := 8, is_zeroed := false, chunks := [chunk_p] } chunk_p
      rfl rfl rfl rfl).2 rfl,
   (C25_trim_exact_chunk (clo32 100) (state_one_pool 8 sh_tainted [pool_chunk 100 0]) 1 7 100 0
      { pool := 7, rzB := 8, is_zeroed := false, chunks := [pool_chunk 100 0] }
      (pool_chunk 100 0) rfl rfl rfl rfl).2 rfl⟩

/-- C26 as stated fails for a chunk of size 0: its range is empty, so its
intersection with every extent is empty, but `FL_(mempool_trim)` takes the
chunk as the single address `mc->data` and keeps it when that address lies in
the extent.  Pool 7 holds the single chunk of size 0 at 100; after the trim
to `[50, 150)` the chunk is still in the table. -/
theorem C26_counterexample :
    (∀ x : Int, (pool_chunk 100 0).data ≤ x →
        x < (pool_chunk 100 0).data + ((pool_chunk 100 0).szB : Int) →
        ¬ ((50 : Int) ≤ x ∧ x < 50 + 100))
      ∧ ∃ s1, FL_mempool_trim (clo32 100) (state_one_pool 0 sh_tainted [pool_chunk 100 0]) 1 7
            50 100 = some s1
          ∧ s1.mempool_list
            = [{ pool := 7, rzB := 0, is_zeroed := false, chunks := [pool_chunk 100 0] }] :=
  ⟨fun x h1 h2 => by simp only [pool_chunk] at h1 h2; omega, _, rfl, rfl⟩

/-- C26, amended.  For every live pool of pool chunks (kind
`FL_AllocCustom`) and every extent `[addr, addr+size)` whose intersection
with every chunk of the pool is empty, the chunks of size 0 having their
address outside the extent: `FL_(mempool_trim)` returns, afterwards the
chunk table of the pool is empty, the other pools are as before, and the
quarantine (queue, volume counter, blocks handed to `VG_(cli_free)`) and the
registry are unchanged and no error is recorded. -/
theorem C26_trim_discards_all (cfg : Clo) (s : FL_State) (tid : ThreadId) (pool addr : Int)
    (size : Nat) (mp : FL_Mempool)
    (hpool : HT_lookup_pool s.mempool_list pool = some mp)
    (hkind : ∀ c ∈ mp.chunks, c.allockind = FL_AllocKind.FL_AllocCustom)
    (hzero : ∀ c ∈ mp.chunks, c.szB = 0 → ¬ (addr ≤ c.data ∧ c.data < addr + (size : Int)))
    (hdisj : ∀ c ∈ mp.chunks, ∀ x : Int, c.data ≤ x → x < c.data + (c.szB : Int) →
      ¬ (addr ≤ x ∧ x < addr + (size : Int))) :
    ∃ s1, FL_mempool_trim cfg s tid pool addr size = some s1
      ∧ HT_lookup_pool s1.mempool_list pool = some { mp with chunks := [] }
      ∧ s1.mempool_list = set_pool_chunks s.mempool_list pool []
      ∧ s1.freed_list = s.freed_list ∧ s1.freed_list_volume = s.freed_list_volume
      ∧ s1.cli_freed = s.cli_freed ∧ s1.malloc_list = s.malloc_list
      ∧ s1.errors = s.errors := by
  by_cases hempty : mp.chunks = []
  · have hself : set_pool_chunks s.mempool_list pool [] = s.mempool_list := by
      rw [← hempty]; exact set_pool_chunks_self hpool
    have hrun : FL_mempool_trim cfg s tid pool addr size = some s := by
      simp only [FL_mempool_trim, hpool, HT_to_array, hempty, List.length_nil, if_true]
    refine ⟨s, hrun, ?_, hself.symm, rfl, rfl, rfl, rfl, rfl⟩
    rw [hpool]
    cases mp
    simp only at hempty
    simp only [hempty]
  · have hout : ∀ c ∈ mp.chunks, EXTENT_CONTAINS addr size c.data = false
        ∧ EXTENT_CONTAINS addr size
            (if c.szB = 0 then c.data else c.data + (c.szB : Int) - 1) = false := by
      intro c hc
      by_cases hz : c.szB = 0
      · have h := hzero c hc hz
        rw [if_pos hz, extent_contains_false_iff]
        exact ⟨h, h⟩
      · have h1 := hdisj c hc c.data (le_refl _) (by omega)
        have h2 := hdisj c hc (c.data + (c.szB : Int) - 1) (by omega) (by omega)
        rw [if_neg hz, extent_contains_false_iff, extent_contains_false_iff]
        exact ⟨h1, h2⟩
    obtain ⟨s1, hloop, h1, h2, h3, h4, h5, h6⟩ :=
      trim_loop_all_outside cfg tid mp.rzB addr size mp.chunks s hkind hout
    have hlen : ¬ mp.chunks.length = 0 := by
      intro h; exact hempty (List.length_eq_zero.mp h)
    have hrun : FL_mempool_trim cfg s tid pool addr size
        = some { s1 with mempool_list := set_pool_chunks s1.mempool_list pool [] } := by
      simp only [FL_mempool_trim, hpool, HT_to_array, hlen, if_false, hloop]
    refine ⟨_, hrun, ?_, ?_, h1, h2, h3, h4, h6⟩
    · simp only [h5]; exact lookup_set_pool_chunks hpool []
    · simp only [h5]

/-- C26 at a concrete pool: pool 7 of `state_pool` holds `chunk_p`, the 32
bytes at 20480; the trim to `[4096, 4096+64)` empties the table and leaves the
quarantine (`chunk_b`, `chunk_c`) as it was. -/
theorem C26_witness :
    HT_lookup_pool state_pool.mempool_list 7
        = some { pool := 7, rzB := 8, is_zeroed := false, chunks := [chunk_p] }
      ∧ ∃ s1, FL_mempool_trim (clo32 100) state_pool 1 7 4096 64 = some s1
          ∧ HT_lookup_pool s1.mempool_list 7
            = some { pool := 7, rzB := 8, is_zeroed := false, chunks := [] }
          ∧ s1.mempool_list = set_pool_chunks state_pool.mempool_list 7 []
          ∧ s1.freed_list = [chunk_b, chunk_c] ∧ s1.freed_list_volume = 11
          ∧ s1.cli_freed = [] ∧ s1.malloc_list = [chunk_a] ∧ s1.errors = [] :=
  ⟨rfl,
   C26_trim_discards_all (clo32 100) state_pool 1 7 4096 64
     { pool := 7, rzB := 8, is_zeroed := false, chunks := [chunk_p] } rfl
     (by decide) (by decide)
     (by
       intro c hc x h1 h2
       simp only [List.mem_singleton] at hc
       subst hc
       simp only [chunk_p] at h1 h2
       omega)⟩

/-- C27 fails on the code: for a chunk that starts before the extent and
ends inside it, the branch for straddling chunks sets `hi = mc->data + szB`
with `szB` the size of the extent, and `tl_assert(lo < hi)` fails when the
extent starts at or beyond `mc->data + szB`.  After `create_mempool(7)` and
`mempool_alloc(7, 4096, 100)` pool 7 holds the single chunk `[4096, 4196)`;
in the trim to `[4146, 4196)` the first byte of the chunk is outside the
extent and the last byte, 4195, inside, the branch sets `lo = 4146` and
`hi = 4096 + 50`, and the engine stops at the assertion. -/
theorem C27_trim_assertion_fails :
    (∃ s1, run_pool_hooks (clo32 100) 1 (init_state sh_tainted)
          [PoolHook.create_mempool 7 0 false, PoolHook.mempool_alloc 7 4096 100] = some s1
        ∧ s1.mempool_list
          = [{ pool := 7, rzB := 0, is_zeroed := false, chunks := [pool_chunk 4096 100] }]
        ∧ FL_mempool_trim (clo32 100) s1 1 7 4146 50 = none)
      ∧ EXTENT_CONTAINS 4146 50 (pool_chunk 4096 100).data = false
      ∧ EXTENT_CONTAINS 4146 50
          ((pool_chunk 4096 100).data + ((pool_chunk 4096 100).szB : Int) - 1) = true
      ∧ run_pool_hooks (clo32 100) 1 (init_state sh_tainted)
          [PoolHook.create_mempool 7 0 false, PoolHook.mempool_alloc 7 4096 100,
           PoolHook.mempool_trim 7 4146 50] = none :=
  ⟨⟨_, rfl, rfl, rfl⟩, by decide, by decide, rfl⟩

/-- C28 as stated fails: a second `FL_(create_mempool)` for the identifier of
a live pool reaches `VG_(tool_panic)`.  In `state_pool` pool 7 is live and
`create_mempool(7, 0, False)` stops the engine. -/
theorem C28_counterexample :
    FL_mempool_exists state_pool 7 = true ∧ FL_create_mempool state_pool 7 0 false = none :=
  ⟨rfl, rfl⟩

/-- C28, amended.  `FL_(create_mempool)` with an identifier that already
names a live pool stops the engine in `VG_(tool_panic)`: no state results and
no error is recorded.  With an identifier that names no live pool it returns
and adds a pool with the given redzone size and zeroing flag and an empty
chunk table; the other pools and the rest of the state are unchanged. -/
theorem C28_create_mempool_duplicate_panics (s : FL_State) (pool : Int) (rzB : Nat)
    (z : Bool) :
    (FL_mempool_exists s pool = true → FL_create_mempool s pool rzB z = none)
      ∧ (FL_mempool_exists s pool = false →
          FL_create_mempool s pool rzB z
            = some { s with
                     mempool_list :=
                       { pool := pool, rzB := rzB, is_zeroed := z, chunks := [] }
                         :: s.mempool_list }) := by
  unfold FL_mempool_exists FL_create_mempool
  cases h : HT_lookup_pool s.mempool_list pool with
  | none => simp
  | some mp => simp

/-- C28 at concrete states: in `state_pool` the identifier 7 is live and the
creation stops the engine; the identifier 8 is not live and the creation adds
the pool in front of pool 7. -/
theorem C28_witness :
    FL_mempool_exists state_pool 7 = true
      ∧ FL_create_mempool state_pool 7 16 true = none
      ∧ FL_mempool_exists state_pool 8 = false
      ∧ FL_create_mempool state_pool 8 16 true
          = some { state_pool with
                   mempool_list :=
                     { pool := 8, rzB := 16, is_zeroed := true, chunks := [] }
                       :: state_pool.mempool_list } :=
  ⟨rfl, (C28_create_mempool_duplicate_panics state_pool 7 16 true).1 rfl, rfl,
   (C28_create_mempool_duplicate_panics state_pool 8 16 true).2 rfl⟩

/-- C29. Failed pool operations are atomic.  Each of `FL_(destroy_mempool)`,
`FL_(mempool_alloc)`, `FL_(mempool_free)`, `FL_(mempool_trim)`,
`FL_(move_mempool)` and `FL_(mempool_change)`, called with an identifier that
names no live pool, returns, appends exactly one illegal-mempool error to the
log and changes nothing else; `FL_(mempool_free)` and `FL_(mempool_change)`,
called on a live pool with an address that is not the base of a chunk of the
pool, return, append exactly one free-of-unallocated error and change nothing
else: the pools, every chunk table, the registry, the quarantine and the
shadow store are those of before the call. -/
theorem C29_failed_pool_operations (cfg : Clo) (s : FL_State) (tid : ThreadId)
    (pool poolB addr addrB : Int) (szB : Nat) :
    (HT_lookup_pool s.mempool_list pool = none →
      FL_destroy_mempool s tid pool
          = { s with errors := s.errors ++ [FL_Error.illegal_mempool_error tid pool] }
        ∧ FL_mempool_alloc s tid pool addr szB
          = some { s with errors := s.errors ++ [FL_Error.illegal_mempool_error tid pool] }
        ∧ FL_mempool_free cfg s tid pool addr
          = some { s with errors := s.errors ++ [FL_Error.illegal_mempool_error tid pool] }
        ∧ FL_mempool_trim cfg s tid pool addr szB
          = some { s with errors := s.errors ++ [FL_Error.illegal_mempool_error tid pool] }
        ∧ FL_move_mempool s tid pool poolB
          = { s with errors := s.errors ++ [FL_Error.illegal_mempool_error tid pool] }
        ∧ FL_mempool_change s tid pool addr addrB szB
          = { s with errors := s.errors ++ [FL_Error.illegal_mempool_error tid pool] })
      ∧ ∀ mp, HT_lookup_pool s.mempool_list pool = some mp →
          (∀ c ∈ mp.chunks, c.data ≠ addr) →
          FL_mempool_free cfg s tid pool addr
              = some { s with errors := s.errors ++ [FL_Error.free_error tid addr] }
            ∧ FL_mempool_change s tid pool addr addrB szB
              = { s with errors := s.errors ++ [FL_Error.free_error tid addr] } := by
  constructor
  · intro h
    have hr := HT_remove_pool_none h
    simp only [FL_destroy_mempool, FL_mempool_alloc, FL_mempool_free, FL_mempool_trim,
      FL_move_mempool, FL_mempool_change, h, hr, record_illegal_mempool_error, and_self]
  · intro mp h habsent
    have hr := HT_remove_none habsent
    simp only [FL_mempool_free, FL_mempool_change, h, hr, record_free_error, and_self]

/-- C29 at a concrete state: in `state_pool` no pool has the identifier 9,
and pool 7 has no chunk at 4096 (its chunk is at 20480). -/
theorem C29_witness :
    HT_lookup_pool state_pool.mempool_list 9 = none
      ∧ FL_mempool_trim (clo32 100) state_pool 1 9 4096 64
          = some { state_pool with errors := [FL_Error.illegal_mempool_error 1 9] }
      ∧ FL_move_mempool state_pool 1 9 7
          = { state_pool with errors := [FL_Error.illegal_mempool_error 1 9] }
      ∧ HT_lookup_pool state_pool.mempool_list 7
          = some { pool := 7, rzB := 8, is_zeroed := false, chunks := [chunk_p] }
      ∧ FL_mempool_free (clo32 100) state_pool 1 7 4096
          = some { state_pool with errors := [FL_Error.free_error 1 4096] }
      ∧ FL_mempool_change state_pool 1 7 4096 8192 64
          = { state_pool with errors := [FL_Error.free_error 1 4096] } :=
  ⟨rfl,
   ((C29_failed_pool_operations (clo32 100) state_pool 1 9 7 4096 8192 64).1 rfl).2.2.2.1,
   ((C29_failed_pool_operations (clo32 100) state_pool 1 9 7 4096 8192 64).1 rfl).2.2.2.2.1,
   rfl,
   ((C29_failed_pool_operations (clo32 100) state_pool 1 7 7 4096 8192 64).2 _ rfl
      (by decide)).1,
   ((C29_failed_pool_operations (clo32 100) state_pool 1 7 7 4096 8192 64).2 _ rfl
      (by decide)).2⟩

/-- C30 fails on the code: `FL_(move_mempool)(poolA, poolB)` renames the pool
without looking `poolB` up.  From the empty pool set, `create_mempool(1)`,
`create_mempool(2)` and `move_mempool(1, 2)` all return, and afterwards two
live pools have the identifier 2. -/
theorem C30_move_mempool_duplicates_id :
    (init_state sh_untainted).mempool_list = []
      ∧ ∃ s1, run_pool_hooks (clo32 100) 1 (init_state sh_untainted)
            [PoolHook.create_mempool 1 0 false, PoolHook.create_mempool 2 0 false,
             PoolHook.move_mempool 1 2] = some s1
          ∧ s1.mempool_list.map FL_Mempool.pool = [2, 2]
          ∧ ¬ (s1.mempool_list.map FL_Mempool.pool).Nodup :=
  ⟨rfl, _, rfl, rfl, by decide⟩

/-- C31: in every state that a sequence of calls of the malloc family, the
free family, `FL_(realloc)` and the pool hooks reaches from the state at
start-up, every chunk in the table of a pool has the kind `FL_AllocCustom`
and no chunk of the registry or of the quarantine has it.  In such a state
`FL_(mempool_free)` returns and leaves the quarantine, its counter and the
list of blocks handed back to the client heap as they were, and so does a
`FL_(mempool_trim)` that returns; a release of a live chunk of the registry
that returns has put the chunk at the end of the quarantine, in front of
which the eviction loop then took chunks away, and with a budget that is not
negative the release returns. -/
theorem C31_pool_chunks_bypass_quarantine (cfg : Clo) (sh : Shadow)
    (ops : List (ThreadId × HeapOp)) (s : FL_State)
    (hreach : run_heap_ops cfg (init_state sh) ops = some s) :
    kinds_separated s
      ∧ (∀ tid pool addr, ∃ s1, FL_mempool_free cfg s tid pool addr = some s1
          ∧ s1.freed_list = s.freed_list ∧ s1.freed_list_volume = s.freed_list_volume
          ∧ s1.cli_freed = s.cli_freed)
      ∧ (∀ tid pool addr szB s1, FL_mempool_trim cfg s tid pool addr szB = some s1 →
          s1.freed_list = s.freed_list ∧ s1.freed_list_volume = s.freed_list_volume
          ∧ s1.cli_freed = s.cli_freed)
      ∧ (∀ tid p rzB kind mc rest, HT_remove s.malloc_list p = some (mc, rest) →
          (∀ s1, FL_handle_free cfg s tid p rzB kind = some s1 →
            ∃ evicted, evicted ++ s1.freed_list = s.freed_list ++ [mc])
          ∧ (0 ≤ cfg.clo_freelist_vol →
              ∃ s1, FL_handle_free cfg s tid p rzB kind = some s1)) := by
  obtain ⟨hk, hv⟩ := heap_ops_reach cfg ops (init_state sh) s (init_state_kinds sh) hreach
  refine ⟨hk, ?_, ?_, ?_⟩
  · intro tid pool addr
    obtain ⟨s1, h1⟩ := mempool_free_returns cfg s tid pool addr hk
    have hrun : run_pool_hook cfg tid s (PoolHook.mempool_free pool addr) = some s1 := h1
    obtain ⟨_, q, v, c, _⟩ := pool_hook_step hk hrun
    exact ⟨s1, h1, q, v, c⟩
  · intro tid pool addr szB s1 h1
    have hrun : run_pool_hook cfg tid s (PoolHook.mempool_trim pool addr szB) = some s1 := h1
    obtain ⟨_, q, v, c, _⟩ := pool_hook_step hk hrun
    exact ⟨q, v, c⟩
  · intro tid p rzB kind mc rest hlive
    refine ⟨fun s1 h1 => handle_free_enqueues hlive (hk.2.1 mc (HT_remove_mem hlive)) h1, ?_⟩
    intro hb
    obtain ⟨s1, h1, _⟩ := handle_free_live cfg s tid p rzB kind mc rest hlive hb (hv hb rfl)
    exact ⟨s1, h1⟩

/-- C31 at a concrete run: a block from `malloc`, a pool with one chunk, a
second block, and the release of the first block, which goes into the
quarantine. -/
theorem C31_witness :
    ∃ s, run_heap_ops (clo32 100) (init_state sh_untainted)
          [(1, HeapOp.malloc 4096 10),
           (1, HeapOp.pool (PoolHook.create_mempool 7 0 false)),
           (1, HeapOp.pool (PoolHook.mempool_alloc 7 8192 16)),
           (2, HeapOp.malloc 4200 20),
           (1, HeapOp.free 4096)] = some s
      ∧ s.malloc_list = [{ data := 4200, szB := 20, allockind := FL_AllocKind.FL_AllocMalloc }]
      ∧ s.freed_list = [{ data := 4096, szB := 10, allockind := FL_AllocKind.FL_AllocMalloc }]
      ∧ s.mempool_list = (state_one_pool 0 sh_untainted [pool_chunk 8192 16]).mempool_list
      ∧ kinds_separated s :=
  ⟨_, rfl, rfl, rfl, rfl,
   (C31_pool_chunks_bypass_quarantine (clo32 100) sh_untainted
      [(1, HeapOp.malloc 4096 10),
       (1, HeapOp.pool (PoolHook.create_mempool 7 0 false)),
       (1, HeapOp.pool (PoolHook.mempool_alloc 7 8192 16)),
       (2, HeapOp.malloc 4200 20),
       (1, HeapOp.free 4096)] _ rfl).1⟩

/-- C32 fails on the code when a second live pool has the same identifier,
which `FL_(move_mempool)` produces (C30).  After `create_mempool(1)`,
`mempool_alloc(1, 4096, 16)`, `create_mempool(2)` and `move_mempool(1, 2)` two
live pools have the identifier 2.  `FL_(destroy_mempool)(2)` takes the first
of them out of the list, marks its chunk `[4096, 4112)` NoAccess and returns
without an error; the other pool stays in the list, and
`FL_(mempool_exists)(2)` still returns True. -/
theorem C32_destroy_leaves_pool_live :
    ∃ s1, run_pool_hooks (clo32 100) 1 (init_state sh_untainted)
          [PoolHook.create_mempool 1 0 false, PoolHook.mempool_alloc 1 4096 16,
           PoolHook.create_mempool 2 0 false, PoolHook.move_mempool 1 2] = some s1
      ∧ s1.mempool_list.map FL_Mempool.pool = [2, 2]
      ∧ FL_mempool_exists s1 2 = true
      ∧ (FL_destroy_mempool s1 1 2).errors = []
      ∧ (FL_destroy_mempool s1 1 2).shadow 4096 = ShadowByte.NoAccess
      ∧ (FL_destroy_mempool s1 1 2).shadow 4111 = ShadowByte.NoAccess
      ∧ (FL_destroy_mempool s1 1 2).mempool_list.map FL_Mempool.pool = [2]
      ∧ FL_mempool_exists (FL_destroy_mempool s1 1 2) 2 = true :=
  ⟨_, rfl, rfl, rfl, rfl, by decide, by decide, rfl, rfl⟩

/-- C33 as stated fails for two chunks with the same base when the first of
them in the sorted array has size 0: after the sort the test
`chunks[i]->data > chunks[i+1]->data` of the first loop is never true, and the
test `chunks[i]->data + chunks[i]->szB > chunks[i+1]->data` of the second loop
is false for them.  A pool that holds two chunks of size 0 at 100 is not
strictly increasing in base and is not reported as bad. -/
theorem C33_counterexample :
    insertion_ssort [pool_chunk 100 0, pool_chunk 100 0] = [pool_chunk 100 0, pool_chunk 100 0]
      ∧ ¬ List.Chain' (fun a b : FL_Chunk => a.data < b.data)
          (insertion_ssort [pool_chunk 100 0, pool_chunk 100 0])
      ∧ check_mempool_sane insertion_ssort
          { pool := 7, rzB := 0, is_zeroed := false,
            chunks := [pool_chunk 100 0, pool_chunk 100 0] } = false := by
  have hsort : insertion_ssort [pool_chunk 100 0, pool_chunk 100 0]
      = [pool_chunk 100 0, pool_chunk 100 0] := by decide
  refine ⟨hsort, ?_, by decide⟩
  rw [hsort, List.chain'_pair]
  decide

/-- C33, amended.  For every sorting routine that returns a sorted
permutation of its input: `check_mempool_sane` reports the pool as bad if and
only if, in the array sorted by base address, some chunk ends behind the base
of its successor; when all chunks of the pool have positive size, that is if
and only if the sorted bases are not strictly increasing or some chunk
overlaps its successor.  The function computes a flag from the pool and
changes nothing. -/
theorem C33_check_mempool_sane (ssort : List FL_Chunk → List FL_Chunk) (mp : FL_Mempool)
    (hperm : ∀ l, List.Perm (ssort l) l)
    (hsorted : ∀ l, List.Sorted (fun a b : FL_Chunk => a.data ≤ b.data) (ssort l)) :
    (check_mempool_sane ssort mp = true
        ↔ ¬ List.Chain' (fun a b : FL_Chunk => a.data + (a.szB : Int) ≤ b.data)
            (ssort mp.chunks))
      ∧ ((∀ c ∈ mp.chunks, 0 < c.szB) →
          (check_mempool_sane ssort mp = true
            ↔ ¬ List.Chain'
                (fun a b : FL_Chunk => a.data < b.data ∧ a.data + (a.szB : Int) ≤ b.data)
                (ssort mp.chunks))) := by
  have hnil : ssort [] = [] := List.Perm.eq_nil (hperm [])
  have hspec := check_mempool_sane_spec ssort mp hsorted hnil
  have h1 : check_mempool_sane ssort mp = true
      ↔ ¬ List.Chain' (fun a b : FL_Chunk => a.data + (a.szB : Int) ≤ b.data)
          (ssort mp.chunks) := by
    rw [← hspec]; simp
  refine ⟨h1, fun hpos => ?_⟩
  rw [h1, not_iff_not]
  have hpos1 : ∀ c ∈ ssort mp.chunks, 0 < c.szB :=
    fun c hc => hpos c ((hperm mp.chunks).mem_iff.mp hc)
  generalize ssort mp.chunks = l at hpos1
  induction l with
  | nil => simp
  | cons a l ih =>
    cases l with
    | nil => simp
    | cons b rest =>
      have ha : 0 < a.szB := hpos1 a (List.mem_cons_self _ _)
      have ih1 := ih (fun c hc => hpos1 c (List.mem_cons_of_mem a hc))
      simp only [List.chain'_cons, ih1]
      constructor
      · rintro ⟨h2, h3⟩; exact ⟨⟨by omega, h2⟩, h3⟩
      · rintro ⟨⟨_, h2⟩, h3⟩; exact ⟨h2, h3⟩

/-- C33 at concrete pools, with insertion sort for `VG_(ssort)`: the pool
with the chunks `[4196, 4206)` and `[4096, 4196)` is not reported; the pool
with the chunks `[4096, 4196)` and `[4146, 4156)` is reported as bad. -/
theorem C33_witness :
    check_mempool_sane insertion_ssort
        { pool := 7, rzB := 0, is_zeroed := false,
          chunks := [pool_chunk 4196 10, pool_chunk 4096 100] } = false
      ∧ check_mempool_sane insertion_ssort
          { pool := 7, rzB := 0, is_zeroed := false,
            chunks := [pool_chunk 4096 100, pool_chunk 4146 10] } = true
      ∧ ¬ List.Chain'
          (fun a b : FL_Chunk => a.data < b.data ∧ a.data + (a.szB : Int) ≤ b.data)
          (insertion_ssort [pool_chunk 4096 100, pool_chunk 4146 10]) :=
  ⟨by decide, by decide,
   ((C33_check_mempool_sane insertion_ssort
      { pool := 7, rzB := 0, is_zeroed := false,
        chunks := [pool_chunk 4096 100, pool_chunk 4146 10] }
      insertion_ssort_perm insertion_ssort_sorted).2 (by decide)).mp (by decide)⟩

/-- C34 fails on the code: `FL_(mempool_alloc)` hands the address given by
the client to `FL_(new_block)` with the kind `FL_AllocCustom`, and for the
address 0 `FL_(new_block)` takes the branch of `VG_(cli_malloc)`, whose
`tl_assert(FL_AllocCustom != kind)` fails.  After `create_mempool(7)` the
pool 7 is live and `mempool_alloc(7, 0, 10)` stops the engine; with the
address 4096 the call returns. -/
theorem C34_mempool_alloc_null_asserts :
    (∃ s1, FL_create_mempool (init_state sh_untainted) 7 0 false = some s1
        ∧ FL_mempool_exists s1 7 = true
        ∧ FL_mempool_alloc s1 1 7 0 10 = none
        ∧ ∃ s2, FL_mempool_alloc s1 1 7 4096 10 = some s2)
      ∧ run_pool_hooks (clo32 100) 1 (init_state sh_untainted)
          [PoolHook.create_mempool 7 0 false, PoolHook.mempool_alloc 7 0 10] = none :=
  ⟨⟨_, rfl, rfl, rfl, _, rfl⟩, rfl⟩

/-- C35 fails on the code for the empty marker: `memmem` finds the empty
string at `data` itself, `data += taint_len` adds 0 and `remaining` is set to
`res.res - (data - base)`, its old value, so the loop condition
`data != NULL && remaining > taint_len` holds for ever.  A read of 1 byte at
4096 on the Untainted descriptor 3 with the marker `""`: for every number of
turns allowed, the loop has not ended. -/
theorem C35_empty_marker_loops_for_ever :
    ∀ fuel : Nat,
      FL_syscall_read (clo_marker []) (mem_bytes 4096 [65]) (fun _ _ => true) fuel
        (init_state sh_untainted) 1 (regs 3 4096) 1 = none := by
  intro fuel
  have hloop := read_loop_empty_marker (mem_bytes 4096 [65]) (fun _ _ => true) 4096 1
    (fun _ _ => rfl) (by decide) (by decide) fuel sh_untainted
  have hfd : ¬ (to_Int (populate_guest_args (regs 3 4096) 3) < 0 ∨ (1 : Int) ≤ 0) := by
    decide
  have htaint : ¬ (to_Int (populate_guest_args (regs 3 4096) 3) < MAXIMUM_FDS
      ∧ (init_state sh_untainted).tainted_fds 1
          (to_Int (populate_guest_args (regs 3 4096) 3)).toNat = true) := by
    decide
  have hdata : ((populate_guest_args (regs 3 4096) 1 : Nat) : Int) = 4096 := by decide
  have hmarker : (clo_marker []).clo_taint_string = some [] := rfl
  have hsh : (init_state sh_untainted).shadow = sh_untainted := rfl
  have hres : (1 : Int).toNat = 1 := rfl
  unfold FL_syscall_read
  simp only [if_neg hfd, if_neg htaint, hmarker, hdata, hsh]
  rw [hres] at hloop ⊢
  rw [hloop]

/-- C36 fails on the code.  `FL_(syscall_recvmsg)` marks `res.res` bytes at
`msg->msg_control`, the buffer for ancillary data, not the data buffer of the
message: with descriptor 5 Tainted, the header at 8192, the data buffer
`msg_iov[0].iov_base = 12288` and `msg_control = 16384`, a `recvmsg` that
returns 10 leaves `[12288, 12298)` Untainted and marks `[16384, 16394)`.
Neither handler looks at the marker string: with the marker `"marker"` and
descriptor 5 Untainted, a `recvfrom` of the 12 bytes `"AAAmarkerBBB"` into
the buffer 8192 changes no byte, where `FL_(syscall_read)` on the same buffer
marks the occurrence. -/
theorem C36_recvmsg_marks_control_buffer :
    to_Int (SC_ARG recvmsg_memory (regs 0 4096) 0) = 5
      ∧ msg_iov_base recvmsg_memory (SC_ARG recvmsg_memory (regs 0 4096) 1 : Int) = 12288
      ∧ msg_control recvmsg_memory (SC_ARG recvmsg_memory (regs 0 4096) 1 : Int) = 16384
      ∧ (FL_syscall_recvmsg recvmsg_memory
          { init_state sh_untainted with tainted_fds := fun _ fd => decide (fd = 5) } 1
          (regs 0 4096) 10).shadow 12288 = ShadowByte.Untainted
      ∧ (FL_syscall_recvmsg recvmsg_memory
          { init_state sh_untainted with tainted_fds := fun _ fd => decide (fd = 5) } 1
          (regs 0 4096) 10).shadow 12297 = ShadowByte.Untainted
      ∧ (FL_syscall_recvmsg recvmsg_memory
          { init_state sh_untainted with tainted_fds := fun _ fd => decide (fd = 5) } 1
          (regs 0 4096) 10).shadow 16384 = ShadowByte.Tainted
      ∧ (FL_syscall_recvmsg recvmsg_memory
          { init_state sh_untainted with tainted_fds := fun _ fd => decide (fd = 5) } 1
          (regs 0 4096) 10).shadow 16393 = ShadowByte.Tainted
      ∧ (FL_syscall_recvfrom recvmsg_memory (init_state sh_untainted) 1 (regs 0 4096) 12).shadow
          8195 = ShadowByte.Untainted
      ∧ ∃ s1, FL_syscall_read (clo_marker marker_bytes) (mem_bytes 8192 buffer_bytes)
            (fun _ _ => true) 8 (init_state sh_untainted) 1 (regs 5 8192) 12 = some s1
          ∧ s1.shadow 8195 = ShadowByte.Tainted :=
  ⟨by decide, by decide, by decide, by decide, by decide, by decide, by decide, by decide,
   _, rfl, by decide⟩

/-- C37: with a budget that is not negative (integers unbounded), the freed
queue keeps its structure.  On the list of chunks: in every state that a
sequence of calls of the malloc family, the free family, `FL_(realloc)` and
the pool hooks reaches from the state at start-up, `freed_list_volume` is the
sum of the sizes of the chunks on the queue, and `add_to_freed_queue`
returns for every chunk.  On the records and their links: the queue at
start-up is well formed; a well-formed queue has `freed_list_start` `NULL`
exactly when it is empty, `freed_list_end` `NULL` exactly when it is empty,
the field `next` of the record at `freed_list_end` `NULL`, and the counter
equal to the sum of the sizes; `add_to_freed_queue` for a record that is not
on the queue fails no assertion, ends its loop, leaves a well-formed queue
within the budget and does to the chunks what it does on the list; writes to
records that are not on the queue keep the queue well formed; and so a
sequence of calls for records different from each other fails no assertion
and ends with a well-formed queue. -/
theorem C37_quarantine_structure (cfg : Clo) (hb : 0 ≤ cfg.clo_freelist_vol) :
    (∀ (sh : Shadow) (ops : List (ThreadId × HeapOp)) (s : FL_State),
        run_heap_ops cfg (init_state sh) ops = some s →
        s.freed_list_volume = queue_volume s.freed_list
          ∧ ∀ c, ∃ s1, add_to_freed_queue cfg s c = some s1)
      ∧ (∀ q : FreedQueue, q.freed_list_start = none → q.freed_list_end = none →
          q.freed_list_volume = 0 → queue_records q [])
      ∧ (∀ (q : FreedQueue) (l : List Nat), queue_records q l →
          (q.freed_list_start = none ↔ l = []) ∧ (q.freed_list_end = none ↔ l = [])
            ∧ (∀ last, q.freed_list_end = some last → q.next last = none)
            ∧ q.freed_list_volume = queue_volume (l.map q.chunk))
      ∧ (∀ (q : FreedQueue) (l : List Nat) (mc fuel : Nat), queue_records q l → mc ∉ l →
          l.length + 1 ≤ fuel →
          ∃ evicted kept q1,
            add_to_freed_queue_records cfg.clo_freelist_vol fuel q mc
                = Run.done (q1, evicted.map (fun a => (q.chunk a).data))
              ∧ evicted ++ kept = l ++ [mc] ∧ queue_records q1 kept ∧ q1.chunk = q.chunk
              ∧ q1.freed_list_volume ≤ cfg.clo_freelist_vol
              ∧ ∀ s : FL_State, s.freed_list = l.map q.chunk →
                  s.freed_list_volume = q.freed_list_volume →
                  ∃ s1, add_to_freed_queue cfg s (q.chunk mc) = some s1
                    ∧ s1.freed_list = kept.map q.chunk
                    ∧ s1.freed_list_volume = q1.freed_list_volume
                    ∧ s1.cli_freed = s.cli_freed ++ evicted.map (fun a => (q.chunk a).data))
      ∧ (∀ (q q2 : FreedQueue) (l : List Nat), queue_records q l →
          q2.freed_list_start = q.freed_list_start → q2.freed_list_end = q.freed_list_end →
          q2.freed_list_volume = q.freed_list_volume →
          (∀ p ∈ l, q2.next p = q.next p ∧ q2.chunk p = q.chunk p) → queue_records q2 l)
      ∧ (∀ (q : FreedQueue) (mcs : List Nat) (fuel : Nat), q.freed_list_start = none →
          q.freed_list_end = none → q.freed_list_volume = 0 → mcs.Nodup →
          mcs.length ≤ fuel →
          ∃ evicted kept q1,
            add_records cfg.clo_freelist_vol fuel q mcs
                = Run.done (q1, evicted.map (fun a => (q.chunk a).data))
              ∧ evicted ++ kept = mcs ∧ queue_records q1 kept) := by
  have hempty : ∀ q : FreedQueue, q.freed_list_start = none → q.freed_list_end = none →
      q.freed_list_volume = 0 → queue_records q [] := by
    intro q h1 h2 h3
    exact ⟨List.nodup_nil, h1, h2, List.chain'_nil, fun _ h => (by cases h), h3⟩
  refine ⟨?_, hempty, fun q l hq => queue_records_pointers hq, ?_, ?_, ?_⟩
  · intro sh ops s hreach
    have hv := (heap_ops_reach cfg ops (init_state sh) s (init_state_kinds sh) hreach).2 hb rfl
    refine ⟨hv, fun c => ?_⟩
    obtain ⟨_, s1, h1, _⟩ := add_to_freed_queue_spec cfg s c hb hv
    exact ⟨s1, h1⟩
  · intro q l mc fuel hq hmc hfuel
    obtain ⟨ev, kept, q1, h1, h2, h3, h4, h5, h6⟩ :=
      add_to_freed_queue_records_spec cfg.clo_freelist_vol hb fuel q l mc hq hmc hfuel
    refine ⟨ev, kept, q1, h1, h2, h3, h4, h5, ?_⟩
    intro s hs hv
    exact ⟨_, h6 cfg s rfl hs hv, rfl, rfl, rfl⟩
  · intro q q2 l hq hs he hv hrec
    exact queue_records_frame hq hs he hv hrec
  · intro q mcs fuel h1 h2 h3 hnd hfuel
    obtain ⟨ev, kept, q1, g1, g2, g3, _⟩ :=
      add_records_spec cfg.clo_freelist_vol hb fuel mcs q [] (hempty q h1 h2 h3)
        (by rw [List.nil_append]; exact hnd)
        (by rw [List.length_nil, Nat.zero_add]; exact hfuel)
    exact ⟨ev, kept, q1, g1, by rw [g2, List.nil_append], g3⟩

/-- C37 at a concrete run with the budget 100: three records of 60 bytes are
put on the queue at start-up one after the other; the first two are
released, the third is both the oldest and the newest record, its field
`next` is `NULL` and the counter is 60. -/
theorem C37_witness :
    (0 : Int) ≤ (clo32 100).clo_freelist_vol
      ∧ queue_records queue_at_startup []
      ∧ queue_summary (add_records (clo32 100).clo_freelist_vol 3 queue_at_startup [1, 2, 3])
          = some (some 3, some 3, 60, none, [4160, 4224])
      ∧ ∃ evicted kept q1,
          add_records (clo32 100).clo_freelist_vol 3 queue_at_startup [1, 2, 3]
              = Run.done (q1, evicted.map (fun a => (queue_at_startup.chunk a).data))
            ∧ evicted ++ kept = [1, 2, 3] ∧ queue_records q1 kept :=
  ⟨by decide,
   (C37_quarantine_structure (clo32 100) (by decide)).2.1 queue_at_startup rfl rfl rfl,
   rfl,
   (C37_quarantine_structure (clo32 100) (by decide)).2.2.2.2.2 queue_at_startup [1, 2, 3] 3
     rfl rfl rfl (by decide) (by decide)⟩

/-- C38. Whenever `FL_(mempool_trim)` on the extent `[addr, addr+size)` of a
live pool returns (no assertion fails) without having recorded an error,
every chunk `(b, s)` in the chunk table of the pool lies within the extent:
`addr <= b` and `b + s <= addr + size`.  The pool may hold chunks with equal
bases and chunks that overlap: the function is taken on the records of the
table, where `VG_(HT_remove)` by key can unlink another record than the one
the loop is at, and the statement holds for every order in which
`VG_(HT_to_array)` lists the records. -/
theorem C38_trim_remaining_within_extent (order : List Nat → List Nat) (cfg : Clo)
    (s s1 : FL_State) (tid : ThreadId) (pool addr : Int) (size : Nat) (mp : FL_Mempool)
    (horder : ∀ l, List.Perm (order l) l)
    (hpool : HT_lookup_pool s.mempool_list pool = some mp)
    (hrun : FL_mempool_trim_nodes order cfg s tid pool addr size = some s1)
    (herr : s1.errors = s.errors) :
    ∃ mp1, HT_lookup_pool s1.mempool_list pool = some mp1
      ∧ mp1.pool = mp.pool ∧ mp1.rzB = mp.rzB
      ∧ ∀ d ∈ mp1.chunks, addr ≤ d.data ∧ d.data + (d.szB : Int) ≤ addr + (size : Int) := by
  by_cases hlen : mp.chunks.length = 0
  · have hnil : mp.chunks = [] := List.length_eq_zero.mp hlen
    simp only [FL_mempool_trim_nodes, hpool, hlen, if_true, Option.some.injEq] at hrun
    subst hrun
    refine ⟨mp, hpool, rfl, rfl, ?_⟩
    rw [hnil]
    intro d hd
    cases hd
  · simp only [FL_mempool_trim_nodes, hpool, hlen, if_false] at hrun
    split at hrun
    · cases hrun
    · next s2 heap1 table1 hloop =>
      simp only [Option.some.injEq] at hrun
      subst hrun
      have hf := trim_nodes_loop_frame cfg tid mp.rzB addr size _ s _ _ s2 heap1 table1 hloop
      have hp := horder (List.range mp.chunks.length)
      have hw := trim_nodes_within cfg tid mp.rzB addr size _ s _ _ s2 heap1 table1
        (hp.nodup_iff.mpr (List.nodup_range _))
        (fun K _ => le_of_eq (List.Perm.countP_eq _ hp).symm)
        (fun p hpm => Or.inl (hp.mem_iff.mpr hpm)) hloop herr
      refine ⟨{ mp with chunks := table1.map heap1 }, ?_, rfl, rfl, ?_⟩
      · simp only [hf.1]
        exact lookup_set_pool_chunks hpool _
      · intro d hd
        obtain ⟨p, hpm, hpd⟩ := List.mem_map.mp hd
        rw [← hpd]
        exact hw p hpm

/-- C38 at concrete pools, the array in the order of the table.  Pool 7
holds the chunks `[4196, 4206)` and `[4096, 4196)`: the trim to
`[4146, 4206)` returns and leaves the chunks `[4146, 4156)` and
`[4196, 4206)`.  Pool 7 holds two chunks at the base 4146, of 10 and of 100
bytes: the loop keeps the first, `VG_(HT_remove)` for the second unlinks the
first, and the second, trimmed to `[4146, 4206)`, is linked while it is still
linked; the table holds that record only.  In both runs every chunk left lies
within the extent. -/
theorem C38_witness :
    (∃ s1, FL_mempool_trim_nodes (fun l => l) (clo32 100)
        (state_one_pool 0 sh_tainted [pool_chunk 4196 10, pool_chunk 4096 100]) 1 7 4146 60
        = some s1
      ∧ HT_lookup_pool s1.mempool_list 7
        = some { pool := 7, rzB := 0, is_zeroed := false,
                 chunks := [pool_chunk 4146 10, pool_chunk 4196 10] }
      ∧ s1.errors = []
      ∧ ∃ mp1, HT_lookup_pool s1.mempool_list 7 = some mp1
          ∧ mp1.pool = 7 ∧ mp1.rzB = 0
          ∧ ∀ d ∈ mp1.chunks, (4146 : Int) ≤ d.data ∧ d.data + (d.szB : Int) ≤ 4146 + (60 : Nat))
    ∧ (∃ s1, FL_mempool_trim_nodes (fun l => l) (clo32 100)
        (state_one_pool 0 sh_tainted [pool_chunk 4146 10, pool_chunk 4146 100]) 1 7 4146 60
        = some s1
      ∧ HT_lookup_pool s1.mempool_list 7
        = some { pool := 7, rzB := 0, is_zeroed := false,
                 chunks := [pool_chunk 4146 60, pool_chunk 4146 60] }
      ∧ s1.errors = []
      ∧ ∃ mp1, HT_lookup_pool s1.mempool_list 7 = some mp1
          ∧ mp1.pool = 7 ∧ mp1.rzB = 0
          ∧ ∀ d ∈ mp1.chunks, (4146 : Int) ≤ d.data ∧ d.data + (d.szB : Int) ≤ 4146 + (60 : Nat))
      :=
  ⟨⟨_, rfl, rfl, rfl,
    C38_trim_remaining_within_extent (fun l => l) (clo32 100)
      (state_one_pool 0 sh_tainted [pool_chunk 4196 10, pool_chunk 4096 100]) _ 1 7 4146 60
      { pool := 7, rzB := 0, is_zeroed := false,
        chunks := [pool_chunk 4196 10, pool_chunk 4096 100] }
      (fun l => List.Perm.refl l) rfl rfl rfl⟩,
   ⟨_, rfl, rfl, rfl,
    C38_trim_remaining_within_extent (fun l => l) (clo32 100)
      (state_one_pool 0 sh_tainted [pool_chunk 4146 10, pool_chunk 4146 100]) _ 1 7 4146 60
      { pool := 7, rzB := 0, is_zeroed := false,
        chunks := [pool_chunk 4146 10, pool_chunk 4146 100] }
      (fun l => List.Perm.refl l) rfl rfl rfl⟩⟩

/-- C39. Every syscall handler touches `tainted_fds[tid][fd]` only for
`0 <= fd < MAXIMUM_FDS`.  The handlers that write the table (open, close,
socket, connect, accept, socketpair) change at most one entry, in the row of
the calling thread and with a descriptor below `MAXIMUM_FDS`; the handlers
that read it (read, recvfrom, recvmsg) do not write it, and their effect is
the same for every table that agrees with the current one on the entries of
the calling thread below `MAXIMUM_FDS`.  For a descriptor that is negative or
at least `MAXIMUM_FDS` the table is not consulted: the shadow store after a
read is the same whatever the table holds, and recvfrom and recvmsg change
nothing. -/
theorem C39_descriptor_range (cfg : Clo) (readlink : Int → Option (List Nat))
    (mem memw : Int → Nat) (valid : Int → Nat → Bool) (fuel : Nat) (s : FL_State)
    (tid : ThreadId) (ts : GuestRegs) (res : Int) :
    (∀ s1 ∈ [FL_syscall_open cfg readlink s tid res, FL_syscall_close s tid ts,
        FL_syscall_socket cfg s tid res, FL_syscall_connect cfg memw s tid ts res,
        FL_syscall_accept cfg s tid res, FL_syscall_socketpair cfg memw s tid ts res],
      ∃ n : Nat, (n : Int) < MAXIMUM_FDS
        ∧ ∀ t f, (t ≠ tid ∨ f ≠ n) → s1.tainted_fds t f = s.tainted_fds t f)
      ∧ (∀ s1, FL_syscall_read cfg mem valid fuel s tid ts res = some s1 →
          s1.tainted_fds = s.tainted_fds)
      ∧ (FL_syscall_recvfrom memw s tid ts res).tainted_fds = s.tainted_fds
      ∧ (FL_syscall_recvmsg memw s tid ts res).tainted_fds = s.tainted_fds
      ∧ (∀ g : ThreadId → Nat → Bool,
          (∀ f : Nat, (f : Int) < MAXIMUM_FDS → g tid f = s.tainted_fds tid f) →
          (FL_syscall_read cfg mem valid fuel { s with tainted_fds := g } tid ts res).map
                FL_State.shadow
              = (FL_syscall_read cfg mem valid fuel s tid ts res).map FL_State.shadow
            ∧ (FL_syscall_recvfrom memw { s with tainted_fds := g } tid ts res).shadow
              = (FL_syscall_recvfrom memw s tid ts res).shadow
            ∧ (FL_syscall_recvmsg memw { s with tainted_fds := g } tid ts res).shadow
              = (FL_syscall_recvmsg memw s tid ts res).shadow)
      ∧ ((to_Int (populate_guest_args ts 3) < 0
            ∨ MAXIMUM_FDS ≤ to_Int (populate_guest_args ts 3)) →
          ∀ g : ThreadId → Nat → Bool,
            (FL_syscall_read cfg mem valid fuel { s with tainted_fds := g } tid ts res).map
                FL_State.shadow
              = (FL_syscall_read cfg mem valid fuel s tid ts res).map FL_State.shadow)
      ∧ ((to_Int (SC_ARG memw ts 0) < 0 ∨ MAXIMUM_FDS ≤ to_Int (SC_ARG memw ts 0)) →
          FL_syscall_recvfrom memw s tid ts res = s
            ∧ FL_syscall_recvmsg memw s tid ts res = s) := by
  have hkeep := read_handlers_keep_table cfg mem memw valid fuel s tid ts res
  have hout := read_handlers_out_of_range cfg mem memw valid fuel s tid ts res
  refine ⟨?_, hkeep.1, hkeep.2.1, hkeep.2.2,
    fun g hg => read_handlers_read_in_range cfg mem memw valid fuel s tid ts res g hg,
    hout.1, hout.2⟩
  intro s1 hs1
  simp only [List.mem_cons, List.mem_singleton, List.not_mem_nil, or_false] at hs1
  rcases hs1 with h | h | h | h | h | h <;> subst h
  · exact syscall_open_writes cfg readlink s tid res
  · exact syscall_close_writes s tid ts
  · exact (syscall_socket_writes cfg s tid res).1
  · exact (syscall_connect_writes cfg memw s tid ts res).1
  · exact (syscall_socket_writes cfg s tid res).2
  · exact (syscall_connect_writes cfg memw s tid ts res).2

/-- C39 at concrete calls: a read of 4 bytes at 4096 on the descriptor 300,
and one on the descriptor -1 (the word `2^32 - 1`), with no marker
configured, change no byte even when every entry of the table is set; a
`recvfrom` whose descriptor argument is 300 changes nothing; a read on the
descriptor 3 is not affected by the entries from 256 on. -/
theorem C39_witness :
    to_Int (populate_guest_args (regs 300 4096) 3) = 300
      ∧ to_Int (populate_guest_args (regs 4294967295 4096) 3) = -1
      ∧ (FL_syscall_read (clo32 100) (fun _ => 0) (fun _ _ => true) 8
            { init_state sh_untainted with tainted_fds := fun _ _ => true } 1
            (regs 300 4096) 4).map FL_State.shadow
          = (FL_syscall_read (clo32 100) (fun _ => 0) (fun _ _ => true) 8
              (init_state sh_untainted) 1 (regs 300 4096) 4).map FL_State.shadow
      ∧ (FL_syscall_read (clo32 100) (fun _ => 0) (fun _ _ => true) 8
            { init_state sh_untainted with tainted_fds := fun _ _ => true } 1
            (regs 4294967295 4096) 4).map FL_State.shadow
          = (FL_syscall_read (clo32 100) (fun _ => 0) (fun _ _ => true) 8
              (init_state sh_untainted) 1 (regs 4294967295 4096) 4).map FL_State.shadow
      ∧ FL_syscall_read (clo32 100) (fun _ => 0) (fun _ _ => true) 8
            (init_state sh_untainted) 1 (regs 300 4096) 4 = some (init_state sh_untainted)
      ∧ to_Int (SC_ARG (mem_words 4096 [300, 8192, 64]) (regs 0 4096) 0) = 300
      ∧ FL_syscall_recvfrom (mem_words 4096 [300, 8192, 64])
            { init_state sh_untainted with tainted_fds := fun _ _ => true } 1 (regs 0 4096) 4
          = { init_state sh_untainted with tainted_fds := fun _ _ => true }
      ∧ (FL_syscall_read (clo32 100) (fun _ => 0) (fun _ _ => true) 8
            { init_state sh_untainted with tainted_fds := fun _ f => decide (256 ≤ f) } 1
            (regs 3 4096) 4).map FL_State.shadow
          = (FL_syscall_read (clo32 100) (fun _ => 0) (fun _ _ => true) 8
              (init_state sh_untainted) 1 (regs 3 4096) 4).map FL_State.shadow :=
  ⟨by decide, by decide,
   (C39_descriptor_range (clo32 100) readlink_etc (fun _ => 0) (fun _ => 0) (fun _ _ => true) 8
      (init_state sh_untainted) 1 (regs 300 4096) 4).2.2.2.2.2.1 (Or.inr (by decide))
      (fun _ _ => true),
   (C39_descriptor_range (clo32 100) readlink_etc (fun _ => 0) (fun _ => 0) (fun _ _ => true) 8
      (init_state sh_untainted) 1 (regs 4294967295 4096) 4).2.2.2.2.2.1 (Or.inl (by decide))
      (fun _ _ => true),
   rfl, by decide,
   ((C39_descriptor_range (clo32 100) readlink_etc (fun _ => 0)
      (mem_words 4096 [300, 8192, 64]) (fun _ _ => true) 8
      { init_state sh_untainted with tainted_fds := fun _ _ => true } 1 (regs 0 4096)
      4).2.2.2.2.2.2 (Or.inr (by decide))).1,
   ((C39_descriptor_range (clo32 100) readlink_etc (fun _ => 0) (fun _ => 0) (fun _ _ => true) 8
      (init_state sh_untainted) 1 (regs 3 4096) 4).2.2.2.2.1 (fun _ f => decide (256 ≤ f))
      (fun f hf => by
        have h1 : (f : Int) < 256 := hf
        have h2 : ¬ 256 ≤ f := by omega
        simp [init_state, h2])).1⟩

/-- C40. `ptrace_inject` overwrites exactly the requested bytes.  For every
target memory, address `addr` and source buffer `src` of length `len` (bytes
below 256; `malloc` succeeding when `len` is not a multiple of the word size;
every poke succeeding): the call returns 0, afterwards the target bytes
`[addr, addr+len)` are those of `src`, and every target byte outside that
range, the trailing bytes of the last partially covered word included, is
unchanged. -/
theorem C40_ptrace_inject (malloc_ok : Bool) (junk : Nat → Nat) (poke_fails : Int → Bool)
    (target : Int → Nat) (addr : Int) (src : Nat → Nat) (len : Nat)
    (hmalloc : malloc_ok = true ∨ len % long_size = 0)
    (hpoke : ∀ a, poke_fails a = false) (hsrc : ∀ j, j < len → src j < 256)
    (htarget : ∀ a, target a < 256) :
    (ptrace_inject malloc_ok junk poke_fails target addr src len).1 = 0
      ∧ (∀ j : Nat, j < len →
          (ptrace_inject malloc_ok junk poke_fails target addr src len).2 (addr + (j : Int))
            = src j)
      ∧ ∀ x : Int, x < addr ∨ addr + (len : Int) ≤ x →
          (ptrace_inject malloc_ok junk poke_fails target addr src len).2 x = target x := by
  have hls : long_size = 4 := rfl
  rw [hls] at hmalloc
  by_cases hrem : len % 4 = 0
  · have hrun : ptrace_inject malloc_ok junk poke_fails target addr src len
        = ptrace_inject_loop poke_fails addr src (len / 4) 0 0 target := by
      simp only [ptrace_inject, hls, hrem, ne_eq, not_true_eq_false, if_false]
    obtain ⟨h1, h2⟩ := ptrace_inject_loop_spec poke_fails addr src hpoke (len / 4) 0 target
      (fun j _ hj => hsrc j (by omega))
    rw [hrun]
    refine ⟨h1, fun j hj => ?_, fun x hx => ?_⟩
    · rw [h2, if_pos]
      · congr 1
        omega
      · push_cast
        omega
    · rw [h2, if_neg]
      push_cast
      omega
  · have hm : malloc_ok = true := by
      rcases hmalloc with h | h
      · exact h
      · exact absurd h hrem
    have hrun : ptrace_inject malloc_ok junk poke_fails target addr src len
        = ptrace_inject_loop poke_fails addr
            (memcpy (memcpy junk (len / 4 * 4)
              (long_byte (PTRACE_PEEKDATA target (addr + ((len / 4 * 4 : Nat) : Int)))) 4)
              0 src len)
            (len / 4 + 1) 0 0 target := by
      simp only [ptrace_inject, hls, hrem, hm, ne_eq, not_false_eq_true, if_true,
        Bool.true_eq_false, if_false]
    have hcode : ∀ j, j < 4 * (len / 4 + 1) →
        memcpy (memcpy junk (len / 4 * 4)
          (long_byte (PTRACE_PEEKDATA target (addr + ((len / 4 * 4 : Nat) : Int)))) 4)
          0 src len j
        = if j < len then src j else target (addr + (j : Int)) := by
      intro j hj
      unfold memcpy
      by_cases hjl : j < len
      · rw [if_pos (by omega), if_pos hjl]
        simp
      · rw [if_neg (by omega), if_neg hjl, if_pos (by omega)]
        rw [peekdata_eq, long_byte_get _ _ _ _ (htarget _) (htarget _) (htarget _) (htarget _)
          _ (by omega)]
        have hk : j - len / 4 * 4 = 0 ∨ j - len / 4 * 4 = 1 ∨ j - len / 4 * 4 = 2
            ∨ j - len / 4 * 4 = 3 := by omega
        rcases hk with h | h | h | h <;> rw [h] <;> simp <;> congr 1 <;> omega
    generalize memcpy (memcpy junk (len / 4 * 4)
      (long_byte (PTRACE_PEEKDATA target (addr + ((len / 4 * 4 : Nat) : Int)))) 4)
      0 src len = code at hrun hcode
    obtain ⟨h1, h2⟩ := ptrace_inject_loop_spec poke_fails addr code hpoke (len / 4 + 1) 0 target
      (fun j _ hj => by
        rw [hcode j (by omega)]
        split
        · next h => exact hsrc j h
        · exact htarget _)
    rw [hrun]
    refine ⟨h1, fun j hj => ?_, fun x hx => ?_⟩
    · rw [h2, if_pos]
      · have : (addr + (j : Int) - addr).toNat = j := by omega
        rw [this, hcode j (by omega), if_pos hj]
      · push_cast
        omega
    · rw [h2]
      by_cases hin : addr + ((0 : Nat) : Int) ≤ x
          ∧ x < addr + ((0 : Nat) : Int) + 4 * ((len / 4 + 1 : Nat) : Int)
      · rw [if_pos hin]
        have hx1 : addr + (len : Int) ≤ x := by
          rcases hx with h | h
          · push_cast at hin; omega
          · exact h
        have hj : (x - addr).toNat < 4 * (len / 4 + 1) := by
          push_cast at hin; omega
        rw [hcode _ hj, if_neg (by omega)]
        congr 1
        omega
      · rw [if_neg hin]

/-- C40 at a concrete call: the target holds the bytes 1 to 8 at 4096 to
4103; injecting the 5 bytes 65 to 69 at 4096 returns 0, the bytes 4096 to
4100 are the source and the bytes 4101 to 4103 of the second word keep the
values 6, 7, 8. -/
theorem C40_witness :
    (ptrace_inject true (fun _ => 0) (fun _ => false) (mem_bytes 4096 [1, 2, 3, 4, 5, 6, 7, 8])
        4096 (fun j => [65, 66, 67, 68, 69].getD j 0) 5).1 = 0
      ∧ (∀ j : Nat, j < 5 →
          (ptrace_inject true (fun _ => 0) (fun _ => false)
              (mem_bytes 4096 [1, 2, 3, 4, 5, 6, 7, 8])
              4096 (fun j => [65, 66, 67, 68, 69].getD j 0) 5).2 (4096 + (j : Int))
            = [65, 66, 67, 68, 69].getD j 0)
      ∧ (ptrace_inject true (fun _ => 0) (fun _ => false)
            (mem_bytes 4096 [1, 2, 3, 4, 5, 6, 7, 8])
            4096 (fun j => [65, 66, 67, 68, 69].getD j 0) 5).2 4101 = 6
      ∧ (ptrace_inject true (fun _ => 0) (fun _ => false)
            (mem_bytes 4096 [1, 2, 3, 4, 5, 6, 7, 8])
            4096 (fun j => [65, 66, 67, 68, 69].getD j 0) 5).2 4103 = 8 := by
  have hsrc : ∀ j, j < 5 → (fun j => [65, 66, 67, 68, 69].getD j 0) j < 256 := by
    intro j hj
    have : j = 0 ∨ j = 1 ∨ j = 2 ∨ j = 3 ∨ j = 4 := by omega
    rcases this with h | h | h | h | h <;> subst h <;> decide
  have htarget : ∀ a, mem_bytes 4096 [1, 2, 3, 4, 5, 6, 7, 8] a < 256 := by
    intro a
    unfold mem_bytes
    split
    · have hle : ∀ n : Nat, [1, 2, 3, 4, 5, 6, 7, 8].getD n 0 ≤ 8 := by
        intro n
        by_cases hn : n < 8
        · have : n = 0 ∨ n = 1 ∨ n = 2 ∨ n = 3 ∨ n = 4 ∨ n = 5 ∨ n = 6 ∨ n = 7 := by omega
          rcases this with h | h | h | h | h | h | h | h <;> subst h <;> decide
        · rw [List.getD_eq_default _ _ (by simpa using hn)]
          decide
      exact lt_of_le_of_lt (hle _) (by decide)
    · decide
  have h := C40_ptrace_inject true (fun _ => 0) (fun _ => false)
    (mem_bytes 4096 [1, 2, 3, 4, 5, 6, 7, 8]) 4096 (fun j => [65, 66, 67, 68, 69].getD j 0) 5
    (Or.inl rfl) (fun _ => rfl) hsrc htarget
  refine ⟨h.1, h.2.1, ?_, ?_⟩
  · rw [h.2.2 4101 (Or.inr (by decide))]; decide
  · rw [h.2.2 4103 (Or.inr (by decide))]; decide

end Flayer
